import Mathlib

/-!
# gmeasure: recording experiments and their statistics

A shallow embedding of `src/gmeasure` (the files `log_entry.go`, `stats.go`,
`experiment.go`, `rank.go`, `comparability.go`, `stopwatch.go` and `cache.go`) together
with the properties proved about it.

Conventions of the embedding

* `float64` is modelled bit-exactly as IEEE-754 binary64 with round-to-nearest-even
  (`Float64` below); Go's `+ - * /`, `math.Sqrt`, `math.Abs`, comparisons and the
  conversions `float64(int)` / `time.Duration(float64)` are the operations of that model,
  each rounding on its own. That is a build without fused multiply-add (the default for
  amd64); for the Z-score, `ComputeStatsZScoreWith` also has the builds that fuse
  `x*y + z` into one rounding (`Float64.fma`), as the Go specification allows.
* `time.Duration` is an `int64`: an `Int` together with explicit wrap-around (`wrap64`).
* a Go `panic` is an explicit outcome: `Option` for pure computations (`none` is the
  panic) and `Result` for the recording calls, which keeps the experiment as it was
  at the moment of the abort.
* `sort.Slice` comes from the Go standard library; `LogEntry.Stats` and `RankStats` take it
  as a parameter, `SortSliceSpec` is its documented contract and `insertionSortLessFunc` is
  the routine the library runs on short slices.
* the mutex of an `Experiment` is not modelled: every recording call runs to completion,
  as one step.
* an instant (`time.Time`) is the integer number of nanoseconds that the clock shows; the
  readings `time.Now()` of the goroutine that runs `Sample` are a parameter `clock`, and
  `Add` and `After` are exact on these integers.
* a call of `Sample` is a sequence of events: iterations of its loop and, when it has
  workers, returns of the callbacks that the workers run (`Sample.step`, `Sample.run`).
* a method of a `Stopwatch` takes the reading of the clock at the call as an argument, and
  the experiment that the stopwatch points to next to the stopwatch.
* a Go `string` is a sequence of bytes: it is the `String` whose characters are those
  bytes, each a character of a code below 256 (`goBytes`), so that ASCII text is written
  as itself and "\xff" is the string of the one byte FF. Only the cache looks into
  strings: `encoding/json` reads back U+FFFD for every byte that is not part of valid
  UTF-8 (`jsonString`).
* the cache takes the standard library as parameters: `encoding/json` as a `JsonLib` with
  the contract `JsonSpec`, the MD5 digest as a function of the name, the directory as a
  `FileSystem` that the calls take and `Save` returns; a file is the list of the JSON
  values in it.
-/

namespace Gmeasure

/-! ## float64 -/

/-- A float64 value. A finite value `fin neg mag` stands for `(-1)^neg * mag * 2^(-1074)`:
every finite binary64 number is an integer multiple of the smallest subnormal. -/
inductive Float64 where
  | nan : Float64
  | inf (neg : Bool) : Float64
  | fin (neg : Bool) (mag : Nat) : Float64
  deriving DecidableEq, Repr

/-- Loop counting the halvings that bring `q` below `2^53`, sixty-four at a time while
`q` is large. -/
def expLoop : Nat → Nat → Nat → Nat
  | 0, _, e => e
  | f + 1, q, e =>
    if q < 2 ^ 53 then e
    else if q < 2 ^ 117 then expLoop f (q / 2) (e + 1)
    else expLoop f (q / 2 ^ 64) (e + 64)

/-- The exponent of the binade of the magnitude `q` above the lowest binades: `0` below
`2^53`, and `e - 52` for `2^e ≤ q < 2^(e+1)`. -/
def expOf (q : Nat) : Nat := expLoop q q 0

/-- Spacing (in units of `2^(-1074)`) of the binary64 numbers in the binade of `q`:
`1` below `2^53`, and `2^(e-52)` for `2^e ≤ q < 2^(e+1)`. -/
def ulpOf (q : Nat) : Nat := 2 ^ expOf q

/-- Round the non-negative rational `n / d` (in units of `2^(-1074)`) to a nearest point
of the binary64 grid, ties going to the even significand. -/
def roundMag (n d : Nat) : Nat :=
  let u := ulpOf (n / d)
  let m := n / (d * u)
  let r := n % (d * u)
  if 2 * r < d * u then m * u
  else if 2 * r = d * u ∧ m % 2 = 0 then m * u
  else (m + 1) * u

/-- Newton iteration for the integer square root, from a guess above the root downwards. -/
def isqrtIter : Nat → Nat → Nat → Nat
  | 0, _, x => x
  | f + 1, n, x => if (x + n / x) / 2 < x then isqrtIter f n ((x + n / x) / 2) else x

/-- Integer square root (rounded down); the first guess is a power of two above the
root. -/
def isqrt (n : Nat) : Nat :=
  isqrtIter (2 ^ ((expOf n + 52) / 2 + 1)) n (2 ^ ((expOf n + 52) / 2 + 1))

namespace Float64

/-- The float64 of sign `neg` nearest to `n / d` units; magnitudes from `2^1024` (that is
`2^2098` units) on overflow to an infinity. -/
def round (neg : Bool) (n d : Nat) : Float64 :=
  if roundMag n d < 2 ^ 2098 then fin neg (roundMag n d) else inf neg

/-- Signed number of units. -/
def sint (neg : Bool) (mag : Nat) : Int := if neg then -(mag : Int) else (mag : Int)

/-- The constant `0.0`. -/
def zero : Float64 := fin false 0

/-- Conversion `float64(z)` of an integer. -/
def ofInt (z : Int) : Float64 := round (decide (z < 0)) (z.natAbs * 2 ^ 1074) 1

/-- Go `x + y`. -/
def add : Float64 → Float64 → Float64
  | nan, _ => nan
  | _, nan => nan
  | inf a, inf b => if a = b then inf a else nan
  | inf a, fin _ _ => inf a
  | fin _ _, inf b => inf b
  | fin a m, fin b k =>
    if sint a m + sint b k = 0 then fin (a && b) 0
    else round (decide (sint a m + sint b k < 0)) (sint a m + sint b k).natAbs 1

/-- Go `-x`. -/
def neg : Float64 → Float64
  | nan => nan
  | inf a => inf (!a)
  | fin a m => fin (!a) m

/-- Go `x - y`. -/
def sub (x y : Float64) : Float64 := add x (neg y)

/-- Go `x * y`. -/
def mul : Float64 → Float64 → Float64
  | nan, _ => nan
  | _, nan => nan
  | inf a, inf b => inf (a != b)
  | inf a, fin b k => if k = 0 then nan else inf (a != b)
  | fin a m, inf b => if m = 0 then nan else inf (a != b)
  | fin a m, fin b k => round (a != b) (m * k) (2 ^ 1074)

/-- Go `x / y`. -/
def div : Float64 → Float64 → Float64
  | nan, _ => nan
  | _, nan => nan
  | inf _, inf _ => nan
  | inf a, fin b _ => inf (a != b)
  | fin a _, inf b => fin (a != b) 0
  | fin a m, fin b k =>
    if k = 0 then (if m = 0 then nan else inf (a != b))
    else round (a != b) (m * 2 ^ 1074) k

/-- Go `math.Sqrt(x)`. The root of `m * 2^(-1074)` is `sqrt (m * 2^1074)` units; when that
is not an integer it lies strictly between `r` and `r + 1` for the integer root `r`, far
from every rounding boundary (the grid is coarser than `2^485` units there), so that
`r + 1/2` rounds to the same float64. -/
def sqrt : Float64 → Float64
  | nan => nan
  | inf a => if a then nan else inf false
  | fin a m =>
    if m = 0 then fin a 0
    else if a then nan
    else if isqrt (m * 2 ^ 1074) * isqrt (m * 2 ^ 1074) = m * 2 ^ 1074 then
      round false (isqrt (m * 2 ^ 1074)) 1
    else round false (2 * isqrt (m * 2 ^ 1074) + 1) 2

/-- Conversion `int64(x)`, as in `time.Duration(x)`: truncation towards zero. For a value
outside int64 (and for NaN) the Go specification leaves the result to the implementation;
the value here is the one produced on amd64. -/
def toInt64 : Float64 → Int
  | fin a m =>
    if -(2 : Int) ^ 63 ≤ sint a (m / 2 ^ 1074) ∧ sint a (m / 2 ^ 1074) < (2 : Int) ^ 63 then
      sint a (m / 2 ^ 1074)
    else -(2 : Int) ^ 63
  | _ => -(2 : Int) ^ 63

/-- Whether the value is a NaN. -/
def isNaN : Float64 → Bool
  | nan => true
  | _ => false

/-- Whether the value is finite. -/
def isFinite : Float64 → Bool
  | fin _ _ => true
  | _ => false

/-- Position of a non-NaN value on the extended number line, in units of `2^(-1074)`. -/
def key : Float64 → Int
  | nan => 0
  | inf a => sint a (2 ^ 2098)
  | fin a m => sint a m

/-- Go `x < y`. -/
def lt (x y : Float64) : Bool := !x.isNaN && !y.isNaN && decide (x.key < y.key)

/-- Go `x <= y`. -/
def le (x y : Float64) : Bool := !x.isNaN && !y.isNaN && decide (x.key ≤ y.key)

/-- Go `x == y`. -/
def eq (x y : Float64) : Bool := !x.isNaN && !y.isNaN && decide (x.key = y.key)

/-- The values that are float64 numbers: a finite magnitude is below `2^2098` units and
lies on the grid of its binade. -/
def WF : Float64 → Prop
  | fin _ m => m < 2 ^ 2098 ∧ m % ulpOf m = 0
  | _ => True

instance (x : Float64) : Decidable x.WF := by
  cases x <;> unfold WF <;> infer_instance

end Float64

/-! ## time.Duration -/

/-- Two's-complement wrap-around of an integer into int64. -/
def wrap64 (z : Int) : Int := (z + 2 ^ 63) % 2 ^ 64 - 2 ^ 63

/-- The integers that are int64 values. -/
def InInt64 (z : Int) : Prop := -(2 : Int) ^ 63 ≤ z ∧ z < (2 : Int) ^ 63

instance (z : Int) : Decidable (InInt64 z) := by
  unfold InInt64; infer_instance

/-! ## sort.Slice -/

/-- The contract of the standard library `sort.Slice(x, less)`: the slice is permuted,
and when `less` is a strict weak ordering of its elements (irreflexive, transitive, with
transitive incomparability) no later element is less than an earlier one. Stability is
not part of the contract. -/
def SortSliceSpec (sortSlice : (Nat → Nat → Bool) → List Nat → List Nat) : Prop :=
  ∀ (less : Nat → Nat → Bool) (l : List Nat),
    (sortSlice less l).Perm l ∧
    ((∀ a ∈ l, less a a = false) →
     (∀ a ∈ l, ∀ b ∈ l, ∀ c ∈ l, less a b = true → less b c = true → less a c = true) →
     (∀ a ∈ l, ∀ b ∈ l, ∀ c ∈ l, less a b = false → less b c = false → less a c = false) →
     (sortSlice less l).Pairwise (fun a b => less b a = false))

/-- Inner loop of the insertion sort: `x` moves left past every element it is less than.
The already sorted part is passed back to front. -/
def insertBack (less : Nat → Nat → Bool) (x : Nat) : List Nat → List Nat
  | [] => [x]
  | y :: rest => if less x y then y :: insertBack less x rest else x :: y :: rest

/-- The routine `insertionSortLessFunc` of the Go standard library. It is all that
`sort.Slice` runs on a short slice: of at most twelve elements since Go 1.19, of at most
six elements in the releases before. -/
def insertionSortLessFunc (less : Nat → Nat → Bool) (l : List Nat) : List Nat :=
  (l.foldl (fun sorted x => insertBack less x sorted) []).reverse

/-! ## stats.go -/

/-- The type `Stat`. -/
inductive Stat where
  | StatInvalid
  | StatMin
  | StatMax
  | StatMean
  | StatMedian
  | StatStdDev
  deriving DecidableEq, Repr

/-- The type `StatsType`. -/
inductive StatsType where
  | StatsTypeInvalid
  | StatsTypeValue
  | StatsTypeDuration
  deriving DecidableEq, Repr

export Stat (StatInvalid StatMin StatMax StatMean StatMedian StatStdDev)
export StatsType (StatsTypeInvalid StatsTypeValue StatsTypeDuration)

/-- The struct `PrecisionBundle` of experiment.go. -/
structure PrecisionBundle where
  Duration : Int
  ValueFormat : String
  deriving DecidableEq, Repr

/-- The variable `DefaultPrecisionBundle`: 100 microseconds and three decimals. -/
def DefaultPrecisionBundle : PrecisionBundle := { Duration := 100 * 1000, ValueFormat := "%.3f" }

/-- A Go `map[Stat]T`, as the list of its bindings; the nil map is the empty list. -/
abbrev StatMap (α : Type) := List (Stat × α)

/-- Map lookup `m[k]`: the zero value stands in for an absent key. -/
def StatMap.get {α : Type} (zero : α) : StatMap α → Stat → α
  | [], _ => zero
  | (k, v) :: rest, key => if k = key then v else StatMap.get zero rest key

/-- Map assignment `m[k] = v`. -/
def StatMap.set {α : Type} : StatMap α → Stat → α → StatMap α
  | [], key, v => [(key, v)]
  | (k, w) :: rest, key, v => if k = key then (k, v) :: rest else (k, w) :: StatMap.set rest key v

/-- The struct `Stats`. -/
structure Stats where
  StatsType : StatsType
  ExperimentName : String
  Name : String
  Units : String
  Style : String
  N : Int
  PrecisionBundle : PrecisionBundle
  ValueBundle : StatMap Float64
  DurationBundle : StatMap Int
  AnnotationBundle : StatMap String
  deriving DecidableEq, Repr

/-- The zero value `Stats{}`. -/
def Stats.empty : Stats :=
  { StatsType := StatsTypeInvalid, ExperimentName := "", Name := "", Units := "", Style := "",
    N := 0, PrecisionBundle := { Duration := 0, ValueFormat := "" },
    ValueBundle := [], DurationBundle := [], AnnotationBundle := [] }

/-- The method `Stats.ValueFor`. -/
def Stats.ValueFor (s : Stats) (stat : Stat) : Float64 := StatMap.get Float64.zero s.ValueBundle stat

/-- The method `Stats.DurationFor`. -/
def Stats.DurationFor (s : Stats) (stat : Stat) : Int := StatMap.get 0 s.DurationBundle stat

/-- The lookup `s.AnnotationBundle[stat]`. -/
def Stats.AnnotationFor (s : Stats) (stat : Stat) : String := StatMap.get "" s.AnnotationBundle stat

/-! ## log_entry.go -/

/-- The type `LogEntryType`. -/
inductive LogEntryType where
  | LogEntryTypeInvalid
  | LogEntryTypeNote
  | LogEntryTypeDuration
  | LogEntryTypeValue
  deriving DecidableEq, Repr

export LogEntryType (LogEntryTypeInvalid LogEntryTypeNote LogEntryTypeDuration LogEntryTypeValue)

/-- The struct `LogEntry`; the field `Type` is spelled `Type_`. -/
structure LogEntry where
  Type_ : LogEntryType
  ExperimentName : String
  Note : String
  Name : String
  Style : String
  Units : String
  PrecisionBundle : PrecisionBundle
  Durations : List Int
  Values : List Float64
  Annotations : List String
  deriving DecidableEq, Repr

/-- The zero value `LogEntry{}`. -/
def LogEntry.empty : LogEntry :=
  { Type_ := LogEntryTypeInvalid, ExperimentName := "", Note := "", Name := "", Style := "",
    Units := "", PrecisionBundle := { Duration := 0, ValueFormat := "" },
    Durations := [], Values := [], Annotations := [] }

/-- The method `LogEntries.IdxWithName`: index of the first entry with the given name;
`none` stands for the result `-1`. -/
def IdxWithName : List LogEntry → String → Option Nat
  | [], _ => none
  | entry :: rest, name =>
    if entry.Name = name then some 0 else (IdxWithName rest name).map (fun i => i + 1)

/-- The header that `Stats` copies from the entry before it looks at the samples. -/
def LogEntry.statsHeader (e : LogEntry) (t : StatsType) (n : Nat) : Stats :=
  { Stats.empty with
    StatsType := t, ExperimentName := e.ExperimentName, Name := e.Name, Style := e.Style,
    Units := e.Units, PrecisionBundle := e.PrecisionBundle, N := (n : Int) }

/-- The double indexing `xs[indices[k]]`; `none` is the index-out-of-range panic. -/
def pick {α : Type} (xs : List α) (indices : List Nat) (k : Nat) : Option α :=
  match indices[k]? with
  | none => none
  | some i => xs[i]?

/-- The `less` function that `Stats` hands to `sort.Slice` for a Value-series: it compares
the values at two of the indices being sorted. -/
def LogEntry.lessValue (e : LogEntry) (a b : Nat) : Bool :=
  Float64.lt (e.Values.getD a Float64.nan) (e.Values.getD b Float64.nan)

/-- The `less` function that `Stats` hands to `sort.Slice` for a Duration-series. -/
def LogEntry.lessDuration (e : LogEntry) (a b : Nat) : Bool :=
  decide (e.Durations.getD a 0 < e.Durations.getD b 0)

/-- The mean `sum / float64(out.N)` of a Value-series, the sum being accumulated in
recording order from `0.0`. -/
def LogEntry.valueMean (e : LogEntry) : Float64 :=
  Float64.div (e.Values.foldl Float64.add Float64.zero) (Float64.ofInt e.Values.length)

/-- The standard deviation of a Value-series: the squared deviations from the mean are
accumulated in recording order from `0.0`, divided by `float64(out.N)`, and the square
root is taken. -/
def LogEntry.valueStdDev (e : LogEntry) : Float64 :=
  Float64.sqrt (Float64.div
    (e.Values.foldl
      (fun acc v =>
        Float64.add acc (Float64.mul (Float64.sub v e.valueMean) (Float64.sub v e.valueMean)))
      Float64.zero)
    (Float64.ofInt e.Values.length))

/-- The `LogEntryTypeValue` case of `LogEntry.Stats`, for an entry with at least one value.
Every slice index is checked: `none` is the index-out-of-range panic. -/
def LogEntry.valueStats (sortSlice : (Nat → Nat → Bool) → List Nat → List Nat)
    (e : LogEntry) : Option Stats := do
  let n := e.Values.length
  let indices := sortSlice e.lessValue (List.range n)
  let vMin ← pick e.Values indices 0
  let vMax ← pick e.Values indices (n - 1)
  let aMin ← pick e.Annotations indices 0
  let aMax ← pick e.Annotations indices (n - 1)
  let median ←
    if n % 2 = 0 then do
      let hi ← pick e.Values indices (n / 2)
      let lo ← pick e.Values indices (n / 2 - 1)
      pure (Float64.div (Float64.add hi lo) (Float64.ofInt 2))
    else pick e.Values indices ((n - 1) / 2)
  pure { e.statsHeader StatsTypeValue n with
    ValueBundle := StatMap.set (StatMap.set
      [(StatMin, vMin), (StatMax, vMax), (StatMean, e.valueMean), (StatStdDev, Float64.zero)]
      StatMedian median) StatStdDev e.valueStdDev
    AnnotationBundle := [(StatMin, aMin), (StatMax, aMax)] }

/-- The mean `sum / time.Duration(out.N)` of a Duration-series: the int64 sum wraps around
and the division truncates towards zero. -/
def LogEntry.durationMean (e : LogEntry) : Int :=
  Int.tdiv (e.Durations.foldl (fun acc v => wrap64 (acc + v)) 0) (e.Durations.length : Int)

/-- The standard deviation of a Duration-series: the deviations from the mean are int64
differences converted to float64, and the root is converted back to a duration. -/
def LogEntry.durationStdDev (e : LogEntry) : Int :=
  Float64.toInt64 (Float64.sqrt (Float64.div
    (e.Durations.foldl
      (fun acc v =>
        Float64.add acc
          (Float64.mul (Float64.ofInt (wrap64 (v - e.durationMean)))
            (Float64.ofInt (wrap64 (v - e.durationMean)))))
      Float64.zero)
    (Float64.ofInt e.Durations.length)))

/-- The `LogEntryTypeDuration` case of `LogEntry.Stats`, for an entry with at least one
duration. -/
def LogEntry.durationStats (sortSlice : (Nat → Nat → Bool) → List Nat → List Nat)
    (e : LogEntry) : Option Stats := do
  let n := e.Durations.length
  let indices := sortSlice e.lessDuration (List.range n)
  let vMin ← pick e.Durations indices 0
  let vMax ← pick e.Durations indices (n - 1)
  let aMin ← pick e.Annotations indices 0
  let aMax ← pick e.Annotations indices (n - 1)
  let median ←
    if n % 2 = 0 then do
      let hi ← pick e.Durations indices (n / 2)
      let lo ← pick e.Durations indices (n / 2 - 1)
      pure (Int.tdiv (wrap64 (hi + lo)) 2)
    else pick e.Durations indices ((n - 1) / 2)
  pure { e.statsHeader StatsTypeDuration n with
    DurationBundle := StatMap.set (StatMap.set
      [(StatMin, vMin), (StatMax, vMax), (StatMean, e.durationMean)]
      StatMedian median) StatStdDev e.durationStdDev
    AnnotationBundle := [(StatMin, aMin), (StatMax, aMax)] }

/-- The method `LogEntry.Stats`; `none` is a panic (a slice index out of range). -/
def LogEntry.Stats (sortSlice : (Nat → Nat → Bool) → List Nat → List Nat)
    (e : LogEntry) : Option Stats :=
  match e.Type_ with
  | LogEntryTypeInvalid => some Stats.empty
  | LogEntryTypeNote => some Stats.empty
  | LogEntryTypeValue =>
    if e.Values.length = 0 then some (e.statsHeader StatsTypeValue 0)
    else e.valueStats sortSlice
  | LogEntryTypeDuration =>
    if e.Durations.length = 0 then some (e.statsHeader StatsTypeDuration 0)
    else e.durationStats sortSlice

/-! ## experiment.go -/

/-- Outcome of a call that may panic. Either way the experiment is carried along: for
`panic` it is the experiment as the call left it when it aborted. -/
inductive Result (σ : Type) where
  | ok (e : σ) : Result σ
  | panic (e : σ) : Result σ
  deriving DecidableEq, Repr

/-- The experiment after the call, whether it returned or aborted. -/
def Result.state {σ : Type} : Result σ → σ
  | Result.ok e => e
  | Result.panic e => e

/-- Whether the call aborted. -/
def Result.panicked {σ : Type} : Result σ → Bool
  | Result.ok _ => false
  | Result.panic _ => true

/-- A value passed in the variadic `args ...interface{}` of a recording call, by its
dynamic type; `other` is a value of any type that is not a decoration. -/
inductive Arg where
  | annotation (a : String)
  | units (u : String)
  | precision (p : PrecisionBundle)
  | style (s : String)
  | other
  deriving DecidableEq, Repr

/-- The struct `extractedDecorations`. -/
structure extractedDecorations where
  annotation : String
  units : String
  precisionBundle : PrecisionBundle
  style : String
  deriving DecidableEq, Repr

/-- The loop body of `extractDecorations`; `none` is the panic on an unrecognized
argument. -/
def extractDecorationsLoop : List Arg → extractedDecorations → Option extractedDecorations
  | [], out => some out
  | Arg.annotation a :: rest, out => extractDecorationsLoop rest { out with annotation := a }
  | Arg.units u :: rest, out => extractDecorationsLoop rest { out with units := u }
  | Arg.precision p :: rest, out => extractDecorationsLoop rest { out with precisionBundle := p }
  | Arg.style s :: rest, out => extractDecorationsLoop rest { out with style := s }
  | Arg.other :: _, _ => none

/-- The function `extractDecorations`. -/
def extractDecorations (args : List Arg) : Option extractedDecorations :=
  extractDecorationsLoop args
    { annotation := "", units := "", precisionBundle := DefaultPrecisionBundle, style := "" }

/-- The struct `Experiment`, without its lock. -/
structure Experiment where
  Name : String
  LogEntries : List LogEntry
  deriving DecidableEq, Repr

/-- The function `NewExperiment`. -/
def NewExperiment (name : String) : Experiment := { Name := name, LogEntries := [] }

/-- The entry that `RecordNote` appends. -/
def LogEntry.newNote (experimentName note : String) (decorations : extractedDecorations) :
    LogEntry :=
  { LogEntry.empty with
    ExperimentName := experimentName, Type_ := LogEntryTypeNote, Note := note,
    Style := decorations.style }

/-- The method `Experiment.RecordNote`. -/
def Experiment.RecordNote (e : Experiment) (note : String) (args : List Arg) :
    Result Experiment :=
  match extractDecorations args with
  | none => Result.panic e
  | some decorations =>
    Result.ok { e with LogEntries := e.LogEntries ++ [LogEntry.newNote e.Name note decorations] }

/-- The entry that `recordDuration` creates for a name it sees for the first time. -/
def LogEntry.newDuration (experimentName name : String) (duration : Int)
    (decorations : extractedDecorations) : LogEntry :=
  { LogEntry.empty with
    ExperimentName := experimentName, Type_ := LogEntryTypeDuration, Name := name,
    Units := "duration", Durations := [duration],
    PrecisionBundle := decorations.precisionBundle, Style := decorations.style,
    Annotations := [ decorations.annotation] }

/-- The two appends that `recordDuration` makes to an existing entry. -/
def LogEntry.appendDuration (entry : LogEntry) (duration : Int) ( annotation : String) :
    LogEntry :=
  { entry with
    Durations := entry.Durations ++ [duration],
    Annotations := entry.Annotations ++ [ annotation] }

/-- The method `Experiment.recordDuration`. -/
def Experiment.recordDuration (e : Experiment) (name : String) (duration : Int)
    (decorations : extractedDecorations) : Result Experiment :=
  match IdxWithName e.LogEntries name with
  | none =>
    Result.ok { e with
      LogEntries := e.LogEntries ++ [LogEntry.newDuration e.Name name duration decorations] }
  | some idx =>
    match e.LogEntries[idx]? with
    | none => Result.panic e
    | some entry =>
      if entry.Type_ ≠ LogEntryTypeDuration then Result.panic e
      else
        Result.ok { e with
          LogEntries := e.LogEntries.set idx
            (entry.appendDuration duration decorations.annotation) }

/-- The method `Experiment.RecordDuration`. -/
def Experiment.RecordDuration (e : Experiment) (name : String) (duration : Int)
    (args : List Arg) : Result Experiment :=
  match extractDecorations args with
  | none => Result.panic e
  | some decorations => e.recordDuration name duration decorations

/-- The entry that `recordValue` creates for a name it sees for the first time. -/
def LogEntry.newValue (experimentName name : String) (value : Float64)
    (decorations : extractedDecorations) : LogEntry :=
  { LogEntry.empty with
    ExperimentName := experimentName, Type_ := LogEntryTypeValue, Name := name,
    Style := decorations.style, Units := decorations.units,
    PrecisionBundle := decorations.precisionBundle, Values := [value],
    Annotations := [ decorations.annotation] }

/-- The two appends that `recordValue` makes to an existing entry. -/
def LogEntry.appendValue (entry : LogEntry) (value : Float64) ( annotation : String) :
    LogEntry :=
  { entry with
    Values := entry.Values ++ [value],
    Annotations := entry.Annotations ++ [ annotation] }

/-- The method `Experiment.recordValue`. -/
def Experiment.recordValue (e : Experiment) (name : String) (value : Float64)
    (decorations : extractedDecorations) : Result Experiment :=
  match IdxWithName e.LogEntries name with
  | none =>
    Result.ok { e with
      LogEntries := e.LogEntries ++ [LogEntry.newValue e.Name name value decorations] }
  | some idx =>
    match e.LogEntries[idx]? with
    | none => Result.panic e
    | some entry =>
      if entry.Type_ ≠ LogEntryTypeValue then Result.panic e
      else
        Result.ok { e with
          LogEntries := e.LogEntries.set idx (entry.appendValue value decorations.annotation) }

/-- The method `Experiment.RecordValue`. -/
def Experiment.RecordValue (e : Experiment) (name : String) (value : Float64)
    (args : List Arg) : Result Experiment :=
  match extractDecorations args with
  | none => Result.panic e
  | some decorations => e.recordValue name value decorations

/-- The method `Experiment.Get`. -/
def Experiment.Get (e : Experiment) (name : String) : LogEntry :=
  match IdxWithName e.LogEntries name with
  | none => LogEntry.empty
  | some idx => e.LogEntries.getD idx LogEntry.empty

/-- The method `Experiment.GetStats`; `none` is a panic inside `Stats`. -/
def Experiment.GetStats (sortSlice : (Nat → Nat → Bool) → List Nat → List Nat)
    (e : Experiment) (name : String) : Option Stats :=
  (e.Get name).Stats sortSlice

/-- The relation `Steps e e2`: calls of `RecordNote`, `RecordValue` and `RecordDuration`,
in any number and order, lead from the experiment `e` to `e2`; a call that aborts leaves
the experiment it aborted in. -/
inductive Steps : Experiment → Experiment → Prop where
  | refl (e : Experiment) : Steps e e
  | note (e e2 : Experiment) (note : String) (args : List Arg) :
      Steps e e2 → Steps e (e2.RecordNote note args).state
  | value (e e2 : Experiment) (name : String) (value : Float64) (args : List Arg) :
      Steps e e2 → Steps e (e2.RecordValue name value args).state
  | duration (e e2 : Experiment) (name : String) (duration : Int) (args : List Arg) :
      Steps e e2 → Steps e (e2.RecordDuration name duration args).state

/-- The experiments reachable from `NewExperiment`. -/
def Reachable (e : Experiment) : Prop := ∃ name, Steps (NewExperiment name) e

/-- Successive calls `e.RecordValue(name, v, args...)`, one for each element of the list,
stopping at the first one that aborts. -/
def Experiment.RecordValues (e : Experiment) (name : String) :
    List (Float64 × List Arg) → Result Experiment
  | [] => Result.ok e
  | (v, args) :: rest =>
    match e.RecordValue name v args with
    | Result.ok e2 => e2.RecordValues name rest
    | Result.panic e2 => Result.panic e2

/-- Successive calls `e.RecordDuration(name, d, args...)`, one for each element of the
list, stopping at the first one that aborts. -/
def Experiment.RecordDurations (e : Experiment) (name : String) :
    List (Int × List Arg) → Result Experiment
  | [] => Result.ok e
  | (d, args) :: rest =>
    match e.RecordDuration name d args with
    | Result.ok e2 => e2.RecordDurations name rest
    | Result.panic e2 => Result.panic e2

/-- A Value-series or Duration-series entry. -/
def LogEntry.isSeries (entry : LogEntry) : Prop :=
  entry.Type_ = LogEntryTypeValue ∨ entry.Type_ = LogEntryTypeDuration

instance (entry : LogEntry) : Decidable entry.isSeries := by
  unfold LogEntry.isSeries; infer_instance

/-- The annotations of an entry run parallel to its samples. -/
def LogEntry.Parallel (entry : LogEntry) : Prop :=
  (entry.Type_ = LogEntryTypeValue → entry.Annotations.length = entry.Values.length) ∧
  (entry.Type_ = LogEntryTypeDuration → entry.Annotations.length = entry.Durations.length)

/-- What a recording call may do to the list of entries: nothing, append one entry (a
series only under a name that no entry has), or replace one entry by an entry of the same
name and kind. Annotations stay parallel to the samples. -/
inductive Change (l : List LogEntry) : List LogEntry → Prop where
  | same : Change l l
  | push (x : LogEntry) :
      (x.isSeries → IdxWithName l x.Name = none) → x.Parallel → Change l (l ++ [x])
  | update (idx : Nat) (entry entry2 : LogEntry) :
      l[idx]? = some entry → entry2.Name = entry.Name → entry2.Type_ = entry.Type_ →
      (entry.Parallel → entry2.Parallel) → Change l (l.set idx entry2)

/-- The invariant of the entries of an experiment: a series entry is the first entry of
its name, and annotations run parallel to the samples. -/
def Consistent (l : List LogEntry) : Prop :=
  ∀ (i : Nat) (entry : LogEntry), l[i]? = some entry →
    (entry.isSeries → IdxWithName l entry.Name = some i) ∧ entry.Parallel

/-- An experiment holding the Duration-series "load" and the Value-series "size". -/
def sampleExperiment : Experiment :=
  (((NewExperiment "bench").RecordDuration "load" 5 []).state.RecordValue "size"
    (Float64.ofInt 3) [ Arg.annotation "first"]).state

/-- The annotation that a call with the decorations `args` records. -/
def annotationOf (args : List Arg) : String :=
  match extractDecorations args with
  | some d => d.annotation
  | none => ""

/-- Two entries agree on everything but their samples and annotations. -/
def LogEntry.SameHeader (a b : LogEntry) : Prop :=
  a.Type_ = b.Type_ ∧ a.ExperimentName = b.ExperimentName ∧ a.Note = b.Note ∧
  a.Name = b.Name ∧ a.Style = b.Style ∧ a.Units = b.Units ∧
  a.PrecisionBundle = b.PrecisionBundle

/-- The list `l2` has the entries of `l`, in the same places, except at the index `idx`. -/
def AgreeExceptAt (l l2 : List LogEntry) (idx : Nat) : Prop :=
  l2.length = l.length ∧ ∀ j : Nat, j ≠ idx → l2[j]? = l[j]?

/-- The samples in the order of the sorted indices. -/
def sortedView {α : Type} (xs : List α) (d : α) (indices : List Nat) : List α :=
  indices.map (fun i => xs.getD i d)

/-- The values of an entry in the order in which `Stats` reads them through the sorted
indices. -/
def LogEntry.sortedValues (sortSlice : (Nat → Nat → Bool) → List Nat → List Nat)
    (e : LogEntry) : List Float64 :=
  sortedView e.Values Float64.nan (sortSlice e.lessValue (List.range e.Values.length))

/-- The durations of an entry in the order in which `Stats` reads them through the sorted
indices. -/
def LogEntry.sortedDurations (sortSlice : (Nat → Nat → Bool) → List Nat → List Nat)
    (e : LogEntry) : List Int :=
  sortedView e.Durations 0 (sortSlice e.lessDuration (List.range e.Durations.length))

/-- The median that `Stats` computes from the sorted values. -/
def LogEntry.valueMedian (sortSlice : (Nat → Nat → Bool) → List Nat → List Nat)
    (e : LogEntry) : Float64 :=
  if e.Values.length % 2 = 0 then
    Float64.div (Float64.add
      ((e.sortedValues sortSlice).getD (e.Values.length / 2) Float64.nan)
      ((e.sortedValues sortSlice).getD (e.Values.length / 2 - 1) Float64.nan))
      (Float64.ofInt 2)
  else (e.sortedValues sortSlice).getD ((e.Values.length - 1) / 2) Float64.nan

/-- The median that `Stats` computes from the sorted durations. -/
def LogEntry.durationMedian (sortSlice : (Nat → Nat → Bool) → List Nat → List Nat)
    (e : LogEntry) : Int :=
  if e.Durations.length % 2 = 0 then
    Int.tdiv (wrap64 ((e.sortedDurations sortSlice).getD (e.Durations.length / 2) 0 +
      (e.sortedDurations sortSlice).getD (e.Durations.length / 2 - 1) 0)) 2
  else (e.sortedDurations sortSlice).getD ((e.Durations.length - 1) / 2) 0

/-- The order `less` is a strict weak ordering of the elements satisfying `p`. -/
structure StrictWeakOn (less : Nat → Nat → Bool) (p : Nat → Prop) : Prop where
  irrefl : ∀ a, p a → less a a = false
  trans : ∀ a b c, p a → p b → p c → less a b = true → less b c = true → less a c = true
  incomp : ∀ a b c, p a → p b → p c → less a b = false → less b c = false → less a c = false

/-- The Value-series of the samples 2, 4, 4, 4, 5, 5, 7, 9. -/
def eightValues : LogEntry :=
  { LogEntry.empty with
    Type_ := LogEntryTypeValue, Name := "x",
    Values := List.map Float64.ofInt [2, 4, 4, 4, 5, 5, 7, 9],
    Annotations := ["a", "b", "c", "d", "e", "f", "g", "h"] }

/-- The Value-series of the samples 1, NaN, 0. -/
def nanValues : LogEntry :=
  { LogEntry.empty with
    Type_ := LogEntryTypeValue, Name := "x",
    Values := [Float64.ofInt 1, Float64.nan, Float64.ofInt 0],
    Annotations := ["a", "b", "c"] }

/-- The Value-series of the one sample 2.5 (that is `5 * 2^1073` units). -/
def oneValue : LogEntry :=
  { LogEntry.empty with
    Type_ := LogEntryTypeValue, Name := "x",
    Values := [Float64.fin false (5 * 2 ^ 1073)], Annotations := ["a"] }

/-- The Duration-series of the one sample 7. -/
def oneDuration : LogEntry :=
  { LogEntry.empty with
    Type_ := LogEntryTypeDuration, Name := "t", Durations := [7], Annotations := ["a"] }

/-- The Value-series of the one sample +Inf. -/
def infValue : LogEntry :=
  { LogEntry.empty with
    Type_ := LogEntryTypeValue, Name := "x",
    Values := [Float64.inf false], Annotations := ["a"] }

/-- The Duration-series of the samples 3, -8, 4. -/
def threeDurations : LogEntry :=
  { LogEntry.empty with
    Type_ := LogEntryTypeDuration, Name := "t", Durations := [3, -8, 4],
    Annotations := ["a", "b", "c"] }

/-- The Duration-series of two samples of 2^62 nanoseconds each. -/
def hugeDurations : LogEntry :=
  { LogEntry.empty with
    Type_ := LogEntryTypeDuration, Name := "t", Durations := [2 ^ 62, 2 ^ 62],
    Annotations := ["a", "b"] }

/-- The Value-series of three samples 0.1, the float64 nearest to one tenth. -/
def tenthValues : LogEntry :=
  { LogEntry.empty with
    Type_ := LogEntryTypeValue, Name := "x",
    Values := List.replicate 3 (Float64.div (Float64.ofInt 1) (Float64.ofInt 10)),
    Annotations := ["a", "b", "c"] }

/-- The float64 sum of `hi` and `lo` is a number and, when both are finite, did not
overflow. -/
def Float64.SumOk (hi lo : Float64) : Prop :=
  (Float64.add hi lo).isNaN = false ∧
  (hi.isFinite = true → lo.isFinite = true → (Float64.add hi lo).isFinite = true)

instance (hi lo : Float64) : Decidable (Float64.SumOk hi lo) := by
  unfold Float64.SumOk; infer_instance

/-- The Duration-series of the samples 3, -8, 4, 10. -/
def fourDurations : LogEntry :=
  { LogEntry.empty with
    Type_ := LogEntryTypeDuration, Name := "t", Durations := [3, -8, 4, 10],
    Annotations := ["a", "b", "c", "d"] }

/-- The Value-series of two samples equal to the largest finite float64,
`(2^53 - 1) * 2^971`. -/
def maxValues : LogEntry :=
  { LogEntry.empty with
    Type_ := LogEntryTypeValue, Name := "x",
    Values := List.replicate 2 (Float64.fin false ((2 ^ 53 - 1) * 2 ^ 2045)),
    Annotations := ["a", "b"] }

/-- The Value-series of the samples 3, 1. -/
def twoValues : LogEntry :=
  { LogEntry.empty with
    Type_ := LogEntryTypeValue, Name := "x",
    Values := List.map Float64.ofInt [3, 1], Annotations := ["a", "b"] }

/-! ## Decorations of a recording call -/

/-- Whether an argument is of one of the four types that `extractDecorations` recognises:
`Annotation`, `Units`, `PrecisionBundle` and `Style`. -/
def Arg.recognised : Arg → Bool
  | Arg.other => false
  | _ => true

/-- The annotations among the arguments, in the order in which they were passed. -/
def annotationsOf : List Arg → List String
  | [] => []
  | Arg.annotation a :: rest => a :: annotationsOf rest
  | _ :: rest => annotationsOf rest

/-- The units among the arguments, in the order in which they were passed. -/
def unitsOf : List Arg → List String
  | [] => []
  | Arg.units u :: rest => u :: unitsOf rest
  | _ :: rest => unitsOf rest

/-- The precision bundles among the arguments, in the order in which they were passed. -/
def precisionsOf : List Arg → List PrecisionBundle
  | [] => []
  | Arg.precision p :: rest => p :: precisionsOf rest
  | _ :: rest => precisionsOf rest

/-- The styles among the arguments, in the order in which they were passed. -/
def stylesOf : List Arg → List String
  | [] => []
  | Arg.style s :: rest => s :: stylesOf rest
  | _ :: rest => stylesOf rest

/-- Each of the four decoration types appears at most once among the arguments. -/
def AtMostOnce (args : List Arg) : Prop :=
  (annotationsOf args).length ≤ 1 ∧ (unitsOf args).length ≤ 1 ∧
  (precisionsOf args).length ≤ 1 ∧ (stylesOf args).length ≤ 1

instance (args : List Arg) : Decidable (AtMostOnce args) := by
  unfold AtMostOnce; infer_instance

/-- The last element of a list, and `d` for the empty list. -/
def lastOr {α : Type} (d : α) : List α → α
  | [] => d
  | x :: rest => lastOr x rest

/-! ## experiment.go: sampling -/

/-- The struct `SamplingConfig`; `N` and `NumParallel` are Go `int`s, `Duration` is a
`time.Duration`. -/
structure SamplingConfig where
  N : Int
  Duration : Int
  NumParallel : Int
  deriving DecidableEq, Repr

/-- The constant `100000 * time.Hour`, in nanoseconds. -/
def sampleCeiling : Int := 100000 * (3600 * 1000000000)

/-- The local `maxN` of `Sample`: `N` when it is positive, `math.MaxInt64` otherwise. -/
def SamplingConfig.maxN (cfg : SamplingConfig) : Int :=
  if cfg.N > 0 then cfg.N else 2 ^ 63 - 1

/-- The local `numParallel` of `Sample`: `NumParallel` when it is above 1, and 1
otherwise. -/
def SamplingConfig.numParallel (cfg : SamplingConfig) : Int :=
  if cfg.NumParallel > 1 then cfg.NumParallel else 1

/-- The call `time.Since(t)` when the clock reads `now`: the difference of the two
readings, which the library saturates at the ends of int64. -/
def since (t now : Int) : Int := max (-(2 : Int) ^ 63) (min (2 ^ 63 - 1) (now - t))

/-- The update of lines 300-302 of `Sample`: from the iteration `numParallel` on, the
running average `avgDt` takes in the latency `dt` of iteration `idx`. The product and the
sum are int64 operations, and the division truncates. -/
def sampleAvgDt (avgDt : Int) (idx : Nat) (numParallel : Int) (dt : Int) : Int :=
  if (idx : Int) ≥ numParallel then
    Int.tdiv (wrap64 (wrap64 (avgDt * ((idx : Int) - numParallel)) + dt))
      ((idx : Int) - numParallel + 1)
  else avgDt

/-- Where a call of `Sample` stands: in its loop, returned to its caller, or aborted by a
panic (its own, or that of a callback). -/
inductive SampleStatus where
  | looping
  | returned
  | panicked
  deriving DecidableEq, Repr

/-- The state of a call of `Sample`: the locals `maxTime`, `idx` and `avgDt` of the
goroutine that runs the loop, the number `reads` of clock readings that this goroutine has
made, the indices `running` that the workers have received from the channel `work` and
whose callbacks have not returned yet, and the state `world` that the callbacks act on. A
worker that is not running a callback waits at `range work`. -/
structure SampleState (W : Type) where
  status : SampleStatus
  maxTime : Int
  idx : Nat
  avgDt : Int
  reads : Nat
  running : List Nat
  world : W
  deriving DecidableEq, Repr

/-- What can happen next during a call of `Sample`: the goroutine of the loop runs one
iteration (lines 293-309), or the callback that a worker runs for the index `idx`
returns. -/
inductive SampleEvent where
  | iterate
  | finish (idx : Nat)
  deriving DecidableEq, Repr

/-- The state in which a call is aborted before anything else has happened. -/
def Sample.aborted {W : Type} (w : W) : SampleState W :=
  { status := SampleStatus.panicked, maxTime := 0, idx := 0, avgDt := 0, reads := 0,
    running := [], world := w }

/-- Lines 263-291 of `Sample`: the guard, the limits, the workers (all of them waiting at
`range work`) and the initial locals. The function `clock` lists the successive readings
`time.Now()` of the goroutine that runs `Sample`, in nanoseconds: reading 0 is that of
line 266 and reading 1, made only for a positive `Duration`, that of line 268. -/
def Sample.start {W : Type} (clock : Nat → Int) (cfg : SamplingConfig) (w : W) :
    SampleState W :=
  if cfg.N = 0 ∧ cfg.Duration = 0 then Sample.aborted w
  else
    { status := SampleStatus.looping
      maxTime := if cfg.Duration > 0 then clock 1 + cfg.Duration else clock 0 + sampleCeiling
      idx := 0
      avgDt := 0
      reads := if cfg.Duration > 0 then 2 else 1
      running := []
      world := w }

/-- Lines 299-309 of `Sample`, after the index has been handed over or the callback has
returned: the instant `t` was read in line 293, `running` and `w` are the workers and the
world as lines 294-298 left them. -/
def Sample.tail {W : Type} (clock : Nat → Int) (cfg : SamplingConfig) (st : SampleState W)
    (running : List Nat) (w : W) : SampleState W :=
  if cfg.maxN ≤ ((st.idx + 1 : Nat) : Int) then
    { status := SampleStatus.returned
      maxTime := st.maxTime
      idx := st.idx + 1
      avgDt := sampleAvgDt st.avgDt st.idx cfg.numParallel
        (since (clock st.reads) (clock (st.reads + 1)))
      reads := st.reads + 2
      running := running
      world := w }
  else
    { status :=
        if clock (st.reads + 2) + sampleAvgDt st.avgDt st.idx cfg.numParallel
            (since (clock st.reads) (clock (st.reads + 1))) > st.maxTime then
          SampleStatus.returned
        else SampleStatus.looping
      maxTime := st.maxTime
      idx := st.idx + 1
      avgDt := sampleAvgDt st.avgDt st.idx cfg.numParallel
        (since (clock st.reads) (clock (st.reads + 1)))
      reads := st.reads + 3
      running := running
      world := w }

/-- One iteration of the loop of `Sample` (lines 293-309). With workers (`numParallel`
above 1) the send `work <- idx` on the unbuffered channel completes when a worker waits at
`range work`, and that worker starts on the callback; while every worker is busy the send
blocks, and the iteration cannot happen (`none`). Without workers the callback runs in the
goroutine of the loop, and its panic is that of `Sample`. -/
def Sample.iterate {W : Type} (clock : Nat → Int) (callback : Nat → W → Result W)
    (cfg : SamplingConfig) (st : SampleState W) : Option (SampleState W) :=
  if st.status ≠ SampleStatus.looping then none
  else if cfg.numParallel > 1 then
    if (st.running.length : Int) < cfg.numParallel then
      some (Sample.tail clock cfg st (st.running ++ [st.idx]) st.world)
    else none
  else
    match callback st.idx st.world with
    | Result.ok w => some (Sample.tail clock cfg st st.running w)
    | Result.panic w =>
      some { st with status := SampleStatus.panicked, reads := st.reads + 1, world := w }

/-- The callback that a worker runs for the index `i` returns (line 284), and the worker
goes back to `range work`. Nothing in `Sample` waits for this: it can happen while the
loop runs and after `Sample` has returned. The effect of the callback on the world is one
step (the recording calls hold the lock of the experiment); a panic in a worker ends the
program. -/
def Sample.finish {W : Type} (callback : Nat → W → Result W) (i : Nat)
    (st : SampleState W) : Option (SampleState W) :=
  if st.status = SampleStatus.panicked ∨ i ∉ st.running then none
  else
    match callback i st.world with
    | Result.ok w => some { st with running := st.running.erase i, world := w }
    | Result.panic w =>
      some { st with
        status := SampleStatus.panicked, running := st.running.erase i, world := w }

/-- One event of a call of `Sample`; `none` when the event cannot happen in the state. -/
def Sample.step {W : Type} (clock : Nat → Int) (callback : Nat → W → Result W)
    (cfg : SamplingConfig) : SampleEvent → SampleState W → Option (SampleState W)
  | SampleEvent.iterate, st => Sample.iterate clock callback cfg st
  | SampleEvent.finish i, st => Sample.finish callback i st

/-- A sequence of events, from the state `st`. -/
def Sample.run {W : Type} (clock : Nat → Int) (callback : Nat → W → Result W)
    (cfg : SamplingConfig) : List SampleEvent → SampleState W → Option (SampleState W)
  | [], st => some st
  | ev :: rest, st =>
    match Sample.step clock callback cfg ev st with
    | none => none
    | some st2 => Sample.run clock callback cfg rest st2

/-- The method `Experiment.Sample`, called with the world `w` (the experiment and whatever
else the callback acts on), as the state that the sequence `events` leads to; `none` when
`events` is no execution of the call. The call has returned to its caller in a state whose
status is `returned`. -/
def Experiment.Sample {W : Type} (clock : Nat → Int) (callback : Nat → W → Result W)
    (cfg : SamplingConfig) (events : List SampleEvent) (w : W) : Option (SampleState W) :=
  Sample.run clock callback cfg events (Sample.start clock cfg w)

/-- The method `Experiment.SampleValue`, for a callback that computes the value from the
index. -/
def Experiment.SampleValue (clock : Nat → Int) (e : Experiment) (name : String)
    (callback : Nat → Float64) (cfg : SamplingConfig) (args : List Arg)
    (events : List SampleEvent) : Option (SampleState Experiment) :=
  match extractDecorations args with
  | none => if events = [] then some (Sample.aborted e) else none
  | some decorations =>
    Experiment.Sample clock (fun idx e2 => e2.recordValue name (callback idx) decorations)
      cfg events e

/-- The method `Experiment.SampleDuration`. The duration that it records for an index is
the one that the two clock readings around the callback measure: `elapsed idx`. -/
def Experiment.SampleDuration (clock : Nat → Int) (e : Experiment) (name : String)
    (elapsed : Nat → Int) (cfg : SamplingConfig) (args : List Arg)
    (events : List SampleEvent) : Option (SampleState Experiment) :=
  match extractDecorations args with
  | none => if events = [] then some (Sample.aborted e) else none
  | some decorations =>
    Experiment.Sample clock (fun idx e2 => e2.recordDuration name (elapsed idx) decorations)
      cfg events e

/-- The calls `callback idx` for the indices of a list, one after the other, up to the
first that panics. -/
def runCallbacks {W : Type} (callback : Nat → W → Result W) : List Nat → W → Result W
  | [], w => Result.ok w
  | i :: rest, w =>
    match callback i w with
    | Result.ok w2 => runCallbacks callback rest w2
    | Result.panic w2 => Result.panic w2

/-- The value of `avgDt` once `n` iterations of the loop have run, in a call with `first`
clock readings before the loop: iteration `j` reads the clock for the `first + 3 * j`-th
time in line 293 and for the next time in line 299. -/
def Sample.avgDtAt (clock : Nat → Int) (first : Nat) (numParallel : Int) : Nat → Int
  | 0 => 0
  | n + 1 =>
    sampleAvgDt (Sample.avgDtAt clock first numParallel n) n numParallel
      (since (clock (first + 3 * n)) (clock (first + 3 * n + 1)))

/-- A callback that appends its index to a list of the calls made so far. -/
def countingCallback (idx : Nat) (calls : List Nat) : Result (List Nat) :=
  Result.ok (calls ++ [idx])

/-- A clock that advances by one nanosecond from one reading to the next. -/
def tickingClock (i : Nat) : Int := (i : Int)

/-- The invariant of the loop of `Sample` when it runs without workers, with a sample count
and without a duration: after `j` iterations. -/
def SeqInv {W : Type} (clock : Nat → Int) (j : Nat) (st : SampleState W) : Prop :=
  st.status = SampleStatus.looping ∧ st.idx = j ∧ st.reads = 1 + 3 * j ∧
  st.avgDt = Sample.avgDtAt clock 1 1 j ∧ st.maxTime = clock 0 + sampleCeiling ∧
  st.running = []

/-- The configuration `N = 5`, `NumParallel = 1`. -/
def fiveSamples : SamplingConfig := { N := 5, Duration := 0, NumParallel := 1 }

/-- The invariant of a call of `Sample` with workers, with the sample count `k` and without
a duration, in a state that no panic has ended: the indices handed to the workers so far
are 0, ..., `idx - 1`, each of them either done (and then the world has seen its callback,
in the order `done` in which the callbacks returned) or still running. -/
def ParInv {W : Type} (clock : Nat → Int) (callback : Nat → W → Result W)
    (cfg : SamplingConfig) (k : Nat) (w : W) (st : SampleState W) : Prop :=
  st.status ≠ SampleStatus.panicked →
    (∃ done : List Nat, (done ++ st.running).Perm (List.range st.idx) ∧
      runCallbacks callback done w = Result.ok st.world) ∧
    (st.running.length : Int) ≤ cfg.NumParallel ∧
    (st.status = SampleStatus.looping →
      st.idx < k ∧ st.reads = 1 + 3 * st.idx ∧
      st.avgDt = Sample.avgDtAt clock 1 cfg.NumParallel st.idx ∧
      st.maxTime = clock 0 + sampleCeiling) ∧
    (st.status = SampleStatus.returned → st.idx = k)

/-- The configuration `N = 3`, `NumParallel = 2`. -/
def threeSamplesTwoWorkers : SamplingConfig := { N := 3, Duration := 0, NumParallel := 2 }

/-- The state in which `Sample` with `N = 3`, `NumParallel = 2` has returned when the
callback of the index 0 returned before the index 2 was handed over: 0 is done, 1 and 2
are running. -/
def parReturned : SampleState (List Nat) :=
  { status := SampleStatus.returned, maxTime := sampleCeiling, idx := 3, avgDt := 1,
    reads := 9, running := [1, 2], world := [0] }

/-! ## sort.Slice in the Go standard library, and ties -/

/-- The exchange `data.Swap(i, j)` of two elements of a slice. -/
def swapAt (data : List Nat) (i j : Nat) : List Nat :=
  (data.set i (data.getD j 0)).set j (data.getD i 0)

/-- The pass of Shell sort with gap 6 in the routine `quickSort_func` of the Go standard
library before release 1.19:
`for i := a + 6; i < b; i++ { if less(i, i-6) { swap(i, i-6) } }`. -/
def shellPass (less : Nat → Nat → Bool) (data : List Nat) : List Nat :=
  (List.range (data.length - 6)).foldl
    (fun d i => if less (d.getD (i + 6) 0) (d.getD i 0) then swapAt d (i + 6) i else d) data

/-- What `sort.Slice` of the Go releases before 1.19 runs on a slice of at most twelve
elements (the tail of `quickSort_func`): the pass of Shell sort with gap 6, which does
nothing on a slice of at most six elements, and then the insertion sort. -/
def quickSortFuncShort (less : Nat → Nat → Bool) (data : List Nat) : List Nat :=
  insertionSortLessFunc less (shellPass less data)

/-- The routine `insertionSort_func(data, a, b)` of the Go standard library: the insertion
sort of the part `data[a:b]` of a slice. -/
def insertionSortRange (less : Nat → Nat → Bool) (data : List Nat) (a b : Nat) : List Nat :=
  data.take a ++ insertionSortLessFunc less ((data.drop a).take (b - a)) ++ data.drop b

/-- The routine `order2_func` of the Go standard library: the positions `a`, `b` in the
order of their elements, with the count of the exchanges. -/
def order2 (less : Nat → Nat → Bool) (data : List Nat) (a b swaps : Nat) : Nat × Nat × Nat :=
  if less (data.getD b 0) (data.getD a 0) then (b, a, swaps + 1) else (a, b, swaps)

/-- The routine `median_func` of the Go standard library: the position, among `a`, `b`, `c`,
of the median of the three elements, with the count of the exchanges. -/
def median3 (less : Nat → Nat → Bool) (data : List Nat) (a b c swaps : Nat) : Nat × Nat :=
  match order2 less data a b swaps with
  | (a1, b1, s1) =>
    match order2 less data b1 c s1 with
    | (b2, _, s2) =>
      match order2 less data a1 b2 s2 with
      | (_, b3, s3) => (b3, s3)

/-- The type `sortedHint` of the Go standard library. -/
inductive SortedHint where
  | unknownHint
  | increasingHint
  | decreasingHint
  deriving DecidableEq, Repr

/-- The routine `choosePivot_func(data, a, b)` of the Go standard library (since release
1.19) on fewer than 50 elements: the middle position below 8 elements, the median of three
positions from 8 elements on, and the hint that the count of the exchanges gives. From 50
elements on the routine takes medians of medians, which is not modelled (`none`). -/
def choosePivot (less : Nat → Nat → Bool) (data : List Nat) (a b : Nat) :
    Option (Nat × SortedHint) :=
  let l := b - a
  if 50 ≤ l then none
  else if 8 ≤ l then
    match median3 less data (a + l / 4 * 1) (a + l / 4 * 2) (a + l / 4 * 3) 0 with
    | (j, swaps) =>
      some (j,
        if swaps = 0 then SortedHint.increasingHint
        else if swaps = 4 * 3 then SortedHint.decreasingHint
        else SortedHint.unknownHint)
  else some (a + l / 4 * 2, SortedHint.increasingHint)

/-- The routine `partialInsertionSort_func(data, a, b)` of the Go standard library on fewer
than 50 elements, where it moves no element: whether `data[a:b]` is sorted already, that
is whether its scan `for i < b && !less(data[i], data[i-1]) { i++ }` from `a + 1` reaches
`b`. -/
def sortedAlready (less : Nat → Nat → Bool) (data : List Nat) (a b : Nat) : Bool :=
  (List.range' (a + 1) (b - (a + 1))).all
    (fun i => !less (data.getD i 0) (data.getD (i - 1) 0))

/-- The loop `for i <= j && less(data[i], data[a]) { i++ }` of `partition_func`. -/
def scanUp (less : Nat → Nat → Bool) (data : List Nat) (a j : Nat) : Nat → Nat → Nat
  | 0, i => i
  | fuel + 1, i =>
    if i ≤ j ∧ less (data.getD i 0) (data.getD a 0) = true then
      scanUp less data a j fuel (i + 1)
    else i

/-- The loop `for i <= j && !less(data[j], data[a]) { j-- }` of `partition_func`. -/
def scanDown (less : Nat → Nat → Bool) (data : List Nat) (a i : Nat) : Nat → Nat → Nat
  | 0, j => j
  | fuel + 1, j =>
    if i ≤ j ∧ less (data.getD j 0) (data.getD a 0) = false then
      scanDown less data a i fuel (j - 1)
    else j

/-- The second loop of `partition_func`: scan up, scan down, and while the scans have not
met exchange the two elements found and go on; the result is the slice with the final
`j`. -/
def partitionLoop (less : Nat → Nat → Bool) (a : Nat) :
    Nat → List Nat → Nat → Nat → List Nat × Nat
  | 0, data, _, j => (data, j)
  | fuel + 1, data, i, j =>
    let i2 := scanUp less data a j data.length i
    let j2 := scanDown less data a i2 data.length j
    if j2 < i2 then (data, j2)
    else partitionLoop less a fuel (swapAt data i2 j2) (i2 + 1) (j2 - 1)

/-- The routine `partition_func(data, a, b, pivot)` of the Go standard library: the slice
after one partition around the element at `pivot`, the new position of that element, and
whether the slice was partitioned already. -/
def partitionFunc (less : Nat → Nat → Bool) (data : List Nat) (a b pivot : Nat) :
    List Nat × Nat × Bool :=
  let data1 := swapAt data a pivot
  let i := scanUp less data1 a (b - 1) data.length (a + 1)
  let j := scanDown less data1 a i data.length (b - 1)
  if j < i then (swapAt data1 j a, j, true)
  else
    match partitionLoop less a data.length (swapAt data1 i j) (i + 1) (j - 1) with
    | (data2, j2) => (swapAt data2 j2 a, j2, false)

/-- The routine `pdqsort_func(data, a, b, limit)` of the Go standard library, which
`sort.Slice` runs since release 1.19, with the locals `wasBalanced` and `wasPartitioned` of
its loop as arguments. The model follows the insertion sort of at most twelve elements,
the choice of the pivot, the test for a sorted slice, the partition and the two
recursions; it is `none` where the routine goes through `heapSort_func`,
`breakPatterns_func`, `reverseRange_func` or `partitionEqual_func`, on 50 elements and
more, and when the fuel runs out. -/
def pdqsortFunc (less : Nat → Nat → Bool) :
    Nat → List Nat → Nat → Nat → Nat → Bool → Bool → Option (List Nat)
  | 0, _, _, _, _, _, _ => none
  | fuel + 1, data, a, b, limit, wasBalanced, wasPartitioned =>
    if b - a ≤ 12 then some (insertionSortRange less data a b)
    else if limit = 0 then none
    else if wasBalanced = false then none
    else
      match choosePivot less data a b with
      | none => none
      | some (pivot, hint) =>
        if hint = SortedHint.decreasingHint then none
        else if wasPartitioned = true ∧ hint = SortedHint.increasingHint ∧
            sortedAlready less data a b = true then some data
        else if 0 < a ∧ less (data.getD (a - 1) 0) (data.getD pivot 0) = false then none
        else
          match partitionFunc less data a b pivot with
          | (data2, mid, alreadyPartitioned) =>
            if mid - a < b - mid then
              match pdqsortFunc less fuel data2 a mid limit true true with
              | none => none
              | some data3 =>
                pdqsortFunc less fuel data3 (mid + 1) b limit
                  (decide ((b - a) / 8 ≤ mid - a)) alreadyPartitioned
            else
              match pdqsortFunc less fuel data2 (mid + 1) b limit true true with
              | none => none
              | some data3 =>
                pdqsortFunc less fuel data3 a mid limit
                  (decide ((b - a) / 8 ≤ b - mid)) alreadyPartitioned

/-- The function `bits.Len` of the Go standard library: the number of bits of `n`. -/
def bitsLen : Nat → Nat → Nat
  | 0, _ => 0
  | fuel + 1, n => if n = 0 then 0 else 1 + bitsLen fuel (n / 2)

/-- The function `sort.Slice` since release 1.19, on the paths that `pdqsortFunc` models:
`pdqsort_func(data, 0, length, bits.Len(length))`. -/
def sortSlicePdq (less : Nat → Nat → Bool) (data : List Nat) : Option (List Nat) :=
  pdqsortFunc less (data.length + 1) data 0 data.length (bitsLen data.length data.length)
    true true

/-- The Duration-series of the samples 1, 1, 1, 0, 1, 1, 5, 0, 9, 9, 9, 9, 9. -/
def thirteenDurations : LogEntry :=
  { LogEntry.empty with
    Type_ := LogEntryTypeDuration, Name := "t",
    Durations := [1, 1, 1, 0, 1, 1, 5, 0, 9, 9, 9, 9, 9],
    Annotations := ["a", "b", "c", "d", "e", "f", "g", "h", "i", "j", "k", "l", "m"] }

/-- The Duration-series of the samples 1, 5, 5, 0, 5, 5, 0. -/
def sevenDurations : LogEntry :=
  { LogEntry.empty with
    Type_ := LogEntryTypeDuration, Name := "t", Durations := [1, 5, 5, 0, 5, 5, 0],
    Annotations := ["a", "b", "c", "d", "e", "f", "g"] }

/-- The Duration-series of the samples 1, 3, 1, 3. -/
def tiedDurations : LogEntry :=
  { LogEntry.empty with
    Type_ := LogEntryTypeDuration, Name := "t", Durations := [1, 3, 1, 3],
    Annotations := ["a", "b", "c", "d"] }

/-- The Value-series of the samples 1, 3, 1, 3. -/
def tiedValues : LogEntry :=
  { LogEntry.empty with
    Type_ := LogEntryTypeValue, Name := "x",
    Values := List.map Float64.ofInt [1, 3, 1, 3], Annotations := ["a", "b", "c", "d"] }

/-- The order of a stable sort of indices: `a` may stand before `b` when `b` is not less
than `a` and, if the two tie, `a` is the smaller index. -/
def StableBefore (less : Nat → Nat → Bool) (a b : Nat) : Prop :=
  less b a = false ∧ (less a b = false → a < b)

/-! ## rank.go -/

/-- The method `Stats.FloatFor`. -/
def Stats.FloatFor (s : Stats) (stat : Stat) : Float64 :=
  match s.StatsType with
  | StatsTypeValue => s.ValueFor stat
  | StatsTypeDuration => Float64.ofInt (s.DurationFor stat)
  | StatsTypeInvalid => Float64.zero

/-- The type `RankingCriteria` of rank.go, an unsigned integer: its eight named constants,
and `unnamed` for every other value. -/
inductive RankingCriteria where
  | LowerMeanIsBetter
  | HigherMeanIsBetter
  | LowerMedianIsBetter
  | HigherMedianIsBetter
  | LowerMinIsBetter
  | HigherMinIsBetter
  | LowerMaxIsBetter
  | HigherMaxIsBetter
  | unnamed (code : Nat)
  deriving DecidableEq, Repr

/-- The struct `Ranking`. -/
structure Ranking where
  Criteria : RankingCriteria
  Stats : List Stats
  deriving DecidableEq, Repr

/-- The `less` function that `RankStats` hands to `sort.Slice`, on the two elements that
it compares. In Go `x > y` is `y < x`. -/
def rankLess (criteria : RankingCriteria) (a b : Stats) : Bool :=
  match criteria with
  | RankingCriteria.LowerMeanIsBetter => Float64.lt (a.FloatFor StatMean) (b.FloatFor StatMean)
  | RankingCriteria.HigherMeanIsBetter => Float64.lt (b.FloatFor StatMean) (a.FloatFor StatMean)
  | RankingCriteria.LowerMedianIsBetter =>
    Float64.lt (a.FloatFor StatMedian) (b.FloatFor StatMedian)
  | RankingCriteria.HigherMedianIsBetter =>
    Float64.lt (b.FloatFor StatMedian) (a.FloatFor StatMedian)
  | RankingCriteria.LowerMinIsBetter => Float64.lt (a.FloatFor StatMin) (b.FloatFor StatMin)
  | RankingCriteria.HigherMinIsBetter => Float64.lt (b.FloatFor StatMin) (a.FloatFor StatMin)
  | RankingCriteria.LowerMaxIsBetter => Float64.lt (a.FloatFor StatMax) (b.FloatFor StatMax)
  | RankingCriteria.HigherMaxIsBetter => Float64.lt (b.FloatFor StatMax) (a.FloatFor StatMax)
  | RankingCriteria.unnamed _ => false

/-- The function `RankStats`. What `sort.Slice` does to a slice depends on the slice only
through the outcomes of `less`, so it leaves the elements of `stats` arranged as it leaves
the positions 0, ..., `len(stats) - 1` when these are sorted by comparing the elements
that they held at first. -/
def RankStats (sortSlice : (Nat → Nat → Bool) → List Nat → List Nat)
    (criteria : RankingCriteria) (stats : List Stats) : Ranking :=
  { Criteria := criteria
    Stats := sortedView stats Stats.empty
      (sortSlice
        (fun i j => rankLess criteria (stats.getD i Stats.empty) (stats.getD j Stats.empty))
        (List.range stats.length)) }

/-- The method `Ranking.Winner`. -/
def Ranking.Winner (c : Ranking) : Gmeasure.Stats :=
  match c.Stats with
  | [] => Gmeasure.Stats.empty
  | s :: _ => s

/-- The statistic that a named criterion compares. -/
def RankingCriteria.stat : RankingCriteria → Stat
  | RankingCriteria.LowerMeanIsBetter => StatMean
  | RankingCriteria.HigherMeanIsBetter => StatMean
  | RankingCriteria.LowerMedianIsBetter => StatMedian
  | RankingCriteria.HigherMedianIsBetter => StatMedian
  | RankingCriteria.LowerMinIsBetter => StatMin
  | RankingCriteria.HigherMinIsBetter => StatMin
  | RankingCriteria.LowerMaxIsBetter => StatMax
  | RankingCriteria.HigherMaxIsBetter => StatMax
  | RankingCriteria.unnamed _ => StatInvalid

/-- Whether a criterion is one of the four `Higher...IsBetter`. -/
def RankingCriteria.higher : RankingCriteria → Bool
  | RankingCriteria.HigherMeanIsBetter => true
  | RankingCriteria.HigherMedianIsBetter => true
  | RankingCriteria.HigherMinIsBetter => true
  | RankingCriteria.HigherMaxIsBetter => true
  | _ => false

/-- Whether a criterion is one of the eight named constants. -/
def RankingCriteria.named : RankingCriteria → Bool
  | RankingCriteria.unnamed _ => false
  | _ => true

/-- A Value-series `Stats` of one sample with the given name and mean. -/
def meanStats (name : String) (mean : Float64) : Stats :=
  { Stats.empty with
    StatsType := StatsTypeValue, Name := name, N := 1, ValueBundle := [(StatMean, mean)] }

/-- Three `Stats` with the means 5, 1, 3. -/
def threeMeans : List Stats :=
  [meanStats "a" (Float64.ofInt 5), meanStats "b" (Float64.ofInt 1),
    meanStats "c" (Float64.ofInt 3)]

/-- Three `Stats` with the means 1, NaN, 0. -/
def nanMeans : List Stats :=
  [meanStats "a" (Float64.ofInt 1), meanStats "b" Float64.nan, meanStats "c" (Float64.ofInt 0)]

/-! ## comparability.go -/

/-- Go `math.Abs(x)`. -/
def Float64.abs : Float64 → Float64
  | Float64.nan => Float64.nan
  | Float64.inf _ => Float64.inf false
  | Float64.fin _ m => Float64.fin false m

/-- The two errors that `ComputeStatsZScore` returns: the mismatch of the two types, which
its message names in the order of the arguments, and the empty set of Stats. -/
inductive ZScoreError where
  | typeMismatch (a b : StatsType)
  | empty
  deriving DecidableEq, Repr

/-- The standard error `s.FloatFor(StatStdDev) / math.Sqrt(float64(s.N))` in
`ComputeStatsZScore`. -/
def Stats.stdErr (s : Stats) : Float64 :=
  Float64.div (s.FloatFor StatStdDev) (Float64.sqrt (Float64.ofInt s.N))

/-- The function `ComputeStatsZScore` of comparability.go; the second component is the
error, `none` for `nil`. Each operation rounds on its own (`ComputeStatsZScoreWith` has the
builds that fuse the multiply-add). -/
def ComputeStatsZScore (a b : Stats) : Float64 × Option ZScoreError :=
  if a.StatsType ≠ b.StatsType then
    (Float64.zero, some (ZScoreError.typeMismatch a.StatsType b.StatsType))
  else if a.N = 0 ∨ b.N = 0 then (Float64.zero, some ZScoreError.empty)
  else
    (Float64.div (Float64.abs (Float64.sub (a.FloatFor StatMean) (b.FloatFor StatMean)))
      (Float64.sqrt (Float64.add (Float64.mul a.stdErr a.stdErr)
        (Float64.mul b.stdErr b.stdErr))), none)

/-- A Value-series `Stats` with the given number of samples, mean and standard
deviation. -/
def summaryStats (n : Int) (mean stdDev : Float64) : Stats :=
  { Stats.empty with
    StatsType := StatsTypeValue, Name := "x", N := n,
    ValueBundle := [(StatMean, mean), (StatStdDev, stdDev)] }

/-- A float64 above zero: a positive finite number or `+Inf`. -/
def Float64.Positive (x : Float64) : Prop := Float64.lt Float64.zero x = true

instance (x : Float64) : Decidable x.Positive := by
  unfold Float64.Positive; infer_instance

/-- A distribution of 8 samples with Mean 5 and StdDev 2. -/
def fiveTwoStats : Stats := summaryStats 8 (Float64.ofInt 5) (Float64.ofInt 2)

/-! ## experiment.go: the running average of Sample -/

/-- The number of clock readings that `Sample` makes before its loop: line 266, and line
268 for a positive `Duration`. -/
def SamplingConfig.firstRead (cfg : SamplingConfig) : Nat := if cfg.Duration > 0 then 2 else 1

/-- The latency `dt` that iteration `j` of the loop of `Sample` measures (lines 293 and
299), in a call with `first` clock readings before the loop. -/
def Sample.latency (clock : Nat → Int) (first : Nat) (j : Nat) : Int :=
  since (clock (first + 3 * j)) (clock (first + 3 * j + 1))

/-- The sum of the latencies of the iterations `numParallel`, ..., `n - 1`: those past the
warm-up window among the first `n`. -/
def Sample.latencySum (clock : Nat → Int) (first : Nat) (numParallel : Int) : Nat → Int
  | 0 => 0
  | n + 1 =>
    Sample.latencySum clock first numParallel n +
      if (n : Int) ≥ numParallel then Sample.latency clock first n else 0

/-- A clock that reads 0 five times and 3 from then on: in a call of `Sample` without a
duration, iteration 1 measures the latency 3 and every other iteration the latency 0. -/
def steppingClock (i : Nat) : Int := if i < 5 then 0 else 3

/-- The configuration `N = 4`, `NumParallel = 1`. -/
def fourSamples : SamplingConfig := { N := 4, Duration := 0, NumParallel := 1 }

/-! ## stopwatch.go -/

/-- The struct `Stopwatch` without its pointer to the experiment, which the methods below
take and return next to it. The instants `t` and `pauseT` are clock readings in
nanoseconds; `pauseT` is read only after `Pause` has set it. -/
structure Stopwatch where
  t : Int
  pauseT : Int
  pauseDuration : Int
  running : Bool
  deriving DecidableEq, Repr

/-- The function `newStopwatch`, when the clock reads `now`. -/
def newStopwatch (now : Int) : Stopwatch :=
  { t := now, pauseT := 0, pauseDuration := 0, running := true }

/-- The duration `time.Since(s.t) - s.pauseDuration` that `Record` computes when the clock
reads `now`: `time.Since` saturates and the subtraction is that of int64. -/
def Stopwatch.elapsed (s : Stopwatch) (now : Int) : Int :=
  wrap64 (since s.t now - s.pauseDuration)

/-- The method `Stopwatch.Record`, when the clock reads `now`. -/
def Stopwatch.Record (s : Stopwatch) (now : Int) (e : Experiment) (name : String)
    (args : List Arg) : Result (Stopwatch × Experiment) :=
  if s.running = false then Result.panic (s, e)
  else
    match e.RecordDuration name (s.elapsed now) args with
    | Result.ok e2 => Result.ok (s, e2)
    | Result.panic e2 => Result.panic (s, e2)

/-- The method `Stopwatch.Reset`, when the clock reads `now`. -/
def Stopwatch.Reset (s : Stopwatch) (now : Int) (e : Experiment) :
    Result (Stopwatch × Experiment) :=
  Result.ok ({ s with running := true, t := now, pauseDuration := 0 }, e)

/-- The method `Stopwatch.Pause`, when the clock reads `now`. -/
def Stopwatch.Pause (s : Stopwatch) (now : Int) (e : Experiment) :
    Result (Stopwatch × Experiment) :=
  if s.running = false then Result.panic (s, e)
  else Result.ok ({ s with running := false, pauseT := now }, e)

/-- The method `Stopwatch.Resume`, when the clock reads `now`; the sum is that of
int64. -/
def Stopwatch.Resume (s : Stopwatch) (now : Int) (e : Experiment) :
    Result (Stopwatch × Experiment) :=
  if s.running = true then Result.panic (s, e)
  else
    Result.ok
      ({ s with running := true, pauseDuration := wrap64 (s.pauseDuration + since s.pauseT now) },
        e)

/-- A call of one of the four methods of a stopwatch. -/
inductive StopwatchOp where
  | Record (name : String) (args : List Arg)
  | Reset
  | Pause
  | Resume
  deriving DecidableEq, Repr

/-- One call on a stopwatch and its experiment, when the clock reads `now`. -/
def Stopwatch.step (now : Int) (op : StopwatchOp) (st : Stopwatch × Experiment) :
    Result (Stopwatch × Experiment) :=
  match op with
  | StopwatchOp.Record name args => st.1.Record now st.2 name args
  | StopwatchOp.Reset => st.1.Reset now st.2
  | StopwatchOp.Pause => st.1.Pause now st.2
  | StopwatchOp.Resume => st.1.Resume now st.2

/-- Successive calls on a stopwatch, each with the reading of the clock at the call, up to
the first that aborts. -/
def Stopwatch.run : List (StopwatchOp × Int) → Stopwatch × Experiment →
    Result (Stopwatch × Experiment)
  | [], st => Result.ok st
  | (op, now) :: rest, st =>
    match Stopwatch.step now op st with
    | Result.ok st2 => Stopwatch.run rest st2
    | Result.panic st2 => Result.panic st2

/-- The sum of the paused intervals that are complete, in a sequence of calls: the time
from each `Pause` to the `Resume` that follows it. The first argument is the instant of a
`Pause` that no `Resume` has followed yet. -/
def completedPauses : Option Int → List (StopwatchOp × Int) → Int
  | _, [] => 0
  | _, (StopwatchOp.Pause, p) :: rest => completedPauses (some p) rest
  | some p, (StopwatchOp.Resume, r) :: rest => (r - p) + completedPauses none rest
  | none, (StopwatchOp.Resume, _) :: rest => completedPauses none rest
  | _, (StopwatchOp.Reset, _) :: rest => completedPauses none rest
  | pending, (StopwatchOp.Record _ _, _) :: rest => completedPauses pending rest

/-- The time that a stopwatch spends running, in a sequence of calls followed up to the
instant `now`: from the start and from each `Resume` to the `Pause` that follows, or to
`now`. The first argument is the instant since when the stopwatch is running, when it
is. -/
def runningTime : Option Int → List (StopwatchOp × Int) → Int → Int
  | some r, [], now => now - r
  | none, [], _ => 0
  | some r, (StopwatchOp.Pause, p) :: rest, now => (p - r) + runningTime none rest now
  | none, (StopwatchOp.Pause, _) :: rest, now => runningTime none rest now
  | none, (StopwatchOp.Resume, r) :: rest, now => runningTime (some r) rest now
  | some r, (StopwatchOp.Resume, _) :: rest, now => runningTime (some r) rest now
  | _, (StopwatchOp.Reset, r) :: rest, now => runningTime (some r) rest now
  | start, (StopwatchOp.Record _ _, _) :: rest, now => runningTime start rest now

/-- A running stopwatch on `sampleExperiment`, created when the clock read 10, after a
pause from 20 to 35, a `Record` at 40 and a pause from 50 to 60. -/
def pausedTwice : List (StopwatchOp × Int) :=
  [(StopwatchOp.Pause, 20), (StopwatchOp.Resume, 35), (StopwatchOp.Record "load" [], 40),
   (StopwatchOp.Pause, 50), (StopwatchOp.Resume, 60)]

/-! ## Strings in encoding/json -/

/-- The bytes of a Go string. -/
def goBytes (s : String) : List Nat := s.data.map Char.toNat

/-- The Go string of the given bytes. -/
def ofGoBytes (bs : List Nat) : String := String.mk (bs.map Char.ofNat)

/-- Whether a byte is a continuation byte of UTF-8, `10xxxxxx`. -/
def utf8Cont (b : Nat) : Bool := decide (0x80 ≤ b) && decide (b ≤ 0xBF)

/-- The function `utf8.DecodeRuneInString` of the standard library, as far as
`encoding/json` uses it: the size of the UTF-8 encoding of a code point that the bytes
start with, and 0 when they start with none (the library returns `RuneError` with the
size 1). The first byte fixes the size and the range of the second byte, which keeps out
encodings that are longer than needed, surrogates and code points above U+10FFFF. -/
def utf8Size : List Nat → Nat
  | [] => 0
  | b0 :: rest =>
    if b0 < 0x80 then 1
    else if b0 < 0xC2 then 0
    else if b0 < 0xE0 then
      match rest with
      | b1 :: _ => if utf8Cont b1 then 2 else 0
      | _ => 0
    else if b0 < 0xF0 then
      match rest with
      | b1 :: b2 :: _ =>
        if decide ((if b0 = 0xE0 then 0xA0 else 0x80) ≤ b1) &&
            decide (b1 ≤ (if b0 = 0xED then 0x9F else 0xBF)) && utf8Cont b2 then 3
        else 0
      | _ => 0
    else if b0 < 0xF5 then
      match rest with
      | b1 :: b2 :: b3 :: _ =>
        if decide ((if b0 = 0xF0 then 0x90 else 0x80) ≤ b1) &&
            decide (b1 ≤ (if b0 = 0xF4 then 0x8F else 0xBF)) && utf8Cont b2 &&
            utf8Cont b3 then 4
        else 0
      | _ => 0
    else 0

/-- The bytes that `encoding/json` reads back for a string that it wrote: the encoder
copies every valid UTF-8 sequence and writes the escape of U+FFFD for every byte that
starts none, and the decoder reads that as the bytes EF BF BD. The first argument counts the bytes
still to copy of the sequence under way. -/
def coerceUTF8 : Nat → List Nat → List Nat
  | _, [] => []
  | skip + 1, b :: rest => b :: coerceUTF8 skip rest
  | 0, b :: rest =>
    match utf8Size (b :: rest) with
    | 0 => 0xEF :: 0xBF :: 0xBD :: coerceUTF8 0 rest
    | size + 1 => b :: coerceUTF8 size rest

/-- Whether the bytes are valid UTF-8 (`utf8.Valid`); the first argument counts the bytes
still to pass of the sequence under way. -/
def validUTF8 : Nat → List Nat → Bool
  | _, [] => true
  | skip + 1, _ :: rest => validUTF8 skip rest
  | 0, b :: rest =>
    match utf8Size (b :: rest) with
    | 0 => false
    | size + 1 => validUTF8 size rest

/-- A Go string as `encoding/json` reads it back after writing it. -/
def jsonString (s : String) : String := ofGoBytes (coerceUTF8 0 (goBytes s))

/-- Whether a Go string is valid UTF-8. -/
def validString (s : String) : Bool := validUTF8 0 (goBytes s)

/-- A log entry as `encoding/json` reads it back after writing it: the strings go through
`jsonString`, and the type, the durations and the values are read back as they were. -/
def LogEntry.jsonView (e : LogEntry) : LogEntry :=
  { e with
    ExperimentName := jsonString e.ExperimentName
    Note := jsonString e.Note
    Name := jsonString e.Name
    Style := jsonString e.Style
    Units := jsonString e.Units
    PrecisionBundle := { e.PrecisionBundle with
      ValueFormat := jsonString e.PrecisionBundle.ValueFormat }
    Annotations := e.Annotations.map jsonString }

/-- An experiment as `encoding/json` reads it back after writing it. -/
def Experiment.jsonView (e : Experiment) : Experiment :=
  { Name := jsonString e.Name, LogEntries := e.LogEntries.map LogEntry.jsonView }

/-- Whether every string of a log entry is valid UTF-8. -/
def LogEntry.validText (e : LogEntry) : Bool :=
  validString e.ExperimentName && validString e.Note && validString e.Name &&
  validString e.Style && validString e.Units && validString e.PrecisionBundle.ValueFormat &&
  e.Annotations.all validString

/-- Whether every string of an experiment is valid UTF-8: its name and the strings of its
entries. -/
def Experiment.validText (e : Experiment) : Bool :=
  validString e.Name && e.LogEntries.all LogEntry.validText

/-! ## cache.go -/

/-- The constant `CACHE_EXT`. -/
def CACHE_EXT : String := ".gmeasure-cache"

/-- The struct `ExperimentCache`. -/
structure ExperimentCache where
  Path : String
  deriving DecidableEq, Repr

/-- The struct `CachedExperimentHeader`. -/
structure CachedExperimentHeader where
  Name : String
  Version : Int
  deriving DecidableEq, Repr

/-- A header as `encoding/json` reads it back after writing it. -/
def CachedExperimentHeader.jsonView (h : CachedExperimentHeader) : CachedExperimentHeader :=
  { h with Name := jsonString h.Name }

/-- The value `CachedExperimentHeader{}` that `Load` decodes the header into. -/
def CachedExperimentHeader.zero : CachedExperimentHeader := { Name := "", Version := 0 }

/-- What `encoding/json` does for the cache, on JSON values of a type `J`: the value that
`Encode` writes for a header (it cannot fail: a string and an int) and for an experiment
(`none` when it returns an error, as it does for a NaN or an infinite sample), and what
`Decode` makes of a value that it has read, given the target it decodes into: the target
after the call and whether the call returned an error. The encoding of a `LogEntryType`
goes through its methods `MarshalJSON` and `UnmarshalJSON` and so through the enum
support of this repository; it is part of this parameter. -/
structure JsonLib (J : Type) where
  encodeHeader : CachedExperimentHeader → J
  encodeExperiment : Experiment → Option J
  decodeHeader : J → CachedExperimentHeader → CachedExperimentHeader × Bool
  decodeExperiment : J → Experiment → Experiment × Bool

/-- Whether `encoding/json` can encode an experiment: every sample is a finite float64
(`Encode` returns an error for NaN and for the infinities, and for nothing else in an
experiment). -/
def Experiment.encodable (e : Experiment) : Bool :=
  e.LogEntries.all (fun entry => entry.Values.all Float64.isFinite)

/-- What `encoding/json` does with the two structs of the cache. `Encode` succeeds on an
experiment exactly when its samples are finite. A value that `Encode` wrote decodes without
an error, a header whatever the target held and an experiment into the target
`NewExperiment("")`, and what is read is what was written except for the strings: the
library writes every exported field of the two structs and reads each back into the field
of the same name, an int and a `time.Duration` as the same number, a finite float64 as the
shortest decimal that parses back to it, a slice as the array of its elements (null for
none), a `LogEntryType` as the name of the type, and a string as `jsonString` has it,
with U+FFFD in the place of every byte that is not part of valid UTF-8. -/
structure JsonSpec {J : Type} (lib : JsonLib J) : Prop where
  header : ∀ (h target : CachedExperimentHeader),
    lib.decodeHeader (lib.encodeHeader h) target = (h.jsonView, false)
  experiment : ∀ (e : Experiment) (j : J),
    lib.encodeExperiment e = some j →
      lib.decodeExperiment j (NewExperiment "") = (e.jsonView, false)
  encodes : ∀ e : Experiment, (lib.encodeExperiment e).isSome = e.encodable

/-- What one call `dec.Decode(target)` of a `json.Decoder` yields: the target after the
call, whether the call returned an error, and the values left in the stream. -/
structure Decoded (α J : Type) where
  value : α
  err : Bool
  rest : List J

/-- The method `Decode` of a `json.Decoder` over a stream. The stream is the list of
the JSON values that the file holds up to its end or to the first text that is no JSON
value: there the call returns `io.EOF` or a syntax error, leaves the target as it was,
and every later call fails in the same way. An error in a value that was read (a JSON
value that does not fit the target) does not stop the decoder: the next call reads the
next value. -/
def Decoder.Decode {α J : Type} (unmarshal : J → α → α × Bool) (stream : List J)
    (target : α) : Decoded α J :=
  match stream with
  | [] => { value := target, err := true, rest := [] }
  | j :: rest => { value := (unmarshal j target).1, err := (unmarshal j target).2, rest := rest }

/-- The files of the cache directory, as far as the cache uses them: the JSON values in
the file at a path, `none` when `os.Open` fails there (no file, or one that cannot be
read), and whether `os.Create` succeeds at a path. A file that was created can be opened,
and holds what was written to it. -/
structure FileSystem (J : Type) where
  files : String → Option (List J)
  creatable : String → Bool

/-- The file system after `os.Create(path)` and the writes of `content`. -/
def FileSystem.write {J : Type} (fs : FileSystem J) (path : String) (content : List J) :
    FileSystem J :=
  { fs with files := fun p => if p = path then some content else fs.files p }

/-- The path `filepath.Join(cache.Path, cache.hashOf(name)+CACHE_EXT)` of `Load`, `Save`
and `Delete`. The hex digest `hashOf` (MD5, from the standard library) is a parameter. -/
def ExperimentCache.pathOf (hashOf : String → String) (cache : ExperimentCache)
    (name : String) : String :=
  cache.Path ++ "/" ++ (hashOf name ++ CACHE_EXT)

/-- The method `ExperimentCache.Load`: `none` is the nil that it returns for "no cached
result". The error of the first `Decode` is not looked at. -/
def ExperimentCache.Load {J : Type} (lib : JsonLib J) (hashOf : String → String)
    (cache : ExperimentCache) (fs : FileSystem J) (name : String) (version : Int) :
    Option Experiment :=
  match fs.files (cache.pathOf hashOf name) with
  | none => none
  | some content =>
    let header := Decoder.Decode lib.decodeHeader content CachedExperimentHeader.zero
    if header.value.Version < version then none
    else
      let out := Decoder.Decode lib.decodeExperiment header.rest (NewExperiment "")
      if out.err = true then none else some out.value

/-- What a call of `Save` leaves: whether it returned an error, and the file system. -/
structure SaveOutcome (J : Type) where
  err : Bool
  fs : FileSystem J

/-- The method `ExperimentCache.Save`. When the experiment cannot be encoded the file has
been created and holds the header. -/
def ExperimentCache.Save {J : Type} (lib : JsonLib J) (hashOf : String → String)
    (cache : ExperimentCache) (fs : FileSystem J) (name : String) (version : Int)
    (experiment : Experiment) : SaveOutcome J :=
  if fs.creatable (cache.pathOf hashOf name) = false then { err := true, fs := fs }
  else
    match lib.encodeExperiment experiment with
    | none =>
      { err := true
        fs := fs.write (cache.pathOf hashOf name)
          [lib.encodeHeader { Name := name, Version := version }] }
    | some j =>
      { err := false
        fs := fs.write (cache.pathOf hashOf name)
          [lib.encodeHeader { Name := name, Version := version }, j] }

/-- The JSON values that matter to the cache, by what can be read from them: the value
that `Encode` writes for a header, the value that it writes for an experiment, and a value
of another shape, such as `[]`, which fits neither a header nor an experiment. -/
inductive JsonRecord where
  | header (h : CachedExperimentHeader)
  | experiment (e : Experiment)
  | other
  deriving DecidableEq, Repr

/-- The library `encoding/json` on the values of `JsonRecord`: the value written for a
header or an experiment holds the strings as JSON has them (`jsonView`), and decodes to
that. A header and an experiment share the field `Name`, which is all that either takes
from a value written for the other; a value of another shape is an error and leaves the
target as it was. -/
def recordJson : JsonLib JsonRecord where
  encodeHeader := fun h => JsonRecord.header h.jsonView
  encodeExperiment := fun e =>
    if e.encodable = true then some (JsonRecord.experiment e.jsonView) else none
  decodeHeader := fun j target =>
    match j with
    | JsonRecord.header h => (h, false)
    | JsonRecord.experiment e => ({ target with Name := e.Name }, false)
    | JsonRecord.other => (target, true)
  decodeExperiment := fun j target =>
    match j with
    | JsonRecord.experiment e => (e, false)
    | JsonRecord.header h => ({ target with Name := h.Name }, false)
    | JsonRecord.other => (target, true)

/-- An empty cache directory in which files can be created. -/
def emptyDirectory : FileSystem JsonRecord :=
  { files := fun _ => none, creatable := fun _ => true }

/-- A stand-in for the hex digest of a name. -/
def plainHash (name : String) : String := name

/-- The cache of the directory "cache". -/
def benchCache : ExperimentCache := { Path := "cache" }

/-- An experiment with one value, recorded with an annotation that is the single byte FF,
which is not valid UTF-8. -/
def strayByte : Experiment :=
  ((NewExperiment "bench").RecordValue "size" (Float64.ofInt 3) [ Arg.annotation "\xff"]).state

/-- A cache directory with one file for the name "bench": its first value is no header,
its second value is `sampleExperiment`. -/
def brokenHeader : FileSystem JsonRecord :=
  emptyDirectory.write (benchCache.pathOf plainHash "bench")
    [JsonRecord.other, JsonRecord.experiment sampleExperiment]

/-! ## log_entry.go: sums that do not round -/

/-- Whether the float64 sum `x + y` is exact: it is no NaN and, when both are finite, it
is their sum, neither rounded nor overflowed. -/
def Float64.addExact (x y : Float64) : Bool :=
  !(Float64.add x y).isNaN &&
  (!x.isFinite || !y.isFinite ||
    ((Float64.add x y).isFinite && decide ((Float64.add x y).key = x.key + y.key)))

/-- Whether every addition of the accumulation `sum += v` over the values, from `acc`, is
exact. -/
def Float64.sumExact : Float64 → List Float64 → Bool
  | _, [] => true
  | acc, v :: rest => Float64.addExact acc v && Float64.sumExact (Float64.add acc v) rest

/-- The Value-series of the samples 0.5, 0.25, 3 and -1. -/
def fourValues : LogEntry :=
  { LogEntry.empty with
    Type_ := LogEntryTypeValue, Name := "x",
    Values := [Float64.div (Float64.ofInt 1) (Float64.ofInt 2),
      Float64.div (Float64.ofInt 1) (Float64.ofInt 4), Float64.ofInt 3, Float64.ofInt (-1)],
    Annotations := ["a", "b", "c", "d"] }

/-! ## experiment.go: executions of Sample with workers -/

/-- The execution of `Sample` with workers in which every callback returns before the next
index is handed over, for the first `n` indices: the iteration that hands over the index
`i`, then the return of its callback. -/
def Sample.oneAtATime (n : Nat) : List SampleEvent :=
  (List.range n).flatMap (fun i => [SampleEvent.iterate, SampleEvent.finish i])

/-- The state of `Sample` with workers, with a sample count and without a duration, after
the execution `Sample.oneAtATime j` has left the world `w`: in the loop, no callback
running. -/
def Sample.idleAt {W : Type} (clock : Nat → Int) (cfg : SamplingConfig) (j : Nat) (w : W) :
    SampleState W :=
  { status := SampleStatus.looping
    maxTime := clock 0 + sampleCeiling
    idx := j
    avgDt := Sample.avgDtAt clock 1 cfg.NumParallel j
    reads := 1 + 3 * j
    running := []
    world := w }

/-! ## comparability.go: fused multiply-add -/

/-- Go `x*y + z` evaluated as one fused multiply-add: the exact value of the product plus
`z`, rounded once. The exact value is taken in units of `2^(-2148)`. -/
def Float64.fma : Float64 → Float64 → Float64 → Float64
  | Float64.nan, _, _ => Float64.nan
  | _, Float64.nan, _ => Float64.nan
  | _, _, Float64.nan => Float64.nan
  | Float64.inf a, Float64.inf b, Float64.inf c =>
    if (a != b) = c then Float64.inf c else Float64.nan
  | Float64.inf a, Float64.inf b, Float64.fin _ _ => Float64.inf (a != b)
  | Float64.inf a, Float64.fin b k, Float64.inf c =>
    if k = 0 then Float64.nan else if (a != b) = c then Float64.inf c else Float64.nan
  | Float64.inf a, Float64.fin b k, Float64.fin _ _ =>
    if k = 0 then Float64.nan else Float64.inf (a != b)
  | Float64.fin a m, Float64.inf b, Float64.inf c =>
    if m = 0 then Float64.nan else if (a != b) = c then Float64.inf c else Float64.nan
  | Float64.fin a m, Float64.inf b, Float64.fin _ _ =>
    if m = 0 then Float64.nan else Float64.inf (a != b)
  | Float64.fin _ _, Float64.fin _ _, Float64.inf c => Float64.inf c
  | Float64.fin a m, Float64.fin b k, Float64.fin c n =>
    if Float64.sint (a != b) (m * k) + Float64.sint c (n * 2 ^ 1074) = 0 then
      Float64.fin ((a != b) && c) 0
    else
      Float64.round
        (decide (Float64.sint (a != b) (m * k) + Float64.sint c (n * 2 ^ 1074) < 0))
        (Float64.sint (a != b) (m * k) + Float64.sint c (n * 2 ^ 1074)).natAbs (2 ^ 1074)

/-- How a build evaluates the sum `σA*σA + σB*σB` of `ComputeStatsZScore`. The Go
specification lets an implementation fuse `x*y + z` into one operation that rounds once:
`none` is a build that rounds each of the three operations (the default for amd64),
`first` one that fuses the first product into the addition, `second` one that fuses the
second product (the compiler does either on arm64, ppc64, s390x, riscv64 and on amd64
with GOAMD64=v3). -/
inductive Fusion where
  | none
  | first
  | second
  deriving DecidableEq, Repr

/-- The sum `x*x + y*y` as the build evaluates it. -/
def Fusion.sumOfSquares (fusion : Fusion) (x y : Float64) : Float64 :=
  match fusion with
  | Fusion.none => Float64.add (Float64.mul x x) (Float64.mul y y)
  | Fusion.first => Float64.fma x x (Float64.mul y y)
  | Fusion.second => Float64.fma y y (Float64.mul x x)

/-- The function `ComputeStatsZScore` of comparability.go as a build with the given
fusion evaluates it; `ComputeStatsZScore` is the one without fusion. -/
def ComputeStatsZScoreWith (fusion : Fusion) (a b : Stats) : Float64 × Option ZScoreError :=
  if a.StatsType ≠ b.StatsType then
    (Float64.zero, some (ZScoreError.typeMismatch a.StatsType b.StatsType))
  else if a.N = 0 ∨ b.N = 0 then (Float64.zero, some ZScoreError.empty)
  else
    (Float64.div (Float64.abs (Float64.sub (a.FloatFor StatMean) (b.FloatFor StatMean)))
      (Float64.sqrt (fusion.sumOfSquares a.stdErr b.stdErr)), none)

/-- A distribution of one sample with Mean 1 and StdDev 0.2. -/
def fifthSpread : Stats :=
  summaryStats 1 (Float64.ofInt 1) (Float64.div (Float64.ofInt 1) (Float64.ofInt 5))

/-- A distribution of one sample with Mean 1 and StdDev 0. -/
def noSpread : Stats := summaryStats 1 (Float64.ofInt 1) Float64.zero

/-- A distribution of one sample with Mean 0 and StdDev 0.5. -/
def halfSpread : Stats :=
  summaryStats 1 (Float64.ofInt 0) (Float64.div (Float64.ofInt 1) (Float64.ofInt 2))

/-! # Properties -/
/-! ## Lookup by name -/

theorem IdxWithName_eq_none (l : List LogEntry) (name : String) :
    IdxWithName l name = none ↔ ∀ entry ∈ l, entry.Name ≠ name := by
  induction l with
  | nil => simp [IdxWithName]
  | cons x rest ih =>
    by_cases hx : x.Name = name
    · simp [IdxWithName, hx]
    · simp [IdxWithName, hx, ih]

theorem IdxWithName_eq_some (l : List LogEntry) (name : String) (i : Nat) :
    IdxWithName l name = some i ↔
      ∃ entry, l[i]? = some entry ∧ entry.Name = name ∧
        ∀ j, j < i → ∀ other, l[j]? = some other → other.Name ≠ name := by
  induction l generalizing i with
  | nil => simp [IdxWithName]
  | cons x rest ih =>
    by_cases hx : x.Name = name
    · simp only [IdxWithName, hx, if_true]
      constructor
      · intro h
        cases h
        exact ⟨x, by simp, hx, by intro j hj; omega⟩
      · rintro ⟨entry, _, _, hfirst⟩
        cases i with
        | zero => rfl
        | succ k => exact absurd hx (hfirst 0 (by omega) x (by simp))
    · simp only [IdxWithName, hx, if_false, Option.map_eq_some']
      constructor
      · rintro ⟨k, hk, rfl⟩
        obtain ⟨entry, h1, h2, h3⟩ := (ih k).1 hk
        refine ⟨entry, by simpa using h1, h2, ?_⟩
        intro j hj other hother
        cases j with
        | zero =>
          simp at hother
          subst hother
          exact hx
        | succ j2 => exact h3 j2 (by omega) other (by simpa using hother)
      · rintro ⟨entry, h1, h2, h3⟩
        cases i with
        | zero =>
          simp at h1
          subst h1
          exact absurd h2 hx
        | succ k =>
          refine ⟨k, (ih k).2 ⟨entry, by simpa using h1, h2, ?_⟩, rfl⟩
          intro j hj other hother
          exact h3 (j + 1) (by omega) other (by simpa using hother)

theorem IdxWithName_append_single (l : List LogEntry) (x : LogEntry) (name : String) :
    IdxWithName (l ++ [x]) name =
      match IdxWithName l name with
      | some i => some i
      | none => if x.Name = name then some l.length else none := by
  induction l with
  | nil => simp [IdxWithName]
  | cons y rest ih =>
    by_cases hy : y.Name = name
    · simp [IdxWithName, hy]
    · have hstep : IdxWithName (y :: rest ++ [x]) name =
          (IdxWithName (rest ++ [x]) name).map (fun i => i + 1) := by
        simp [IdxWithName, hy]
      have hstep2 : IdxWithName (y :: rest) name =
          (IdxWithName rest name).map (fun i => i + 1) := by
        simp [IdxWithName, hy]
      rw [hstep, hstep2, ih]
      cases IdxWithName rest name with
      | some i => simp
      | none =>
        by_cases hx : x.Name = name <;> simp [hx]

theorem IdxWithName_names (l l2 : List LogEntry) (name : String)
    (h : l.map LogEntry.Name = l2.map LogEntry.Name) :
    IdxWithName l name = IdxWithName l2 name := by
  induction l generalizing l2 with
  | nil =>
    cases l2 with
    | nil => rfl
    | cons _ _ => simp at h
  | cons x rest ih =>
    cases l2 with
    | nil => simp at h
    | cons y rest2 =>
      simp only [List.map_cons, List.cons.injEq] at h
      simp [IdxWithName, h.1, ih rest2 h.2]

theorem map_Name_set (l : List LogEntry) (i : Nat) (entry entry2 : LogEntry)
    (h : l[i]? = some entry) (hn : entry2.Name = entry.Name) :
    (l.set i entry2).map LogEntry.Name = l.map LogEntry.Name := by
  induction l generalizing i with
  | nil => simp
  | cons x rest ih =>
    cases i with
    | zero =>
      simp at h
      subst h
      simp [hn]
    | succ k =>
      simp only [List.set_cons_succ, List.map_cons, List.cons.injEq, true_and]
      exact ih k (by simpa using h)

/-! ## One recording call -/

theorem IdxWithName_getElem (l : List LogEntry) (name : String) (idx : Nat)
    (h : IdxWithName l name = some idx) : ∃ entry, l[idx]? = some entry ∧ entry.Name = name := by
  obtain ⟨entry, h1, h2, _⟩ := (IdxWithName_eq_some l name idx).1 h
  exact ⟨entry, h1, h2⟩

theorem recordValue_new (e : Experiment) (name : String) (v : Float64)
    (d : extractedDecorations) (h : IdxWithName e.LogEntries name = none) :
    e.recordValue name v d =
      Result.ok { e with LogEntries := e.LogEntries ++ [LogEntry.newValue e.Name name v d] } := by
  simp [Experiment.recordValue, h]

theorem recordValue_old (e : Experiment) (name : String) (v : Float64)
    (d : extractedDecorations) (idx : Nat) (entry : LogEntry)
    (h : IdxWithName e.LogEntries name = some idx) (hentry : e.LogEntries[idx]? = some entry) :
    e.recordValue name v d =
      if entry.Type_ ≠ LogEntryTypeValue then Result.panic e
      else Result.ok { e with
        LogEntries := e.LogEntries.set idx (entry.appendValue v d.annotation) } := by
  simp [Experiment.recordValue, h, hentry]

theorem recordDuration_new (e : Experiment) (name : String) (v : Int)
    (d : extractedDecorations) (h : IdxWithName e.LogEntries name = none) :
    e.recordDuration name v d =
      Result.ok { e with
        LogEntries := e.LogEntries ++ [LogEntry.newDuration e.Name name v d] } := by
  simp [Experiment.recordDuration, h]

theorem recordDuration_old (e : Experiment) (name : String) (v : Int)
    (d : extractedDecorations) (idx : Nat) (entry : LogEntry)
    (h : IdxWithName e.LogEntries name = some idx) (hentry : e.LogEntries[idx]? = some entry) :
    e.recordDuration name v d =
      if entry.Type_ ≠ LogEntryTypeDuration then Result.panic e
      else Result.ok { e with
        LogEntries := e.LogEntries.set idx (entry.appendDuration v d.annotation) } := by
  simp [Experiment.recordDuration, h, hentry]

theorem change_recordValue (e : Experiment) (name : String) (v : Float64)
    (d : extractedDecorations) :
    Change e.LogEntries (e.recordValue name v d).state.LogEntries := by
  cases h : IdxWithName e.LogEntries name with
  | none =>
    rw [recordValue_new e name v d h]
    exact Change.push _ (fun _ => h) (by simp [LogEntry.Parallel, LogEntry.newValue])
  | some idx =>
    obtain ⟨entry, hentry, _⟩ := IdxWithName_getElem _ _ _ h
    rw [recordValue_old e name v d idx entry h hentry]
    by_cases ht : entry.Type_ = LogEntryTypeValue
    · simp only [ht, ne_eq, not_true_eq_false, if_false, Result.state]
      refine Change.update idx entry _ hentry rfl rfl ?_
      intro hp
      have := hp.1 ht
      simp [LogEntry.Parallel, LogEntry.appendValue, ht, this]
    · simp only [ht, ne_eq, not_false_eq_true, if_true, Result.state]
      exact Change.same

theorem change_recordDuration (e : Experiment) (name : String) (v : Int)
    (d : extractedDecorations) :
    Change e.LogEntries (e.recordDuration name v d).state.LogEntries := by
  cases h : IdxWithName e.LogEntries name with
  | none =>
    rw [recordDuration_new e name v d h]
    exact Change.push _ (fun _ => h) (by simp [LogEntry.Parallel, LogEntry.newDuration])
  | some idx =>
    obtain ⟨entry, hentry, _⟩ := IdxWithName_getElem _ _ _ h
    rw [recordDuration_old e name v d idx entry h hentry]
    by_cases ht : entry.Type_ = LogEntryTypeDuration
    · simp only [ht, ne_eq, not_true_eq_false, if_false, Result.state]
      refine Change.update idx entry _ hentry rfl rfl ?_
      intro hp
      have := hp.2 ht
      simp [LogEntry.Parallel, LogEntry.appendDuration, ht, this]
    · simp only [ht, ne_eq, not_false_eq_true, if_true, Result.state]
      exact Change.same

theorem change_RecordValue (e : Experiment) (name : String) (v : Float64) (args : List Arg) :
    Change e.LogEntries (e.RecordValue name v args).state.LogEntries := by
  unfold Experiment.RecordValue
  cases extractDecorations args with
  | none => exact Change.same
  | some d => exact change_recordValue e name v d

theorem change_RecordDuration (e : Experiment) (name : String) (v : Int) (args : List Arg) :
    Change e.LogEntries (e.RecordDuration name v args).state.LogEntries := by
  unfold Experiment.RecordDuration
  cases extractDecorations args with
  | none => exact Change.same
  | some d => exact change_recordDuration e name v d

theorem change_RecordNote (e : Experiment) (note : String) (args : List Arg) :
    Change e.LogEntries (e.RecordNote note args).state.LogEntries := by
  unfold Experiment.RecordNote
  cases extractDecorations args with
  | none => exact Change.same
  | some d =>
    refine Change.push _ ?_ (by simp [LogEntry.Parallel, LogEntry.newNote])
    intro hs
    simp [LogEntry.isSeries, LogEntry.newNote] at hs

/-- A change keeps every entry in its place, with its name and its kind. -/
theorem change_keeps (l l2 : List LogEntry) (h : Change l l2) (i : Nat) (entry : LogEntry)
    (hentry : l[i]? = some entry) :
    ∃ entry2, l2[i]? = some entry2 ∧ entry2.Type_ = entry.Type_ ∧ entry2.Name = entry.Name := by
  cases h with
  | same => exact ⟨entry, hentry, rfl, rfl⟩
  | push x _ _ =>
    refine ⟨entry, ?_, rfl, rfl⟩
    have hi : i < l.length := (List.getElem?_eq_some.1 hentry).1
    rw [List.getElem?_append_left hi]
    exact hentry
  | update idx old new hold hn ht _ =>
    by_cases hij : idx = i
    · subst hij
      rw [hold] at hentry
      cases hentry
      have hi : idx < l.length := (List.getElem?_eq_some.1 hold).1
      exact ⟨new, by simp [hi], ht, hn⟩
    · exact ⟨entry, by simp [List.getElem?_set, hij, hentry], rfl, rfl⟩

/-- A change keeps every name that was bound at the index it was bound to. -/
theorem change_IdxWithName (l l2 : List LogEntry) (h : Change l l2) (name : String) (i : Nat)
    (hi : IdxWithName l name = some i) : IdxWithName l2 name = some i := by
  cases h with
  | same => exact hi
  | push x _ _ => rw [IdxWithName_append_single, hi]
  | update idx old new hold hn ht _ =>
    rw [IdxWithName_names _ l name (map_Name_set l idx old new hold hn)]
    exact hi

theorem steps_trans_keeps (e e2 : Experiment) (h : Steps e e2) :
    (∀ (i : Nat) (entry : LogEntry), e.LogEntries[i]? = some entry →
      ∃ entry2 : LogEntry, e2.LogEntries[i]? = some entry2 ∧ entry2.Type_ = entry.Type_ ∧
        entry2.Name = entry.Name) ∧
    (∀ (name : String) (i : Nat), IdxWithName e.LogEntries name = some i →
      IdxWithName e2.LogEntries name = some i) := by
  induction h with
  | refl => exact ⟨fun i entry h => ⟨entry, h, rfl, rfl⟩, fun _ _ h => h⟩
  | note e2 note args _ ih =>
    refine ⟨fun i entry h => ?_, fun name i h => ?_⟩
    · obtain ⟨m, hm, ht, hn⟩ := ih.1 i entry h
      obtain ⟨m2, hm2, ht2, hn2⟩ := change_keeps _ _ (change_RecordNote e2 note args) i m hm
      exact ⟨m2, hm2, ht2.trans ht, hn2.trans hn⟩
    · exact change_IdxWithName _ _ (change_RecordNote e2 note args) name i (ih.2 name i h)
  | value e2 n v args _ ih =>
    refine ⟨fun i entry h => ?_, fun name i h => ?_⟩
    · obtain ⟨m, hm, ht, hn⟩ := ih.1 i entry h
      obtain ⟨m2, hm2, ht2, hn2⟩ := change_keeps _ _ (change_RecordValue e2 n v args) i m hm
      exact ⟨m2, hm2, ht2.trans ht, hn2.trans hn⟩
    · exact change_IdxWithName _ _ (change_RecordValue e2 n v args) name i (ih.2 name i h)
  | duration e2 n v args _ ih =>
    refine ⟨fun i entry h => ?_, fun name i h => ?_⟩
    · obtain ⟨m, hm, ht, hn⟩ := ih.1 i entry h
      obtain ⟨m2, hm2, ht2, hn2⟩ := change_keeps _ _ (change_RecordDuration e2 n v args) i m hm
      exact ⟨m2, hm2, ht2.trans ht, hn2.trans hn⟩
    · exact change_IdxWithName _ _ (change_RecordDuration e2 n v args) name i (ih.2 name i h)

theorem change_consistent (l l2 : List LogEntry) (h : Change l l2) (hc : Consistent l) :
    Consistent l2 := by
  cases h with
  | same => exact hc
  | push x hx hp =>
    intro i entry hentry
    by_cases hi : i < l.length
    · rw [List.getElem?_append_left hi] at hentry
      refine ⟨fun hs => ?_, (hc i entry hentry).2⟩
      rw [IdxWithName_append_single, (hc i entry hentry).1 hs]
    · have hlen : i = l.length := by
        have := (List.getElem?_eq_some.1 hentry).1
        simp at this
        omega
      subst hlen
      simp at hentry
      subst hentry
      refine ⟨fun hs => ?_, hp⟩
      rw [IdxWithName_append_single, hx hs]
      simp
  | update idx old new hold hn ht hp =>
    intro i entry hentry
    have hnames := map_Name_set l idx old new hold hn
    rw [IdxWithName_names _ l entry.Name hnames]
    by_cases hij : idx = i
    · subst hij
      have hi : idx < l.length := (List.getElem?_eq_some.1 hold).1
      simp [hi] at hentry
      subst hentry
      refine ⟨fun hs => ?_, hp (hc idx old hold).2⟩
      rw [hn]
      apply (hc idx old hold).1
      unfold LogEntry.isSeries at hs ⊢
      rw [← ht]
      exact hs
    · have : l[i]? = some entry := by
        simpa [List.getElem?_set, hij] using hentry
      exact hc i entry this

theorem steps_consistent (e e2 : Experiment) (h : Steps e e2) (hc : Consistent e.LogEntries) :
    Consistent e2.LogEntries := by
  induction h with
  | refl => exact hc
  | note e2 note args _ ih => exact change_consistent _ _ (change_RecordNote e2 note args) ih
  | value e2 n v args _ ih => exact change_consistent _ _ (change_RecordValue e2 n v args) ih
  | duration e2 n v args _ ih =>
    exact change_consistent _ _ (change_RecordDuration e2 n v args) ih

theorem reachable_consistent (e : Experiment) (h : Reachable e) : Consistent e.LogEntries := by
  obtain ⟨name, hsteps⟩ := h
  apply steps_consistent _ _ hsteps
  intro i entry hentry
  simp [NewExperiment] at hentry

theorem Get_bound (e : Experiment) (name : String) (idx : Nat) (entry : LogEntry)
    (h : IdxWithName e.LogEntries name = some idx) (hentry : e.LogEntries[idx]? = some entry) :
    e.Get name = entry := by
  have hi : idx < e.LogEntries.length := (List.getElem?_eq_some.1 hentry).1
  have : e.LogEntries[idx] = entry := by
    rw [List.getElem?_eq_getElem hi] at hentry
    exact Option.some.inj hentry
  simp [Experiment.Get, h, List.getD_eq_getElem?_getD, hi, this]

theorem Get_unbound (e : Experiment) (name : String)
    (h : IdxWithName e.LogEntries name = none) : e.Get name = LogEntry.empty := by
  simp [Experiment.Get, h]

theorem Get_type_bound (e : Experiment) (name : String)
    (h : (e.Get name).Type_ ≠ LogEntryTypeInvalid) :
    ∃ idx, IdxWithName e.LogEntries name = some idx ∧ e.LogEntries[idx]? = some (e.Get name) := by
  cases hidx : IdxWithName e.LogEntries name with
  | none =>
    rw [Get_unbound e name hidx] at h
    exact absurd rfl h
  | some idx =>
    obtain ⟨entry, hentry, _⟩ := IdxWithName_getElem _ _ _ hidx
    exact ⟨idx, rfl, by rw [Get_bound e name idx entry hidx hentry]; exact hentry⟩

theorem RecordValue_wrong_kind (e : Experiment) (name : String) (v : Float64) (args : List Arg)
    (h : (e.Get name).Type_ ≠ LogEntryTypeInvalid) (h2 : (e.Get name).Type_ ≠ LogEntryTypeValue) :
    e.RecordValue name v args = Result.panic e := by
  obtain ⟨idx, hidx, hentry⟩ := Get_type_bound e name h
  unfold Experiment.RecordValue
  cases extractDecorations args with
  | none => rfl
  | some d =>
    simp only
    rw [recordValue_old e name v d idx _ hidx hentry]
    simp [h2]

theorem RecordDuration_wrong_kind (e : Experiment) (name : String) (v : Int) (args : List Arg)
    (h : (e.Get name).Type_ ≠ LogEntryTypeInvalid)
    (h2 : (e.Get name).Type_ ≠ LogEntryTypeDuration) :
    e.RecordDuration name v args = Result.panic e := by
  obtain ⟨idx, hidx, hentry⟩ := Get_type_bound e name h
  unfold Experiment.RecordDuration
  cases extractDecorations args with
  | none => rfl
  | some d =>
    simp only
    rw [recordDuration_old e name v d idx _ hidx hentry]
    simp [h2]

theorem Get_series_of_reachable (e : Experiment) (h : Reachable e) (entry : LogEntry)
    (hmem : entry ∈ e.LogEntries) (hs : entry.isSeries) : e.Get entry.Name = entry := by
  obtain ⟨i, hi⟩ := List.getElem?_of_mem hmem
  exact Get_bound e entry.Name i entry ((reachable_consistent e h i entry hi).1 hs) hi

/-- C5: recording a value under a name that holds a Duration-series, and recording a
duration under a name that holds a Value-series, aborts and leaves the experiment exactly
as it was. A name holds the entry that `Get` returns for it; in a reachable experiment
that is every series entry of that name. -/
theorem C5_wrong_kind_aborts_unchanged (e : Experiment) (name : String) (v : Float64)
    (dur : Int) (args : List Arg) :
    ((e.Get name).Type_ = LogEntryTypeDuration →
      e.RecordValue name v args = Result.panic e) ∧
    ((e.Get name).Type_ = LogEntryTypeValue →
      e.RecordDuration name dur args = Result.panic e) ∧
    (Reachable e → ∀ entry ∈ e.LogEntries,
      (entry.Type_ = LogEntryTypeDuration →
        e.RecordValue entry.Name v args = Result.panic e) ∧
      (entry.Type_ = LogEntryTypeValue →
        e.RecordDuration entry.Name dur args = Result.panic e)) := by
  refine ⟨fun h => ?_, fun h => ?_, fun hr entry hmem => ⟨fun h => ?_, fun h => ?_⟩⟩
  · exact RecordValue_wrong_kind e name v args (by simp [h]) (by simp [h])
  · exact RecordDuration_wrong_kind e name dur args (by simp [h]) (by simp [h])
  · have hg := Get_series_of_reachable e hr entry hmem (Or.inr h)
    exact RecordValue_wrong_kind e entry.Name v args (by simp [hg, h]) (by simp [hg, h])
  · have hg := Get_series_of_reachable e hr entry hmem (Or.inl h)
    exact RecordDuration_wrong_kind e entry.Name dur args (by simp [hg, h]) (by simp [hg, h])

theorem sampleExperiment_reachable : Reachable sampleExperiment :=
  ⟨"bench", Steps.value _ _ _ _ _ (Steps.duration _ _ _ _ _ (Steps.refl _))⟩

set_option exponentiation.threshold 4096 in
set_option maxRecDepth 100000 in
/-- C5 at the experiment `sampleExperiment`: a value under "load" and a duration under
"size" abort and change nothing, also when the name is taken from the entry itself. -/
theorem C5_witness :
    sampleExperiment.RecordValue "load" (Float64.ofInt 1) [] = Result.panic sampleExperiment ∧
    sampleExperiment.RecordDuration "size" 7 [] = Result.panic sampleExperiment ∧
    sampleExperiment.RecordValue (sampleExperiment.Get "load").Name (Float64.ofInt 1) [] =
      Result.panic sampleExperiment :=
  ⟨(C5_wrong_kind_aborts_unchanged sampleExperiment "load" (Float64.ofInt 1) 7 []).1
      (by decide),
   (C5_wrong_kind_aborts_unchanged sampleExperiment "size" (Float64.ofInt 1) 7 []).2.1
      (by decide),
   ((C5_wrong_kind_aborts_unchanged sampleExperiment "load" (Float64.ofInt 1) 7 []).2.2
      sampleExperiment_reachable (sampleExperiment.Get "load") (by decide)).1 (by decide)⟩

theorem RecordValue_ok (e e2 : Experiment) (name : String) (v : Float64) (args : List Arg)
    (h : e.RecordValue name v args = Result.ok e2) :
    ∃ d, extractDecorations args = some d ∧
      ((IdxWithName e.LogEntries name = none ∧
          e2 = { e with LogEntries := e.LogEntries ++ [LogEntry.newValue e.Name name v d] }) ∨
       (∃ idx entry, IdxWithName e.LogEntries name = some idx ∧
          e.LogEntries[idx]? = some entry ∧ entry.Type_ = LogEntryTypeValue ∧
          e2 = { e with
            LogEntries := e.LogEntries.set idx (entry.appendValue v d.annotation) })) := by
  unfold Experiment.RecordValue at h
  cases hd : extractDecorations args with
  | none => simp [hd] at h
  | some d =>
    simp only [hd] at h
    refine ⟨d, rfl, ?_⟩
    cases hidx : IdxWithName e.LogEntries name with
    | none =>
      rw [recordValue_new e name v d hidx] at h
      exact Or.inl ⟨rfl, (Result.ok.inj h).symm⟩
    | some idx =>
      obtain ⟨entry, hentry, _⟩ := IdxWithName_getElem _ _ _ hidx
      rw [recordValue_old e name v d idx entry hidx hentry] at h
      by_cases ht : entry.Type_ = LogEntryTypeValue
      · simp only [ht, ne_eq, not_true_eq_false, if_false] at h
        exact Or.inr ⟨idx, entry, rfl, hentry, ht, (Result.ok.inj h).symm⟩
      · simp [ht] at h

theorem RecordDuration_ok (e e2 : Experiment) (name : String) (v : Int) (args : List Arg)
    (h : e.RecordDuration name v args = Result.ok e2) :
    ∃ d, extractDecorations args = some d ∧
      ((IdxWithName e.LogEntries name = none ∧
          e2 = { e with
            LogEntries := e.LogEntries ++ [LogEntry.newDuration e.Name name v d] }) ∨
       (∃ idx entry, IdxWithName e.LogEntries name = some idx ∧
          e.LogEntries[idx]? = some entry ∧ entry.Type_ = LogEntryTypeDuration ∧
          e2 = { e with
            LogEntries := e.LogEntries.set idx (entry.appendDuration v d.annotation) })) := by
  unfold Experiment.RecordDuration at h
  cases hd : extractDecorations args with
  | none => simp [hd] at h
  | some d =>
    simp only [hd] at h
    refine ⟨d, rfl, ?_⟩
    cases hidx : IdxWithName e.LogEntries name with
    | none =>
      rw [recordDuration_new e name v d hidx] at h
      exact Or.inl ⟨rfl, (Result.ok.inj h).symm⟩
    | some idx =>
      obtain ⟨entry, hentry, _⟩ := IdxWithName_getElem _ _ _ hidx
      rw [recordDuration_old e name v d idx entry hidx hentry] at h
      by_cases ht : entry.Type_ = LogEntryTypeDuration
      · simp only [ht, ne_eq, not_true_eq_false, if_false] at h
        exact Or.inr ⟨idx, entry, rfl, hentry, ht, (Result.ok.inj h).symm⟩
      · simp [ht] at h

theorem RecordValue_free (e : Experiment) (name : String) (v : Float64) (args : List Arg)
    (hargs : extractDecorations args ≠ none)
    (h : IdxWithName e.LogEntries name = none ∨ (e.Get name).Type_ = LogEntryTypeValue) :
    ∃ e2, e.RecordValue name v args = Result.ok e2 ∧
      (e2.Get name).Type_ = LogEntryTypeValue ∧
      (e2.Get name).Values = (e.Get name).Values ++ [v] ∧
      (e2.Get name).Annotations = (e.Get name).Annotations ++ [annotationOf args] := by
  obtain ⟨d, hd⟩ := Option.ne_none_iff_exists'.1 hargs
  cases hidx : IdxWithName e.LogEntries name with
  | none =>
    refine ⟨_, by simp only [Experiment.RecordValue, hd]; exact recordValue_new e name v d hidx,
      ?_⟩
    have hnew : IdxWithName (e.LogEntries ++ [LogEntry.newValue e.Name name v d]) name =
        some e.LogEntries.length := by
      rw [IdxWithName_append_single, hidx]
      simp [LogEntry.newValue]
    rw [Get_bound _ name _ (LogEntry.newValue e.Name name v d) hnew (by simp),
      Get_unbound e name hidx]
    simp [LogEntry.newValue, LogEntry.empty, annotationOf, hd]
  | some idx =>
    obtain ⟨entry, hentry, _⟩ := IdxWithName_getElem _ _ _ hidx
    have hg := Get_bound e name idx entry hidx hentry
    have ht : entry.Type_ = LogEntryTypeValue := by
      rcases h with h | h
      · rw [hidx] at h
        cases h
      · rw [← hg]
        exact h
    have hi : idx < e.LogEntries.length := (List.getElem?_eq_some.1 hentry).1
    refine ⟨{ e with LogEntries := e.LogEntries.set idx (entry.appendValue v d.annotation) },
      ?_, ?_⟩
    · simp only [Experiment.RecordValue, hd]
      rw [recordValue_old e name v d idx entry hidx hentry]
      simp [ht]
    · have hset : IdxWithName (e.LogEntries.set idx (entry.appendValue v d.annotation)) name =
          some idx := by
        rw [IdxWithName_names _ e.LogEntries name
          (map_Name_set e.LogEntries idx entry (entry.appendValue v d.annotation) hentry rfl)]
        exact hidx
      rw [Get_bound _ name idx (entry.appendValue v d.annotation) hset (by simp [hi]), hg]
      simp [LogEntry.appendValue, ht, annotationOf, hd]

theorem RecordDuration_free (e : Experiment) (name : String) (v : Int) (args : List Arg)
    (hargs : extractDecorations args ≠ none)
    (h : IdxWithName e.LogEntries name = none ∨ (e.Get name).Type_ = LogEntryTypeDuration) :
    ∃ e2, e.RecordDuration name v args = Result.ok e2 ∧
      (e2.Get name).Type_ = LogEntryTypeDuration ∧
      (e2.Get name).Durations = (e.Get name).Durations ++ [v] ∧
      (e2.Get name).Annotations = (e.Get name).Annotations ++ [annotationOf args] := by
  obtain ⟨d, hd⟩ := Option.ne_none_iff_exists'.1 hargs
  cases hidx : IdxWithName e.LogEntries name with
  | none =>
    refine ⟨_, by
      simp only [Experiment.RecordDuration, hd]; exact recordDuration_new e name v d hidx, ?_⟩
    have hnew : IdxWithName (e.LogEntries ++ [LogEntry.newDuration e.Name name v d]) name =
        some e.LogEntries.length := by
      rw [IdxWithName_append_single, hidx]
      simp [LogEntry.newDuration]
    rw [Get_bound _ name _ (LogEntry.newDuration e.Name name v d) hnew (by simp),
      Get_unbound e name hidx]
    simp [LogEntry.newDuration, LogEntry.empty, annotationOf, hd]
  | some idx =>
    obtain ⟨entry, hentry, _⟩ := IdxWithName_getElem _ _ _ hidx
    have hg := Get_bound e name idx entry hidx hentry
    have ht : entry.Type_ = LogEntryTypeDuration := by
      rcases h with h | h
      · rw [hidx] at h
        cases h
      · rw [← hg]
        exact h
    have hi : idx < e.LogEntries.length := (List.getElem?_eq_some.1 hentry).1
    refine ⟨{ e with LogEntries := e.LogEntries.set idx (entry.appendDuration v d.annotation) },
      ?_, ?_⟩
    · simp only [Experiment.RecordDuration, hd]
      rw [recordDuration_old e name v d idx entry hidx hentry]
      simp [ht]
    · have hset :
          IdxWithName (e.LogEntries.set idx (entry.appendDuration v d.annotation)) name =
            some idx := by
        rw [IdxWithName_names _ e.LogEntries name
          (map_Name_set e.LogEntries idx entry (entry.appendDuration v d.annotation) hentry
            rfl)]
        exact hidx
      rw [Get_bound _ name idx (entry.appendDuration v d.annotation) hset (by simp [hi]), hg]
      simp [LogEntry.appendDuration, ht, annotationOf, hd]

theorem RecordValues_free (name : String) (vs : List (Float64 × List Arg))
    (hargs : ∀ p ∈ vs, extractDecorations p.2 ≠ none) (e : Experiment)
    (h : IdxWithName e.LogEntries name = none ∨ (e.Get name).Type_ = LogEntryTypeValue) :
    ∃ e2, e.RecordValues name vs = Result.ok e2 ∧
      (e2.Get name).Values = (e.Get name).Values ++ vs.map (fun p => p.1) ∧
      (e2.Get name).Annotations =
        (e.Get name).Annotations ++ vs.map (fun p => annotationOf p.2) := by
  induction vs generalizing e with
  | nil => exact ⟨e, rfl, by simp, by simp⟩
  | cons p rest ih =>
    obtain ⟨e1, h1, ht, hv, ha⟩ :=
      RecordValue_free e name p.1 p.2 (hargs p (List.mem_cons_self _ _)) h
    obtain ⟨e2, h2, hv2, ha2⟩ :=
      ih (fun q hq => hargs q (List.mem_cons_of_mem _ hq)) e1 (Or.inr ht)
    refine ⟨e2, ?_, ?_, ?_⟩
    · simp only [Experiment.RecordValues, h1]
      exact h2
    · rw [hv2, hv]
      simp
    · rw [ha2, ha]
      simp

theorem RecordDurations_free (name : String) (vs : List (Int × List Arg))
    (hargs : ∀ p ∈ vs, extractDecorations p.2 ≠ none) (e : Experiment)
    (h : IdxWithName e.LogEntries name = none ∨ (e.Get name).Type_ = LogEntryTypeDuration) :
    ∃ e2, e.RecordDurations name vs = Result.ok e2 ∧
      (e2.Get name).Durations = (e.Get name).Durations ++ vs.map (fun p => p.1) ∧
      (e2.Get name).Annotations =
        (e.Get name).Annotations ++ vs.map (fun p => annotationOf p.2) := by
  induction vs generalizing e with
  | nil => exact ⟨e, rfl, by simp, by simp⟩
  | cons p rest ih =>
    obtain ⟨e1, h1, ht, hv, ha⟩ :=
      RecordDuration_free e name p.1 p.2 (hargs p (List.mem_cons_self _ _)) h
    obtain ⟨e2, h2, hv2, ha2⟩ :=
      ih (fun q hq => hargs q (List.mem_cons_of_mem _ hq)) e1 (Or.inr ht)
    refine ⟨e2, ?_, ?_, ?_⟩
    · simp only [Experiment.RecordDurations, h1]
      exact h2
    · rw [hv2, hv]
      simp
    · rw [ha2, ha]
      simp

theorem agreeExceptAt_set (l : List LogEntry) (idx : Nat) (x : LogEntry) :
    AgreeExceptAt l (l.set idx x) idx := by
  refine ⟨by simp, fun j hj => ?_⟩
  simp [List.getElem?_set, Ne.symm hj]

/-- C6: a successful `RecordValue` or `RecordDuration` either appends one new entry with
the one sample and its annotation at the end (no entry had the name), or appends the
sample and the annotation at the end of the entry of that name, which keeps its kind,
name, units, style and precision, all other entries staying in place unchanged. So
recordings under a name that is unbound, or bound to the right kind, succeed and extend
what `Get` returns by the recorded samples and annotations, in recording order. -/
theorem C6_record_appends_in_order (e e2 : Experiment) (name : String) (v : Float64)
    (dur : Int) (args : List Arg) (vs : List (Float64 × List Arg))
    (ds : List (Int × List Arg)) :
    (e.RecordValue name v args = Result.ok e2 →
      e2.Name = e.Name ∧ ∃ d, extractDecorations args = some d ∧
        ((IdxWithName e.LogEntries name = none ∧
          ∃ x : LogEntry, e2.LogEntries = e.LogEntries ++ [x] ∧
            x.Type_ = LogEntryTypeValue ∧ x.Name = name ∧ x.Values = [v] ∧
            x.Durations = [] ∧ x.Annotations = [ d.annotation] ∧ x.Units = d.units ∧
            x.Style = d.style ∧ x.PrecisionBundle = d.precisionBundle) ∨
         (∃ (idx : Nat) (entry entry2 : LogEntry),
            IdxWithName e.LogEntries name = some idx ∧ e.LogEntries[idx]? = some entry ∧
            entry.Type_ = LogEntryTypeValue ∧ e2.LogEntries[idx]? = some entry2 ∧
            AgreeExceptAt e.LogEntries e2.LogEntries idx ∧ entry2.SameHeader entry ∧
            entry2.Values = entry.Values ++ [v] ∧ entry2.Durations = entry.Durations ∧
            entry2.Annotations = entry.Annotations ++ [ d.annotation]))) ∧
    (e.RecordDuration name dur args = Result.ok e2 →
      e2.Name = e.Name ∧ ∃ d, extractDecorations args = some d ∧
        ((IdxWithName e.LogEntries name = none ∧
          ∃ x : LogEntry, e2.LogEntries = e.LogEntries ++ [x] ∧
            x.Type_ = LogEntryTypeDuration ∧ x.Name = name ∧ x.Durations = [dur] ∧
            x.Values = [] ∧ x.Annotations = [ d.annotation] ∧ x.Units = "duration" ∧
            x.Style = d.style ∧ x.PrecisionBundle = d.precisionBundle) ∨
         (∃ (idx : Nat) (entry entry2 : LogEntry),
            IdxWithName e.LogEntries name = some idx ∧ e.LogEntries[idx]? = some entry ∧
            entry.Type_ = LogEntryTypeDuration ∧ e2.LogEntries[idx]? = some entry2 ∧
            AgreeExceptAt e.LogEntries e2.LogEntries idx ∧ entry2.SameHeader entry ∧
            entry2.Durations = entry.Durations ++ [dur] ∧ entry2.Values = entry.Values ∧
            entry2.Annotations = entry.Annotations ++ [ d.annotation]))) ∧
    ((IdxWithName e.LogEntries name = none ∨ (e.Get name).Type_ = LogEntryTypeValue) →
      (∀ p ∈ vs, extractDecorations p.2 ≠ none) →
      ∃ e3, e.RecordValues name vs = Result.ok e3 ∧
        (e3.Get name).Values = (e.Get name).Values ++ vs.map (fun p => p.1) ∧
        (e3.Get name).Annotations =
          (e.Get name).Annotations ++ vs.map (fun p => annotationOf p.2)) ∧
    ((IdxWithName e.LogEntries name = none ∨ (e.Get name).Type_ = LogEntryTypeDuration) →
      (∀ p ∈ ds, extractDecorations p.2 ≠ none) →
      ∃ e3, e.RecordDurations name ds = Result.ok e3 ∧
        (e3.Get name).Durations = (e.Get name).Durations ++ ds.map (fun p => p.1) ∧
        (e3.Get name).Annotations =
          (e.Get name).Annotations ++ ds.map (fun p => annotationOf p.2)) := by
  refine ⟨fun h => ?_, fun h => ?_, fun h hargs => RecordValues_free name vs hargs e h,
    fun h hargs => RecordDurations_free name ds hargs e h⟩
  · obtain ⟨d, hd, hcase⟩ := RecordValue_ok e e2 name v args h
    rcases hcase with ⟨hidx, rfl⟩ | ⟨idx, entry, hidx, hentry, ht, rfl⟩
    · exact ⟨rfl, d, hd, Or.inl ⟨hidx, _, rfl, by simp [LogEntry.newValue, LogEntry.empty]⟩⟩
    · have hi : idx < e.LogEntries.length := (List.getElem?_eq_some.1 hentry).1
      exact ⟨rfl, d, hd, Or.inr ⟨idx, entry, entry.appendValue v d.annotation, hidx, hentry,
        ht, by simp [hi], agreeExceptAt_set _ _ _,
        by simp [LogEntry.SameHeader, LogEntry.appendValue], rfl, rfl, rfl⟩⟩
  · obtain ⟨d, hd, hcase⟩ := RecordDuration_ok e e2 name dur args h
    rcases hcase with ⟨hidx, rfl⟩ | ⟨idx, entry, hidx, hentry, ht, rfl⟩
    · exact ⟨rfl, d, hd,
        Or.inl ⟨hidx, _, rfl, by simp [LogEntry.newDuration, LogEntry.empty]⟩⟩
    · have hi : idx < e.LogEntries.length := (List.getElem?_eq_some.1 hentry).1
      exact ⟨rfl, d, hd, Or.inr ⟨idx, entry, entry.appendDuration dur d.annotation, hidx,
        hentry, ht, by simp [hi], agreeExceptAt_set _ _ _,
        by simp [LogEntry.SameHeader, LogEntry.appendDuration], rfl, rfl, rfl⟩⟩

set_option exponentiation.threshold 4096 in
set_option maxRecDepth 100000 in
/-- C6 at `sampleExperiment`: the values 1 and 2 recorded under "size", which holds the
value 3, leave the values 3, 1, 2 there, a first duration under "wait" succeeds, and a
successful call keeps the name of the experiment. -/
theorem C6_witness :
    (∃ e3, sampleExperiment.RecordValues "size"
        [(Float64.ofInt 1, []), (Float64.ofInt 2, [ Arg.annotation "last"])] = Result.ok e3 ∧
      (e3.Get "size").Values = [Float64.ofInt 3, Float64.ofInt 1, Float64.ofInt 2] ∧
      (e3.Get "size").Annotations = ["first", "", "last"]) ∧
    (∃ e3, sampleExperiment.RecordDurations "wait" [(9, [])] = Result.ok e3 ∧
      (e3.Get "wait").Durations = [9] ∧ (e3.Get "wait").Annotations = [""]) ∧
    (sampleExperiment.RecordValue "size" (Float64.ofInt 1) []).state.Name = "bench" ∧
    (sampleExperiment.RecordDuration "load" 6 []).state.Name = "bench" := by
  have h := C6_record_appends_in_order sampleExperiment
    (sampleExperiment.RecordValue "size" (Float64.ofInt 1) []).state "size"
    (Float64.ofInt 1) 0 []
    [(Float64.ofInt 1, []), (Float64.ofInt 2, [ Arg.annotation "last"])] []
  have h2 := C6_record_appends_in_order sampleExperiment
    (sampleExperiment.RecordDuration "load" 6 []).state "wait"
    (Float64.ofInt 1) 0 [] [] [(9, [])]
  have h3 := C6_record_appends_in_order sampleExperiment
    (sampleExperiment.RecordDuration "load" 6 []).state "load"
    (Float64.ofInt 1) 6 [] [] []
  refine ⟨?_, ?_, (h.1 (by decide)).1.trans (by decide), (h3.2.1 (by decide)).1.trans (by decide)⟩
  · obtain ⟨e3, h3, hv, ha⟩ := h.2.2.1 (Or.inr (by decide)) (by decide)
    exact ⟨e3, h3, by rw [hv]; decide, by rw [ha]; decide⟩
  · obtain ⟨e3, h3, hv, ha⟩ := h2.2.2.2 (Or.inl (by decide)) (by decide)
    exact ⟨e3, h3, by rw [hv]; decide, by rw [ha]; decide⟩

/-- C8: in a reachable experiment no two Value-series or Duration-series entries have the
same name; and whatever calls follow, every entry stays at its index with its kind and
its name, so a bound name keeps the kind it is bound to. -/
theorem C8_names_unique_kinds_fixed (e e2 : Experiment) :
    (Reachable e → ∀ (i j : Nat) (a b : LogEntry),
      e.LogEntries[i]? = some a → e.LogEntries[j]? = some b →
      a.isSeries → b.isSeries → a.Name = b.Name → i = j) ∧
    (Steps e e2 → ∀ (i : Nat) (entry : LogEntry), e.LogEntries[i]? = some entry →
      ∃ entry2 : LogEntry, e2.LogEntries[i]? = some entry2 ∧
        entry2.Type_ = entry.Type_ ∧ entry2.Name = entry.Name) ∧
    (Steps e e2 → ∀ name : String, IdxWithName e.LogEntries name ≠ none →
      (e2.Get name).Type_ = (e.Get name).Type_) := by
  refine ⟨fun hr i j a b ha hb hsa hsb hname => ?_, fun hs => (steps_trans_keeps e e2 hs).1,
    fun hs name hbound => ?_⟩
  · have h1 := (reachable_consistent e hr i a ha).1 hsa
    have h2 := (reachable_consistent e hr j b hb).1 hsb
    rw [hname, h2] at h1
    exact (Option.some.inj h1).symm
  · obtain ⟨idx, hidx⟩ := Option.ne_none_iff_exists'.1 hbound
    obtain ⟨entry, hentry, _⟩ := IdxWithName_getElem _ _ _ hidx
    obtain ⟨entry2, hentry2, ht, _⟩ := (steps_trans_keeps e e2 hs).1 idx entry hentry
    rw [Get_bound e name idx entry hidx hentry,
      Get_bound e2 name idx entry2 ((steps_trans_keeps e e2 hs).2 name idx hidx) hentry2]
    exact ht

set_option exponentiation.threshold 4096 in
set_option maxRecDepth 100000 in
/-- C8 at `sampleExperiment`: its two series have different names, and after a note and a
further duration "load" is still a Duration-series. -/
theorem C8_witness :
    (∀ (i j : Nat) (a b : LogEntry),
      sampleExperiment.LogEntries[i]? = some a → sampleExperiment.LogEntries[j]? = some b →
      a.isSeries → b.isSeries → a.Name = b.Name → i = j) ∧
    (((sampleExperiment.RecordNote "n" []).state.RecordDuration "load" 8 []).state.Get
      "load").Type_ = LogEntryTypeDuration :=
  ⟨(C8_names_unique_kinds_fixed sampleExperiment sampleExperiment).1
      sampleExperiment_reachable,
   ((C8_names_unique_kinds_fixed sampleExperiment
      ((sampleExperiment.RecordNote "n" []).state.RecordDuration "load" 8 []).state).2.2
      (Steps.duration _ _ _ _ _ (Steps.note _ _ _ _ (Steps.refl _))) "load"
      (by decide)).trans (by decide)⟩

/-- A note has the empty name, so it leaves the lookup of every other name as it was. -/
theorem IdxWithName_after_note (e : Experiment) (note : String) (args : List Arg)
    (name : String) (hname : name ≠ "") :
    IdxWithName (e.RecordNote note args).state.LogEntries name =
      IdxWithName e.LogEntries name := by
  unfold Experiment.RecordNote
  cases extractDecorations args with
  | none => rfl
  | some d =>
    simp only [Result.state]
    rw [IdxWithName_append_single]
    cases IdxWithName e.LogEntries name with
    | some i => rfl
    | none => simp [LogEntry.newNote, LogEntry.empty, Ne.symm hname]

theorem getElem_after_note (e : Experiment) (note : String) (args : List Arg) (idx : Nat)
    (hi : idx < e.LogEntries.length) :
    (e.RecordNote note args).state.LogEntries[idx]? = e.LogEntries[idx]? := by
  unfold Experiment.RecordNote
  cases extractDecorations args with
  | none => rfl
  | some d =>
    simp only [Result.state]
    exact List.getElem?_append_left hi

/-- For every name but the empty one, a note does not change whether the next recording
under that name aborts. -/
theorem note_keeps_outcome_of_named (e : Experiment) (note : String) (nargs : List Arg)
    (name : String) (hname : name ≠ "") (v : Float64) (dur : Int) (args : List Arg) :
    (((e.RecordNote note nargs).state.RecordValue name v args).panicked =
      (e.RecordValue name v args).panicked) ∧
    (((e.RecordNote note nargs).state.RecordDuration name dur args).panicked =
      (e.RecordDuration name dur args).panicked) := by
  have hidx := IdxWithName_after_note e note nargs name hname
  constructor
  · unfold Experiment.RecordValue
    cases extractDecorations args with
    | none => rfl
    | some d =>
      simp only
      cases h : IdxWithName e.LogEntries name with
      | none =>
        rw [recordValue_new e name v d h, recordValue_new _ name v d (hidx.trans h)]
        rfl
      | some idx =>
        obtain ⟨entry, hentry, _⟩ := IdxWithName_getElem _ _ _ h
        have hi : idx < e.LogEntries.length := (List.getElem?_eq_some.1 hentry).1
        rw [recordValue_old e name v d idx entry h hentry,
          recordValue_old _ name v d idx entry (hidx.trans h)
            ((getElem_after_note e note nargs idx hi).trans hentry)]
        by_cases ht : entry.Type_ = LogEntryTypeValue <;> simp [ht, Result.panicked]
  · unfold Experiment.RecordDuration
    cases extractDecorations args with
    | none => rfl
    | some d =>
      simp only
      cases h : IdxWithName e.LogEntries name with
      | none =>
        rw [recordDuration_new e name dur d h, recordDuration_new _ name dur d (hidx.trans h)]
        rfl
      | some idx =>
        obtain ⟨entry, hentry, _⟩ := IdxWithName_getElem _ _ _ h
        have hi : idx < e.LogEntries.length := (List.getElem?_eq_some.1 hentry).1
        rw [recordDuration_old e name dur d idx entry h hentry,
          recordDuration_old _ name dur d idx entry (hidx.trans h)
            ((getElem_after_note e note nargs idx hi).trans hentry)]
        by_cases ht : entry.Type_ = LogEntryTypeDuration <;> simp [ht, Result.panicked]

set_option exponentiation.threshold 4096 in
set_option maxRecDepth 100000 in
/-- C9 fails for the empty name: in a new experiment `RecordValue("", 1)` and
`RecordDuration("", 1)` succeed, and after `RecordNote("hello")` both abort, because
`IdxWithName("")` finds the note, whose `Name` is empty. -/
theorem C9_note_blocks_empty_name :
    ((NewExperiment "bench").RecordValue "" (Float64.ofInt 1) []).panicked = false ∧
    (((NewExperiment "bench").RecordNote "hello" []).state.RecordValue ""
      (Float64.ofInt 1) []).panicked = true ∧
    ((NewExperiment "bench").RecordDuration "" 1 []).panicked = false ∧
    (((NewExperiment "bench").RecordNote "hello" []).state.RecordDuration ""
      1 []).panicked = true := by
  decide

/-- C10 fails for the empty name: nothing was recorded under it, yet after
`RecordNote("hello")` the call `Get("")` returns the note and not the zero `LogEntry`. -/
theorem C10_get_empty_name_returns_note :
    ((NewExperiment "bench").RecordNote "hello" []).state.Get "" =
      { LogEntry.empty with
        ExperimentName := "bench", Type_ := LogEntryTypeNote, Note := "hello" } ∧
    ((NewExperiment "bench").RecordNote "hello" []).state.Get "" ≠ LogEntry.empty := by
  decide

/-! ## Reading samples through the sorted indices -/

theorem map_getD_range {α : Type} (xs : List α) (d : α) :
    (List.range xs.length).map (fun i => xs.getD i d) = xs := by
  apply List.ext_getElem
  · simp
  · intro i h1 h2
    simp [List.getD_eq_getElem?_getD, h2]

theorem sortedView_perm {α : Type} (xs : List α) (d : α) (indices : List Nat)
    (h : indices.Perm (List.range xs.length)) : (sortedView xs d indices).Perm xs := by
  have := h.map (fun i => xs.getD i d)
  rw [map_getD_range] at this
  exact this

theorem sortedView_length {α : Type} (xs : List α) (d : α) (indices : List Nat)
    (h : indices.Perm (List.range xs.length)) : (sortedView xs d indices).length = xs.length :=
  (sortedView_perm xs d indices h).length_eq

theorem pick_eq {α : Type} (xs : List α) (d : α) (indices : List Nat) (n k : Nat)
    (h : indices.Perm (List.range n)) (hn : n ≤ xs.length) (hk : k < n) :
    pick xs indices k = some ((sortedView xs d indices).getD k d) := by
  have hlen : indices.length = n := by simpa using h.length_eq
  have hk2 : k < indices.length := by omega
  have hmem : indices[k] ∈ List.range n := h.mem_iff.1 (List.getElem_mem _)
  have hi : indices[k] < xs.length := by
    have := List.mem_range.1 hmem
    omega
  simp [pick, sortedView, List.getElem?_eq_getElem hk2, List.getD_eq_getElem?_getD, hk2, hi]

theorem sortSlice_perm (sortSlice : (Nat → Nat → Bool) → List Nat → List Nat)
    (hsort : SortSliceSpec sortSlice) (less : Nat → Nat → Bool) (n : Nat) :
    (sortSlice less (List.range n)).Perm (List.range n) :=
  (hsort less (List.range n)).1

/-- The value case of `Stats` in closed form, for annotations at least as long as the
values. -/
theorem valueStats_eq (sortSlice : (Nat → Nat → Bool) → List Nat → List Nat)
    (hsort : SortSliceSpec sortSlice) (e : LogEntry) (hne : e.Values ≠ [])
    (hann : e.Values.length ≤ e.Annotations.length) :
    e.valueStats sortSlice = some { e.statsHeader StatsTypeValue e.Values.length with
      ValueBundle := StatMap.set (StatMap.set
        [(StatMin, (e.sortedValues sortSlice).getD 0 Float64.nan),
         (StatMax, (e.sortedValues sortSlice).getD (e.Values.length - 1) Float64.nan),
         (StatMean, e.valueMean), (StatStdDev, Float64.zero)]
        StatMedian (e.valueMedian sortSlice)) StatStdDev e.valueStdDev
      AnnotationBundle :=
        [(StatMin, (sortedView e.Annotations ""
            (sortSlice e.lessValue (List.range e.Values.length))).getD 0 ""),
         (StatMax, (sortedView e.Annotations ""
            (sortSlice e.lessValue (List.range e.Values.length))).getD
              (e.Values.length - 1) "")] } := by
  have hpos : 0 < e.Values.length := List.length_pos.2 hne
  have hperm := sortSlice_perm sortSlice hsort e.lessValue e.Values.length
  have hv := fun k (hk : k < e.Values.length) =>
    pick_eq e.Values Float64.nan _ e.Values.length k hperm (le_refl _) hk
  have ha := fun k (hk : k < e.Values.length) =>
    pick_eq e.Annotations "" _ e.Values.length k hperm hann hk
  unfold LogEntry.valueStats LogEntry.valueMedian LogEntry.sortedValues
  by_cases hpar : e.Values.length % 2 = 0
  · simp only [hv 0 hpos, hv (e.Values.length - 1) (by omega), ha 0 hpos,
      ha (e.Values.length - 1) (by omega), hv (e.Values.length / 2) (by omega),
      hv (e.Values.length / 2 - 1) (by omega), hpar, if_true, Option.bind_eq_bind,
      Option.some_bind, Option.pure_def]
  · simp only [hv 0 hpos, hv (e.Values.length - 1) (by omega), ha 0 hpos,
      ha (e.Values.length - 1) (by omega), hv ((e.Values.length - 1) / 2) (by omega),
      hpar, if_false, Option.bind_eq_bind, Option.some_bind, Option.pure_def]

/-- The duration case of `Stats` in closed form, for annotations at least as long as the
durations. -/
theorem durationStats_eq (sortSlice : (Nat → Nat → Bool) → List Nat → List Nat)
    (hsort : SortSliceSpec sortSlice) (e : LogEntry) (hne : e.Durations ≠ [])
    (hann : e.Durations.length ≤ e.Annotations.length) :
    e.durationStats sortSlice = some { e.statsHeader StatsTypeDuration e.Durations.length with
      DurationBundle := StatMap.set (StatMap.set
        [(StatMin, (e.sortedDurations sortSlice).getD 0 0),
         (StatMax, (e.sortedDurations sortSlice).getD (e.Durations.length - 1) 0),
         (StatMean, e.durationMean)]
        StatMedian (e.durationMedian sortSlice)) StatStdDev e.durationStdDev
      AnnotationBundle :=
        [(StatMin, (sortedView e.Annotations ""
            (sortSlice e.lessDuration (List.range e.Durations.length))).getD 0 ""),
         (StatMax, (sortedView e.Annotations ""
            (sortSlice e.lessDuration (List.range e.Durations.length))).getD
              (e.Durations.length - 1) "")] } := by
  have hpos : 0 < e.Durations.length := List.length_pos.2 hne
  have hperm := sortSlice_perm sortSlice hsort e.lessDuration e.Durations.length
  have hv := fun k (hk : k < e.Durations.length) =>
    pick_eq e.Durations 0 _ e.Durations.length k hperm (le_refl _) hk
  have ha := fun k (hk : k < e.Durations.length) =>
    pick_eq e.Annotations "" _ e.Durations.length k hperm hann hk
  unfold LogEntry.durationStats LogEntry.durationMedian LogEntry.sortedDurations
  by_cases hpar : e.Durations.length % 2 = 0
  · simp only [hv 0 hpos, hv (e.Durations.length - 1) (by omega), ha 0 hpos,
      ha (e.Durations.length - 1) (by omega), hv (e.Durations.length / 2) (by omega),
      hv (e.Durations.length / 2 - 1) (by omega), hpar, if_true, Option.bind_eq_bind,
      Option.some_bind, Option.pure_def]
  · simp only [hv 0 hpos, hv (e.Durations.length - 1) (by omega), ha 0 hpos,
      ha (e.Durations.length - 1) (by omega), hv ((e.Durations.length - 1) / 2) (by omega),
      hpar, if_false, Option.bind_eq_bind, Option.some_bind, Option.pure_def]

/-- On an entry whose annotations run parallel to its samples, `Stats` does not panic. -/
theorem Stats_isSome (sortSlice : (Nat → Nat → Bool) → List Nat → List Nat)
    (hsort : SortSliceSpec sortSlice) (e : LogEntry) (hp : e.Parallel) :
    (e.Stats sortSlice).isSome = true := by
  unfold LogEntry.Stats
  cases ht : e.Type_ with
  | LogEntryTypeInvalid => rfl
  | LogEntryTypeNote => rfl
  | LogEntryTypeValue =>
    simp only
    by_cases h0 : e.Values.length = 0
    · simp [h0]
    · simp only [h0, if_false]
      rw [valueStats_eq sortSlice hsort e (by intro h; simp [h] at h0) (by rw [hp.1 ht])]
      rfl
  | LogEntryTypeDuration =>
    simp only
    by_cases h0 : e.Durations.length = 0
    · simp [h0]
    · simp only [h0, if_false]
      rw [durationStats_eq sortSlice hsort e (by intro h; simp [h] at h0) (by rw [hp.2 ht])]
      rfl

/-- C7: in every experiment reachable from `NewExperiment` (aborted calls included) the
annotations of a Value-series entry are as many as its values and those of a
Duration-series entry as many as its durations, and `Stats` on an entry indexes no slice
out of bounds, whatever permutation `sort.Slice` produces. -/
theorem C7_annotations_parallel (e : Experiment) (h : Reachable e) (entry : LogEntry)
    (hmem : entry ∈ e.LogEntries) :
    (entry.Type_ = LogEntryTypeValue → entry.Annotations.length = entry.Values.length) ∧
    (entry.Type_ = LogEntryTypeDuration →
      entry.Annotations.length = entry.Durations.length) ∧
    (∀ sortSlice, SortSliceSpec sortSlice → (entry.Stats sortSlice).isSome = true) := by
  obtain ⟨i, hi⟩ := List.getElem?_of_mem hmem
  have hp := (reachable_consistent e h i entry hi).2
  exact ⟨hp.1, hp.2, fun sortSlice hsort => Stats_isSome sortSlice hsort entry hp⟩

/-! ## The insertion sort meets the contract of sort.Slice -/

theorem insertBack_perm (less : Nat → Nat → Bool) (x : Nat) (l : List Nat) :
    (insertBack less x l).Perm (x :: l) := by
  induction l with
  | nil => exact List.Perm.refl _
  | cons y rest ih =>
    unfold insertBack
    by_cases h : less x y = true
    · simp only [h, if_true]
      exact (List.Perm.cons y ih).trans (List.Perm.swap x y rest)
    · simp only [h, if_false]
      exact List.Perm.refl _

theorem insertionFold_perm (less : Nat → Nat → Bool) (l acc : List Nat) :
    (l.foldl (fun sorted x => insertBack less x sorted) acc).Perm (l.reverse ++ acc) := by
  induction l generalizing acc with
  | nil => simp
  | cons x rest ih =>
    simp only [List.foldl_cons, List.reverse_cons, List.append_assoc, List.singleton_append]
    exact (ih _).trans (List.Perm.append_left _ (insertBack_perm less x acc))

theorem insertBack_sorted (less : Nat → Nat → Bool) (p : Nat → Prop)
    (hw : StrictWeakOn less p) (x : Nat) (hx : p x) (l : List Nat) (hl : ∀ a ∈ l, p a)
    (hs : l.Pairwise (fun a b => less a b = false)) :
    (insertBack less x l).Pairwise (fun a b => less a b = false) := by
  induction l with
  | nil => simp [insertBack]
  | cons y rest ih =>
    have hy : p y := hl y (List.mem_cons_self _ _)
    have hrest : ∀ a ∈ rest, p a := fun a ha => hl a (List.mem_cons_of_mem _ ha)
    unfold insertBack
    by_cases h : less x y = true
    · simp only [h, if_true]
      refine List.Pairwise.cons ?_ (ih hrest (List.Pairwise.of_cons hs))
      intro a ha
      rcases List.mem_cons.1 ((insertBack_perm less x rest).mem_iff.1 ha) with rfl | ha
      · cases hyx : less y a with
        | false => rfl
        | true =>
          have := hw.trans a y a hx hy hx h hyx
          rw [hw.irrefl a hx] at this
          cases this
      · exact List.rel_of_pairwise_cons hs ha
    · simp only [h, if_false]
      have hxy : less x y = false := by simpa using h
      refine List.Pairwise.cons ?_ hs
      intro a ha
      rcases List.mem_cons.1 ha with rfl | ha
      · exact hxy
      · exact hw.incomp x y a hx hy (hrest a ha) hxy (List.rel_of_pairwise_cons hs ha)

theorem insertionFold_sorted (less : Nat → Nat → Bool) (p : Nat → Prop)
    (hw : StrictWeakOn less p) (l acc : List Nat) (hl : ∀ a ∈ l, p a) (hacc : ∀ a ∈ acc, p a)
    (hs : acc.Pairwise (fun a b => less a b = false)) :
    (l.foldl (fun sorted x => insertBack less x sorted) acc).Pairwise
      (fun a b => less a b = false) := by
  induction l generalizing acc with
  | nil => exact hs
  | cons x rest ih =>
    simp only [List.foldl_cons]
    have hx : p x := hl x (List.mem_cons_self _ _)
    apply ih _ (fun a ha => hl a (List.mem_cons_of_mem _ ha))
    · intro a ha
      rcases List.mem_cons.1 ((insertBack_perm less x acc).mem_iff.1 ha) with rfl | ha
      · exact hx
      · exact hacc a ha
    · exact insertBack_sorted less p hw x hx acc hacc hs

theorem insertionSortLessFunc_spec : SortSliceSpec insertionSortLessFunc := by
  intro less l
  constructor
  · unfold insertionSortLessFunc
    refine (List.reverse_perm _).trans ((insertionFold_perm less l []).trans ?_)
    simp
  · intro h1 h2 h3
    unfold insertionSortLessFunc
    rw [List.pairwise_reverse]
    exact insertionFold_sorted less (fun a => a ∈ l)
      ⟨h1, fun a b c ha hb hc => h2 a ha b hb c hc, fun a b c ha hb hc => h3 a ha b hb c hc⟩
      l [] (fun a ha => ha) (by simp) List.Pairwise.nil

set_option exponentiation.threshold 4096 in
set_option maxRecDepth 100000 in
/-- C7 at `sampleExperiment`: its Value-series "size" has one annotation for its one value
and `Stats` returns on it. -/
theorem C7_witness :
    (sampleExperiment.Get "size").Annotations.length =
      (sampleExperiment.Get "size").Values.length ∧
    ((sampleExperiment.Get "size").Stats insertionSortLessFunc).isSome = true :=
  ⟨(C7_annotations_parallel sampleExperiment sampleExperiment_reachable
      (sampleExperiment.Get "size") (by decide)).1 (by decide),
   (C7_annotations_parallel sampleExperiment sampleExperiment_reachable
      (sampleExperiment.Get "size") (by decide)).2.2 insertionSortLessFunc
      insertionSortLessFunc_spec⟩

/-! ## The order of float64 -/

theorem Float64.lt_irrefl (x : Float64) : Float64.lt x x = false := by
  simp [Float64.lt]

theorem Float64.lt_trans (x y z : Float64) (h1 : Float64.lt x y = true)
    (h2 : Float64.lt y z = true) : Float64.lt x z = true := by
  simp only [Float64.lt, Bool.and_eq_true, Bool.not_eq_true', decide_eq_true_eq] at *
  exact ⟨⟨h1.1.1, h2.1.2⟩, Int.lt_trans h1.2 h2.2⟩

theorem Float64.lt_false_iff (x y : Float64) (hx : x.isNaN = false) (hy : y.isNaN = false) :
    Float64.lt x y = false ↔ Float64.le y x = true := by
  simp [Float64.lt, Float64.le, hx, hy]

theorem Float64.le_trans (x y z : Float64) (h1 : Float64.le x y = true)
    (h2 : Float64.le y z = true) : Float64.le x z = true := by
  simp only [Float64.le, Bool.and_eq_true, Bool.not_eq_true', decide_eq_true_eq] at *
  exact ⟨⟨h1.1.1, h2.1.2⟩, Int.le_trans h1.2 h2.2⟩

theorem Float64.le_refl (x : Float64) (hx : x.isNaN = false) : Float64.le x x = true := by
  simp [Float64.le, hx]

theorem getD_mem_of_lt {α : Type} (xs : List α) (d : α) (i : Nat) (h : i < xs.length) :
    xs.getD i d ∈ xs := by
  rw [List.getD_eq_getElem?_getD, List.getElem?_eq_getElem h]
  exact List.getElem_mem _

theorem lessValue_strictWeak (e : LogEntry) (hnan : ∀ v ∈ e.Values, v.isNaN = false) :
    StrictWeakOn e.lessValue (fun a => a ∈ List.range e.Values.length) := by
  have hn : ∀ a, a ∈ List.range e.Values.length → (e.Values.getD a Float64.nan).isNaN = false :=
    fun a ha => hnan _ (getD_mem_of_lt _ _ _ (List.mem_range.1 ha))
  refine ⟨fun a _ => Float64.lt_irrefl _, fun a b c _ _ _ h1 h2 => Float64.lt_trans _ _ _ h1 h2,
    fun a b c ha hb hc h1 h2 => ?_⟩
  unfold LogEntry.lessValue at *
  rw [Float64.lt_false_iff _ _ (hn a ha) (hn b hb)] at h1
  rw [Float64.lt_false_iff _ _ (hn b hb) (hn c hc)] at h2
  rw [Float64.lt_false_iff _ _ (hn a ha) (hn c hc)]
  exact Float64.le_trans _ _ _ h2 h1

theorem sortedValues_perm (sortSlice : (Nat → Nat → Bool) → List Nat → List Nat)
    (hsort : SortSliceSpec sortSlice) (e : LogEntry) :
    (e.sortedValues sortSlice).Perm e.Values :=
  sortedView_perm _ _ _ (sortSlice_perm sortSlice hsort _ _)

theorem sortedValues_sorted (sortSlice : (Nat → Nat → Bool) → List Nat → List Nat)
    (hsort : SortSliceSpec sortSlice) (e : LogEntry)
    (hnan : ∀ v ∈ e.Values, v.isNaN = false) :
    (e.sortedValues sortSlice).Pairwise (fun x y => Float64.le x y = true) := by
  have hw := lessValue_strictWeak e hnan
  have hperm := sortSlice_perm sortSlice hsort e.lessValue e.Values.length
  have hs := (hsort e.lessValue (List.range e.Values.length)).2 hw.irrefl
    (fun a ha b hb c hc => hw.trans a b c ha hb hc)
    (fun a ha b hb c hc => hw.incomp a b c ha hb hc)
  unfold LogEntry.sortedValues sortedView
  rw [List.pairwise_map]
  refine hs.imp_of_mem ?_
  intro a b ha hb hab
  have ha2 := hnan _ (getD_mem_of_lt e.Values Float64.nan a
    (List.mem_range.1 (hperm.mem_iff.1 ha)))
  have hb2 := hnan _ (getD_mem_of_lt e.Values Float64.nan b
    (List.mem_range.1 (hperm.mem_iff.1 hb)))
  exact (Float64.lt_false_iff _ _ hb2 ha2).1 hab

/-- In a sorted list the first element is below and the last element above every
element. -/
theorem sorted_bounds {α : Type} (r : α → α → Prop) (s : List α) (hrefl : ∀ a ∈ s, r a a)
    (d : α)
    (hs : s.Pairwise r) (k : Nat) (hk : k < s.length) :
    r (s.getD 0 d) (s.getD k d) ∧ r (s.getD k d) (s.getD (s.length - 1) d) := by
  have h0 : 0 < s.length := by omega
  have hl : s.length - 1 < s.length := by omega
  simp only [List.getD_eq_getElem?_getD, List.getElem?_eq_getElem h0,
    List.getElem?_eq_getElem hk, List.getElem?_eq_getElem hl, Option.getD_some]
  constructor
  · rcases Nat.eq_zero_or_pos k with rfl | hpos
    · exact hrefl _ (List.getElem_mem _)
    · exact List.pairwise_iff_getElem.1 hs 0 k h0 hk hpos
  · rcases Nat.lt_or_ge k (s.length - 1) with hlt | hge
    · exact List.pairwise_iff_getElem.1 hs k (s.length - 1) hk hl hlt
    · have : k = s.length - 1 := by omega
      subst this
      exact hrefl _ (List.getElem_mem _)

theorem mem_iff_getD {α : Type} (s : List α) (d : α) (x : α) :
    x ∈ s ↔ ∃ k, k < s.length ∧ s.getD k d = x := by
  constructor
  · intro h
    obtain ⟨k, hk, rfl⟩ := List.getElem_of_mem h
    exact ⟨k, hk, by simp [List.getD_eq_getElem?_getD, hk]⟩
  · rintro ⟨k, hk, rfl⟩
    exact getD_mem_of_lt s d k hk

/-- The `Stats` of a Value-series with at least one value and parallel annotations. -/
theorem Stats_value (sortSlice : (Nat → Nat → Bool) → List Nat → List Nat)
    (hsort : SortSliceSpec sortSlice) (e : LogEntry) (ht : e.Type_ = LogEntryTypeValue)
    (hne : e.Values ≠ []) (hann : e.Annotations.length = e.Values.length) :
    ∃ st, e.Stats sortSlice = some st ∧ st.StatsType = StatsTypeValue ∧
      st.N = (e.Values.length : Int) ∧
      st.ValueFor StatMin = (e.sortedValues sortSlice).getD 0 Float64.nan ∧
      st.ValueFor StatMax = (e.sortedValues sortSlice).getD (e.Values.length - 1) Float64.nan ∧
      st.ValueFor StatMean = e.valueMean ∧
      st.ValueFor StatMedian = e.valueMedian sortSlice ∧
      st.ValueFor StatStdDev = e.valueStdDev := by
  have h0 : e.Values.length ≠ 0 := by
    intro h
    exact hne (List.length_eq_zero.1 h)
  have hst : e.Stats sortSlice = e.valueStats sortSlice := by
    unfold LogEntry.Stats
    simp only [ht, h0, if_false]
  rw [valueStats_eq sortSlice hsort e hne (by rw [hann])] at hst
  exact ⟨_, hst, by simp [Stats.ValueFor, StatMap.get, StatMap.set, LogEntry.statsHeader]⟩

/-- The `Stats` of a Duration-series with at least one duration and parallel
annotations. -/
theorem Stats_duration (sortSlice : (Nat → Nat → Bool) → List Nat → List Nat)
    (hsort : SortSliceSpec sortSlice) (e : LogEntry) (ht : e.Type_ = LogEntryTypeDuration)
    (hne : e.Durations ≠ []) (hann : e.Annotations.length = e.Durations.length) :
    ∃ st, e.Stats sortSlice = some st ∧ st.StatsType = StatsTypeDuration ∧
      st.N = (e.Durations.length : Int) ∧
      st.DurationFor StatMin = (e.sortedDurations sortSlice).getD 0 0 ∧
      st.DurationFor StatMax =
        (e.sortedDurations sortSlice).getD (e.Durations.length - 1) 0 ∧
      st.DurationFor StatMean = e.durationMean ∧
      st.DurationFor StatMedian = e.durationMedian sortSlice ∧
      st.DurationFor StatStdDev = e.durationStdDev := by
  have h0 : e.Durations.length ≠ 0 := by
    intro h
    exact hne (List.length_eq_zero.1 h)
  have hst : e.Stats sortSlice = e.durationStats sortSlice := by
    unfold LogEntry.Stats
    simp only [ht, h0, if_false]
  rw [durationStats_eq sortSlice hsort e hne (by rw [hann])] at hst
  exact ⟨_, hst, by simp [Stats.DurationFor, StatMap.get, StatMap.set, LogEntry.statsHeader]⟩

/-- C1, for samples that are not NaN: `Stats` of a Value-series with at least one value
(and one annotation per value) returns N, the least and the greatest sample, the float64
mean `sum / N`, the median read off the sorted samples (the central one for odd N, half
the sum of the two central ones for even N) and the population standard deviation
`sqrt (sum of (v - Mean)^2 / N)`, all in float64 arithmetic in recording order. -/
theorem C1_value_stats (sortSlice : (Nat → Nat → Bool) → List Nat → List Nat)
    (hsort : SortSliceSpec sortSlice) (e : LogEntry) (ht : e.Type_ = LogEntryTypeValue)
    (hne : e.Values ≠ []) (hann : e.Annotations.length = e.Values.length)
    (hnan : ∀ v ∈ e.Values, v.isNaN = false) :
    ∃ (st : Stats) (sorted : List Float64),
      e.Stats sortSlice = some st ∧ st.N = (e.Values.length : Int) ∧
      sorted.Perm e.Values ∧ sorted.Pairwise (fun x y => Float64.le x y = true) ∧
      (st.ValueFor StatMin ∈ e.Values ∧
        ∀ v ∈ e.Values, Float64.le (st.ValueFor StatMin) v = true) ∧
      (st.ValueFor StatMax ∈ e.Values ∧
        ∀ v ∈ e.Values, Float64.le v (st.ValueFor StatMax) = true) ∧
      st.ValueFor StatMean =
        Float64.div (e.Values.foldl Float64.add Float64.zero)
          (Float64.ofInt e.Values.length) ∧
      (e.Values.length % 2 = 1 →
        st.ValueFor StatMedian = sorted.getD ((e.Values.length - 1) / 2) Float64.nan) ∧
      (e.Values.length % 2 = 0 →
        st.ValueFor StatMedian =
          Float64.div (Float64.add (sorted.getD (e.Values.length / 2) Float64.nan)
            (sorted.getD (e.Values.length / 2 - 1) Float64.nan)) (Float64.ofInt 2)) ∧
      st.ValueFor StatStdDev =
        Float64.sqrt (Float64.div
          (e.Values.foldl
            (fun acc v =>
              Float64.add acc
                (Float64.mul (Float64.sub v (st.ValueFor StatMean))
                  (Float64.sub v (st.ValueFor StatMean))))
            Float64.zero)
          (Float64.ofInt e.Values.length)) := by
  obtain ⟨st, hst, _, hN, hmin, hmax, hmean, hmed, hsd⟩ :=
    Stats_value sortSlice hsort e ht hne hann
  have hperm := sortedValues_perm sortSlice hsort e
  have hsorted := sortedValues_sorted sortSlice hsort e hnan
  have hlen : (e.sortedValues sortSlice).length = e.Values.length := hperm.length_eq
  have hpos : 0 < e.Values.length := List.length_pos.2 hne
  have hrefl : ∀ a ∈ e.sortedValues sortSlice, Float64.le a a = true :=
    fun a ha => Float64.le_refl a (hnan a (hperm.mem_iff.1 ha))
  refine ⟨st, e.sortedValues sortSlice, hst, hN, hperm, hsorted, ⟨?_, ?_⟩, ⟨?_, ?_⟩, ?_, ?_, ?_,
    ?_⟩
  · rw [hmin]
    exact hperm.mem_iff.1 (getD_mem_of_lt _ _ _ (by omega))
  · intro v hv
    obtain ⟨k, hk, rfl⟩ := (mem_iff_getD _ Float64.nan v).1 (hperm.mem_iff.2 hv)
    rw [hmin]
    exact (sorted_bounds _ _ hrefl Float64.nan hsorted k hk).1
  · rw [hmax]
    exact hperm.mem_iff.1 (getD_mem_of_lt _ _ _ (by omega))
  · intro v hv
    obtain ⟨k, hk, rfl⟩ := (mem_iff_getD _ Float64.nan v).1 (hperm.mem_iff.2 hv)
    rw [hmax, ← hlen]
    exact (sorted_bounds _ _ hrefl Float64.nan hsorted k hk).2
  · rw [hmean]
    rfl
  · intro hodd
    rw [hmed, LogEntry.valueMedian]
    simp [hodd]
  · intro heven
    rw [hmed, LogEntry.valueMedian]
    simp [heven]
  · rw [hsd, hmean]
    rfl

set_option exponentiation.threshold 4096 in
set_option maxRecDepth 100000 in
/-- C1 at the samples 2, 4, 4, 4, 5, 5, 7, 9: Min 2, Max 9, Mean 5, Median 4.5 (that is
`9 * 2^1073` units of `2^(-1074)`) and StdDev 2. -/
theorem C1_witness :
    ∃ st, eightValues.Stats insertionSortLessFunc = some st ∧ st.N = 8 ∧
      st.ValueFor StatMin = Float64.ofInt 2 ∧ st.ValueFor StatMax = Float64.ofInt 9 ∧
      st.ValueFor StatMean = Float64.ofInt 5 ∧
      st.ValueFor StatMedian = Float64.fin false (9 * 2 ^ 1073) ∧
      st.ValueFor StatStdDev = Float64.ofInt 2 := by
  obtain ⟨st, _, hst, hN, _⟩ := C1_value_stats insertionSortLessFunc insertionSortLessFunc_spec
    eightValues (by decide) (by decide) (by decide) (by decide)
  have hval : (eightValues.Stats insertionSortLessFunc).map
      (fun s => (s.ValueFor StatMin, s.ValueFor StatMax, s.ValueFor StatMean,
        s.ValueFor StatMedian, s.ValueFor StatStdDev)) =
      some (Float64.ofInt 2, Float64.ofInt 9, Float64.ofInt 5,
        Float64.fin false (9 * 2 ^ 1073), Float64.ofInt 2) := by
    decide
  rw [hst] at hval
  simp only [Option.map_some', Option.some.injEq, Prod.mk.injEq] at hval
  exact ⟨st, hst, by rw [hN]; decide, hval.1, hval.2.1, hval.2.2.1, hval.2.2.2.1,
    hval.2.2.2.2⟩

set_option exponentiation.threshold 4096 in
set_option maxRecDepth 100000 in
/-- C1 fails with a NaN among the samples: for 1, NaN, 0 the sort leaves the samples
where they are, `Stats` returns Min = 1 and Max = 0, although the sample 0 is less
than 1. -/
theorem C1_counterexample :
    (nanValues.Stats insertionSortLessFunc).map
        (fun st => (st.ValueFor StatMin, st.ValueFor StatMax)) =
      some (Float64.ofInt 1, Float64.ofInt 0) ∧
    Float64.ofInt 0 ∈ nanValues.Values ∧
    Float64.lt (Float64.ofInt 0) (Float64.ofInt 1) = true := by
  decide

/-! ## Rounding -/

theorem log_div_pow64 (q : Nat) (h : 2 ^ 117 ≤ q) :
    Nat.log 2 (q / 2 ^ 64) = Nat.log 2 q - 64 := by
  have hq : q ≠ 0 := by
    intro h0
    have : 0 < 2 ^ 117 := by positivity
    omega
  have hL : 117 ≤ Nat.log 2 q := Nat.le_log_of_pow_le (by omega) h
  have h1 : 2 ^ Nat.log 2 q ≤ q := Nat.pow_log_le_self 2 hq
  have h2 : q < 2 ^ (Nat.log 2 q + 1) := Nat.lt_pow_succ_log_self (by omega) q
  apply Nat.log_eq_of_pow_le_of_lt_pow
  · rw [Nat.le_div_iff_mul_le (by positivity), ← pow_add]
    rw [show Nat.log 2 q - 64 + 64 = Nat.log 2 q by omega]
    exact h1
  · rw [Nat.div_lt_iff_lt_mul (by positivity), ← pow_add]
    rw [show Nat.log 2 q - 64 + 1 + 64 = Nat.log 2 q + 1 by omega]
    exact h2

theorem expLoop_eq (f q e : Nat) (h : q ≤ f) : expLoop f q e = e + (Nat.log 2 q - 52) := by
  induction f generalizing q e with
  | zero =>
    have hq : q = 0 := by omega
    subst hq
    simp [expLoop]
  | succ f ih =>
    unfold expLoop
    by_cases h1 : q < 2 ^ 53
    · rw [if_pos h1]
      by_cases hq : q = 0
      · subst hq
        simp
      · have := Nat.log_lt_of_lt_pow hq h1
        omega
    · rw [if_neg h1]
      have hL : 53 ≤ Nat.log 2 q := Nat.le_log_of_pow_le (by omega) (by omega)
      by_cases h2 : q < 2 ^ 117
      · rw [if_pos h2, ih (q / 2) (e + 1) (by omega), Nat.log_div_base]
        omega
      · rw [if_neg h2, ih (q / 2 ^ 64) (e + 64) (by omega), log_div_pow64 q (by omega)]
        have hL2 : 117 ≤ Nat.log 2 q := Nat.le_log_of_pow_le (by omega) (by omega)
        omega

/-- The exponent loop computes the binary logarithm, less 52. -/
theorem expOf_eq (q : Nat) : expOf q = Nat.log 2 q - 52 := by
  unfold expOf
  rw [expLoop_eq q q 0 le_rfl]
  omega

theorem ulpOf_pos (q : Nat) : 0 < ulpOf q := by
  unfold ulpOf
  positivity

theorem ulpOf_small (q : Nat) (h : q < 2 ^ 53) : ulpOf q = 1 := by
  unfold ulpOf
  rw [expOf_eq]
  by_cases hq : q = 0
  · subst hq
    simp
  · have := Nat.log_lt_of_lt_pow hq h
    rw [show Nat.log 2 q - 52 = 0 by omega]
    rfl

/-- The recursion that `ulpOf` satisfies. -/
theorem ulpOf_big (q : Nat) (h : 2 ^ 53 ≤ q) : ulpOf q = 2 * ulpOf (q / 2) := by
  unfold ulpOf
  rw [expOf_eq, expOf_eq, Nat.log_div_base]
  have hL : 53 ≤ Nat.log 2 q := Nat.le_log_of_pow_le (by omega) h
  rw [show Nat.log 2 q - 52 = (Nat.log 2 q - 1 - 52) + 1 by omega, pow_succ]
  ring

/-- A magnitude on the grid of its binade rounds to itself. -/
theorem roundMag_grid (m d : Nat) (hd : 0 < d) (hm : m % ulpOf m = 0) :
    roundMag (m * d) d = m := by
  have hu := ulpOf_pos m
  obtain ⟨c, hc⟩ := Nat.dvd_of_mod_eq_zero hm
  have hq : m * d / d = m := Nat.mul_div_cancel m hd
  have hn : m * d = c * (d * ulpOf m) := by
    calc m * d = (ulpOf m * c) * d := by rw [← hc]
      _ = c * (d * ulpOf m) := by ring
  have hpos : 0 < d * ulpOf m := Nat.mul_pos hd hu
  have h1 : m * d / (d * ulpOf m) = c := by
    rw [hn]
    exact Nat.mul_div_cancel c hpos
  have h2 : m * d % (d * ulpOf m) = 0 := by
    rw [hn]
    exact Nat.mul_mod_left c _
  unfold roundMag
  simp only [hq, h1, h2]
  rw [if_pos (by omega), Nat.mul_comm]
  exact hc.symm

theorem Float64.round_grid (s : Bool) (m d : Nat) (hd : 0 < d)
    (hwf : (Float64.fin s m).WF) : Float64.round s (m * d) d = Float64.fin s m := by
  unfold Float64.round
  rw [roundMag_grid m d hd hwf.2, if_pos hwf.1]

theorem roundMag_zero (d : Nat) (hd : 0 < d) : roundMag 0 d = 0 := by
  have := roundMag_grid 0 d hd (by simp)
  simpa using this

theorem Float64.round_zero (s : Bool) (d : Nat) (hd : 0 < d) :
    Float64.round s 0 d = Float64.fin s 0 := by
  unfold Float64.round
  rw [roundMag_zero d hd, if_pos (by positivity)]

set_option exponentiation.threshold 4096 in
set_option maxRecDepth 100000 in
theorem Float64.ofInt_one : Float64.ofInt 1 = Float64.fin false (2 ^ 1074) := by
  decide

set_option exponentiation.threshold 4096 in
set_option maxRecDepth 100000 in
theorem Float64.ofInt_two : Float64.ofInt 2 = Float64.fin false (2 * 2 ^ 1074) := by
  decide

theorem Float64.ofInt_zero : Float64.ofInt 0 = Float64.zero := by
  unfold Float64.ofInt
  simp only [Int.natAbs_zero, zero_mul]
  rw [Float64.round_zero _ 1 (by omega)]
  rfl

theorem Float64.sint_zero (s : Bool) : Float64.sint s 0 = 0 := by
  cases s <;> simp [Float64.sint]

theorem Float64.sint_eq_zero (s : Bool) (m : Nat) : Float64.sint s m = 0 ↔ m = 0 := by
  unfold Float64.sint
  cases s <;> simp

theorem Float64.sint_neg (s : Bool) (m : Nat) (hm : 0 < m) :
    decide (Float64.sint s m < 0) = s := by
  unfold Float64.sint
  cases s
  · simp
  · simp
    omega

theorem Float64.sint_natAbs (s : Bool) (m : Nat) : (Float64.sint s m).natAbs = m := by
  unfold Float64.sint
  cases s <;> simp

/-- Adding a float64 number to `0.0` gives the number back (`+0` for both zeros). -/
theorem Float64.zero_add (s : Bool) (m : Nat) (hwf : (Float64.fin s m).WF) :
    Float64.add Float64.zero (Float64.fin s m) =
      if m = 0 then Float64.zero else Float64.fin s m := by
  unfold Float64.add Float64.zero
  by_cases hm : m = 0
  · subst hm
    simp [Float64.sint]
  · have hz : Float64.sint false 0 + Float64.sint s m = Float64.sint s m := by
      simp [Float64.sint]
    simp only [hz, Float64.sint_eq_zero, hm, if_false, Float64.sint_natAbs]
    rw [Float64.sint_neg s m (by omega)]
    have := Float64.round_grid s m 1 (by omega) hwf
    simpa using this

/-- Dividing a float64 number by `1.0` gives the number back. -/
theorem Float64.div_one (s : Bool) (m : Nat) (hwf : (Float64.fin s m).WF) :
    Float64.div (Float64.fin s m) (Float64.ofInt 1) = Float64.fin s m := by
  rw [Float64.ofInt_one]
  unfold Float64.div
  have h2 : (2 : Nat) ^ 1074 ≠ 0 := by positivity
  simp only [h2, if_false]
  have hs : (s != false) = s := by cases s <;> rfl
  rw [hs]
  exact Float64.round_grid s m _ (by positivity) hwf

/-- A finite float64 number minus itself is `+0`. -/
theorem Float64.sub_self (s : Bool) (m : Nat) :
    Float64.sub (Float64.fin s m) (Float64.fin s m) = Float64.zero := by
  unfold Float64.sub Float64.neg Float64.add Float64.zero
  have : Float64.sint s m + Float64.sint (!s) m = 0 := by
    unfold Float64.sint
    cases s <;> simp
  simp [this]

theorem Float64.mul_zero_zero (a b : Bool) :
    Float64.mul (Float64.fin a 0) (Float64.fin b 0) = Float64.fin (a != b) 0 := by
  unfold Float64.mul
  simp only [mul_zero]
  exact Float64.round_zero _ _ (by positivity)

theorem Float64.sqrt_zero : Float64.sqrt Float64.zero = Float64.zero := by
  simp [Float64.sqrt, Float64.zero]

theorem Float64.toInt64_zero : Float64.toInt64 Float64.zero = 0 := by
  unfold Float64.toInt64 Float64.zero
  simp only [Nat.zero_div, Float64.sint]
  norm_num

/-! ## One sample -/

theorem sortedValues_single (sortSlice : (Nat → Nat → Bool) → List Nat → List Nat)
    (hsort : SortSliceSpec sortSlice) (e : LogEntry) (x : Float64) (hv : e.Values = [x]) :
    e.sortedValues sortSlice = [x] := by
  have hperm := sortSlice_perm sortSlice hsort e.lessValue e.Values.length
  rw [hv] at hperm
  have hidx : sortSlice e.lessValue (List.range 1) = [0] := List.perm_singleton.1 hperm
  unfold LogEntry.sortedValues sortedView
  rw [hv]
  simp only [List.length_singleton, hidx]
  rfl

theorem sortedDurations_single (sortSlice : (Nat → Nat → Bool) → List Nat → List Nat)
    (hsort : SortSliceSpec sortSlice) (e : LogEntry) (d : Int) (hv : e.Durations = [d]) :
    e.sortedDurations sortSlice = [d] := by
  have hperm := sortSlice_perm sortSlice hsort e.lessDuration e.Durations.length
  rw [hv] at hperm
  have hidx : sortSlice e.lessDuration (List.range 1) = [0] := List.perm_singleton.1 hperm
  unfold LogEntry.sortedDurations sortedView
  rw [hv]
  simp only [List.length_singleton, hidx]
  rfl

theorem Float64.wf_zero (s : Bool) : (Float64.fin s 0).WF :=
  ⟨by positivity, Nat.zero_mod _⟩

theorem wrap64_of_inInt64 (z : Int) (h : InInt64 z) : wrap64 z = z := by
  unfold InInt64 at h
  unfold wrap64
  omega

theorem valueMean_single (e : LogEntry) (s : Bool) (m : Nat) (hv : e.Values = [Float64.fin s m])
    (hwf : (Float64.fin s m).WF) :
    e.valueMean = if m = 0 then Float64.zero else Float64.fin s m := by
  unfold LogEntry.valueMean
  rw [hv]
  simp only [List.foldl_cons, List.foldl_nil, List.length_singleton, Nat.cast_one]
  rw [Float64.zero_add s m hwf]
  by_cases hm : m = 0
  · rw [if_pos hm]
    exact Float64.div_one false 0 (Float64.wf_zero false)
  · rw [if_neg hm]
    exact Float64.div_one s m hwf

theorem valueStdDev_single (e : LogEntry) (s : Bool) (m : Nat)
    (hv : e.Values = [Float64.fin s m]) (hwf : (Float64.fin s m).WF) :
    e.valueStdDev = Float64.zero := by
  have hmean := valueMean_single e s m hv hwf
  unfold LogEntry.valueStdDev
  rw [hmean, hv]
  simp only [List.foldl_cons, List.foldl_nil, List.length_singleton, Nat.cast_one]
  have hsq : Float64.mul (Float64.sub (Float64.fin s m)
      (if m = 0 then Float64.zero else Float64.fin s m))
      (Float64.sub (Float64.fin s m) (if m = 0 then Float64.zero else Float64.fin s m)) =
      Float64.zero := by
    by_cases hm : m = 0
    · subst hm
      rw [if_pos rfl]
      have : Float64.sub (Float64.fin s 0) Float64.zero = Float64.fin s 0 := by
        cases s <;> rfl
      rw [this, Float64.mul_zero_zero]
      cases s <;> rfl
    · rw [if_neg hm, Float64.sub_self]
      exact Float64.mul_zero_zero false false
  rw [hsq]
  have h0 : Float64.add Float64.zero Float64.zero = Float64.zero := rfl
  rw [h0]
  have := Float64.div_one false 0 (Float64.wf_zero false)
  unfold Float64.zero
  rw [this]
  exact Float64.sqrt_zero

theorem durationMean_single (e : LogEntry) (d : Int) (hv : e.Durations = [d])
    (hd : InInt64 d) : e.durationMean = d := by
  unfold LogEntry.durationMean
  rw [hv]
  simp only [List.foldl_cons, List.foldl_nil, List.length_singleton, Nat.cast_one, zero_add]
  rw [wrap64_of_inInt64 d hd]
  exact Int.tdiv_one d

theorem durationStdDev_single (e : LogEntry) (d : Int) (hv : e.Durations = [d])
    (hd : InInt64 d) : e.durationStdDev = 0 := by
  have hmean := durationMean_single e d hv hd
  unfold LogEntry.durationStdDev
  rw [hmean, hv]
  simp only [List.foldl_cons, List.foldl_nil, List.length_singleton, Nat.cast_one, sub_self]
  have hw : wrap64 0 = 0 := wrap64_of_inInt64 0 (by decide)
  rw [hw, Float64.ofInt_zero]
  have hsq : Float64.mul Float64.zero Float64.zero = Float64.zero :=
    Float64.mul_zero_zero false false
  rw [hsq]
  have h0 : Float64.add Float64.zero Float64.zero = Float64.zero := rfl
  rw [h0]
  have := Float64.div_one false 0 (Float64.wf_zero false)
  unfold Float64.zero
  rw [this]
  exact Float64.toInt64_zero

/-- C4, for a finite sample: a Value-series holding exactly one float64 number `x` (with
its annotation) has Min = Median = Max = x, a Mean that equals x (it is x itself, except
that for x = -0 it is +0, and Go's `==` holds between the two) and StdDev = 0; a
Duration-series holding exactly one duration `d` has Min = Median = Mean = Max = d and
StdDev = 0. -/
theorem C4_single_sample (sortSlice : (Nat → Nat → Bool) → List Nat → List Nat)
    (hsort : SortSliceSpec sortSlice) (e : LogEntry) (hann : e.Annotations.length = 1) :
    (∀ x : Float64, e.Type_ = LogEntryTypeValue → e.Values = [x] → x.isFinite = true →
      x.WF →
      ∃ st, e.Stats sortSlice = some st ∧ st.N = 1 ∧
        st.ValueFor StatMin = x ∧ st.ValueFor StatMedian = x ∧ st.ValueFor StatMax = x ∧
        Float64.eq (st.ValueFor StatMean) x = true ∧
        (x ≠ Float64.fin true 0 → st.ValueFor StatMean = x) ∧
        st.ValueFor StatStdDev = Float64.zero) ∧
    (∀ d : Int, e.Type_ = LogEntryTypeDuration → e.Durations = [d] → InInt64 d →
      ∃ st, e.Stats sortSlice = some st ∧ st.N = 1 ∧
        st.DurationFor StatMin = d ∧ st.DurationFor StatMedian = d ∧
        st.DurationFor StatMax = d ∧ st.DurationFor StatMean = d ∧
        st.DurationFor StatStdDev = 0) := by
  constructor
  · intro x ht hv hfin hwf
    obtain ⟨st, hst, _, hN, hmin, hmax, hmean, hmed, hsd⟩ :=
      Stats_value sortSlice hsort e ht (by rw [hv]; simp) (by rw [hann, hv]; rfl)
    have hs := sortedValues_single sortSlice hsort e x hv
    cases x with
    | nan => cases hfin
    | inf a => cases hfin
    | fin s m =>
      have hm := valueMean_single e s m hv hwf
      refine ⟨st, hst, by rw [hN, hv]; rfl, by rw [hmin, hs]; rfl, ?_, by rw [hmax, hs, hv]; rfl,
        ?_, ?_, by rw [hsd]; exact valueStdDev_single e s m hv hwf⟩
      · rw [hmed, LogEntry.valueMedian, hs, hv]
        simp
      · rw [hmean, hm]
        by_cases h0 : m = 0
        · subst h0
          rw [if_pos rfl]
          cases s <;> rfl
        · rw [if_neg h0]
          simp [Float64.eq, Float64.isNaN]
      · intro hx
        rw [hmean, hm]
        by_cases h0 : m = 0
        · subst h0
          rw [if_pos rfl]
          cases s
          · rfl
          · exact absurd rfl hx
        · rw [if_neg h0]
  · intro d ht hv hd
    obtain ⟨st, hst, _, hN, hmin, hmax, hmean, hmed, hsd⟩ :=
      Stats_duration sortSlice hsort e ht (by rw [hv]; simp) (by rw [hann, hv]; rfl)
    have hs := sortedDurations_single sortSlice hsort e d hv
    refine ⟨st, hst, by rw [hN, hv]; rfl, by rw [hmin, hs]; rfl, ?_, by rw [hmax, hs, hv]; rfl,
      by rw [hmean]; exact durationMean_single e d hv hd,
      by rw [hsd]; exact durationStdDev_single e d hv hd⟩
    rw [hmed, LogEntry.durationMedian, hs, hv]
    simp

set_option exponentiation.threshold 4096 in
set_option maxRecDepth 100000 in
/-- C4 at the one value 2.5 and at the one duration 7. -/
theorem C4_witness :
    (∃ st, oneValue.Stats insertionSortLessFunc = some st ∧ st.N = 1 ∧
      st.ValueFor StatMin = Float64.fin false (5 * 2 ^ 1073) ∧
      st.ValueFor StatMedian = Float64.fin false (5 * 2 ^ 1073) ∧
      st.ValueFor StatMax = Float64.fin false (5 * 2 ^ 1073) ∧
      st.ValueFor StatMean = Float64.fin false (5 * 2 ^ 1073) ∧
      st.ValueFor StatStdDev = Float64.zero) ∧
    (∃ st, oneDuration.Stats insertionSortLessFunc = some st ∧ st.N = 1 ∧
      st.DurationFor StatMin = 7 ∧ st.DurationFor StatMedian = 7 ∧
      st.DurationFor StatMax = 7 ∧ st.DurationFor StatMean = 7 ∧
      st.DurationFor StatStdDev = 0) := by
  constructor
  · obtain ⟨st, h1, h2, h3, h4, h5, _, h7, h8⟩ :=
      (C4_single_sample insertionSortLessFunc insertionSortLessFunc_spec oneValue rfl).1
        (Float64.fin false (5 * 2 ^ 1073)) rfl rfl rfl (by decide)
    exact ⟨st, h1, h2, h3, h4, h5, h7 (by decide), h8⟩
  · exact (C4_single_sample insertionSortLessFunc insertionSortLessFunc_spec oneDuration
      rfl).2 7 rfl rfl (by decide)

set_option exponentiation.threshold 4096 in
set_option maxRecDepth 100000 in
/-- C4 fails for an infinite sample: for the one value +Inf the deviation `Inf - Inf` is
NaN and so is StdDev, which therefore is not 0. -/
theorem C4_counterexample :
    (infValue.Stats insertionSortLessFunc).map (fun st => st.ValueFor StatStdDev) =
      some Float64.nan ∧
    Float64.eq Float64.nan Float64.zero = false := by
  decide

/-! ## Durations -/

theorem wrap64_add_wrap64 (a b : Int) : wrap64 (wrap64 a + b) = wrap64 (a + b) := by
  unfold wrap64
  omega

theorem foldl_wrap64 (l : List Int) (acc : Int) :
    l.foldl (fun acc v => wrap64 (acc + v)) (wrap64 acc) = wrap64 (acc + l.sum) := by
  induction l generalizing acc with
  | nil => simp
  | cons x rest ih =>
    simp only [List.foldl_cons, List.sum_cons]
    rw [wrap64_add_wrap64, ih (acc + x), add_assoc]

theorem foldl_wrap64_sum (l : List Int) (h : InInt64 l.sum) :
    l.foldl (fun acc v => wrap64 (acc + v)) 0 = l.sum := by
  have h0 : wrap64 0 = 0 := wrap64_of_inInt64 0 (by decide)
  have := foldl_wrap64 l 0
  rw [h0, zero_add, wrap64_of_inInt64 _ h] at this
  exact this

theorem lessDuration_strictWeak (e : LogEntry) (p : Nat → Prop) :
    StrictWeakOn e.lessDuration p := by
  refine ⟨fun a _ => ?_, fun a b c _ _ _ h1 h2 => ?_, fun a b c _ _ _ h1 h2 => ?_⟩ <;>
    simp only [LogEntry.lessDuration, decide_eq_true_eq, decide_eq_false_iff_not] at * <;>
    omega

theorem sortedDurations_perm (sortSlice : (Nat → Nat → Bool) → List Nat → List Nat)
    (hsort : SortSliceSpec sortSlice) (e : LogEntry) :
    (e.sortedDurations sortSlice).Perm e.Durations :=
  sortedView_perm _ _ _ (sortSlice_perm sortSlice hsort _ _)

theorem sortedDurations_sorted (sortSlice : (Nat → Nat → Bool) → List Nat → List Nat)
    (hsort : SortSliceSpec sortSlice) (e : LogEntry) :
    (e.sortedDurations sortSlice).Pairwise (fun x y => x ≤ y) := by
  have hw := lessDuration_strictWeak e (fun a => a ∈ List.range e.Durations.length)
  have hs := (hsort e.lessDuration (List.range e.Durations.length)).2 hw.irrefl
    (fun a ha b hb c hc => hw.trans a b c ha hb hc)
    (fun a ha b hb c hc => hw.incomp a b c ha hb hc)
  unfold LogEntry.sortedDurations sortedView
  rw [List.pairwise_map]
  refine hs.imp ?_
  intro a b hab
  simp only [LogEntry.lessDuration, decide_eq_false_iff_not, not_lt] at hab
  exact hab

theorem sum_bounds (l : List Int) (lo hi : Int) (h : ∀ x ∈ l, lo ≤ x ∧ x ≤ hi) :
    lo * l.length ≤ l.sum ∧ l.sum ≤ hi * l.length := by
  induction l with
  | nil => simp
  | cons x rest ih =>
    have hx := h x (List.mem_cons_self _ _)
    have hr := ih (fun y hy => h y (List.mem_cons_of_mem _ hy))
    simp only [List.sum_cons, List.length_cons, Nat.cast_add, Nat.cast_one]
    constructor <;> nlinarith [hx.1, hx.2, hr.1, hr.2]

/-- Truncating division keeps a quotient within bounds that the dividend respects. -/
theorem tdiv_bounds (a lo hi n : Int) (hn : 0 < n) (h1 : lo * n ≤ a) (h2 : a ≤ hi * n) :
    lo ≤ Int.tdiv a n ∧ Int.tdiv a n ≤ hi := by
  rcases le_or_lt 0 a with ha | ha
  · rw [Int.tdiv_eq_ediv ha (le_of_lt hn)]
    constructor
    · exact (Int.le_ediv_iff_mul_le hn).2 h1
    · have : a / n < hi + 1 := (Int.ediv_lt_iff_lt_mul hn).2 (by nlinarith)
      omega
  · have hb : 0 ≤ -a := by omega
    have hneg : Int.tdiv a n = -((-a) / n) := by
      rw [← Int.tdiv_eq_ediv hb (le_of_lt hn), Int.neg_tdiv, neg_neg]
    rw [hneg]
    constructor
    · have : (-a) / n < -lo + 1 := (Int.ediv_lt_iff_lt_mul hn).2 (by nlinarith)
      omega
    · have : -hi ≤ (-a) / n := (Int.le_ediv_iff_mul_le hn).2 (by nlinarith)
      omega

/-- For a Duration-series: when the sum of the durations fits into int64, the Mean that
`Stats` returns is that sum divided by N, truncated towards zero, and
Min <= Mean <= Max. -/
theorem durationMean_bounds (sortSlice : (Nat → Nat → Bool) → List Nat → List Nat)
    (hsort : SortSliceSpec sortSlice) (e : LogEntry) (ht : e.Type_ = LogEntryTypeDuration)
    (hne : e.Durations ≠ []) (hann : e.Annotations.length = e.Durations.length)
    (hsum : InInt64 e.Durations.sum) :
    ∃ st, e.Stats sortSlice = some st ∧
      st.DurationFor StatMean = Int.tdiv e.Durations.sum (e.Durations.length : Int) ∧
      st.DurationFor StatMin ∈ e.Durations ∧ st.DurationFor StatMax ∈ e.Durations ∧
      st.DurationFor StatMin ≤ st.DurationFor StatMean ∧
      st.DurationFor StatMean ≤ st.DurationFor StatMax := by
  obtain ⟨st, hst, _, hN, hmin, hmax, hmean, hmed, hsd⟩ :=
    Stats_duration sortSlice hsort e ht hne hann
  have hperm := sortedDurations_perm sortSlice hsort e
  have hsorted := sortedDurations_sorted sortSlice hsort e
  have hlen : (e.sortedDurations sortSlice).length = e.Durations.length := hperm.length_eq
  have hpos : 0 < e.Durations.length := List.length_pos.2 hne
  have hm : e.durationMean = Int.tdiv e.Durations.sum (e.Durations.length : Int) := by
    unfold LogEntry.durationMean
    rw [foldl_wrap64_sum _ hsum]
  have hb : ∀ x ∈ e.Durations,
      (e.sortedDurations sortSlice).getD 0 0 ≤ x ∧
      x ≤ (e.sortedDurations sortSlice).getD (e.Durations.length - 1) 0 := by
    intro x hx
    obtain ⟨k, hk, rfl⟩ := (mem_iff_getD _ 0 x).1 (hperm.mem_iff.2 hx)
    have := sorted_bounds (fun x y : Int => x ≤ y) _ (fun a _ => le_refl a) 0 hsorted k hk
    rw [hlen] at this
    exact this
  have hs := sum_bounds e.Durations _ _ hb
  have ht := tdiv_bounds e.Durations.sum _ _ (e.Durations.length : Int)
    (by exact_mod_cast hpos) hs.1 hs.2
  refine ⟨st, hst, by rw [hmean, hm], ?_, ?_, ?_, ?_⟩
  · rw [hmin]
    exact hperm.mem_iff.1 (getD_mem_of_lt _ _ _ (by omega))
  · rw [hmax]
    exact hperm.mem_iff.1 (getD_mem_of_lt _ _ _ (by omega))
  · rw [hmin, hmean, hm]
    exact ht.1
  · rw [hmax, hmean, hm]
    exact ht.2

set_option exponentiation.threshold 4096 in
set_option maxRecDepth 100000 in
/-- C3 fails in both kinds. Two durations of 2^62: their int64 sum wraps around to -2^63
and the Mean -2^62 is below Min = 2^62. Three values 0.1: the float64 sum is
0.30000000000000004 and the Mean 0.10000000000000002 is above Max = 0.1. -/
theorem C3_counterexample :
    (hugeDurations.Stats insertionSortLessFunc).map
        (fun st => (st.DurationFor StatMin, st.DurationFor StatMean)) =
      some (2 ^ 62, -2 ^ 62) ∧
    (tenthValues.Stats insertionSortLessFunc).map
        (fun st => Float64.lt (st.ValueFor StatMax) (st.ValueFor StatMean)) = some true := by
  decide

/-! ## The grid of float64 magnitudes -/

/-- A magnitude lies below `2^53` grid steps of its binade. -/
theorem lt_ulpOf (q : Nat) : q < 2 ^ 53 * ulpOf q := by
  induction q using Nat.strong_induction_on with
  | _ q ih =>
    by_cases h : q < 2 ^ 53
    · rw [ulpOf_small q h]
      omega
    · rw [ulpOf_big q (by omega)]
      have := ih (q / 2) (by omega)
      omega

/-- A magnitude from `2^52` on lies at or above `2^52` grid steps of its binade. -/
theorem ulpOf_le (q : Nat) (hq : 2 ^ 52 ≤ q) : 2 ^ 52 * ulpOf q ≤ q := by
  induction q using Nat.strong_induction_on with
  | _ q ih =>
    by_cases h : q < 2 ^ 53
    · rw [ulpOf_small q h]
      omega
    · rw [ulpOf_big q (by omega)]
      have := ih (q / 2) (by omega) (by omega)
      omega

theorem ulpOf_dvd (q1 q2 : Nat) (h : q1 ≤ q2) : ulpOf q1 ∣ ulpOf q2 := by
  induction q2 using Nat.strong_induction_on generalizing q1 with
  | _ q2 ih =>
    by_cases h1 : q1 < 2 ^ 53
    · rw [ulpOf_small q1 h1]
      exact one_dvd _
    · rw [ulpOf_big q1 (by omega), ulpOf_big q2 (by omega)]
      exact Nat.mul_dvd_mul_left 2 (ih (q2 / 2) (by omega) (q1 / 2) (by omega))

theorem ulpOf_double (q : Nat) (hq : 2 ^ 52 ≤ q) : ulpOf (2 * q) = 2 * ulpOf q := by
  rw [ulpOf_big (2 * q) (by omega)]
  congr 2
  omega

/-- Twice a magnitude of the grid is on the grid. -/
theorem grid_double (m : Nat) (hm : m % ulpOf m = 0) : (2 * m) % ulpOf (2 * m) = 0 := by
  by_cases h : 2 ^ 52 ≤ m
  · rw [ulpOf_double m h]
    obtain ⟨c, hc⟩ := Nat.dvd_of_mod_eq_zero hm
    apply Nat.mod_eq_zero_of_dvd
    exact ⟨c, by rw [Nat.mul_assoc, ← hc]⟩
  · rw [ulpOf_small (2 * m) (by omega)]
    exact Nat.mod_one _

/-! ## Rounding is monotone -/

theorem roundMag_le_up (n d : Nat) :
    roundMag n d ≤ (n / (d * ulpOf (n / d)) + 1) * ulpOf (n / d) := by
  unfold roundMag
  simp only
  split_ifs
  · exact Nat.mul_le_mul_right _ (Nat.le_succ _)
  · exact Nat.mul_le_mul_right _ (Nat.le_succ _)
  · exact le_rfl

theorem roundMag_ge_down (n d : Nat) :
    n / (d * ulpOf (n / d)) * ulpOf (n / d) ≤ roundMag n d := by
  unfold roundMag
  simp only
  split_ifs
  · exact le_rfl
  · exact le_rfl
  · exact Nat.mul_le_mul_right _ (Nat.le_succ _)

theorem floor_mono (n1 d1 n2 d2 : Nat) (hd1 : 0 < d1) (hd2 : 0 < d2)
    (h : n1 * d2 ≤ n2 * d1) : n1 / d1 ≤ n2 / d2 := by
  rw [Nat.le_div_iff_mul_le hd2]
  have h1 : n1 / d1 * d1 ≤ n1 := Nat.div_mul_le_self n1 d1
  have h2 : n1 / d1 * d2 * d1 ≤ n2 * d1 := by
    calc n1 / d1 * d2 * d1 = n1 / d1 * d1 * d2 := by ring
      _ ≤ n1 * d2 := Nat.mul_le_mul_right _ h1
      _ ≤ n2 * d1 := h
  exact Nat.le_of_mul_le_mul_right h2 hd1

/-- Within one cell of the grid the choice between the two neighbours is monotone. -/
theorem roundMag_mono_cell (n1 d1 n2 d2 u : Nat) (hd1 : 0 < d1) (hd2 : 0 < d2)
    (h : n1 * d2 ≤ n2 * d1) (hu1 : ulpOf (n1 / d1) = u) (hu2 : ulpOf (n2 / d2) = u)
    (hm : n1 / (d1 * u) = n2 / (d2 * u)) : roundMag n1 d1 ≤ roundMag n2 d2 := by
  have e1 := Nat.div_add_mod n1 (d1 * u)
  have e2 := Nat.div_add_mod n2 (d2 * u)
  rw [hm] at e1
  have hr : n1 % (d1 * u) * d2 ≤ n2 % (d2 * u) * d1 := by
    have : (d1 * u * (n2 / (d2 * u)) + n1 % (d1 * u)) * d2 ≤
        (d2 * u * (n2 / (d2 * u)) + n2 % (d2 * u)) * d1 := by
      rw [e1, e2]
      exact h
    nlinarith
  unfold roundMag
  simp only [hu1, hu2, hm]
  by_cases c1 : 2 * (n2 % (d2 * u)) < d2 * u
  · have : 2 * (n1 % (d1 * u)) < d1 * u := by
      have h3 : 2 * (n1 % (d1 * u)) * d2 < d1 * u * d2 := by nlinarith
      exact Nat.lt_of_mul_lt_mul_right h3
    rw [if_pos c1, if_pos this]
  · rw [if_neg c1]
    by_cases c2 : 2 * (n2 % (d2 * u)) = d2 * u ∧ n2 / (d2 * u) % 2 = 0
    · rw [if_pos c2]
      have h3 : 2 * (n1 % (d1 * u)) * d2 ≤ d1 * u * d2 := by nlinarith [c2.1]
      have h4 : 2 * (n1 % (d1 * u)) ≤ d1 * u := Nat.le_of_mul_le_mul_right h3 hd2
      rcases Nat.lt_or_eq_of_le h4 with h5 | h5
      · rw [if_pos h5]
      · rw [if_neg (by omega), if_pos ⟨h5, c2.2⟩]
    · rw [if_neg c2]
      split_ifs
      · exact Nat.mul_le_mul_right _ (Nat.le_succ _)
      · exact Nat.mul_le_mul_right _ (Nat.le_succ _)
      · exact le_rfl

/-- Rounding to the nearest float64 magnitude is monotone. -/
theorem roundMag_mono (n1 d1 n2 d2 : Nat) (hd1 : 0 < d1) (hd2 : 0 < d2)
    (h : n1 * d2 ≤ n2 * d1) : roundMag n1 d1 ≤ roundMag n2 d2 := by
  have hq : n1 / d1 ≤ n2 / d2 := floor_mono n1 d1 n2 d2 hd1 hd2 h
  have hdvd := ulpOf_dvd _ _ hq
  have hu1 := ulpOf_pos (n1 / d1)
  have hu2 := ulpOf_pos (n2 / d2)
  have hm1 : n1 / (d1 * ulpOf (n1 / d1)) = n1 / d1 / ulpOf (n1 / d1) :=
    (Nat.div_div_eq_div_mul _ _ _).symm
  have hm2 : n2 / (d2 * ulpOf (n2 / d2)) = n2 / d2 / ulpOf (n2 / d2) :=
    (Nat.div_div_eq_div_mul _ _ _).symm
  by_cases hu : ulpOf (n1 / d1) = ulpOf (n2 / d2)
  · have hle : n1 / d1 / ulpOf (n2 / d2) ≤ n2 / d2 / ulpOf (n2 / d2) :=
      Nat.div_le_div_right hq
    rcases Nat.lt_or_eq_of_le hle with hlt | heq
    · calc roundMag n1 d1
          ≤ (n1 / (d1 * ulpOf (n1 / d1)) + 1) * ulpOf (n1 / d1) := roundMag_le_up n1 d1
        _ = (n1 / d1 / ulpOf (n2 / d2) + 1) * ulpOf (n2 / d2) := by rw [hm1, hu]
        _ ≤ n2 / d2 / ulpOf (n2 / d2) * ulpOf (n2 / d2) := Nat.mul_le_mul_right _ hlt
        _ = n2 / (d2 * ulpOf (n2 / d2)) * ulpOf (n2 / d2) := by rw [hm2]
        _ ≤ roundMag n2 d2 := roundMag_ge_down n2 d2
    · apply roundMag_mono_cell n1 d1 n2 d2 (ulpOf (n2 / d2)) hd1 hd2 h hu rfl
      rw [← hu, hm1, hu, heq, ← hm2]
  · obtain ⟨c, hc⟩ := hdvd
    have hc2 : 2 ≤ c := by
      rcases Nat.lt_or_ge c 2 with hlt | hge
      · interval_cases c
        · omega
        · exact absurd (by omega) hu
      · exact hge
    have hbig : 2 ^ 53 ≤ n2 / d2 := by
      by_contra hcon
      have := ulpOf_small (n2 / d2) (by omega)
      rw [this] at hc
      have : ulpOf (n1 / d1) = 1 := Nat.eq_one_of_mul_eq_one_right hc.symm
      omega
    have hlow := ulpOf_le (n2 / d2) (by omega)
    have hup := lt_ulpOf (n1 / d1)
    have hm2ge : 2 ^ 52 ≤ n2 / d2 / ulpOf (n2 / d2) :=
      (Nat.le_div_iff_mul_le hu2).2 hlow
    have hm1lt : n1 / d1 / ulpOf (n1 / d1) < 2 ^ 52 * c := by
      rw [Nat.div_lt_iff_lt_mul hu1]
      nlinarith
    calc roundMag n1 d1
        ≤ (n1 / (d1 * ulpOf (n1 / d1)) + 1) * ulpOf (n1 / d1) := roundMag_le_up n1 d1
      _ ≤ 2 ^ 52 * c * ulpOf (n1 / d1) := by
          rw [hm1]
          exact Nat.mul_le_mul_right _ hm1lt
      _ = 2 ^ 52 * ulpOf (n2 / d2) := by rw [hc]; ring
      _ ≤ n2 / d2 / ulpOf (n2 / d2) * ulpOf (n2 / d2) := Nat.mul_le_mul_right _ hm2ge
      _ = n2 / (d2 * ulpOf (n2 / d2)) * ulpOf (n2 / d2) := by rw [hm2]
      _ ≤ roundMag n2 d2 := roundMag_ge_down n2 d2

/-! ## The mean of two float64 numbers lies between them -/

theorem Float64.round_fin (s : Bool) (n d : Nat)
    (h : (Float64.round s n d).isFinite = true) :
    Float64.round s n d = Float64.fin s (roundMag n d) ∧ roundMag n d < 2 ^ 2098 := by
  unfold Float64.round at h ⊢
  by_cases hlt : roundMag n d < 2 ^ 2098
  · rw [if_pos hlt]
    exact ⟨rfl, hlt⟩
  · rw [if_neg hlt] at h
    cases h

theorem Float64.round_of_lt (s : Bool) (n d : Nat) (h : roundMag n d < 2 ^ 2098) :
    Float64.round s n d = Float64.fin s (roundMag n d) := by
  unfold Float64.round
  rw [if_pos h]

/-- Rounding `sint ss n / d` stays at or below a grid point that bounds it from above. -/
theorem sround_le (ss : Bool) (n d : Nat) (s : Bool) (m : Nat) (hd : 0 < d)
    (hgrid : m % ulpOf m = 0) (h : Float64.sint ss n ≤ Float64.sint s m * d) :
    Float64.sint ss (roundMag n d) ≤ Float64.sint s m := by
  have hfix := roundMag_grid m d hd hgrid
  cases ss <;> cases s <;> simp only [Float64.sint, if_true, if_false, Bool.false_eq_true] at h ⊢
  · have h2 : n ≤ m * d := by exact_mod_cast h
    have := roundMag_mono n d (m * d) d hd hd (Nat.mul_le_mul_right d h2)
    rw [hfix] at this
    exact_mod_cast this
  · have hn : (n : Int) ≤ 0 := by
      have : (0 : Int) ≤ (m : Int) * d := by positivity
      linarith
    have hn0 : n = 0 := by omega
    have hm0 : m = 0 := by
      subst hn0
      have h3 : (m : Int) * d ≤ 0 := by linarith
      have h4 : (m * d : Nat) = 0 := by
        have : ((m * d : Nat) : Int) ≤ 0 := by push_cast; exact h3
        omega
      rcases Nat.mul_eq_zero.1 h4 with h5 | h5
      · exact h5
      · omega
    subst hn0
    subst hm0
    rw [roundMag_zero d hd]
    simp
  · have : (0 : Int) ≤ (roundMag n d : Int) := by positivity
    have : (0 : Int) ≤ (m : Int) := by positivity
    linarith
  · have h2 : m * d ≤ n := by
      have : ((m * d : Nat) : Int) ≤ n := by push_cast; linarith
      exact_mod_cast this
    have := roundMag_mono (m * d) d n d hd hd (Nat.mul_le_mul_right d h2)
    rw [hfix] at this
    have : (m : Int) ≤ roundMag n d := by exact_mod_cast this
    linarith

theorem Float64.sint_not (s : Bool) (m : Nat) :
    Float64.sint (!s) m = -Float64.sint s m := by
  cases s <;> simp [Float64.sint]

/-- Rounding `sint ss n / d` stays at or above a grid point that bounds it from below. -/
theorem le_sround (ss : Bool) (n d : Nat) (s : Bool) (m : Nat) (hd : 0 < d)
    (hgrid : m % ulpOf m = 0) (h : Float64.sint s m * d ≤ Float64.sint ss n) :
    Float64.sint s m ≤ Float64.sint ss (roundMag n d) := by
  have := sround_le (!ss) n d (!s) m hd hgrid
    (by rw [Float64.sint_not, Float64.sint_not]; linarith)
  rw [Float64.sint_not, Float64.sint_not] at this
  linarith

theorem Float64.sint_two_mul (s : Bool) (m : Nat) :
    Float64.sint s (2 * m) = 2 * Float64.sint s m := by
  cases s <;> simp [Float64.sint]

theorem Float64.sint_mul (s : Bool) (m c : Nat) :
    Float64.sint s (m * c) = Float64.sint s m * c := by
  cases s <;> simp [Float64.sint]

theorem Float64.sint_decide_natAbs (z : Int) :
    Float64.sint (decide (z < 0)) z.natAbs = z := by
  unfold Float64.sint
  by_cases h : z < 0
  · simp only [h, decide_True, if_true]
    omega
  · simp only [h, decide_False, Bool.false_eq_true, if_false]
    omega

theorem Float64.sint_abs_le (ss : Bool) (r : Nat) (sa : Bool) (ma : Nat) (sb : Bool) (mb : Nat)
    (h1 : Float64.sint sa ma ≤ Float64.sint ss r) (h2 : Float64.sint ss r ≤ Float64.sint sb mb) :
    r ≤ ma ∨ r ≤ mb := by
  unfold Float64.sint at h1 h2
  cases ss <;> cases sa <;> cases sb <;>
    simp only [if_true, if_false, Bool.false_eq_true] at h1 h2 <;> omega

theorem Float64.add_fin (a : Bool) (m : Nat) (b : Bool) (k : Nat) :
    Float64.add (Float64.fin a m) (Float64.fin b k) =
      if Float64.sint a m + Float64.sint b k = 0 then Float64.fin (a && b) 0
      else Float64.round (decide (Float64.sint a m + Float64.sint b k < 0))
        (Float64.sint a m + Float64.sint b k).natAbs 1 := rfl

theorem Float64.div_fin (a : Bool) (m : Nat) (b : Bool) (k : Nat) (hk : k ≠ 0) :
    Float64.div (Float64.fin a m) (Float64.fin b k) =
      Float64.round (a != b) (m * 2 ^ 1074) k := by
  show (if k = 0 then _ else _) = _
  rw [if_neg hk]

/-- The float64 sum of two float64 numbers, when it is finite, lies between twice the
smaller and twice the larger one. -/
theorem add_between (sa : Bool) (ma : Nat) (sb : Bool) (mb : Nat)
    (hwa : (Float64.fin sa ma).WF) (hwb : (Float64.fin sb mb).WF)
    (hab : Float64.sint sa ma ≤ Float64.sint sb mb)
    (hfin : (Float64.add (Float64.fin sb mb) (Float64.fin sa ma)).isFinite = true) :
    ∃ ss ms, Float64.add (Float64.fin sb mb) (Float64.fin sa ma) = Float64.fin ss ms ∧
      2 * Float64.sint sa ma ≤ Float64.sint ss ms ∧
      Float64.sint ss ms ≤ 2 * Float64.sint sb mb := by
  rw [Float64.add_fin] at hfin ⊢
  by_cases hz : Float64.sint sb mb + Float64.sint sa ma = 0
  · rw [if_pos hz]
    refine ⟨sb && sa, 0, rfl, ?_, ?_⟩ <;> rw [Float64.sint_zero] <;> linarith
  · rw [if_neg hz] at hfin ⊢
    obtain ⟨heq, _⟩ := Float64.round_fin _ _ _ hfin
    refine ⟨_, _, heq, ?_, ?_⟩
    · rw [← Float64.sint_two_mul]
      apply le_sround _ _ 1 _ _ (by omega) (grid_double ma hwa.2)
      rw [Float64.sint_decide_natAbs, Float64.sint_two_mul]
      push_cast
      linarith
    · rw [← Float64.sint_two_mul]
      apply sround_le _ _ 1 _ _ (by omega) (grid_double mb hwb.2)
      rw [Float64.sint_decide_natAbs, Float64.sint_two_mul]
      push_cast
      linarith

/-- Half the finite float64 sum of two float64 numbers lies between them. -/
theorem half_sum_between (sa : Bool) (ma : Nat) (sb : Bool) (mb : Nat)
    (hwa : (Float64.fin sa ma).WF) (hwb : (Float64.fin sb mb).WF)
    (hab : Float64.sint sa ma ≤ Float64.sint sb mb)
    (hfin : (Float64.add (Float64.fin sb mb) (Float64.fin sa ma)).isFinite = true) :
    ∃ ss r, Float64.div (Float64.add (Float64.fin sb mb) (Float64.fin sa ma))
        (Float64.ofInt 2) = Float64.fin ss r ∧
      Float64.sint sa ma ≤ Float64.sint ss r ∧ Float64.sint ss r ≤ Float64.sint sb mb := by
  obtain ⟨ss, ms, hsum, hlo, hhi⟩ := add_between sa ma sb mb hwa hwb hab hfin
  rw [hsum, Float64.ofInt_two]
  have hc : (0 : Nat) < 2 ^ 1074 := by positivity
  have hs : (ss != false) = ss := by cases ss <;> rfl
  rw [Float64.div_fin _ _ _ _ (by positivity), hs]
  generalize (2 : Nat) ^ 1074 = c at hc ⊢
  have hcI : (0 : Int) < (c : Int) := by exact_mod_cast hc
  have hge : Float64.sint sa ma ≤ Float64.sint ss (roundMag (ms * c) (2 * c)) := by
    apply le_sround _ _ _ _ _ (by omega) hwa.2
    rw [Float64.sint_mul]
    push_cast
    nlinarith
  have hle : Float64.sint ss (roundMag (ms * c) (2 * c)) ≤ Float64.sint sb mb := by
    apply sround_le _ _ _ _ _ (by omega) hwb.2
    rw [Float64.sint_mul]
    push_cast
    nlinarith
  have hlt : roundMag (ms * c) (2 * c) < 2 ^ 2098 := by
    rcases Float64.sint_abs_le _ _ _ _ _ _ hge hle with h | h
    · exact lt_of_le_of_lt h hwa.1
    · exact lt_of_le_of_lt h hwb.1
  rw [Float64.round_of_lt _ _ _ hlt]
  exact ⟨ss, _, rfl, hge, hle⟩

theorem Float64.div_inf_two (a : Bool) :
    Float64.div (Float64.inf a) (Float64.ofInt 2) = Float64.inf a := by
  rw [Float64.ofInt_two]
  cases a <;> rfl

theorem Float64.key_bounds (x : Float64) (hwf : x.WF) :
    -((2 ^ 2098 : Nat) : Int) ≤ x.key ∧ x.key ≤ ((2 ^ 2098 : Nat) : Int) := by
  cases x with
  | nan =>
    simp only [Float64.key]
    generalize (2 : Nat) ^ 2098 = L
    omega
  | inf a =>
    simp only [Float64.key, Float64.sint]
    generalize (2 : Nat) ^ 2098 = L
    cases a <;> simp only [if_true, if_false, Bool.false_eq_true] <;> omega
  | fin s m =>
    have h : m < 2 ^ 2098 := hwf.1
    simp only [Float64.key, Float64.sint]
    generalize (2 : Nat) ^ 2098 = L at h ⊢
    cases s <;> simp only [if_true, if_false, Bool.false_eq_true] <;> omega

/-- Half the float64 sum of two ordered float64 numbers lies between them, unless the sum
overflows or is `Inf - Inf`. -/
theorem median_between (lo hi : Float64) (hwl : lo.WF) (hwh : hi.WF)
    (hle : Float64.le lo hi = true) (hok : Float64.SumOk hi lo) :
    Float64.le lo (Float64.div (Float64.add hi lo) (Float64.ofInt 2)) = true ∧
    Float64.le (Float64.div (Float64.add hi lo) (Float64.ofInt 2)) hi = true := by
  have hkl := Float64.key_bounds lo hwl
  have hkh := Float64.key_bounds hi hwh
  cases lo with
  | nan => simp [Float64.le, Float64.isNaN] at hle
  | inf a =>
    cases hi with
    | nan => simp [Float64.le, Float64.isNaN] at hle
    | inf b =>
      cases a <;> cases b
      · exact ⟨by rw [show Float64.add (Float64.inf false) (Float64.inf false) =
          Float64.inf false from rfl, Float64.div_inf_two]; exact hle,
          by rw [show Float64.add (Float64.inf false) (Float64.inf false) =
          Float64.inf false from rfl, Float64.div_inf_two]; exact hle⟩
      · simp only [Float64.le, Float64.isNaN, Float64.key, Float64.sint, if_true, if_false,
          Bool.false_eq_true, Bool.not_false, Bool.and_self, Bool.true_and,
          decide_eq_true_eq] at hle
        have : (0 : Int) < ((2 ^ 2098 : Nat) : Int) := by positivity
        omega
      · have := hok.1
        simp [Float64.add, Float64.isNaN] at this
      · exact ⟨by rw [show Float64.add (Float64.inf true) (Float64.inf true) =
          Float64.inf true from rfl, Float64.div_inf_two]; exact hle,
          by rw [show Float64.add (Float64.inf true) (Float64.inf true) =
          Float64.inf true from rfl, Float64.div_inf_two]; exact hle⟩
    | fin sb mb =>
      have hb : mb < 2 ^ 2098 := hwh.1
      cases a
      · simp only [Float64.le, Float64.isNaN, Float64.key, Float64.sint, if_false,
          Bool.false_eq_true, Bool.not_false, Bool.and_self, Bool.true_and,
          decide_eq_true_eq] at hle
        generalize (2 : Nat) ^ 2098 = L at hle hb
        cases sb <;> simp only [if_true, if_false, Bool.false_eq_true] at hle <;> omega
      · rw [show Float64.add (Float64.fin sb mb) (Float64.inf true) = Float64.inf true from rfl,
          Float64.div_inf_two]
        exact ⟨by simp [Float64.le, Float64.isNaN], hle⟩
  | fin sa ma =>
    cases hi with
    | nan => simp [Float64.le, Float64.isNaN] at hle
    | inf b =>
      have ha : ma < 2 ^ 2098 := hwl.1
      cases b
      · rw [show Float64.add (Float64.inf false) (Float64.fin sa ma) = Float64.inf false from rfl,
          Float64.div_inf_two]
        exact ⟨hle, by simp [Float64.le, Float64.isNaN]⟩
      · simp only [Float64.le, Float64.isNaN, Float64.key, Float64.sint, if_true,
          Bool.not_false, Bool.and_self, Bool.true_and, decide_eq_true_eq] at hle
        generalize (2 : Nat) ^ 2098 = L at hle ha
        cases sa <;> simp only [if_true, if_false, Bool.false_eq_true] at hle <;> omega
    | fin sb mb =>
      have hab : Float64.sint sa ma ≤ Float64.sint sb mb := by
        simpa [Float64.le, Float64.isNaN, Float64.key] using hle
      obtain ⟨ss, r, hmed, h1, h2⟩ := half_sum_between sa ma sb mb hwl hwh hab (hok.2 rfl rfl)
      rw [hmed]
      simp only [Float64.le, Float64.isNaN, Float64.key, Bool.not_false, Bool.and_self,
        Bool.true_and, decide_eq_true_eq]
      exact ⟨h1, h2⟩

theorem sorted_pair {α : Type} (r : α → α → Prop) (s : List α) (d : α) (hs : s.Pairwise r)
    (i j : Nat) (hij : i < j) (hj : j < s.length) : r (s.getD i d) (s.getD j d) := by
  have hi : i < s.length := by omega
  simp only [List.getD_eq_getElem?_getD, List.getElem?_eq_getElem hi,
    List.getElem?_eq_getElem hj, Option.getD_some]
  exact List.pairwise_iff_getElem.1 hs i j hi hj hij

/-- C2, without NaN and without overflow: for a Value-series of float64 numbers other
than NaN and for a Duration-series, each with at least one sample (and one annotation per
sample), Min <= Median <= Max holds whenever N is odd, and for even N whenever the sum of
the two central order statistics is representable: a float64 sum that neither overflows
nor is `Inf - Inf`, or an int64 sum that does not wrap around. -/
theorem C2_median_bounds (sortSlice : (Nat → Nat → Bool) → List Nat → List Nat)
    (hsort : SortSliceSpec sortSlice) (e : LogEntry) :
    (e.Type_ = LogEntryTypeValue → e.Values ≠ [] →
      e.Annotations.length = e.Values.length →
      (∀ v ∈ e.Values, v.WF ∧ v.isNaN = false) →
      ∃ (st : Stats) (sorted : List Float64),
        e.Stats sortSlice = some st ∧ sorted.Perm e.Values ∧
        sorted.Pairwise (fun x y => Float64.le x y = true) ∧
        (e.Values.length % 2 = 1 ∨
          Float64.SumOk (sorted.getD (e.Values.length / 2) Float64.nan)
            (sorted.getD (e.Values.length / 2 - 1) Float64.nan) →
          Float64.le (st.ValueFor StatMin) (st.ValueFor StatMedian) = true ∧
          Float64.le (st.ValueFor StatMedian) (st.ValueFor StatMax) = true)) ∧
    (e.Type_ = LogEntryTypeDuration → e.Durations ≠ [] →
      e.Annotations.length = e.Durations.length →
      ∃ (st : Stats) (sorted : List Int),
        e.Stats sortSlice = some st ∧ sorted.Perm e.Durations ∧
        sorted.Pairwise (fun x y => x ≤ y) ∧
        (e.Durations.length % 2 = 1 ∨
          InInt64 (sorted.getD (e.Durations.length / 2) 0 +
            sorted.getD (e.Durations.length / 2 - 1) 0) →
          st.DurationFor StatMin ≤ st.DurationFor StatMedian ∧
          st.DurationFor StatMedian ≤ st.DurationFor StatMax)) := by
  constructor
  · intro ht hne hann hv
    obtain ⟨st, hst, _, hN, hmin, hmax, hmean, hmed, hsd⟩ :=
      Stats_value sortSlice hsort e ht hne hann
    have hnan : ∀ v ∈ e.Values, v.isNaN = false := fun v h => (hv v h).2
    have hperm := sortedValues_perm sortSlice hsort e
    have hsorted := sortedValues_sorted sortSlice hsort e hnan
    have hlen : (e.sortedValues sortSlice).length = e.Values.length := hperm.length_eq
    have hpos : 0 < e.Values.length := List.length_pos.2 hne
    have hrefl : ∀ a ∈ e.sortedValues sortSlice, Float64.le a a = true :=
      fun a ha => Float64.le_refl a (hnan a (hperm.mem_iff.1 ha))
    have hwf : ∀ k, k < e.Values.length →
        ((e.sortedValues sortSlice).getD k Float64.nan).WF := fun k hk =>
      (hv _ (hperm.mem_iff.1 (getD_mem_of_lt _ _ k (by omega)))).1
    refine ⟨st, e.sortedValues sortSlice, hst, hperm, hsorted, ?_⟩
    intro hcase
    rw [hmin, hmax, hmed, LogEntry.valueMedian]
    by_cases hpar : e.Values.length % 2 = 0
    · rw [if_pos hpar]
      have hok : Float64.SumOk
          ((e.sortedValues sortSlice).getD (e.Values.length / 2) Float64.nan)
          ((e.sortedValues sortSlice).getD (e.Values.length / 2 - 1) Float64.nan) := by
        rcases hcase with h | h
        · omega
        · exact h
      have hpair := sorted_pair _ _ Float64.nan hsorted (e.Values.length / 2 - 1)
        (e.Values.length / 2) (by omega) (by omega)
      have hmid := median_between _ _ (hwf _ (by omega)) (hwf _ (by omega)) hpair hok
      have hb1 := sorted_bounds _ _ hrefl Float64.nan hsorted (e.Values.length / 2 - 1)
        (by omega)
      have hb2 := sorted_bounds _ _ hrefl Float64.nan hsorted (e.Values.length / 2)
        (by omega)
      rw [hlen] at hb2
      exact ⟨Float64.le_trans _ _ _ hb1.1 hmid.1, Float64.le_trans _ _ _ hmid.2 hb2.2⟩
    · rw [if_neg hpar]
      have hb := sorted_bounds _ _ hrefl Float64.nan hsorted ((e.Values.length - 1) / 2)
        (by omega)
      rw [hlen] at hb
      exact hb
  · intro ht hne hann
    obtain ⟨st, hst, _, hN, hmin, hmax, hmean, hmed, hsd⟩ :=
      Stats_duration sortSlice hsort e ht hne hann
    have hperm := sortedDurations_perm sortSlice hsort e
    have hsorted := sortedDurations_sorted sortSlice hsort e
    have hlen : (e.sortedDurations sortSlice).length = e.Durations.length := hperm.length_eq
    have hpos : 0 < e.Durations.length := List.length_pos.2 hne
    refine ⟨st, e.sortedDurations sortSlice, hst, hperm, hsorted, ?_⟩
    intro hcase
    rw [hmin, hmax, hmed, LogEntry.durationMedian]
    by_cases hpar : e.Durations.length % 2 = 0
    · rw [if_pos hpar]
      have hok : InInt64 ((e.sortedDurations sortSlice).getD (e.Durations.length / 2) 0 +
          (e.sortedDurations sortSlice).getD (e.Durations.length / 2 - 1) 0) := by
        rcases hcase with h | h
        · omega
        · exact h
      rw [wrap64_of_inInt64 _ hok]
      have hpair := sorted_pair (fun x y : Int => x ≤ y) _ 0 hsorted
        (e.Durations.length / 2 - 1) (e.Durations.length / 2) (by omega) (by omega)
      have hmid := tdiv_bounds
        ((e.sortedDurations sortSlice).getD (e.Durations.length / 2) 0 +
          (e.sortedDurations sortSlice).getD (e.Durations.length / 2 - 1) 0)
        ((e.sortedDurations sortSlice).getD (e.Durations.length / 2 - 1) 0)
        ((e.sortedDurations sortSlice).getD (e.Durations.length / 2) 0) 2 (by omega)
        (by omega) (by omega)
      have hb1 := sorted_bounds (fun x y : Int => x ≤ y) _ (fun a _ => le_refl a) 0 hsorted
        (e.Durations.length / 2 - 1) (by omega)
      have hb2 := sorted_bounds (fun x y : Int => x ≤ y) _ (fun a _ => le_refl a) 0 hsorted
        (e.Durations.length / 2) (by omega)
      rw [hlen] at hb2
      exact ⟨le_trans hb1.1 hmid.1, le_trans hmid.2 hb2.2⟩
    · rw [if_neg hpar]
      have hb := sorted_bounds (fun x y : Int => x ≤ y) _ (fun a _ => le_refl a) 0 hsorted
        ((e.Durations.length - 1) / 2) (by omega)
      rw [hlen] at hb
      exact hb

set_option exponentiation.threshold 4096 in
set_option maxRecDepth 100000 in
/-- C2 at the values 3, 1 and at the durations 3, -8, 4, 10. -/
theorem C2_witness :
    (∃ st, twoValues.Stats insertionSortLessFunc = some st ∧
      Float64.le (st.ValueFor StatMin) (st.ValueFor StatMedian) = true ∧
      Float64.le (st.ValueFor StatMedian) (st.ValueFor StatMax) = true) ∧
    (∃ st, fourDurations.Stats insertionSortLessFunc = some st ∧
      st.DurationFor StatMin ≤ st.DurationFor StatMedian ∧
      st.DurationFor StatMedian ≤ st.DurationFor StatMax) := by
  have hv : ∀ a ∈ twoValues.Values, ∀ b ∈ twoValues.Values, Float64.SumOk a b := by decide
  have hd : ∀ a ∈ fourDurations.Durations, ∀ b ∈ fourDurations.Durations, InInt64 (a + b) := by
    decide
  constructor
  · obtain ⟨st, sorted, hst, hperm, _, himp⟩ :=
      (C2_median_bounds insertionSortLessFunc insertionSortLessFunc_spec twoValues).1
        rfl (by decide) rfl (by decide)
    have hlen : sorted.length = 2 := hperm.length_eq
    refine ⟨st, hst, himp (Or.inr ?_)⟩
    exact hv _ (hperm.mem_iff.1 (getD_mem_of_lt _ _ _ (by rw [hlen]; decide)))
      _ (hperm.mem_iff.1 (getD_mem_of_lt _ _ _ (by rw [hlen]; decide)))
  · obtain ⟨st, sorted, hst, hperm, _, himp⟩ :=
      (C2_median_bounds insertionSortLessFunc insertionSortLessFunc_spec fourDurations).2
        rfl (by decide) rfl
    have hlen : sorted.length = 4 := hperm.length_eq
    refine ⟨st, hst, himp (Or.inr ?_)⟩
    exact hd _ (hperm.mem_iff.1 (getD_mem_of_lt _ _ _ (by rw [hlen]; decide)))
      _ (hperm.mem_iff.1 (getD_mem_of_lt _ _ _ (by rw [hlen]; decide)))

set_option exponentiation.threshold 4096 in
set_option maxRecDepth 100000 in
/-- C2 fails in three ways. Two durations of 2^62: the int64 sum of the central pair
wraps around and the Median -2^62 is below Min = 2^62. Two values equal to the largest
finite float64: their sum overflows, the Median is +Inf and exceeds Max. The values 1,
NaN, 0: the Median is NaN, which compares with nothing. -/
theorem C2_counterexample :
    (hugeDurations.Stats insertionSortLessFunc).map
        (fun st => (st.DurationFor StatMin, st.DurationFor StatMedian)) =
      some (2 ^ 62, -2 ^ 62) ∧
    (∀ v ∈ maxValues.Values, v.WF ∧ v.isFinite = true) ∧
    (maxValues.Stats insertionSortLessFunc).map
        (fun st => (st.ValueFor StatMedian,
          Float64.le (st.ValueFor StatMedian) (st.ValueFor StatMax))) =
      some (Float64.inf false, false) ∧
    (nanValues.Stats insertionSortLessFunc).map
        (fun st => Float64.le (st.ValueFor StatMin) (st.ValueFor StatMedian)) =
      some false := by
  decide

/-! ## Get and GetStats -/

/-- What `Get` and `GetStats` do in a reachable experiment: `GetStats` does not panic; a
Value-series or Duration-series entry is what `Get` returns for its name; and for a name
that no entry has (a note has the empty name) `Get` returns the zero `LogEntry` and
`GetStats` the zero `Stats`. -/
theorem Get_GetStats_total (sortSlice : (Nat → Nat → Bool) → List Nat → List Nat)
    (hsort : SortSliceSpec sortSlice) (e : Experiment) (h : Reachable e) (name : String) :
    (e.GetStats sortSlice name).isSome = true ∧
    (∀ entry ∈ e.LogEntries, entry.isSeries → entry.Name = name →
      e.Get name = entry ∧ e.GetStats sortSlice name = entry.Stats sortSlice) ∧
    ((∀ entry ∈ e.LogEntries, entry.Name ≠ name) →
      e.Get name = LogEntry.empty ∧ e.GetStats sortSlice name = some Stats.empty) := by
  refine ⟨?_, fun entry hmem hs hname => ?_, fun habs => ?_⟩
  · unfold Experiment.GetStats
    apply Stats_isSome sortSlice hsort
    cases hidx : IdxWithName e.LogEntries name with
    | none =>
      rw [Get_unbound e name hidx]
      constructor
      · intro h
        cases h
      · intro h
        cases h
    | some idx =>
      obtain ⟨entry, hentry, _⟩ := IdxWithName_getElem _ _ _ hidx
      rw [Get_bound e name idx entry hidx hentry]
      exact (reachable_consistent e h idx entry hentry).2
  · have hg := Get_series_of_reachable e h entry hmem hs
    rw [hname] at hg
    exact ⟨hg, by unfold Experiment.GetStats; rw [hg]⟩
  · have hidx := (IdxWithName_eq_none e.LogEntries name).2 habs
    have hg := Get_unbound e name hidx
    exact ⟨hg, by unfold Experiment.GetStats; rw [hg]; rfl⟩

/-! ## Decorations -/

theorem extractDecorationsLoop_eq (args : List Arg) (out : extractedDecorations) :
    extractDecorationsLoop args out =
      if args.all Arg.recognised then
        some
          { annotation := lastOr out.annotation (annotationsOf args)
            units := lastOr out.units (unitsOf args)
            precisionBundle := lastOr out.precisionBundle (precisionsOf args)
            style := lastOr out.style (stylesOf args) }
      else none := by
  induction args generalizing out with
  | nil => simp [extractDecorationsLoop, annotationsOf, unitsOf, precisionsOf, stylesOf, lastOr]
  | cons a rest ih =>
    cases a <;>
      simp only [extractDecorationsLoop, ih, annotationsOf, unitsOf, precisionsOf, stylesOf,
        Arg.recognised, lastOr, List.all_cons, Bool.true_and, Bool.false_and]
    simp

theorem extractDecorations_eq_none (args : List Arg) :
    extractDecorations args = none ↔ ∃ a ∈ args, a.recognised = false := by
  unfold extractDecorations
  rw [extractDecorationsLoop_eq]
  by_cases h : args.all Arg.recognised = true
  · rw [if_pos h]
    simp only [List.all_eq_true] at h
    constructor
    · intro h2; cases h2
    · rintro ⟨a, ha, hr⟩
      rw [h a ha] at hr
      cases hr
  · rw [if_neg h]
    simp only [List.all_eq_true, not_forall] at h
    obtain ⟨a, ha, hr⟩ := h
    simp only [true_iff]
    exact ⟨a, ha, by simpa using hr⟩

theorem mem_annotationsOf (args : List Arg) (a : String) :
    a ∈ annotationsOf args ↔ Arg.annotation a ∈ args := by
  induction args with
  | nil => simp [annotationsOf]
  | cons x rest ih => cases x <;> simp [annotationsOf, ih]

theorem mem_unitsOf (args : List Arg) (a : String) :
    a ∈ unitsOf args ↔ Arg.units a ∈ args := by
  induction args with
  | nil => simp [unitsOf]
  | cons x rest ih => cases x <;> simp [unitsOf, ih]

theorem mem_precisionsOf (args : List Arg) (a : PrecisionBundle) :
    a ∈ precisionsOf args ↔ Arg.precision a ∈ args := by
  induction args with
  | nil => simp [precisionsOf]
  | cons x rest ih => cases x <;> simp [precisionsOf, ih]

theorem mem_stylesOf (args : List Arg) (a : String) :
    a ∈ stylesOf args ↔ Arg.style a ∈ args := by
  induction args with
  | nil => simp [stylesOf]
  | cons x rest ih => cases x <;> simp [stylesOf, ih]

/-- The last element of a list of at most one element is the element it has, and the
default when it has none. -/
theorem lastOr_short {α : Type} (l : List α) (d : α) (h : l.length ≤ 1) :
    (∀ a ∈ l, lastOr d l = a) ∧ ((∀ a, a ∉ l) → lastOr d l = d) := by
  match l, h with
  | [], _ => simp [lastOr]
  | [x], _ => simp [lastOr]
  | _ :: _ :: _, h => simp at h

/-- C11: for every list of decoration arguments, `extractDecorations` aborts exactly when
some argument is not of one of the four recognised types; when it returns and each type
appears at most once, every field of the result holds the value that was supplied for it,
and the default when none was (the empty annotation, units and style, and
`DefaultPrecisionBundle`); and `RecordValue`, `RecordDuration` and `RecordNote` given an
unrecognised argument abort and leave the experiment as it was, as do `SampleValue` and
`SampleDuration`, which abort before the sampling starts. -/
theorem C11_unrecognised_decoration_aborts (args : List Arg) :
    (extractDecorations args = none ↔ ∃ a ∈ args, a.recognised = false) ∧
    (∀ d : extractedDecorations, extractDecorations args = some d → AtMostOnce args →
      ((∀ a, Arg.annotation a ∈ args → d.annotation = a) ∧
        ((∀ a, Arg.annotation a ∉ args) → d.annotation = "")) ∧
      ((∀ u, Arg.units u ∈ args → d.units = u) ∧
        ((∀ u, Arg.units u ∉ args) → d.units = "")) ∧
      ((∀ p, Arg.precision p ∈ args → d.precisionBundle = p) ∧
        ((∀ p, Arg.precision p ∉ args) → d.precisionBundle = DefaultPrecisionBundle)) ∧
      ((∀ s, Arg.style s ∈ args → d.style = s) ∧
        ((∀ s, Arg.style s ∉ args) → d.style = ""))) ∧
    ((∃ a ∈ args, a.recognised = false) →
      ∀ (e : Experiment) (name note : String) (value : Float64) (duration : Int),
        e.RecordValue name value args = Result.panic e ∧
        e.RecordDuration name duration args = Result.panic e ∧
        e.RecordNote note args = Result.panic e ∧
        ∀ (clock : Nat → Int) (cfg : SamplingConfig) (values : Nat → Float64)
          (elapsed : Nat → Int) (events : List SampleEvent) (st : SampleState Experiment),
          (e.SampleValue clock name values cfg args events = some st →
            events = [] ∧ st = Sample.aborted e) ∧
          (e.SampleDuration clock name elapsed cfg args events = some st →
            events = [] ∧ st = Sample.aborted e)) := by
  refine ⟨extractDecorations_eq_none args, ?_, ?_⟩
  · intro d hd hone
    unfold extractDecorations at hd
    rw [extractDecorationsLoop_eq] at hd
    split at hd
    · injection hd with hd
      subst hd
      obtain ⟨h1, h2, h3, h4⟩ := hone
      refine ⟨⟨?_, ?_⟩, ⟨?_, ?_⟩, ⟨?_, ?_⟩, ⟨?_, ?_⟩⟩
      · intro a ha
        exact (lastOr_short _ "" h1).1 a ((mem_annotationsOf args a).2 ha)
      · intro ha
        exact (lastOr_short _ "" h1).2 (fun a h => ha a ((mem_annotationsOf args a).1 h))
      · intro a ha
        exact (lastOr_short _ "" h2).1 a ((mem_unitsOf args a).2 ha)
      · intro ha
        exact (lastOr_short _ "" h2).2 (fun a h => ha a ((mem_unitsOf args a).1 h))
      · intro a ha
        exact (lastOr_short _ DefaultPrecisionBundle h3).1 a ((mem_precisionsOf args a).2 ha)
      · intro ha
        exact (lastOr_short _ DefaultPrecisionBundle h3).2
          (fun a h => ha a ((mem_precisionsOf args a).1 h))
      · intro a ha
        exact (lastOr_short _ "" h4).1 a ((mem_stylesOf args a).2 ha)
      · intro ha
        exact (lastOr_short _ "" h4).2 (fun a h => ha a ((mem_stylesOf args a).1 h))
    · cases hd
  · intro h e name note value duration
    have hn := (extractDecorations_eq_none args).2 h
    refine ⟨by simp [Experiment.RecordValue, hn], by simp [Experiment.RecordDuration, hn],
      by simp [Experiment.RecordNote, hn], fun clock cfg values elapsed events st => ⟨?_, ?_⟩⟩
    · intro hst
      simp only [Experiment.SampleValue, hn] at hst
      by_cases he : events = []
      · rw [if_pos he] at hst
        exact ⟨he, (Option.some.inj hst).symm⟩
      · rw [if_neg he] at hst
        cases hst
    · intro hst
      simp only [Experiment.SampleDuration, hn] at hst
      by_cases he : events = []
      · rw [if_pos he] at hst
        exact ⟨he, (Option.some.inj hst).symm⟩
      · rw [if_neg he] at hst
        cases hst

/-- C11 at concrete arguments: an annotation and a style are extracted, the units and
the precision take their defaults; with an unrecognised argument among them the extraction
and the recording calls abort. -/
theorem C11_witness :
    extractDecorations [ Arg.annotation "run 1", Arg.style "bold"] =
      some { annotation := "run 1", units := "", precisionBundle := DefaultPrecisionBundle,
             style := "bold" } ∧
    extractDecorations [ Arg.annotation "run 1", Arg.other, Arg.style "bold"] = none ∧
    sampleExperiment.RecordValue "size" (Float64.ofInt 4) [ Arg.other] =
      Result.panic sampleExperiment :=
  ⟨by decide,
   ((C11_unrecognised_decoration_aborts
      [ Arg.annotation "run 1", Arg.other, Arg.style "bold"]).1).2 ⟨Arg.other, by decide, rfl⟩,
   (((C11_unrecognised_decoration_aborts [ Arg.other]).2.2 ⟨Arg.other, by decide, rfl⟩)
      sampleExperiment "size" "" (Float64.ofInt 4) 0).1⟩

/-! ## Sampling -/

theorem Sample.start_status {W : Type} (clock : Nat → Int) (cfg : SamplingConfig) (w : W) :
    ((Sample.start clock cfg w).status = SampleStatus.panicked ↔
      cfg.N = 0 ∧ cfg.Duration = 0) ∧
    (¬ (cfg.N = 0 ∧ cfg.Duration = 0) →
      (Sample.start clock cfg w).status = SampleStatus.looping) ∧
    (Sample.start clock cfg w).world = w ∧ (Sample.start clock cfg w).running = [] ∧
    (Sample.start clock cfg w).idx = 0 := by
  unfold Sample.start Sample.aborted
  by_cases h : cfg.N = 0 ∧ cfg.Duration = 0
  · simp [h]
  · simp [h]

/-- No event can happen once a call has been aborted. -/
theorem Sample.run_panicked {W : Type} (clock : Nat → Int) (callback : Nat → W → Result W)
    (cfg : SamplingConfig) (events : List SampleEvent) (st st2 : SampleState W)
    (hst : st.status = SampleStatus.panicked)
    (h : Sample.run clock callback cfg events st = some st2) : events = [] ∧ st2 = st := by
  cases events with
  | nil =>
    simp only [Sample.run, Option.some.injEq] at h
    exact ⟨rfl, h.symm⟩
  | cons ev rest =>
    cases ev with
    | iterate => simp [Sample.run, Sample.step, Sample.iterate, hst] at h
    | finish i => simp [Sample.run, Sample.step, Sample.finish, hst] at h

/-- No event can happen once a call has returned with no callback running. -/
theorem Sample.run_returned {W : Type} (clock : Nat → Int) (callback : Nat → W → Result W)
    (cfg : SamplingConfig) (events : List SampleEvent) (st st2 : SampleState W)
    (hst : st.status = SampleStatus.returned) (hrun : st.running = [])
    (h : Sample.run clock callback cfg events st = some st2) : events = [] ∧ st2 = st := by
  cases events with
  | nil =>
    simp only [Sample.run, Option.some.injEq] at h
    exact ⟨rfl, h.symm⟩
  | cons ev rest =>
    cases ev with
    | iterate => simp [Sample.run, Sample.step, Sample.iterate, hst] at h
    | finish i => simp [Sample.run, Sample.step, Sample.finish, hrun] at h

/-- C12 (as amended): `Sample` aborts exactly for the configurations whose `N` and
`Duration` are both zero, the values that its guard tests for. It then aborts before
anything else happens: no event follows, the callback is not invoked and the world is as
it was. For every other configuration, so for every one with a positive `N` or a positive
`Duration`, the guard lets the call through into its loop. -/
theorem C12_zero_config_aborts {W : Type} (clock : Nat → Int)
    (callback : Nat → W → Result W) (cfg : SamplingConfig) (w : W) :
    ((Sample.start clock cfg w).status = SampleStatus.panicked ↔
      cfg.N = 0 ∧ cfg.Duration = 0) ∧
    (cfg.N = 0 ∧ cfg.Duration = 0 →
      ∀ (events : List SampleEvent) (st : SampleState W),
        Experiment.Sample clock callback cfg events w = some st →
        events = [] ∧ st.status = SampleStatus.panicked ∧ st.world = w) ∧
    (0 < cfg.N ∨ 0 < cfg.Duration →
      Experiment.Sample clock callback cfg [] w = some (Sample.start clock cfg w) ∧
      (Sample.start clock cfg w).status = SampleStatus.looping) := by
  refine ⟨(Sample.start_status clock cfg w).1, fun h events st hst => ?_, fun h => ⟨rfl, ?_⟩⟩
  · have hp := (Sample.start_status clock cfg w).1.2 h
    obtain ⟨he, hs⟩ := Sample.run_panicked clock callback cfg events _ st hp hst
    subst hs
    exact ⟨he, hp, (Sample.start_status clock cfg w).2.2.1⟩
  · apply (Sample.start_status clock cfg w).2.1
    intro hz
    omega

/-- C12 at the zero configuration: the call is aborted and the counting callback has not
been invoked; with `N = 3` the call enters its loop. -/
theorem C12_witness :
    (∀ (events : List SampleEvent) (st : SampleState (List Nat)),
      Experiment.Sample tickingClock countingCallback
        { N := 0, Duration := 0, NumParallel := 0 } events [] = some st →
      events = [] ∧ st.status = SampleStatus.panicked ∧ st.world = []) ∧
    (Sample.start tickingClock { N := 3, Duration := 0, NumParallel := 0 }
      ([] : List Nat)).status = SampleStatus.looping :=
  ⟨(C12_zero_config_aborts tickingClock countingCallback
      { N := 0, Duration := 0, NumParallel := 0 } []).2.1 (by decide),
   ((C12_zero_config_aborts tickingClock countingCallback
      { N := 3, Duration := 0, NumParallel := 0 } []).2.2 (by decide)).2⟩

/-- C12 fails as stated: with `N = -1` and `Duration = 0` neither of the two is positive,
and `Sample` does not abort: it enters its loop and invokes the callback for the index
0. -/
theorem C12_counterexample :
    ¬ (0 < ({ N := -1, Duration := 0, NumParallel := 0 } : SamplingConfig).N) ∧
    ¬ (0 < ({ N := -1, Duration := 0, NumParallel := 0 } : SamplingConfig).Duration) ∧
    (Sample.start tickingClock { N := -1, Duration := 0, NumParallel := 0 }
      ([] : List Nat)).status = SampleStatus.looping ∧
    (Experiment.Sample tickingClock countingCallback
      { N := -1, Duration := 0, NumParallel := 0 } [SampleEvent.iterate] []).map
        (fun st => (st.status, st.world)) = some (SampleStatus.looping, [0]) := by
  decide

theorem SamplingConfig.numParallel_one (cfg : SamplingConfig) (hP : cfg.NumParallel ≤ 1) :
    cfg.numParallel = 1 := by
  unfold SamplingConfig.numParallel
  rw [if_neg (by omega)]

theorem SamplingConfig.maxN_pos (cfg : SamplingConfig) (k : Nat) (hk : 1 ≤ k)
    (hN : cfg.N = (k : Int)) : cfg.maxN = (k : Int) := by
  unfold SamplingConfig.maxN
  rw [if_pos (by omega), hN]

theorem Sample.start_seq {W : Type} (clock : Nat → Int) (cfg : SamplingConfig) (k : Nat)
    (w : W) (hk : 1 ≤ k) (hN : cfg.N = (k : Int)) (hD : cfg.Duration ≤ 0) :
    SeqInv clock 0 (Sample.start clock cfg w) ∧ (Sample.start clock cfg w).world = w := by
  unfold Sample.start SeqInv
  rw [if_neg (by omega)]
  simp only [if_neg (not_lt.2 hD), gt_iff_lt, Sample.avgDtAt]
  simp

/-- One iteration of the loop without workers, when the callback returns. -/
theorem Sample.iterate_seq {W : Type} (clock : Nat → Int) (callback : Nat → W → Result W)
    (cfg : SamplingConfig) (k j : Nat) (st : SampleState W) (w2 : W)
    (hk : 1 ≤ k) (hN : cfg.N = (k : Int)) (hP : cfg.NumParallel ≤ 1)
    (hceil : ∀ i, i + 1 < k →
      clock (3 * i + 3) + Sample.avgDtAt clock 1 1 (i + 1) ≤ clock 0 + sampleCeiling)
    (hinv : SeqInv clock j st) (hj : j < k) (hcb : callback j st.world = Result.ok w2) :
    ∃ st2, Sample.iterate clock callback cfg st = some st2 ∧ st2.world = w2 ∧
      st2.running = [] ∧ st2.idx = j + 1 ∧
      ((j + 1 = k ∧ st2.status = SampleStatus.returned) ∨
       (j + 1 < k ∧ SeqInv clock (j + 1) st2)) := by
  obtain ⟨hs, hidx, hreads, havg, hmax, hrun⟩ := hinv
  have hnp := SamplingConfig.numParallel_one cfg hP
  have hmaxN := SamplingConfig.maxN_pos cfg k hk hN
  unfold Sample.iterate
  rw [if_neg (by simp [hs]), if_neg (by rw [hnp]; decide), hidx, hcb]
  by_cases hlast : j + 1 = k
  · refine ⟨_, rfl, ?_⟩
    unfold Sample.tail
    rw [if_pos (by rw [hmaxN, hidx]; omega)]
    exact ⟨rfl, hrun, by simp [hidx], Or.inl ⟨hlast, rfl⟩⟩
  · refine ⟨_, rfl, ?_⟩
    unfold Sample.tail
    rw [if_neg (by rw [hmaxN, hidx]; omega)]
    have hlt : j + 1 < k := by omega
    have hc := hceil j hlt
    have h3 : 3 * j + 3 = 1 + 3 * j + 2 := by omega
    rw [h3] at hc
    refine ⟨rfl, hrun, by simp [hidx], Or.inr ⟨hlt, ?_⟩⟩
    unfold SeqInv
    refine ⟨?_, by simp [hidx], by simp only [hreads]; omega,
      by simp only [Sample.avgDtAt, hnp, hidx, hreads, havg], hmax, hrun⟩
    simp only [hnp, hidx, hreads, havg, hmax]
    rw [if_neg]
    simp only [gt_iff_lt, not_lt]
    exact hc

/-- One iteration of the loop without workers, when the callback panics. -/
theorem Sample.iterate_seq_panic {W : Type} (clock : Nat → Int)
    (callback : Nat → W → Result W) (cfg : SamplingConfig) (j : Nat) (st : SampleState W)
    (w2 : W) (hP : cfg.NumParallel ≤ 1) (hinv : SeqInv clock j st)
    (hcb : callback j st.world = Result.panic w2) :
    ∃ st2, Sample.iterate clock callback cfg st = some st2 ∧
      st2.status = SampleStatus.panicked := by
  obtain ⟨hs, hidx, hreads, havg, hmax, hrun⟩ := hinv
  have hnp := SamplingConfig.numParallel_one cfg hP
  unfold Sample.iterate
  rw [if_neg (by simp [hs]), if_neg (by rw [hnp]; decide), hidx, hcb]
  exact ⟨_, rfl, rfl⟩

/-- The loop without workers, from its state after `j` iterations: `n` further iterations
invoke the callback for `j`, ..., `j + n - 1` and then `Sample` returns. -/
theorem Sample.run_seq {W : Type} (clock : Nat → Int) (callback : Nat → W → Result W)
    (cfg : SamplingConfig) (k : Nat) (hk : 1 ≤ k) (hN : cfg.N = (k : Int))
    (hP : cfg.NumParallel ≤ 1)
    (hceil : ∀ i, i + 1 < k →
      clock (3 * i + 3) + Sample.avgDtAt clock 1 1 (i + 1) ≤ clock 0 + sampleCeiling)
    (n j : Nat) (st : SampleState W) (w2 : W) (hn : 1 ≤ n) (hjn : j + n = k)
    (hinv : SeqInv clock j st)
    (hcb : runCallbacks callback (List.range' j n) st.world = Result.ok w2) :
    ∃ st2, Sample.run clock callback cfg (List.replicate n SampleEvent.iterate) st =
        some st2 ∧
      st2.status = SampleStatus.returned ∧ st2.idx = k ∧ st2.running = [] ∧
      st2.world = w2 := by
  induction n generalizing j st with
  | zero => omega
  | succ n ih =>
    simp only [List.range'_succ, runCallbacks] at hcb
    cases hc : callback j st.world with
    | panic w3 => rw [hc] at hcb; cases hcb
    | ok w3 =>
      rw [hc] at hcb
      obtain ⟨st1, h1, hw, hrun, hidx, hcase⟩ :=
        Sample.iterate_seq clock callback cfg k j st w3 hk hN hP hceil hinv (by omega) hc
      simp only [List.replicate_succ, Sample.run, Sample.step, h1]
      rcases hcase with ⟨hlast, hret⟩ | ⟨hlt, hinv2⟩
      · have hn0 : n = 0 := by omega
        subst hn0
        simp only [List.range'_zero, runCallbacks, Result.ok.injEq] at hcb
        refine ⟨st1, rfl, hret, by omega, hrun, ?_⟩
        rw [hw, hcb]
      · rw [← hw] at hcb
        exact ih (j + 1) st1 (by omega) (by omega) hinv2 hcb

/-- The loop without workers, from its state after `j` iterations: whatever execution makes
`Sample` return consists of the iterations `j`, ..., `k - 1`, one after the other. -/
theorem Sample.run_seq_unique {W : Type} (clock : Nat → Int)
    (callback : Nat → W → Result W) (cfg : SamplingConfig) (k : Nat) (hk : 1 ≤ k)
    (hN : cfg.N = (k : Int)) (hP : cfg.NumParallel ≤ 1)
    (hceil : ∀ i, i + 1 < k →
      clock (3 * i + 3) + Sample.avgDtAt clock 1 1 (i + 1) ≤ clock 0 + sampleCeiling)
    (events : List SampleEvent) (j : Nat) (st st2 : SampleState W) (hj : j < k)
    (hinv : SeqInv clock j st)
    (hrun : Sample.run clock callback cfg events st = some st2)
    (hret : st2.status = SampleStatus.returned) :
    events = List.replicate (k - j) SampleEvent.iterate ∧
      runCallbacks callback (List.range' j (k - j)) st.world = Result.ok st2.world := by
  induction events generalizing j st with
  | nil =>
    simp only [Sample.run, Option.some.injEq] at hrun
    subst hrun
    rw [hinv.1] at hret
    cases hret
  | cons ev rest ih =>
    cases ev with
    | finish i =>
      simp [Sample.run, Sample.step, Sample.finish, hinv.2.2.2.2.2] at hrun
    | iterate =>
      have hkj : k - j = (k - (j + 1)) + 1 := by omega
      cases hc : callback j st.world with
      | panic w3 =>
        obtain ⟨st1, h1, hp⟩ :=
          Sample.iterate_seq_panic clock callback cfg j st w3 hP hinv hc
        simp only [Sample.run, Sample.step, h1] at hrun
        obtain ⟨_, h2⟩ := Sample.run_panicked clock callback cfg rest st1 st2 hp hrun
        rw [h2, hp] at hret
        cases hret
      | ok w3 =>
        obtain ⟨st1, h1, hw, hrun1, hidx, hcase⟩ :=
          Sample.iterate_seq clock callback cfg k j st w3 hk hN hP hceil hinv hj hc
        simp only [Sample.run, Sample.step, h1] at hrun
        rw [hkj, List.replicate_succ, List.range'_succ]
        simp only [runCallbacks, hc]
        rcases hcase with ⟨hlast, hret1⟩ | ⟨hlt, hinv2⟩
        · obtain ⟨h2, h3⟩ :=
            Sample.run_returned clock callback cfg rest st1 st2 hret1 hrun1 hrun
          have h0 : k - (j + 1) = 0 := by omega
          rw [h0, h2, h3, hw]
          simp [runCallbacks]
        · obtain ⟨h2, h3⟩ := ih (j + 1) st1 hlt hinv2 hrun
          rw [hw] at h3
          exact ⟨by rw [h2], h3⟩

theorem runCallbacks_recordValue (name : String) (value : Nat → Float64) (args : List Arg)
    (d : extractedDecorations) (hd : extractDecorations args = some d) (l : List Nat)
    (e : Experiment) :
    runCallbacks (fun idx e2 => e2.recordValue name (value idx) d) l e =
      e.RecordValues name (l.map (fun i => (value i, args))) := by
  induction l generalizing e with
  | nil => rfl
  | cons i rest ih =>
    simp only [runCallbacks, List.map_cons, Experiment.RecordValues, Experiment.RecordValue, hd]
    cases e.recordValue name (value i) d with
    | ok e2 => exact ih e2
    | panic e2 => rfl

theorem runCallbacks_recordDuration (name : String) (elapsed : Nat → Int) (args : List Arg)
    (d : extractedDecorations) (hd : extractDecorations args = some d) (l : List Nat)
    (e : Experiment) :
    runCallbacks (fun idx e2 => e2.recordDuration name (elapsed idx) d) l e =
      e.RecordDurations name (l.map (fun i => (elapsed i, args))) := by
  induction l generalizing e with
  | nil => rfl
  | cons i rest ih =>
    simp only [runCallbacks, List.map_cons, Experiment.RecordDurations,
      Experiment.RecordDuration, hd]
    cases e.recordDuration name (elapsed i) d with
    | ok e2 => exact ih e2
    | panic e2 => rfl

/-- C13: `Sample` with `N = k` for a `k` of at least 1, no `Duration` and `NumParallel` of
at most 1, in a run in which the test of line 307 never finds the clock beyond the
100000 hours (`hceil`: each time it is made, `now + avgDt` is not after `maxTime`). When
the callbacks return, the `k` iterations run one after the other and `Sample` returns
having invoked the callback for 0, 1, ..., `k - 1` in this order, each call starting from
the world that the one before left; and every execution in which `Sample` returns is this
one. So `SampleValue` and `SampleDuration` under a name that is free, or bound to a series
of their kind, add exactly the `k` samples of the indices 0, ..., `k - 1` to the series of
that name, in the order of the calls, each with the annotation of the decorations. -/
theorem C13_sample_runs_k_times_in_order {W : Type} (clock : Nat → Int)
    (callback : Nat → W → Result W) (cfg : SamplingConfig) (k : Nat) (w : W)
    (hk : 1 ≤ k) (hN : cfg.N = (k : Int)) (hD : cfg.Duration = 0)
    (hP : cfg.NumParallel ≤ 1)
    (hceil : ∀ i, i + 1 < k →
      clock (3 * i + 3) + Sample.avgDtAt clock 1 1 (i + 1) ≤ clock 0 + sampleCeiling) :
    (∀ w2 : W, runCallbacks callback (List.range k) w = Result.ok w2 →
      ∃ st, Experiment.Sample clock callback cfg (List.replicate k SampleEvent.iterate) w =
          some st ∧
        st.status = SampleStatus.returned ∧ st.idx = k ∧ st.running = [] ∧ st.world = w2) ∧
    (∀ (events : List SampleEvent) (st : SampleState W),
      Experiment.Sample clock callback cfg events w = some st →
      st.status = SampleStatus.returned →
      events = List.replicate k SampleEvent.iterate ∧
        runCallbacks callback (List.range k) w = Result.ok st.world) ∧
    (∀ (e : Experiment) (name : String) (value : Nat → Float64) (args : List Arg),
      extractDecorations args ≠ none →
      (IdxWithName e.LogEntries name = none ∨ (e.Get name).Type_ = LogEntryTypeValue) →
      ∃ st, e.SampleValue clock name value cfg args (List.replicate k SampleEvent.iterate) =
          some st ∧
        st.status = SampleStatus.returned ∧
        (st.world.Get name).Values = (e.Get name).Values ++ (List.range k).map value ∧
        (st.world.Get name).Annotations =
          (e.Get name).Annotations ++ List.replicate k (annotationOf args)) ∧
    (∀ (e : Experiment) (name : String) (elapsed : Nat → Int) (args : List Arg),
      extractDecorations args ≠ none →
      (IdxWithName e.LogEntries name = none ∨ (e.Get name).Type_ = LogEntryTypeDuration) →
      ∃ st, e.SampleDuration clock name elapsed cfg args
          (List.replicate k SampleEvent.iterate) = some st ∧
        st.status = SampleStatus.returned ∧
        (st.world.Get name).Durations = (e.Get name).Durations ++ (List.range k).map elapsed ∧
        (st.world.Get name).Annotations =
          (e.Get name).Annotations ++ List.replicate k (annotationOf args)) := by
  have hexists : ∀ {V : Type} (cb : Nat → V → Result V) (v v2 : V),
      runCallbacks cb (List.range k) v = Result.ok v2 →
      ∃ st, Experiment.Sample clock cb cfg (List.replicate k SampleEvent.iterate) v =
          some st ∧
        st.status = SampleStatus.returned ∧ st.idx = k ∧ st.running = [] ∧
        st.world = v2 := by
    intro V cb v v2 hcb
    obtain ⟨hinv, hw⟩ := Sample.start_seq clock cfg k v hk hN (le_of_eq hD)
    rw [List.range_eq_range', ← hw] at hcb
    exact Sample.run_seq clock cb cfg k hk hN hP hceil k 0 _ v2 hk (by omega) hinv hcb
  refine ⟨hexists callback w, fun events st hrun hret => ?_, ?_, ?_⟩
  · obtain ⟨hinv, hw⟩ := Sample.start_seq clock cfg k w hk hN (le_of_eq hD)
    have h := Sample.run_seq_unique clock callback cfg k hk hN hP hceil events 0 _ st
      (by omega) hinv hrun hret
    rw [hw, Nat.sub_zero, ← List.range_eq_range'] at h
    exact h
  · intro e name value args hargs hfree
    obtain ⟨d, hd⟩ := Option.ne_none_iff_exists'.1 hargs
    obtain ⟨e2, h2, hv, ha⟩ := RecordValues_free name ((List.range k).map (fun i => (value i, args)))
      (by intro p hp; simp only [List.mem_map] at hp; obtain ⟨i, _, rfl⟩ := hp; exact hargs)
      e hfree
    rw [← runCallbacks_recordValue name value args d hd] at h2
    obtain ⟨st, hst, hret, _, _, hw⟩ := hexists _ e e2 h2
    refine ⟨st, ?_, hret, ?_, ?_⟩
    · simp only [Experiment.SampleValue, hd]
      exact hst
    · rw [hw, hv]
      simp [Function.comp_def]
    · rw [hw, ha]
      simp [Function.comp_def, List.map_const']
  · intro e name elapsed args hargs hfree
    obtain ⟨d, hd⟩ := Option.ne_none_iff_exists'.1 hargs
    obtain ⟨e2, h2, hv, ha⟩ := RecordDurations_free name
      ((List.range k).map (fun i => (elapsed i, args)))
      (by intro p hp; simp only [List.mem_map] at hp; obtain ⟨i, _, rfl⟩ := hp; exact hargs)
      e hfree
    rw [← runCallbacks_recordDuration name elapsed args d hd] at h2
    obtain ⟨st, hst, hret, _, _, hw⟩ := hexists _ e e2 h2
    refine ⟨st, ?_, hret, ?_, ?_⟩
    · simp only [Experiment.SampleDuration, hd]
      exact hst
    · rw [hw, hv]
      simp [Function.comp_def]
    · rw [hw, ha]
      simp [Function.comp_def, List.map_const']

theorem tickingClock_ceiling (i : Nat) (hi : i + 1 < 5) :
    tickingClock (3 * i + 3) + Sample.avgDtAt tickingClock 1 1 (i + 1) ≤
      tickingClock 0 + sampleCeiling := by
  have h : i = 0 ∨ i = 1 ∨ i = 2 ∨ i = 3 := by omega
  rcases h with h | h | h | h <;> subst h <;> decide

/-- C13 at `N = 5`, `NumParallel = 1`: the counting callback is invoked for 0, 1, 2, 3, 4
in this order, and `SampleDuration` records exactly five durations, in the order of the
calls. -/
theorem C13_witness :
    (∃ st, Experiment.Sample tickingClock countingCallback fiveSamples
        (List.replicate 5 SampleEvent.iterate) [] = some st ∧
      st.status = SampleStatus.returned ∧ st.idx = 5 ∧ st.running = [] ∧
      st.world = [0, 1, 2, 3, 4]) ∧
    (∃ st, (NewExperiment "bench").SampleDuration tickingClock "run"
        (fun idx => 10 * idx) fiveSamples [] (List.replicate 5 SampleEvent.iterate) =
          some st ∧
      st.status = SampleStatus.returned ∧
      (st.world.Get "run").Durations = [0, 10, 20, 30, 40]) := by
  have h := C13_sample_runs_k_times_in_order tickingClock countingCallback fiveSamples 5 []
    (by decide) (by decide) (by decide) (by decide) tickingClock_ceiling
  have h2 := C13_sample_runs_k_times_in_order tickingClock
    (fun idx (e : Experiment) => Result.ok e) fiveSamples 5 (NewExperiment "bench")
    (by decide) (by decide) (by decide) (by decide) tickingClock_ceiling
  refine ⟨h.1 [0, 1, 2, 3, 4] (by decide), ?_⟩
  obtain ⟨st, hst, hret, hv, _⟩ :=
    h2.2.2.2 (NewExperiment "bench") "run" (fun idx => 10 * idx) [] (by decide)
      (Or.inl (by decide))
  exact ⟨st, hst, hret, by rw [hv]; decide⟩

theorem runCallbacks_append {W : Type} (callback : Nat → W → Result W) (l1 l2 : List Nat)
    (w w1 : W) (h : runCallbacks callback l1 w = Result.ok w1) :
    runCallbacks callback (l1 ++ l2) w = runCallbacks callback l2 w1 := by
  induction l1 generalizing w with
  | nil =>
    simp only [runCallbacks, Result.ok.injEq] at h
    rw [List.nil_append, h]
  | cons i rest ih =>
    simp only [List.cons_append, runCallbacks] at h ⊢
    cases hc : callback i w with
    | ok w2 =>
      rw [hc] at h
      exact ih w2 h
    | panic w2 =>
      rw [hc] at h
      cases h

theorem SamplingConfig.numParallel_many (cfg : SamplingConfig) (hP : 1 < cfg.NumParallel) :
    cfg.numParallel = cfg.NumParallel := by
  unfold SamplingConfig.numParallel
  rw [if_pos (by omega)]

theorem Sample.start_par {W : Type} (clock : Nat → Int) (callback : Nat → W → Result W)
    (cfg : SamplingConfig) (k : Nat) (w : W) (hk : 1 ≤ k) (hN : cfg.N = (k : Int))
    (hD : cfg.Duration = 0) (hP : 1 < cfg.NumParallel) :
    ParInv clock callback cfg k w (Sample.start clock cfg w) := by
  intro _
  unfold Sample.start
  rw [if_neg (by omega)]
  refine ⟨⟨[], ?_, rfl⟩, ?_, fun _ => ⟨?_, ?_, rfl, ?_⟩, fun h => ?_⟩
  · simp
  · simp only [List.length_nil, Nat.cast_zero]
    omega
  · show 0 < k
    omega
  · simp [hD]
  · simp [hD]
  · cases h

theorem Sample.iterate_par {W : Type} (clock : Nat → Int) (callback : Nat → W → Result W)
    (cfg : SamplingConfig) (k : Nat) (w : W) (st st2 : SampleState W) (hk : 1 ≤ k)
    (hN : cfg.N = (k : Int)) (hP : 1 < cfg.NumParallel)
    (hceil : ∀ i, i + 1 < k →
      clock (3 * i + 3) + Sample.avgDtAt clock 1 cfg.NumParallel (i + 1) ≤
        clock 0 + sampleCeiling)
    (hinv : ParInv clock callback cfg k w st)
    (h : Sample.iterate clock callback cfg st = some st2) :
    ParInv clock callback cfg k w st2 := by
  have hnp := SamplingConfig.numParallel_many cfg hP
  have hmaxN := SamplingConfig.maxN_pos cfg k hk hN
  unfold Sample.iterate at h
  by_cases hs : st.status = SampleStatus.looping
  · rw [if_neg (by simp [hs]), if_pos (by rw [hnp]; omega)] at h
    by_cases hfree : (st.running.length : Int) < cfg.numParallel
    · rw [if_pos hfree] at h
      obtain ⟨⟨done, hperm, hdone⟩, hlen, hloop, _⟩ := hinv (by rw [hs]; decide)
      obtain ⟨hidx, hreads, havg, hmax⟩ := hloop hs
      injection h with h
      subst h
      intro _
      have hdone2 : (done ++ (st.running ++ [st.idx])).Perm (List.range (st.idx + 1)) := by
        rw [List.range_succ, ← List.append_assoc]
        exact List.Perm.append_right _ hperm
      have hlen2 : ((st.running ++ [st.idx]).length : Int) ≤ cfg.NumParallel := by
        rw [hnp] at hfree
        simp only [List.length_append, List.length_singleton, Nat.cast_add, Nat.cast_one]
        omega
      unfold Sample.tail
      by_cases hlast : cfg.maxN ≤ ((st.idx + 1 : Nat) : Int)
      · rw [if_pos hlast]
        rw [hmaxN] at hlast
        refine ⟨⟨done, hdone2, hdone⟩, hlen2, (fun h => by cases h), fun _ => ?_⟩
        show st.idx + 1 = k
        omega
      · rw [if_neg hlast]
        rw [hmaxN] at hlast
        have hlt : st.idx + 1 < k := by omega
        have hc := hceil st.idx hlt
        have h3 : 3 * st.idx + 3 = 1 + 3 * st.idx + 2 := by omega
        rw [h3] at hc
        refine ⟨⟨done, hdone2, hdone⟩, hlen2, fun _ => ⟨hlt, ?_, ?_, hmax⟩, fun h => ?_⟩
        · show st.reads + 3 = 1 + 3 * (st.idx + 1)
          omega
        · show sampleAvgDt st.avgDt st.idx cfg.numParallel
              (since (clock st.reads) (clock (st.reads + 1))) =
            Sample.avgDtAt clock 1 cfg.NumParallel (st.idx + 1)
          simp only [Sample.avgDtAt, hnp, hreads, havg]
        · exfalso
          simp only [hnp, hreads, havg, hmax] at h
          rw [if_neg (by simp only [gt_iff_lt, not_lt]; exact hc)] at h
          cases h
    · rw [if_neg hfree] at h
      cases h
  · rw [if_pos hs] at h
    cases h

theorem Sample.finish_par {W : Type} (clock : Nat → Int) (callback : Nat → W → Result W)
    (cfg : SamplingConfig) (k : Nat) (w : W) (i : Nat) (st st2 : SampleState W)
    (hinv : ParInv clock callback cfg k w st)
    (h : Sample.finish callback i st = some st2) :
    ParInv clock callback cfg k w st2 := by
  unfold Sample.finish at h
  by_cases hs : st.status = SampleStatus.panicked ∨ i ∉ st.running
  · rw [if_pos hs] at h
    cases h
  · rw [if_neg hs] at h
    simp only [not_or, not_not] at hs
    obtain ⟨⟨done, hperm, hdone⟩, hlen, hloop, hret⟩ := hinv hs.1
    cases hc : callback i st.world with
    | panic w2 =>
      rw [hc] at h
      injection h with h
      subst h
      intro hp
      exact absurd rfl hp
    | ok w2 =>
      rw [hc] at h
      injection h with h
      subst h
      intro _
      refine ⟨⟨done ++ [i], ?_, ?_⟩, ?_, hloop, hret⟩
      · refine List.Perm.trans ?_ hperm
        rw [List.append_assoc]
        exact List.Perm.append_left _ (List.perm_cons_erase hs.2).symm
      · rw [runCallbacks_append callback done [i] w st.world hdone]
        simp only [runCallbacks, hc]
      · have := List.length_erase_of_mem hs.2
        show ((st.running.erase i).length : Int) ≤ cfg.NumParallel
        have h2 : (st.running.erase i).length ≤ st.running.length := by
          rw [this]; omega
        omega

theorem Sample.run_par {W : Type} (clock : Nat → Int) (callback : Nat → W → Result W)
    (cfg : SamplingConfig) (k : Nat) (w : W) (hk : 1 ≤ k) (hN : cfg.N = (k : Int))
    (hP : 1 < cfg.NumParallel)
    (hceil : ∀ i, i + 1 < k →
      clock (3 * i + 3) + Sample.avgDtAt clock 1 cfg.NumParallel (i + 1) ≤
        clock 0 + sampleCeiling)
    (events : List SampleEvent) (st st2 : SampleState W)
    (hinv : ParInv clock callback cfg k w st)
    (h : Sample.run clock callback cfg events st = some st2) :
    ParInv clock callback cfg k w st2 := by
  induction events generalizing st with
  | nil =>
    simp only [Sample.run, Option.some.injEq] at h
    rw [← h]
    exact hinv
  | cons ev rest ih =>
    simp only [Sample.run] at h
    cases hstep : Sample.step clock callback cfg ev st with
    | none => rw [hstep] at h; cases h
    | some st1 =>
      rw [hstep] at h
      refine ih st1 ?_ h
      cases ev with
      | iterate => exact Sample.iterate_par clock callback cfg k w st st1 hk hN hP hceil hinv hstep
      | finish i => exact Sample.finish_par clock callback cfg k w i st st1 hinv hstep

/-- The callbacks that are running return, one after the other: the workers drain. -/
theorem Sample.drain {W : Type} (clock : Nat → Int) (callback : Nat → W → Result W)
    (cfg : SamplingConfig) (r : List Nat) (st : SampleState W) (w2 : W)
    (hr : st.running = r) (hnd : r.Nodup) (hs : st.status ≠ SampleStatus.panicked)
    (h : runCallbacks callback r st.world = Result.ok w2) :
    Sample.run clock callback cfg (r.map SampleEvent.finish) st =
      some { st with running := [], world := w2 } := by
  induction r generalizing st with
  | nil =>
    simp only [runCallbacks, Result.ok.injEq] at h
    simp only [List.map_nil, Sample.run, ← h, ← hr]
  | cons i rest ih =>
    simp only [runCallbacks] at h
    cases hc : callback i st.world with
    | panic w3 => rw [hc] at h; cases h
    | ok w3 =>
      rw [hc] at h
      simp only [List.map_cons, Sample.run, Sample.step, Sample.finish]
      rw [if_neg (by simp [hs, hr]), hc]
      have herase : st.running.erase i = rest := by
        rw [hr]; simp
      simp only [herase]
      have := ih { st with running := rest, world := w3 } rfl (List.nodup_cons.1 hnd).2 hs h
      rw [this]

theorem Sample.run_append {W : Type} (clock : Nat → Int) (callback : Nat → W → Result W)
    (cfg : SamplingConfig) (l1 l2 : List SampleEvent) (st st1 : SampleState W)
    (h : Sample.run clock callback cfg l1 st = some st1) :
    Sample.run clock callback cfg (l1 ++ l2) st = Sample.run clock callback cfg l2 st1 := by
  induction l1 generalizing st with
  | nil =>
    simp only [Sample.run, Option.some.injEq] at h
    rw [List.nil_append, h]
  | cons ev rest ih =>
    simp only [List.cons_append, Sample.run] at h ⊢
    cases hstep : Sample.step clock callback cfg ev st with
    | none => rw [hstep] at h; cases h
    | some st2 =>
      rw [hstep] at h
      exact ih st2 h

/-- What holds in every state of a call of `Sample` with workers, sample count `k` and no
duration, that no panic has ended. -/
theorem Sample.par_state {W : Type} (clock : Nat → Int) (callback : Nat → W → Result W)
    (cfg : SamplingConfig) (k : Nat) (w : W) (hk : 1 ≤ k) (hN : cfg.N = (k : Int))
    (hD : cfg.Duration = 0) (hP : 1 < cfg.NumParallel)
    (hceil : ∀ i, i + 1 < k →
      clock (3 * i + 3) + Sample.avgDtAt clock 1 cfg.NumParallel (i + 1) ≤
        clock 0 + sampleCeiling)
    (events : List SampleEvent) (st : SampleState W)
    (hrun : Experiment.Sample clock callback cfg events w = some st)
    (hs : st.status ≠ SampleStatus.panicked) :
    st.idx ≤ k ∧ (st.status = SampleStatus.returned ↔ st.idx = k) ∧
    (st.running.length : Int) ≤ cfg.NumParallel ∧
    ∃ done : List Nat, (done ++ st.running).Perm (List.range st.idx) ∧
      runCallbacks callback done w = Result.ok st.world ∧
      ∀ w2 : W, runCallbacks callback (done ++ st.running) w = Result.ok w2 →
        Experiment.Sample clock callback cfg (events ++ st.running.map SampleEvent.finish) w =
          some { st with running := [], world := w2 } := by
  have hinv := Sample.run_par clock callback cfg k w hk hN hP hceil events _ st
    (Sample.start_par clock callback cfg k w hk hN hD hP) hrun
  obtain ⟨⟨done, hperm, hdone⟩, hlen, hloop, hret⟩ := hinv hs
  have hcases : st.status = SampleStatus.looping ∨ st.status = SampleStatus.returned := by
    cases h : st.status with
    | looping => exact Or.inl rfl
    | returned => exact Or.inr rfl
    | panicked => exact absurd h hs
  refine ⟨?_, ⟨hret, fun h => ?_⟩, hlen, done, hperm, hdone, fun w2 hw2 => ?_⟩
  · rcases hcases with h | h
    · exact le_of_lt (hloop h).1
    · exact le_of_eq (hret h)
  · rcases hcases with h2 | h2
    · have := (hloop h2).1
      omega
    · exact h2
  · unfold Experiment.Sample at hrun ⊢
    rw [Sample.run_append clock callback cfg events _ _ st hrun]
    rw [runCallbacks_append callback done st.running w st.world hdone] at hw2
    have hnd : st.running.Nodup :=
      (List.nodup_append.1 ((List.Perm.nodup_iff hperm).2 (List.nodup_range _))).2.1
    exact Sample.drain clock callback cfg st.running st w2 rfl hnd hs hw2

/-- What holds in the states of `Sample` with workers, and of `SampleValue` and
`SampleDuration` when `Sample` has returned. -/
theorem Sample.par_samples {W : Type} (clock : Nat → Int)
    (callback : Nat → W → Result W) (cfg : SamplingConfig) (k : Nat) (w : W)
    (hk : 1 ≤ k) (hN : cfg.N = (k : Int)) (hD : cfg.Duration = 0)
    (hP : 1 < cfg.NumParallel)
    (hceil : ∀ i, i + 1 < k →
      clock (3 * i + 3) + Sample.avgDtAt clock 1 cfg.NumParallel (i + 1) ≤
        clock 0 + sampleCeiling) :
    (∀ (events : List SampleEvent) (st : SampleState W),
      Experiment.Sample clock callback cfg events w = some st →
      st.status ≠ SampleStatus.panicked →
      st.idx ≤ k ∧ (st.status = SampleStatus.returned ↔ st.idx = k) ∧
      (st.running.length : Int) ≤ cfg.NumParallel ∧
      ∃ done : List Nat, (done ++ st.running).Perm (List.range st.idx) ∧
        runCallbacks callback done w = Result.ok st.world ∧
        ∀ w2 : W, runCallbacks callback (done ++ st.running) w = Result.ok w2 →
          Experiment.Sample clock callback cfg
            (events ++ st.running.map SampleEvent.finish) w =
              some { st with running := [], world := w2 }) ∧
    (∀ (e : Experiment) (name : String) (value : Nat → Float64) (args : List Arg)
      (events : List SampleEvent) (st : SampleState Experiment),
      extractDecorations args ≠ none →
      (IdxWithName e.LogEntries name = none ∨ (e.Get name).Type_ = LogEntryTypeValue) →
      e.SampleValue clock name value cfg args events = some st →
      st.status = SampleStatus.returned →
      ∃ done : List Nat, (done ++ st.running).Perm (List.range k) ∧
        (st.world.Get name).Values = (e.Get name).Values ++ done.map value ∧
        ∃ st2, e.SampleValue clock name value cfg args
            (events ++ st.running.map SampleEvent.finish) = some st2 ∧
          st2.status = SampleStatus.returned ∧ st2.running = [] ∧
          (st2.world.Get name).Values =
            (e.Get name).Values ++ (done ++ st.running).map value) ∧
    (∀ (e : Experiment) (name : String) (elapsed : Nat → Int) (args : List Arg)
      (events : List SampleEvent) (st : SampleState Experiment),
      extractDecorations args ≠ none →
      (IdxWithName e.LogEntries name = none ∨ (e.Get name).Type_ = LogEntryTypeDuration) →
      e.SampleDuration clock name elapsed cfg args events = some st →
      st.status = SampleStatus.returned →
      ∃ done : List Nat, (done ++ st.running).Perm (List.range k) ∧
        (st.world.Get name).Durations = (e.Get name).Durations ++ done.map elapsed ∧
        ∃ st2, e.SampleDuration clock name elapsed cfg args
            (events ++ st.running.map SampleEvent.finish) = some st2 ∧
          st2.status = SampleStatus.returned ∧ st2.running = [] ∧
          (st2.world.Get name).Durations =
            (e.Get name).Durations ++ (done ++ st.running).map elapsed) := by
  refine ⟨fun events st hrun hs =>
    Sample.par_state clock callback cfg k w hk hN hD hP hceil events st hrun hs, ?_, ?_⟩
  · intro e name value args events st hargs hfree hrun hret
    obtain ⟨d, hd⟩ := Option.ne_none_iff_exists'.1 hargs
    simp only [Experiment.SampleValue, hd] at hrun ⊢
    obtain ⟨_, hiff, _, done, hperm, hdone, hdrain⟩ :=
      Sample.par_state clock _ cfg k e hk hN hD hP hceil events st hrun (by rw [hret]; decide)
    rw [hiff.1 hret] at hperm
    have hfreeAll : ∀ l : List Nat, ∃ e2,
        runCallbacks (fun idx e2 => e2.recordValue name (value idx) d) l e = Result.ok e2 ∧
        (e2.Get name).Values = (e.Get name).Values ++ l.map value := by
      intro l
      obtain ⟨e2, h2, hv, _⟩ := RecordValues_free name (l.map (fun i => (value i, args)))
        (by intro p hp; simp only [List.mem_map] at hp; obtain ⟨i, _, rfl⟩ := hp; exact hargs)
        e hfree
      rw [← runCallbacks_recordValue name value args d hd] at h2
      exact ⟨e2, h2, by rw [hv]; simp [Function.comp_def]⟩
    obtain ⟨e2, h2, hv2⟩ := hfreeAll done
    rw [hdone] at h2
    injection h2 with h2
    obtain ⟨e3, h3, hv3⟩ := hfreeAll (done ++ st.running)
    refine ⟨done, hperm, by rw [h2, hv2], _, hdrain e3 h3, hret, rfl, hv3⟩
  · intro e name elapsed args events st hargs hfree hrun hret
    obtain ⟨d, hd⟩ := Option.ne_none_iff_exists'.1 hargs
    simp only [Experiment.SampleDuration, hd] at hrun ⊢
    obtain ⟨_, hiff, _, done, hperm, hdone, hdrain⟩ :=
      Sample.par_state clock _ cfg k e hk hN hD hP hceil events st hrun (by rw [hret]; decide)
    rw [hiff.1 hret] at hperm
    have hfreeAll : ∀ l : List Nat, ∃ e2,
        runCallbacks (fun idx e2 => e2.recordDuration name (elapsed idx) d) l e =
          Result.ok e2 ∧
        (e2.Get name).Durations = (e.Get name).Durations ++ l.map elapsed := by
      intro l
      obtain ⟨e2, h2, hv, _⟩ := RecordDurations_free name (l.map (fun i => (elapsed i, args)))
        (by intro p hp; simp only [List.mem_map] at hp; obtain ⟨i, _, rfl⟩ := hp; exact hargs)
        e hfree
      rw [← runCallbacks_recordDuration name elapsed args d hd] at h2
      exact ⟨e2, h2, by rw [hv]; simp [Function.comp_def]⟩
    obtain ⟨e2, h2, hv2⟩ := hfreeAll done
    rw [hdone] at h2
    injection h2 with h2
    obtain ⟨e3, h3, hv3⟩ := hfreeAll (done ++ st.running)
    refine ⟨done, hperm, by rw [h2, hv2], _, hdrain e3 h3, hret, rfl, hv3⟩

theorem tickingClock_ceiling_par (i : Nat) (hi : i + 1 < 3) :
    tickingClock (3 * i + 3) +
        Sample.avgDtAt tickingClock 1 threeSamplesTwoWorkers.NumParallel (i + 1) ≤
      tickingClock 0 + sampleCeiling := by
  have h : i = 0 ∨ i = 1 := by omega
  rcases h with h | h <;> subst h <;> decide

/-! ## Sample with workers returns -/

theorem runCallbacks_prefix {W : Type} (callback : Nat → W → Result W) (l1 l2 : List Nat)
    (w w2 : W) (h : runCallbacks callback (l1 ++ l2) w = Result.ok w2) :
    ∃ w1, runCallbacks callback l1 w = Result.ok w1 ∧
      runCallbacks callback l2 w1 = Result.ok w2 := by
  induction l1 generalizing w with
  | nil => exact ⟨w, rfl, h⟩
  | cons i rest ih =>
    simp only [List.cons_append, runCallbacks] at h ⊢
    cases hc : callback i w with
    | ok w3 =>
      rw [hc] at h
      exact ih w3 h
    | panic w3 =>
      rw [hc] at h
      cases h

/-- One index handed over and its callback returned, from a state with no callback
running, before the last index. -/
theorem Sample.oneAtATime_step {W : Type} (clock : Nat → Int)
    (callback : Nat → W → Result W) (cfg : SamplingConfig) (k : Nat) (hk : 1 ≤ k)
    (hN : cfg.N = (k : Int)) (hP : 1 < cfg.NumParallel)
    (hceil : ∀ i, i + 1 < k →
      clock (3 * i + 3) + Sample.avgDtAt clock 1 cfg.NumParallel (i + 1) ≤
        clock 0 + sampleCeiling)
    (j : Nat) (hj : j + 1 < k) (w w2 : W) (hc : callback j w = Result.ok w2) :
    Sample.run clock callback cfg [SampleEvent.iterate, SampleEvent.finish j]
      (Sample.idleAt clock cfg j w) = some (Sample.idleAt clock cfg (j + 1) w2) := by
  have hnp := SamplingConfig.numParallel_many cfg hP
  have hmaxN := SamplingConfig.maxN_pos cfg k hk hN
  have hc2 := hceil j hj
  have hiter : Sample.iterate clock callback cfg (Sample.idleAt clock cfg j w) =
      some { Sample.idleAt clock cfg (j + 1) w with running := [j] } := by
    unfold Sample.iterate
    rw [if_neg (by simp [Sample.idleAt]), if_pos (by rw [hnp]; omega),
      if_pos (by simp [Sample.idleAt]; omega)]
    unfold Sample.tail
    rw [if_neg (by rw [hmaxN]; simp only [Sample.idleAt]; push_cast; omega)]
    have hread : 1 + 3 * j + 2 = 3 * j + 3 := by omega
    have havg : sampleAvgDt (Sample.avgDtAt clock 1 cfg.NumParallel j) j cfg.numParallel
        (since (clock (1 + 3 * j)) (clock (1 + 3 * j + 1))) =
        Sample.avgDtAt clock 1 cfg.NumParallel (j + 1) := by
      rw [hnp]
      rfl
    simp only [Sample.idleAt, List.nil_append, havg, hread]
    rw [if_neg (by omega)]
    have hreads : 1 + 3 * j + 3 = 1 + 3 * (j + 1) := by omega
    rw [hreads]
  simp only [Sample.run, Sample.step, hiter, Sample.finish]
  rw [if_neg (by simp [Sample.idleAt])]
  have hw : (Sample.idleAt clock cfg (j + 1) w).world = w := rfl
  rw [hw, hc]
  simp [Sample.idleAt]

/-- The execution in which every callback returns before the next index is handed over,
up to the index `j`, before the last index. -/
theorem Sample.oneAtATime_run {W : Type} (clock : Nat → Int)
    (callback : Nat → W → Result W) (cfg : SamplingConfig) (k : Nat) (hk : 1 ≤ k)
    (hN : cfg.N = (k : Int)) (hD : cfg.Duration = 0) (hP : 1 < cfg.NumParallel)
    (hceil : ∀ i, i + 1 < k →
      clock (3 * i + 3) + Sample.avgDtAt clock 1 cfg.NumParallel (i + 1) ≤
        clock 0 + sampleCeiling)
    (w : W) (j : Nat) (hj : j < k) (w1 : W)
    (hcb : runCallbacks callback (List.range j) w = Result.ok w1) :
    Experiment.Sample clock callback cfg (Sample.oneAtATime j) w =
      some (Sample.idleAt clock cfg j w1) := by
  induction j generalizing w1 with
  | zero =>
    simp only [List.range_zero, runCallbacks, Result.ok.injEq] at hcb
    subst hcb
    simp only [Experiment.Sample, Sample.oneAtATime, List.range_zero, List.flatMap_nil,
      Sample.run, Sample.start, Sample.idleAt, Sample.avgDtAt]
    rw [if_neg (by omega)]
    simp [hD]
  | succ j ih =>
    rw [List.range_succ] at hcb
    obtain ⟨w0, h0, h1⟩ := runCallbacks_prefix callback _ _ w w1 hcb
    have hc : callback j w0 = Result.ok w1 := by
      simp only [runCallbacks] at h1
      cases hcj : callback j w0 with
      | ok w3 =>
        rw [hcj] at h1
        simpa using h1
      | panic w3 =>
        rw [hcj] at h1
        cases h1
    have hprev := ih (by omega) w0 h0
    have happ : Sample.oneAtATime (j + 1) =
        Sample.oneAtATime j ++ [SampleEvent.iterate, SampleEvent.finish j] := by
      simp [Sample.oneAtATime, List.range_succ]
    unfold Experiment.Sample at hprev ⊢
    rw [happ, Sample.run_append clock callback cfg _ _ _ _ hprev]
    exact Sample.oneAtATime_step clock callback cfg k hk hN hP hceil j (by omega) w0 w1 hc

/-- The last index handed over: `Sample` returns while its callback runs. -/
theorem Sample.oneAtATime_last {W : Type} (clock : Nat → Int)
    (callback : Nat → W → Result W) (cfg : SamplingConfig) (k : Nat) (hk : 1 ≤ k)
    (hN : cfg.N = (k : Int)) (hP : 1 < cfg.NumParallel) (w : W) :
    Sample.iterate clock callback cfg (Sample.idleAt clock cfg (k - 1) w) =
      some { status := SampleStatus.returned
             maxTime := clock 0 + sampleCeiling
             idx := k
             avgDt := Sample.avgDtAt clock 1 cfg.NumParallel k
             reads := 3 * k
             running := [k - 1]
             world := w } := by
  have hnp := SamplingConfig.numParallel_many cfg hP
  have hmaxN := SamplingConfig.maxN_pos cfg k hk hN
  obtain ⟨j, rfl⟩ : ∃ j, k = j + 1 := ⟨k - 1, by omega⟩
  unfold Sample.iterate
  rw [if_neg (by simp [Sample.idleAt]), if_pos (by rw [hnp]; omega),
    if_pos (by simp [Sample.idleAt]; omega)]
  unfold Sample.tail
  rw [if_pos (by rw [hmaxN]; simp [Sample.idleAt])]
  have havg : sampleAvgDt (Sample.avgDtAt clock 1 cfg.NumParallel j) j cfg.numParallel
      (since (clock (1 + 3 * j)) (clock (1 + 3 * j + 1))) =
      Sample.avgDtAt clock 1 cfg.NumParallel (j + 1) := by
    rw [hnp]
    rfl
  simp only [Sample.idleAt, Nat.add_sub_cancel, List.nil_append, havg]
  have hreads : 1 + 3 * j + 2 = 3 * (j + 1) := by omega
  rw [hreads]

/-- With workers, an event can happen in every state that no panic has ended, unless
`Sample` has returned and no callback is running: an index is handed over when a worker
is free, and a running callback can return. -/
theorem Sample.step_enabled {W : Type} (clock : Nat → Int) (callback : Nat → W → Result W)
    (cfg : SamplingConfig) (hP : 1 < cfg.NumParallel) (st : SampleState W)
    (hs : st.status ≠ SampleStatus.panicked)
    (hopen : ¬ (st.status = SampleStatus.returned ∧ st.running = [])) :
    ∃ ev st2, Sample.step clock callback cfg ev st = some st2 := by
  have hnp := SamplingConfig.numParallel_many cfg hP
  have hfinish : ∀ i, i ∈ st.running → ∃ st2, Sample.finish callback i st = some st2 := by
    intro i hi
    unfold Sample.finish
    rw [if_neg (by simp [hs, hi])]
    cases callback i st.world with
    | ok w => exact ⟨_, rfl⟩
    | panic w => exact ⟨_, rfl⟩
  cases hr : st.running with
  | cons i rest =>
    obtain ⟨st2, h⟩ := hfinish i (by rw [hr]; exact List.mem_cons_self _ _)
    exact ⟨SampleEvent.finish i, st2, h⟩
  | nil =>
    have hl : st.status = SampleStatus.looping := by
      cases h : st.status with
      | looping => rfl
      | returned => exact absurd ⟨h, hr⟩ hopen
      | panicked => exact absurd h hs
    refine ⟨SampleEvent.iterate, Sample.tail clock cfg st (st.running ++ [st.idx]) st.world,
      ?_⟩
    simp only [Sample.step, Sample.iterate]
    rw [if_neg (by simp [hl]), if_pos (by rw [hnp]; omega),
      if_pos (by rw [hr, hnp]; simp; omega)]

/-- With workers, in a state that no panic has ended each index handed over accounts for
one event, and for a second one when its callback has returned. -/
theorem Sample.run_count {W : Type} (clock : Nat → Int) (callback : Nat → W → Result W)
    (cfg : SamplingConfig) (hP : 1 < cfg.NumParallel) (events : List SampleEvent) :
    ∀ (st st2 : SampleState W) (c : Nat),
      (st.status ≠ SampleStatus.panicked → c + st.running.length = 2 * st.idx) →
      Sample.run clock callback cfg events st = some st2 →
      st2.status ≠ SampleStatus.panicked →
      c + events.length + st2.running.length = 2 * st2.idx := by
  have hnp := SamplingConfig.numParallel_many cfg hP
  induction events with
  | nil =>
    intro st st2 c hinv hrun hs
    simp only [Sample.run, Option.some.injEq] at hrun
    subst hrun
    simpa using hinv hs
  | cons ev rest ih =>
    intro st st2 c hinv hrun hs
    simp only [Sample.run] at hrun
    cases hstep : Sample.step clock callback cfg ev st with
    | none => rw [hstep] at hrun; cases hrun
    | some st1 =>
      rw [hstep] at hrun
      have := ih st1 st2 (c + 1) ?_ hrun hs
      · simp only [List.length_cons]
        omega
      · intro hs1
        cases ev with
        | iterate =>
          simp only [Sample.step, Sample.iterate] at hstep
          by_cases hl : st.status = SampleStatus.looping
          · rw [if_neg (by simp [hl]), if_pos (by rw [hnp]; omega)] at hstep
            by_cases hw : (st.running.length : Int) < cfg.numParallel
            · rw [if_pos hw] at hstep
              have h0 := hinv (by rw [hl]; decide)
              cases hstep
              unfold Sample.tail
              split <;> simp only [List.length_append, List.length_singleton] <;> omega
            · rw [if_neg hw] at hstep
              cases hstep
          · rw [if_pos hl] at hstep
            cases hstep
        | finish i =>
          simp only [Sample.step, Sample.finish] at hstep
          by_cases hc : st.status = SampleStatus.panicked ∨ i ∉ st.running
          · rw [if_pos hc] at hstep
            cases hstep
          · rw [if_neg hc] at hstep
            simp only [not_or, not_not] at hc
            have h0 := hinv hc.1
            have hlen := List.length_erase_of_mem hc.2
            have hpos : 0 < st.running.length := List.length_pos_of_mem hc.2
            cases hcb : callback i st.world with
            | ok w2 =>
              rw [hcb] at hstep
              cases hstep
              simp only [hlen]
              omega
            | panic w2 =>
              rw [hcb] at hstep
              cases hstep
              exact absurd rfl hs1

/-- With workers and callbacks that return, `Sample` returns: in the execution in which
every callback returns before the next index is handed over, it has returned once the last
index is handed over, with that callback running, and when that has returned too all the
callbacks have acted, in the order of the indices. -/
theorem Sample.oneAtATime_returns {W : Type} (clock : Nat → Int)
    (callback : Nat → W → Result W) (cfg : SamplingConfig) (k : Nat) (hk : 1 ≤ k)
    (hN : cfg.N = (k : Int)) (hD : cfg.Duration = 0) (hP : 1 < cfg.NumParallel)
    (hceil : ∀ i, i + 1 < k →
      clock (3 * i + 3) + Sample.avgDtAt clock 1 cfg.NumParallel (i + 1) ≤
        clock 0 + sampleCeiling)
    (w w2 : W) (hcb : runCallbacks callback (List.range k) w = Result.ok w2) :
    ∃ (w1 : W) (st1 st2 : SampleState W),
      runCallbacks callback (List.range (k - 1)) w = Result.ok w1 ∧
      Experiment.Sample clock callback cfg
        (Sample.oneAtATime (k - 1) ++ [SampleEvent.iterate]) w = some st1 ∧
      st1.status = SampleStatus.returned ∧ st1.idx = k ∧ st1.running = [k - 1] ∧
      st1.world = w1 ∧
      Experiment.Sample clock callback cfg (Sample.oneAtATime k) w = some st2 ∧
      st2.status = SampleStatus.returned ∧ st2.idx = k ∧ st2.running = [] ∧
      st2.world = w2 := by
  obtain ⟨j, rfl⟩ : ∃ j, k = j + 1 := ⟨k - 1, by omega⟩
  rw [List.range_succ] at hcb
  obtain ⟨w1, h0, h1⟩ := runCallbacks_prefix callback _ _ w w2 hcb
  have hc : callback j w1 = Result.ok w2 := by
    simp only [runCallbacks] at h1
    cases hcj : callback j w1 with
    | ok w3 =>
      rw [hcj] at h1
      simpa using h1
    | panic w3 =>
      rw [hcj] at h1
      cases h1
  have hprev := Sample.oneAtATime_run clock callback cfg (j + 1) hk hN hD hP hceil w j
    (by omega) w1 h0
  have hlast := Sample.oneAtATime_last clock callback cfg (j + 1) hk hN hP w1
  simp only [Nat.add_sub_cancel] at hlast ⊢
  have happ : Sample.oneAtATime (j + 1) =
      Sample.oneAtATime j ++ [SampleEvent.iterate, SampleEvent.finish j] := by
    simp [Sample.oneAtATime, List.range_succ]
  refine ⟨w1,
    { status := SampleStatus.returned, maxTime := clock 0 + sampleCeiling, idx := j + 1,
      avgDt := Sample.avgDtAt clock 1 cfg.NumParallel (j + 1), reads := 3 * (j + 1),
      running := [j], world := w1 },
    { status := SampleStatus.returned, maxTime := clock 0 + sampleCeiling, idx := j + 1,
      avgDt := Sample.avgDtAt clock 1 cfg.NumParallel (j + 1), reads := 3 * (j + 1),
      running := [], world := w2 },
    h0, ?_, rfl, rfl, rfl, rfl, ?_, rfl, rfl, rfl, rfl⟩
  · unfold Experiment.Sample at hprev ⊢
    rw [Sample.run_append clock callback cfg _ _ _ _ hprev]
    simp only [Sample.run, Sample.step, hlast]
  · unfold Experiment.Sample at hprev ⊢
    rw [happ, Sample.run_append clock callback cfg _ _ _ _ hprev]
    simp only [Sample.run, Sample.step, hlast, Sample.finish]
    rw [if_neg (by simp), hc]
    simp

/-- C14 (as amended): `Sample` with `N = k` for a `k` of at least 1, no `Duration` and
`NumParallel` above 1, in a run in which the test of line 307 never finds the clock beyond
the 100000 hours (`hceil`). In every state that no panic has ended, the indices handed to
the workers are exactly 0, ..., `idx - 1`, each handed over once, and each of them is
either done or still running in a worker, of which at most `NumParallel` are busy;
`Sample` has returned exactly when `idx = k`. `Sample` does not wait for the running
callbacks: they are done once the workers have gone on, and then exactly the `k` callbacks
of 0, ..., `k - 1` have acted on the world, none left out. So for `SampleValue` and
`SampleDuration` under a name that is free, or bound to a series of their kind: when
`Sample` has returned the samples recorded are those of the indices `done`, the others are
still running, and once they have returned exactly `k` samples have been added.
And `Sample` does hand the indices out and return. When the callbacks return there is the
execution in which each returns before the next index is handed over: `Sample` has
returned once the index `k - 1` is handed over, while its callback runs, and after that
callback all `k` have acted, in the order of the indices; with `SampleValue` and
`SampleDuration` the `k` samples are then recorded. In every state that no panic has
ended some event can happen (a free worker receives the next index, or a running callback
returns) until `Sample` has returned and no callback runs, and an execution that has
handed out `idx` indices, of which `r` are running, has exactly `2 * idx - r` events, at
most `2 * k`. -/
theorem C14_parallel_sample_hands_out_and_returns {W : Type} (clock : Nat → Int)
    (callback : Nat → W → Result W) (cfg : SamplingConfig) (k : Nat) (w : W)
    (hk : 1 ≤ k) (hN : cfg.N = (k : Int)) (hD : cfg.Duration = 0)
    (hP : 1 < cfg.NumParallel)
    (hceil : ∀ i, i + 1 < k →
      clock (3 * i + 3) + Sample.avgDtAt clock 1 cfg.NumParallel (i + 1) ≤
        clock 0 + sampleCeiling) :
    (∀ (events : List SampleEvent) (st : SampleState W),
      Experiment.Sample clock callback cfg events w = some st →
      st.status ≠ SampleStatus.panicked →
      st.idx ≤ k ∧ (st.status = SampleStatus.returned ↔ st.idx = k) ∧
      (st.running.length : Int) ≤ cfg.NumParallel ∧
      ∃ done : List Nat, (done ++ st.running).Perm (List.range st.idx) ∧
        runCallbacks callback done w = Result.ok st.world ∧
        ∀ w2 : W, runCallbacks callback (done ++ st.running) w = Result.ok w2 →
          Experiment.Sample clock callback cfg
            (events ++ st.running.map SampleEvent.finish) w =
              some { st with running := [], world := w2 }) ∧
    (∀ (e : Experiment) (name : String) (value : Nat → Float64) (args : List Arg)
      (events : List SampleEvent) (st : SampleState Experiment),
      extractDecorations args ≠ none →
      (IdxWithName e.LogEntries name = none ∨ (e.Get name).Type_ = LogEntryTypeValue) →
      e.SampleValue clock name value cfg args events = some st →
      st.status = SampleStatus.returned →
      ∃ done : List Nat, (done ++ st.running).Perm (List.range k) ∧
        (st.world.Get name).Values = (e.Get name).Values ++ done.map value ∧
        ∃ st2, e.SampleValue clock name value cfg args
            (events ++ st.running.map SampleEvent.finish) = some st2 ∧
          st2.status = SampleStatus.returned ∧ st2.running = [] ∧
          (st2.world.Get name).Values =
            (e.Get name).Values ++ (done ++ st.running).map value) ∧
    (∀ (e : Experiment) (name : String) (elapsed : Nat → Int) (args : List Arg)
      (events : List SampleEvent) (st : SampleState Experiment),
      extractDecorations args ≠ none →
      (IdxWithName e.LogEntries name = none ∨ (e.Get name).Type_ = LogEntryTypeDuration) →
      e.SampleDuration clock name elapsed cfg args events = some st →
      st.status = SampleStatus.returned →
      ∃ done : List Nat, (done ++ st.running).Perm (List.range k) ∧
        (st.world.Get name).Durations = (e.Get name).Durations ++ done.map elapsed ∧
        ∃ st2, e.SampleDuration clock name elapsed cfg args
            (events ++ st.running.map SampleEvent.finish) = some st2 ∧
          st2.status = SampleStatus.returned ∧ st2.running = [] ∧
          (st2.world.Get name).Durations =
            (e.Get name).Durations ++ (done ++ st.running).map elapsed) ∧
    (∀ w2 : W, runCallbacks callback (List.range k) w = Result.ok w2 →
      ∃ (w1 : W) (st1 st2 : SampleState W),
        runCallbacks callback (List.range (k - 1)) w = Result.ok w1 ∧
        Experiment.Sample clock callback cfg
          (Sample.oneAtATime (k - 1) ++ [SampleEvent.iterate]) w = some st1 ∧
        st1.status = SampleStatus.returned ∧ st1.idx = k ∧ st1.running = [k - 1] ∧
        st1.world = w1 ∧
        Experiment.Sample clock callback cfg (Sample.oneAtATime k) w = some st2 ∧
        st2.status = SampleStatus.returned ∧ st2.idx = k ∧ st2.running = [] ∧
        st2.world = w2) ∧
    (∀ (e : Experiment) (name : String) (value : Nat → Float64) (args : List Arg),
      extractDecorations args ≠ none →
      (IdxWithName e.LogEntries name = none ∨ (e.Get name).Type_ = LogEntryTypeValue) →
      ∃ st, e.SampleValue clock name value cfg args (Sample.oneAtATime k) = some st ∧
        st.status = SampleStatus.returned ∧ st.running = [] ∧
        (st.world.Get name).Values = (e.Get name).Values ++ (List.range k).map value ∧
        (st.world.Get name).Annotations =
          (e.Get name).Annotations ++ List.replicate k (annotationOf args)) ∧
    (∀ (e : Experiment) (name : String) (elapsed : Nat → Int) (args : List Arg),
      extractDecorations args ≠ none →
      (IdxWithName e.LogEntries name = none ∨ (e.Get name).Type_ = LogEntryTypeDuration) →
      ∃ st, e.SampleDuration clock name elapsed cfg args (Sample.oneAtATime k) = some st ∧
        st.status = SampleStatus.returned ∧ st.running = [] ∧
        (st.world.Get name).Durations = (e.Get name).Durations ++ (List.range k).map elapsed ∧
        (st.world.Get name).Annotations =
          (e.Get name).Annotations ++ List.replicate k (annotationOf args)) ∧
    (∀ st : SampleState W, st.status ≠ SampleStatus.panicked →
      ¬ (st.status = SampleStatus.returned ∧ st.running = []) →
      ∃ ev st2, Sample.step clock callback cfg ev st = some st2) ∧
    (∀ (events : List SampleEvent) (st : SampleState W),
      Experiment.Sample clock callback cfg events w = some st →
      st.status ≠ SampleStatus.panicked →
      events.length + st.running.length = 2 * st.idx ∧ events.length ≤ 2 * k) := by
  obtain ⟨hstates, hvalue, hduration⟩ :=
    Sample.par_samples clock callback cfg k w hk hN hD hP hceil
  refine ⟨hstates, hvalue, hduration,
    fun w2 hcb => Sample.oneAtATime_returns clock callback cfg k hk hN hD hP hceil w w2 hcb,
    ?_, ?_, fun st hs hopen => Sample.step_enabled clock callback cfg hP st hs hopen, ?_⟩
  · intro e name value args hargs hfree
    obtain ⟨d, hd⟩ := Option.ne_none_iff_exists'.1 hargs
    obtain ⟨e2, h2, hv, ha⟩ := RecordValues_free name ((List.range k).map (fun i => (value i, args)))
      (by intro p hp; simp only [List.mem_map] at hp; obtain ⟨i, _, rfl⟩ := hp; exact hargs)
      e hfree
    rw [← runCallbacks_recordValue name value args d hd] at h2
    obtain ⟨_, _, st2, _, _, _, _, _, _, hst, hret, _, hrun, hw⟩ :=
      Sample.oneAtATime_returns clock _ cfg k hk hN hD hP hceil e e2 h2
    refine ⟨st2, ?_, hret, hrun, ?_, ?_⟩
    · simp only [Experiment.SampleValue, hd]
      exact hst
    · rw [hw, hv]
      simp [Function.comp_def]
    · rw [hw, ha]
      simp [Function.comp_def, List.map_const']
  · intro e name elapsed args hargs hfree
    obtain ⟨d, hd⟩ := Option.ne_none_iff_exists'.1 hargs
    obtain ⟨e2, h2, hv, ha⟩ := RecordDurations_free name
      ((List.range k).map (fun i => (elapsed i, args)))
      (by intro p hp; simp only [List.mem_map] at hp; obtain ⟨i, _, rfl⟩ := hp; exact hargs)
      e hfree
    rw [← runCallbacks_recordDuration name elapsed args d hd] at h2
    obtain ⟨_, _, st2, _, _, _, _, _, _, hst, hret, _, hrun, hw⟩ :=
      Sample.oneAtATime_returns clock _ cfg k hk hN hD hP hceil e e2 h2
    refine ⟨st2, ?_, hret, hrun, ?_, ?_⟩
    · simp only [Experiment.SampleDuration, hd]
      exact hst
    · rw [hw, hv]
      simp [Function.comp_def]
    · rw [hw, ha]
      simp [Function.comp_def, List.map_const']
  · intro events st hrun hs
    have hcount := Sample.run_count clock callback cfg hP events _ st 0
      (fun _ => by
        unfold Sample.start
        split <;> rfl) hrun hs
    have hidx := (hstates events st hrun hs).1
    omega

/-- C14 (as amended) at `N = 3`, `NumParallel = 2`. For the execution in which the
callback of the index 0 returns before the index 2 is handed over: when `Sample` returns,
the three indices have been handed out, of which 0 is done while 1 and 2 are running; once
these two have returned the three callbacks have acted. For the execution in which each
callback returns before the next index is handed over: `Sample` returns after five
events with the callback of 2 running, and the sixth event leaves the calls 0, 1, 2. -/
theorem C14_witness :
    Experiment.Sample tickingClock countingCallback threeSamplesTwoWorkers
      [SampleEvent.iterate, SampleEvent.iterate, SampleEvent.finish 0, SampleEvent.iterate]
      [] = some parReturned ∧
    (parReturned.idx ≤ 3 ∧ (parReturned.status = SampleStatus.returned ↔ parReturned.idx = 3) ∧
      (parReturned.running.length : Int) ≤ threeSamplesTwoWorkers.NumParallel ∧
      ∃ done : List Nat, (done ++ parReturned.running).Perm (List.range parReturned.idx) ∧
        runCallbacks countingCallback done [] = Result.ok parReturned.world ∧
        ∀ w2 : List Nat,
          runCallbacks countingCallback (done ++ parReturned.running) [] = Result.ok w2 →
          Experiment.Sample tickingClock countingCallback threeSamplesTwoWorkers
            ([SampleEvent.iterate, SampleEvent.iterate, SampleEvent.finish 0,
              SampleEvent.iterate] ++ parReturned.running.map SampleEvent.finish) [] =
            some { parReturned with running := [], world := w2 }) ∧
    (∃ (w1 : List Nat) (st1 st2 : SampleState (List Nat)),
      runCallbacks countingCallback (List.range (3 - 1)) [] = Result.ok w1 ∧
      Experiment.Sample tickingClock countingCallback threeSamplesTwoWorkers
        (Sample.oneAtATime (3 - 1) ++ [SampleEvent.iterate]) [] = some st1 ∧
      st1.status = SampleStatus.returned ∧ st1.idx = 3 ∧ st1.running = [3 - 1] ∧
      st1.world = w1 ∧
      Experiment.Sample tickingClock countingCallback threeSamplesTwoWorkers
        (Sample.oneAtATime 3) [] = some st2 ∧
      st2.status = SampleStatus.returned ∧ st2.idx = 3 ∧ st2.running = [] ∧
      st2.world = [0, 1, 2]) :=
  ⟨by decide,
   (C14_parallel_sample_hands_out_and_returns tickingClock countingCallback
      threeSamplesTwoWorkers 3 [] (by decide) (by decide) (by decide) (by decide)
      tickingClock_ceiling_par).1
      [SampleEvent.iterate, SampleEvent.iterate, SampleEvent.finish 0, SampleEvent.iterate]
      parReturned (by decide) (by decide),
   (C14_parallel_sample_hands_out_and_returns tickingClock countingCallback
      threeSamplesTwoWorkers 3 [] (by decide) (by decide) (by decide) (by decide)
      tickingClock_ceiling_par).2.2.2.1 [0, 1, 2] (by decide)⟩

/-- C14 fails as stated: with `N = 2` and `NumParallel = 2`, `SampleValue` on a new
experiment has returned once the two indices are handed to the workers, while both
callbacks are still running and no sample is recorded. -/
theorem C14_counterexample :
    ((NewExperiment "bench").SampleValue tickingClock "x" (fun idx => Float64.ofInt idx)
        { N := 2, Duration := 0, NumParallel := 2 } []
        [SampleEvent.iterate, SampleEvent.iterate]).map
      (fun st => (st.status, st.idx, st.running, (st.world.Get "x").Values)) =
    some (SampleStatus.returned, 2, [0, 1], []) := by
  decide

/-! ## The ceiling of 100000 hours -/

theorem clock_mono (clock : Nat → Int) (hmono : ∀ i, clock i ≤ clock (i + 1)) (i j : Nat)
    (hij : i ≤ j) : clock i ≤ clock j := by
  induction j with
  | zero =>
    have : i = 0 := by omega
    subst this
    exact le_refl _
  | succ j ih =>
    rcases Nat.eq_or_lt_of_le hij with h | h
    · subst h
      exact le_refl _
    · exact le_trans (ih (by omega)) (hmono j)

theorem since_eq (t now : Int) (h1 : t ≤ now) (h2 : now - t < 2 ^ 63) : since t now = now - t := by
  unfold since
  have h3 : min ((2 : Int) ^ 63 - 1) (now - t) = now - t := min_eq_right (by omega)
  rw [h3]
  exact max_eq_right (by omega)

/-- On a clock that never runs backwards, in a run of at most 50000 hours (half the
ceiling), the running average of `Sample` is at most the time that has passed since the
first reading of the loop, and the products of line 301 stay within int64. -/
theorem Sample.avgDtAt_bound (clock : Nat → Int) (numParallel : Int) (hP : 1 ≤ numParallel)
    (hmono : ∀ i, clock i ≤ clock (i + 1))
    (hshort : ∀ i, 2 * (clock i - clock 0) ≤ sampleCeiling) (n : Nat) :
    0 ≤ Sample.avgDtAt clock 1 numParallel (n + 1) ∧
    Sample.avgDtAt clock 1 numParallel (n + 1) ≤ clock (3 * n + 2) - clock 1 ∧
    (((n + 1 : Nat) : Int) ≤ numParallel → Sample.avgDtAt clock 1 numParallel (n + 1) = 0) ∧
    (numParallel ≤ ((n + 1 : Nat) : Int) →
      Sample.avgDtAt clock 1 numParallel (n + 1) * (((n + 1 : Nat) : Int) - numParallel) ≤
        clock (3 * n + 2) - clock 1) := by
  have hceil : sampleCeiling < 2 ^ 63 := by decide
  have hm := clock_mono clock hmono
  induction n with
  | zero =>
    have h1 : Sample.avgDtAt clock 1 numParallel 1 = 0 := by
      simp only [Sample.avgDtAt, sampleAvgDt]
      rw [if_neg (by simp; omega)]
    rw [h1]
    have := hm 1 2 (by omega)
    refine ⟨le_refl _, by simpa using this, fun _ => rfl, fun _ => ?_⟩
    simp only [zero_mul]
    simpa using this
  | succ n ih =>
    obtain ⟨h0, hle, hzero, hprod⟩ := ih
    have hstep : Sample.avgDtAt clock 1 numParallel (n + 1 + 1) =
        sampleAvgDt (Sample.avgDtAt clock 1 numParallel (n + 1)) (n + 1) numParallel
          (since (clock (1 + 3 * (n + 1))) (clock (1 + 3 * (n + 1) + 1))) := rfl
    have hc1 := hm 1 (3 * n + 2) (by omega)
    have hc2 := hm (3 * n + 2) (1 + 3 * (n + 1)) (by omega)
    have hc3 := hm (1 + 3 * (n + 1)) (1 + 3 * (n + 1) + 1) (by omega)
    have hc0 := hm 0 1 (by omega)
    have hs := hshort (1 + 3 * (n + 1) + 1)
    have h35 : 3 * (n + 1) + 2 = 1 + 3 * (n + 1) + 1 := by omega
    rw [h35]
    have hsince : since (clock (1 + 3 * (n + 1))) (clock (1 + 3 * (n + 1) + 1)) =
        clock (1 + 3 * (n + 1) + 1) - clock (1 + 3 * (n + 1)) :=
      since_eq _ _ hc3 (by omega)
    rw [hstep, hsince]
    unfold sampleAvgDt
    by_cases hidx : ((n + 1 : Nat) : Int) ≥ numParallel
    · rw [if_pos hidx]
      have hp := hprod hidx
      have hp0 : 0 ≤ Sample.avgDtAt clock 1 numParallel (n + 1) *
          (((n + 1 : Nat) : Int) - numParallel) := mul_nonneg h0 (by omega)
      generalize Sample.avgDtAt clock 1 numParallel (n + 1) *
        (((n + 1 : Nat) : Int) - numParallel) = p at hp hp0
      have hw1 : wrap64 p = p := wrap64_of_inInt64 p ⟨by omega, by omega⟩
      have hw2 : wrap64 (p + (clock (1 + 3 * (n + 1) + 1) - clock (1 + 3 * (n + 1)))) =
          p + (clock (1 + 3 * (n + 1) + 1) - clock (1 + 3 * (n + 1))) :=
        wrap64_of_inInt64 _ ⟨by omega, by omega⟩
      rw [hw1, hw2]
      generalize hx : p + (clock (1 + 3 * (n + 1) + 1) - clock (1 + 3 * (n + 1))) = x
      have hx0 : 0 ≤ x := by omega
      have hxb : x ≤ clock (1 + 3 * (n + 1) + 1) - clock 1 := by omega
      have hd : (0 : Int) < ((n + 1 : Nat) : Int) - numParallel + 1 := by omega
      generalize hdd : ((n + 1 : Nat) : Int) - numParallel + 1 = d at hd
      have hcast : (((n + 1 + 1 : Nat) : Int) - numParallel) = d := by
        rw [← hdd]
        push_cast
        ring
      rw [hcast, Int.tdiv_eq_ediv hx0 (le_of_lt hd)]
      have hq0 : 0 ≤ x / d := Int.ediv_nonneg hx0 (le_of_lt hd)
      have hqd : x / d * d ≤ x := Int.ediv_mul_le x (ne_of_gt hd)
      have hq1 : x / d ≤ x / d * d := le_mul_of_one_le_right hq0 (by omega)
      refine ⟨hq0, by omega, fun h => ?_, fun _ => by omega⟩
      exfalso
      push_cast at h hidx
      omega
    · rw [if_neg hidx]
      have hz := hzero (by omega)
      rw [hz]
      refine ⟨le_refl _, by omega, fun _ => rfl, fun _ => ?_⟩
      simp only [zero_mul]
      omega

/-- On a clock that never runs backwards, in a run of at most 50000 hours (half the
ceiling), the test of line 307 never finds the clock beyond the ceiling: this is the
hypothesis `hceil` under which the loop of `Sample` is followed above. -/
theorem Sample.ceiling_of_short_run (clock : Nat → Int) (numParallel : Int)
    (hP : 1 ≤ numParallel) (hmono : ∀ i, clock i ≤ clock (i + 1))
    (hshort : ∀ i, 2 * (clock i - clock 0) ≤ sampleCeiling) (n : Nat) :
    clock (3 * n + 3) + Sample.avgDtAt clock 1 numParallel (n + 1) ≤
      clock 0 + sampleCeiling := by
  obtain ⟨_, hle, _, _⟩ := Sample.avgDtAt_bound clock numParallel hP hmono hshort n
  have hm := clock_mono clock hmono
  have h1 := hm 0 1 (by omega)
  have h2 := hm (3 * n + 2) (3 * n + 3) (by omega)
  have h3 := hshort (3 * n + 3)
  omega

/-! ## Which of several tied samples lends its annotation -/

theorem insertBack_stable (less : Nat → Nat → Bool) (p : Nat → Prop)
    (hw : StrictWeakOn less p) (x : Nat) (hx : p x) (l : List Nat) (hl : ∀ a ∈ l, p a)
    (hlt : ∀ a ∈ l, a < x) (hs : l.Pairwise (fun a b => StableBefore less b a)) :
    (insertBack less x l).Pairwise (fun a b => StableBefore less b a) := by
  induction l with
  | nil => simp [insertBack]
  | cons y rest ih =>
    have hy : p y := hl y (List.mem_cons_self _ _)
    have hrest : ∀ a ∈ rest, p a := fun a ha => hl a (List.mem_cons_of_mem _ ha)
    unfold insertBack
    by_cases h : less x y = true
    · simp only [h, if_true]
      refine List.Pairwise.cons ?_
        (ih hrest (fun a ha => hlt a (List.mem_cons_of_mem _ ha)) (List.Pairwise.of_cons hs))
      intro a ha
      rcases List.mem_cons.1 ((insertBack_perm less x rest).mem_iff.1 ha) with rfl | ha
      · refine ⟨?_, fun hya => ?_⟩
        · cases hyx : less y a with
          | false => rfl
          | true =>
            have := hw.trans a y a hx hy hx h hyx
            rw [hw.irrefl a hx] at this
            cases this
        · rw [h] at hya
          cases hya
      · exact List.rel_of_pairwise_cons hs ha
    · simp only [h, if_false]
      have hxy : less x y = false := by simpa using h
      refine List.Pairwise.cons ?_ hs
      intro a ha
      have hax : a < x := hlt a ha
      have hxa : less x a = false := by
        rcases List.mem_cons.1 ha with rfl | ha2
        · exact hxy
        · exact hw.incomp x y a hx hy (hrest a ha2) hxy
            (List.rel_of_pairwise_cons hs ha2).1
      exact ⟨hxa, fun _ => hax⟩

theorem insertionFold_stable (less : Nat → Nat → Bool) (p : Nat → Prop)
    (hw : StrictWeakOn less p) (l acc : List Nat) (hl : ∀ a ∈ l, p a) (hacc : ∀ a ∈ acc, p a)
    (hinc : l.Pairwise (fun a b => a < b)) (hlt : ∀ a ∈ acc, ∀ x ∈ l, a < x)
    (hs : acc.Pairwise (fun a b => StableBefore less b a)) :
    (l.foldl (fun sorted x => insertBack less x sorted) acc).Pairwise
      (fun a b => StableBefore less b a) := by
  induction l generalizing acc with
  | nil => exact hs
  | cons x rest ih =>
    simp only [List.foldl_cons]
    have hx : p x := hl x (List.mem_cons_self _ _)
    apply ih _ (fun a ha => hl a (List.mem_cons_of_mem _ ha))
    · intro a ha
      rcases List.mem_cons.1 ((insertBack_perm less x acc).mem_iff.1 ha) with rfl | ha
      · exact hx
      · exact hacc a ha
    · exact List.Pairwise.of_cons hinc
    · intro a ha b hb
      rcases List.mem_cons.1 ((insertBack_perm less x acc).mem_iff.1 ha) with rfl | ha
      · exact List.rel_of_pairwise_cons hinc hb
      · exact hlt a ha b (List.mem_cons_of_mem _ hb)
    · exact insertBack_stable less p hw x hx acc hacc
        (fun a ha => hlt a ha x (List.mem_cons_self _ _)) hs

/-- The insertion sort is stable: on the indices 0, ..., `n - 1` in their order, an index
comes out before another when it is less, or ties with it and is the smaller index. -/
theorem insertionSortLessFunc_stable (less : Nat → Nat → Bool) (n : Nat)
    (hw : StrictWeakOn less (fun a => a ∈ List.range n)) :
    (insertionSortLessFunc less (List.range n)).Pairwise (StableBefore less) := by
  unfold insertionSortLessFunc
  rw [List.pairwise_reverse]
  exact insertionFold_stable less _ hw (List.range n) [] (fun a ha => ha) (by simp)
    (List.pairwise_lt_range n) (by simp) List.Pairwise.nil

theorem sortedView_getD {α : Type} (xs : List α) (d : α) (indices : List Nat) (k : Nat)
    (hk : k < indices.length) :
    (sortedView xs d indices).getD k d = xs.getD (indices.getD k 0) d := by
  simp [sortedView, List.getD_eq_getElem?_getD, List.getElem?_map, hk]

/-- The annotations that `Stats` of a Value-series returns, next to its least and its
greatest value: those at the first and at the last of the sorted indices. -/
theorem Stats_value_annotations (sortSlice : (Nat → Nat → Bool) → List Nat → List Nat)
    (hsort : SortSliceSpec sortSlice) (e : LogEntry) (ht : e.Type_ = LogEntryTypeValue)
    (hne : e.Values ≠ []) (hann : e.Annotations.length = e.Values.length) :
    ∃ st, e.Stats sortSlice = some st ∧
      st.ValueFor StatMin =
        e.Values.getD ((sortSlice e.lessValue (List.range e.Values.length)).getD 0 0)
          Float64.nan ∧
      st.AnnotationFor StatMin =
        e.Annotations.getD ((sortSlice e.lessValue (List.range e.Values.length)).getD 0 0)
          "" ∧
      st.ValueFor StatMax =
        e.Values.getD ((sortSlice e.lessValue (List.range e.Values.length)).getD
          (e.Values.length - 1) 0) Float64.nan ∧
      st.AnnotationFor StatMax =
        e.Annotations.getD ((sortSlice e.lessValue (List.range e.Values.length)).getD
          (e.Values.length - 1) 0) "" := by
  have h0 : e.Values.length ≠ 0 := by
    intro h
    exact hne (List.length_eq_zero.1 h)
  have hst : e.Stats sortSlice = e.valueStats sortSlice := by
    unfold LogEntry.Stats
    simp only [ht, h0, if_false]
  have hlen : (sortSlice e.lessValue (List.range e.Values.length)).length = e.Values.length := by
    simpa using (sortSlice_perm sortSlice hsort e.lessValue e.Values.length).length_eq
  rw [valueStats_eq sortSlice hsort e hne (by rw [hann])] at hst
  have hk0 : 0 < (sortSlice e.lessValue (List.range e.Values.length)).length := by omega
  have hk1 : e.Values.length - 1 <
      (sortSlice e.lessValue (List.range e.Values.length)).length := by omega
  refine ⟨_, hst, ?_, ?_, ?_, ?_⟩
  · simp only [Stats.ValueFor, StatMap.get, StatMap.set, LogEntry.statsHeader,
      LogEntry.sortedValues]
    simp only [if_true, if_false, reduceCtorEq]
    rw [sortedView_getD _ _ _ 0 hk0]
  · simp only [Stats.AnnotationFor, StatMap.get, LogEntry.statsHeader]
    simp only [if_true, if_false, reduceCtorEq]
    rw [sortedView_getD _ _ _ 0 hk0]
  · simp only [Stats.ValueFor, StatMap.get, StatMap.set, LogEntry.statsHeader,
      LogEntry.sortedValues]
    simp only [if_true, if_false, reduceCtorEq]
    rw [sortedView_getD _ _ _ (e.Values.length - 1) hk1]
  · simp only [Stats.AnnotationFor, StatMap.get, LogEntry.statsHeader]
    simp only [if_true, if_false, reduceCtorEq]
    rw [sortedView_getD _ _ _ (e.Values.length - 1) hk1]

/-- The annotations that `Stats` of a Duration-series returns, next to its least and its
greatest duration. -/
theorem Stats_duration_annotations (sortSlice : (Nat → Nat → Bool) → List Nat → List Nat)
    (hsort : SortSliceSpec sortSlice) (e : LogEntry) (ht : e.Type_ = LogEntryTypeDuration)
    (hne : e.Durations ≠ []) (hann : e.Annotations.length = e.Durations.length) :
    ∃ st, e.Stats sortSlice = some st ∧
      st.DurationFor StatMin =
        e.Durations.getD ((sortSlice e.lessDuration (List.range e.Durations.length)).getD 0 0)
          0 ∧
      st.AnnotationFor StatMin =
        e.Annotations.getD
          ((sortSlice e.lessDuration (List.range e.Durations.length)).getD 0 0) "" ∧
      st.DurationFor StatMax =
        e.Durations.getD ((sortSlice e.lessDuration (List.range e.Durations.length)).getD
          (e.Durations.length - 1) 0) 0 ∧
      st.AnnotationFor StatMax =
        e.Annotations.getD ((sortSlice e.lessDuration (List.range e.Durations.length)).getD
          (e.Durations.length - 1) 0) "" := by
  have h0 : e.Durations.length ≠ 0 := by
    intro h
    exact hne (List.length_eq_zero.1 h)
  have hst : e.Stats sortSlice = e.durationStats sortSlice := by
    unfold LogEntry.Stats
    simp only [ht, h0, if_false]
  have hlen :
      (sortSlice e.lessDuration (List.range e.Durations.length)).length =
        e.Durations.length := by
    simpa using (sortSlice_perm sortSlice hsort e.lessDuration e.Durations.length).length_eq
  rw [durationStats_eq sortSlice hsort e hne (by rw [hann])] at hst
  have hk0 : 0 < (sortSlice e.lessDuration (List.range e.Durations.length)).length := by
    omega
  have hk1 : e.Durations.length - 1 <
      (sortSlice e.lessDuration (List.range e.Durations.length)).length := by omega
  refine ⟨_, hst, ?_, ?_, ?_, ?_⟩
  · simp only [Stats.DurationFor, StatMap.get, StatMap.set, LogEntry.statsHeader,
      LogEntry.sortedDurations]
    simp only [if_true, if_false, reduceCtorEq]
    rw [sortedView_getD _ _ _ 0 hk0]
  · simp only [Stats.AnnotationFor, StatMap.get, LogEntry.statsHeader]
    simp only [if_true, if_false, reduceCtorEq]
    rw [sortedView_getD _ _ _ 0 hk0]
  · simp only [Stats.DurationFor, StatMap.get, StatMap.set, LogEntry.statsHeader,
      LogEntry.sortedDurations]
    simp only [if_true, if_false, reduceCtorEq]
    rw [sortedView_getD _ _ _ (e.Durations.length - 1) hk1]
  · simp only [Stats.AnnotationFor, StatMap.get, LogEntry.statsHeader]
    simp only [if_true, if_false, reduceCtorEq]
    rw [sortedView_getD _ _ _ (e.Durations.length - 1) hk1]

theorem getD_pairwise {α : Type} (r : α → α → Prop) (l : List α) (d : α)
    (hp : l.Pairwise r) (i j : Nat) (hij : i < j) (hj : j < l.length) :
    r (l.getD i d) (l.getD j d) := by
  have hi : i < l.length := by omega
  have := List.pairwise_iff_getElem.1 hp i j hi hj hij
  simpa [List.getD_eq_getElem?_getD, hi, hj] using this

/-- The first and the last of the sorted indices are indices of the slice, no sample is less
than the one at the first and the one at the last is less than no sample. -/
theorem sorted_ends (less : Nat → Nat → Bool) (n : Nat) (idxs : List Nat) (hn : 0 < n)
    (hperm : idxs.Perm (List.range n)) (hirr : ∀ a, less a a = false)
    (hs : idxs.Pairwise (fun a b => less b a = false)) :
    idxs.getD 0 0 < n ∧ idxs.getD (n - 1) 0 < n ∧
    (∀ j, j < n → less j (idxs.getD 0 0) = false) ∧
    (∀ j, j < n → less (idxs.getD (n - 1) 0) j = false) := by
  have hlen : idxs.length = n := by simpa using hperm.length_eq
  have hmem : ∀ k, k < n → idxs.getD k 0 < n := fun k hk =>
    List.mem_range.1 (hperm.mem_iff.1 (getD_mem_of_lt idxs 0 k (by omega)))
  refine ⟨hmem 0 hn, hmem (n - 1) (by omega), fun j hj => ?_, fun j hj => ?_⟩
  · obtain ⟨k, hk, rfl⟩ := (mem_iff_getD idxs 0 j).1 (hperm.mem_iff.2 (List.mem_range.2 hj))
    by_cases hk0 : k = 0
    · subst hk0
      exact hirr _
    · exact getD_pairwise _ idxs 0 hs 0 k (by omega) hk
  · obtain ⟨k, hk, rfl⟩ := (mem_iff_getD idxs 0 j).1 (hperm.mem_iff.2 (List.mem_range.2 hj))
    by_cases hk0 : k = n - 1
    · subst hk0
      exact hirr _
    · exact getD_pairwise _ idxs 0 hs k (n - 1) (by omega) (by omega)

/-- After a stable sort, every index below the first of the sorted indices holds a greater
sample, and every index above the last of them a smaller one. -/
theorem stable_ends (less : Nat → Nat → Bool) (n : Nat) (idxs : List Nat)
    (hperm : idxs.Perm (List.range n)) (hs : idxs.Pairwise (StableBefore less)) :
    (∀ j, j < idxs.getD 0 0 → less (idxs.getD 0 0) j = true) ∧
    (∀ j, idxs.getD (n - 1) 0 < j → j < n → less j (idxs.getD (n - 1) 0) = true) := by
  have hlen : idxs.length = n := by simpa using hperm.length_eq
  have hmem : ∀ k, k < n → idxs.getD k 0 < n := fun k hk =>
    List.mem_range.1 (hperm.mem_iff.1 (getD_mem_of_lt idxs 0 k (by omega)))
  refine ⟨fun j hj => ?_, fun j hj hjn => ?_⟩
  · have hn : 0 < n := by
      rcases Nat.eq_zero_or_pos n with h | h
      · subst h
        have : idxs = [] := List.length_eq_zero.1 hlen
        subst this
        simp at hj
      · exact h
    have hjn : j < n := lt_trans hj (hmem 0 hn)
    obtain ⟨k, hk, rfl⟩ := (mem_iff_getD idxs 0 j).1 (hperm.mem_iff.2 (List.mem_range.2 hjn))
    have hk0 : k ≠ 0 := by
      intro h
      subst h
      exact lt_irrefl _ hj
    have h := getD_pairwise _ idxs 0 hs 0 k (by omega) hk
    cases hl : less (idxs.getD 0 0) (idxs.getD k 0) with
    | true => rfl
    | false =>
      have := h.2 hl
      omega
  · obtain ⟨k, hk, rfl⟩ := (mem_iff_getD idxs 0 j).1 (hperm.mem_iff.2 (List.mem_range.2 hjn))
    have hk0 : k ≠ n - 1 := by
      intro h
      subst h
      exact lt_irrefl _ hj
    have h := getD_pairwise _ idxs 0 hs k (n - 1) (by omega) (by omega)
    cases hl : less (idxs.getD k 0) (idxs.getD (n - 1) 0) with
    | true => rfl
    | false =>
      have := h.2 hl
      omega

theorem getElem?_of_getD {α : Type} (xs : List α) (d : α) (i : Nat) (h : i < xs.length) :
    xs[i]? = some (xs.getD i d) := by
  simp [List.getD_eq_getElem?_getD, h]

theorem getD_of_getElem? {α : Type} (xs : List α) (d x : α) (i : Nat) (h : xs[i]? = some x) :
    xs.getD i d = x := by
  simp [List.getD_eq_getElem?_getD, h]

/-- The least and the greatest value that `Stats` returns for a Value-series without NaN,
with the indices of the samples whose annotations it returns next to them. -/
theorem value_extremes (sortSlice : (Nat → Nat → Bool) → List Nat → List Nat)
    (hsort : SortSliceSpec sortSlice) (e : LogEntry) (ht : e.Type_ = LogEntryTypeValue)
    (hne : e.Values ≠ []) (hann : e.Annotations.length = e.Values.length)
    (hnan : ∀ v ∈ e.Values, v.isNaN = false) :
    ∃ (st : Stats) (iMin iMax : Nat), e.Stats sortSlice = some st ∧
      iMin < e.Values.length ∧ iMax < e.Values.length ∧
      e.Values[iMin]? = some (st.ValueFor StatMin) ∧
      e.Annotations[iMin]? = some (st.AnnotationFor StatMin) ∧
      e.Values[iMax]? = some (st.ValueFor StatMax) ∧
      e.Annotations[iMax]? = some (st.AnnotationFor StatMax) ∧
      (∀ v ∈ e.Values, Float64.le (st.ValueFor StatMin) v = true) ∧
      (∀ v ∈ e.Values, Float64.le v (st.ValueFor StatMax) = true) ∧
      ((sortSlice e.lessValue (List.range e.Values.length)).Pairwise
          (StableBefore e.lessValue) →
        (∀ (j : Nat) (v : Float64), j < iMin → e.Values[j]? = some v →
          Float64.lt (st.ValueFor StatMin) v = true) ∧
        (∀ (j : Nat) (v : Float64), iMax < j → e.Values[j]? = some v →
          Float64.lt v (st.ValueFor StatMax) = true)) := by
  obtain ⟨st, hst, hmin, hamin, hmax, hamax⟩ :=
    Stats_value_annotations sortSlice hsort e ht hne hann
  have hpos : 0 < e.Values.length := List.length_pos.2 hne
  have hperm := sortSlice_perm sortSlice hsort e.lessValue e.Values.length
  have hw := lessValue_strictWeak e hnan
  have hs := (hsort e.lessValue (List.range e.Values.length)).2 hw.irrefl
    (fun a ha b hb c hc => hw.trans a b c ha hb hc)
    (fun a ha b hb c hc => hw.incomp a b c ha hb hc)
  obtain ⟨h0, h1, hlo, hhi⟩ := sorted_ends e.lessValue e.Values.length _ hpos hperm
    (fun a => Float64.lt_irrefl _) hs
  refine ⟨st, _, _, hst, h0, h1, ?_, ?_, ?_, ?_, ?_, ?_, ?_⟩
  · rw [hmin]
    exact getElem?_of_getD _ _ _ h0
  · rw [hamin]
    exact getElem?_of_getD _ _ _ (by omega)
  · rw [hmax]
    exact getElem?_of_getD _ _ _ h1
  · rw [hamax]
    exact getElem?_of_getD _ _ _ (by omega)
  · intro v hv
    obtain ⟨j, hj, rfl⟩ := (mem_iff_getD _ Float64.nan v).1 hv
    rw [hmin]
    exact (Float64.lt_false_iff _ _ (hnan _ (getD_mem_of_lt _ _ _ hj))
      (hnan _ (getD_mem_of_lt _ _ _ h0))).1 (hlo j hj)
  · intro v hv
    obtain ⟨j, hj, rfl⟩ := (mem_iff_getD _ Float64.nan v).1 hv
    rw [hmax]
    exact (Float64.lt_false_iff _ _ (hnan _ (getD_mem_of_lt _ _ _ h1))
      (hnan _ (getD_mem_of_lt _ _ _ hj))).1 (hhi j hj)
  · intro hstable
    obtain ⟨hfirst, hlast⟩ := stable_ends e.lessValue e.Values.length _ hperm hstable
    refine ⟨fun j v hj hv => ?_, fun j v hj hv => ?_⟩
    · rw [hmin, ← getD_of_getElem? e.Values Float64.nan v j hv]
      exact hfirst j hj
    · have hjn : j < e.Values.length := by
        by_contra hcon
        rw [List.getElem?_eq_none (by omega)] at hv
        cases hv
      rw [hmax, ← getD_of_getElem? e.Values Float64.nan v j hv]
      exact hlast j hj hjn

/-- The least and the greatest duration that `Stats` returns for a Duration-series, with
the indices of the samples whose annotations it returns next to them. -/
theorem duration_extremes (sortSlice : (Nat → Nat → Bool) → List Nat → List Nat)
    (hsort : SortSliceSpec sortSlice) (e : LogEntry) (ht : e.Type_ = LogEntryTypeDuration)
    (hne : e.Durations ≠ []) (hann : e.Annotations.length = e.Durations.length) :
    ∃ (st : Stats) (iMin iMax : Nat), e.Stats sortSlice = some st ∧
      iMin < e.Durations.length ∧ iMax < e.Durations.length ∧
      e.Durations[iMin]? = some (st.DurationFor StatMin) ∧
      e.Annotations[iMin]? = some (st.AnnotationFor StatMin) ∧
      e.Durations[iMax]? = some (st.DurationFor StatMax) ∧
      e.Annotations[iMax]? = some (st.AnnotationFor StatMax) ∧
      (∀ v ∈ e.Durations, st.DurationFor StatMin ≤ v) ∧
      (∀ v ∈ e.Durations, v ≤ st.DurationFor StatMax) ∧
      ((sortSlice e.lessDuration (List.range e.Durations.length)).Pairwise
          (StableBefore e.lessDuration) →
        (∀ (j : Nat) (v : Int), j < iMin → e.Durations[j]? = some v →
          st.DurationFor StatMin < v) ∧
        (∀ (j : Nat) (v : Int), iMax < j → e.Durations[j]? = some v →
          v < st.DurationFor StatMax)) := by
  obtain ⟨st, hst, hmin, hamin, hmax, hamax⟩ :=
    Stats_duration_annotations sortSlice hsort e ht hne hann
  have hpos : 0 < e.Durations.length := List.length_pos.2 hne
  have hperm := sortSlice_perm sortSlice hsort e.lessDuration e.Durations.length
  have hw := lessDuration_strictWeak e (fun a => a ∈ List.range e.Durations.length)
  have hs := (hsort e.lessDuration (List.range e.Durations.length)).2 hw.irrefl
    (fun a ha b hb c hc => hw.trans a b c ha hb hc)
    (fun a ha b hb c hc => hw.incomp a b c ha hb hc)
  obtain ⟨h0, h1, hlo, hhi⟩ := sorted_ends e.lessDuration e.Durations.length _ hpos hperm
    (fun a => by simp [LogEntry.lessDuration]) hs
  refine ⟨st, _, _, hst, h0, h1, ?_, ?_, ?_, ?_, ?_, ?_, ?_⟩
  · rw [hmin]
    exact getElem?_of_getD _ _ _ h0
  · rw [hamin]
    exact getElem?_of_getD _ _ _ (by omega)
  · rw [hmax]
    exact getElem?_of_getD _ _ _ h1
  · rw [hamax]
    exact getElem?_of_getD _ _ _ (by omega)
  · intro v hv
    obtain ⟨j, hj, rfl⟩ := (mem_iff_getD _ 0 v).1 hv
    rw [hmin]
    have := hlo j hj
    simp only [LogEntry.lessDuration, decide_eq_false_iff_not, not_lt] at this
    exact this
  · intro v hv
    obtain ⟨j, hj, rfl⟩ := (mem_iff_getD _ 0 v).1 hv
    rw [hmax]
    have := hhi j hj
    simp only [LogEntry.lessDuration, decide_eq_false_iff_not, not_lt] at this
    exact this
  · intro hstable
    obtain ⟨hfirst, hlast⟩ := stable_ends e.lessDuration e.Durations.length _ hperm hstable
    refine ⟨fun j v hj hv => ?_, fun j v hj hv => ?_⟩
    · rw [hmin, ← getD_of_getElem? e.Durations 0 v j hv]
      have := hfirst j hj
      simp only [LogEntry.lessDuration, decide_eq_true_eq] at this
      exact this
    · have hjn : j < e.Durations.length := by
        by_contra hcon
        rw [List.getElem?_eq_none (by omega)] at hv
        cases hv
      rw [hmax, ← getD_of_getElem? e.Durations 0 v j hv]
      have := hlast j hj hjn
      simp only [LogEntry.lessDuration, decide_eq_true_eq] at this
      exact this

theorem swapAt_length (data : List Nat) (i j : Nat) : (swapAt data i j).length = data.length := by
  simp [swapAt]

theorem swapAt_perm (data : List Nat) (i j : Nat) (hi : i < data.length)
    (hj : j < data.length) (hij : i ≠ j) : (swapAt data i j).Perm data := by
  rw [List.perm_iff_count]
  intro b
  have hi2 : data.count b ≥ if data[i] == b then 1 else 0 := by
    split
    · rename_i h
      have : data[i] = b := by simpa using h
      rw [← this]
      exact List.count_pos_iff.2 (List.getElem_mem _)
    · omega
  have hj2 : data.count b ≥ if data[j] == b then 1 else 0 := by
    split
    · rename_i h
      have : data[j] = b := by simpa using h
      rw [← this]
      exact List.count_pos_iff.2 (List.getElem_mem _)
    · omega
  unfold swapAt
  rw [List.count_set _ _ _ _ (by simpa using hj), List.count_set _ _ _ _ hi,
    List.getElem_set_ne hij]
  simp only [List.getD_eq_getElem?_getD, List.getElem?_eq_getElem hi,
    List.getElem?_eq_getElem hj, Option.getD_some]
  split at hi2 <;> split at hj2 <;> simp_all

theorem shellFold_perm (less : Nat → Nat → Bool) (n : Nat) (l : List Nat) (data : List Nat)
    (hl : ∀ i ∈ l, i + 6 < n) (hd : data.length = n) :
    (l.foldl
      (fun d i => if less (d.getD (i + 6) 0) (d.getD i 0) then swapAt d (i + 6) i else d)
      data).Perm data := by
  induction l generalizing data with
  | nil => exact List.Perm.refl _
  | cons i rest ih =>
    simp only [List.foldl_cons]
    have hi := hl i (List.mem_cons_self _ _)
    have hrest : ∀ k ∈ rest, k + 6 < n := fun k hk => hl k (List.mem_cons_of_mem _ hk)
    split
    · exact (ih _ hrest (by rw [swapAt_length, hd])).trans
        (swapAt_perm data (i + 6) i (by omega) (by omega) (by omega))
    · exact ih _ hrest hd

theorem shellPass_perm (less : Nat → Nat → Bool) (data : List Nat) :
    (shellPass less data).Perm data :=
  shellFold_perm less data.length _ data
    (fun i hi => by
      have := List.mem_range.1 hi
      omega) rfl

/-- The short-slice routine of the releases before Go 1.19 meets the contract of
`sort.Slice`. -/
theorem quickSortFuncShort_spec : SortSliceSpec quickSortFuncShort := by
  intro less l
  have hp := shellPass_perm less l
  obtain ⟨h1, h2⟩ := insertionSortLessFunc_spec less (shellPass less l)
  refine ⟨h1.trans hp, fun ha hb hc => ?_⟩
  exact h2 (fun a ha2 => ha a (hp.mem_iff.1 ha2))
    (fun a ha2 b hb2 c hc2 => hb a (hp.mem_iff.1 ha2) b (hp.mem_iff.1 hb2) c (hp.mem_iff.1 hc2))
    (fun a ha2 b hb2 c hc2 => hc a (hp.mem_iff.1 ha2) b (hp.mem_iff.1 hb2) c (hp.mem_iff.1 hc2))

/-- C15 (as amended): for a Value-series without NaN and for a Duration-series, with at
least one sample and annotations parallel to the samples, the Min annotation of `Stats` is
the annotation of a sample that equals the Min, which no sample is below; this holds for
every `sort.Slice` that meets its contract, which leaves open which of several tied least
samples it is. With the insertion sort (all that `sort.Slice` runs on a short slice) it
is the one recorded first: every sample recorded before it is greater than the Min. -/
theorem C15_min_annotation_of_a_least_sample
    (sortSlice : (Nat → Nat → Bool) → List Nat → List Nat)
    (hsort : SortSliceSpec sortSlice) (e : LogEntry) :
    (e.Type_ = LogEntryTypeValue → e.Values ≠ [] →
      e.Annotations.length = e.Values.length → (∀ v ∈ e.Values, v.isNaN = false) →
      (∃ (st : Stats) (i : Nat), e.Stats sortSlice = some st ∧ i < e.Values.length ∧
        e.Values[i]? = some (st.ValueFor StatMin) ∧
        e.Annotations[i]? = some (st.AnnotationFor StatMin) ∧
        ∀ v ∈ e.Values, Float64.le (st.ValueFor StatMin) v = true) ∧
      (∃ (st : Stats) (i : Nat), e.Stats insertionSortLessFunc = some st ∧
        i < e.Values.length ∧ e.Values[i]? = some (st.ValueFor StatMin) ∧
        e.Annotations[i]? = some (st.AnnotationFor StatMin) ∧
        (∀ v ∈ e.Values, Float64.le (st.ValueFor StatMin) v = true) ∧
        ∀ (j : Nat) (v : Float64), j < i → e.Values[j]? = some v →
          Float64.lt (st.ValueFor StatMin) v = true)) ∧
    (e.Type_ = LogEntryTypeDuration → e.Durations ≠ [] →
      e.Annotations.length = e.Durations.length →
      (∃ (st : Stats) (i : Nat), e.Stats sortSlice = some st ∧ i < e.Durations.length ∧
        e.Durations[i]? = some (st.DurationFor StatMin) ∧
        e.Annotations[i]? = some (st.AnnotationFor StatMin) ∧
        ∀ v ∈ e.Durations, st.DurationFor StatMin ≤ v) ∧
      (∃ (st : Stats) (i : Nat), e.Stats insertionSortLessFunc = some st ∧
        i < e.Durations.length ∧ e.Durations[i]? = some (st.DurationFor StatMin) ∧
        e.Annotations[i]? = some (st.AnnotationFor StatMin) ∧
        (∀ v ∈ e.Durations, st.DurationFor StatMin ≤ v) ∧
        ∀ (j : Nat) (v : Int), j < i → e.Durations[j]? = some v →
          st.DurationFor StatMin < v)) := by
  refine ⟨fun ht hne hann hnan => ⟨?_, ?_⟩, fun ht hne hann => ⟨?_, ?_⟩⟩
  · obtain ⟨st, i, _, hst, hi, _, hv, ha, _, _, hle, _, _⟩ :=
      value_extremes sortSlice hsort e ht hne hann hnan
    exact ⟨st, i, hst, hi, hv, ha, hle⟩
  · obtain ⟨st, i, _, hst, hi, _, hv, ha, _, _, hle, _, hstable⟩ :=
      value_extremes insertionSortLessFunc insertionSortLessFunc_spec e ht hne hann hnan
    exact ⟨st, i, hst, hi, hv, ha, hle,
      (hstable (insertionSortLessFunc_stable e.lessValue e.Values.length
        (lessValue_strictWeak e hnan))).1⟩
  · obtain ⟨st, i, _, hst, hi, _, hv, ha, _, _, hle, _, _⟩ :=
      duration_extremes sortSlice hsort e ht hne hann
    exact ⟨st, i, hst, hi, hv, ha, hle⟩
  · obtain ⟨st, i, _, hst, hi, _, hv, ha, _, _, hle, _, hstable⟩ :=
      duration_extremes insertionSortLessFunc insertionSortLessFunc_spec e ht hne hann
    exact ⟨st, i, hst, hi, hv, ha, hle,
      (hstable (insertionSortLessFunc_stable e.lessDuration e.Durations.length
        (lessDuration_strictWeak e _))).1⟩

/-- C15 (as amended) at the durations 1, 3, 1, 3 annotated a, b, c, d, for the sort of the
releases before Go 1.19 and for the insertion sort: the Min annotation is that of a sample
equal to the Min, and with the insertion sort no earlier sample is as small. -/
theorem C15_witness :
    (∃ (st : Stats) (i : Nat), tiedDurations.Stats quickSortFuncShort = some st ∧
      i < tiedDurations.Durations.length ∧
      tiedDurations.Durations[i]? = some (st.DurationFor StatMin) ∧
      tiedDurations.Annotations[i]? = some (st.AnnotationFor StatMin) ∧
      ∀ v ∈ tiedDurations.Durations, st.DurationFor StatMin ≤ v) ∧
    (∃ (st : Stats) (i : Nat), tiedDurations.Stats insertionSortLessFunc = some st ∧
      i < tiedDurations.Durations.length ∧
      tiedDurations.Durations[i]? = some (st.DurationFor StatMin) ∧
      tiedDurations.Annotations[i]? = some (st.AnnotationFor StatMin) ∧
      (∀ v ∈ tiedDurations.Durations, st.DurationFor StatMin ≤ v) ∧
      ∀ (j : Nat) (v : Int), j < i → tiedDurations.Durations[j]? = some v →
        st.DurationFor StatMin < v) :=
  (C15_min_annotation_of_a_least_sample quickSortFuncShort quickSortFuncShort_spec
    tiedDurations).2 (by decide) (by decide) (by decide)

/-- C15 fails as stated, before and since release 1.19 of Go. Before: the sort that
`sort.Slice` runs on seven elements meets the contract of `sort.Slice`, and on the
durations 1, 5, 5, 0, 5, 5, 0 annotated a, ..., g the Min 0 comes with the annotation g of
the last sample, while the first sample that equals the Min is the fourth, annotated d.
Since: on the thirteen durations 1, 1, 1, 0, 1, 1, 5, 0, 9, 9, 9, 9, 9 annotated a, ..., m
the partition of `pdqsort_func` brings the eighth sample to the front, and the Min 0 comes
with its annotation h, while the first sample that equals the Min is the fourth,
annotated d. -/
theorem C15_counterexample :
    (SortSliceSpec quickSortFuncShort ∧
      (sevenDurations.Stats quickSortFuncShort).map
        (fun st => (st.DurationFor StatMin, st.AnnotationFor StatMin)) = some (0, "g") ∧
      sevenDurations.Durations.take 4 = [1, 5, 5, 0] ∧
      sevenDurations.Annotations[3]? = some "d") ∧
    (sortSlicePdq thirteenDurations.lessDuration (List.range 13) =
        some [7, 3, 1, 2, 4, 5, 0, 6, 8, 9, 10, 11, 12] ∧
      (thirteenDurations.Stats (fun less data => (sortSlicePdq less data).getD data)).map
        (fun st => (st.DurationFor StatMin, st.AnnotationFor StatMin)) = some (0, "h") ∧
      thirteenDurations.Durations.take 4 = [1, 1, 1, 0] ∧
      thirteenDurations.Annotations[3]? = some "d") :=
  ⟨⟨quickSortFuncShort_spec, by decide, by decide, by decide⟩,
   ⟨by decide, by decide, by decide, by decide⟩⟩

/-- C16 (as amended): for a Value-series without NaN and for a Duration-series, with at
least one sample and annotations parallel to the samples, the Max annotation of `Stats` is
the annotation of a sample that equals the Max, which no sample is above; this holds for
every `sort.Slice` that meets its contract, which leaves open which of several tied
greatest samples it is. With the insertion sort (all that `sort.Slice` runs on a short
slice) it is the one recorded last: every sample recorded after it is smaller than the
Max. -/
theorem C16_max_annotation_of_a_greatest_sample
    (sortSlice : (Nat → Nat → Bool) → List Nat → List Nat)
    (hsort : SortSliceSpec sortSlice) (e : LogEntry) :
    (e.Type_ = LogEntryTypeValue → e.Values ≠ [] →
      e.Annotations.length = e.Values.length → (∀ v ∈ e.Values, v.isNaN = false) →
      (∃ (st : Stats) (i : Nat), e.Stats sortSlice = some st ∧ i < e.Values.length ∧
        e.Values[i]? = some (st.ValueFor StatMax) ∧
        e.Annotations[i]? = some (st.AnnotationFor StatMax) ∧
        ∀ v ∈ e.Values, Float64.le v (st.ValueFor StatMax) = true) ∧
      (∃ (st : Stats) (i : Nat), e.Stats insertionSortLessFunc = some st ∧
        i < e.Values.length ∧ e.Values[i]? = some (st.ValueFor StatMax) ∧
        e.Annotations[i]? = some (st.AnnotationFor StatMax) ∧
        (∀ v ∈ e.Values, Float64.le v (st.ValueFor StatMax) = true) ∧
        ∀ (j : Nat) (v : Float64), i < j → e.Values[j]? = some v →
          Float64.lt v (st.ValueFor StatMax) = true)) ∧
    (e.Type_ = LogEntryTypeDuration → e.Durations ≠ [] →
      e.Annotations.length = e.Durations.length →
      (∃ (st : Stats) (i : Nat), e.Stats sortSlice = some st ∧ i < e.Durations.length ∧
        e.Durations[i]? = some (st.DurationFor StatMax) ∧
        e.Annotations[i]? = some (st.AnnotationFor StatMax) ∧
        ∀ v ∈ e.Durations, v ≤ st.DurationFor StatMax) ∧
      (∃ (st : Stats) (i : Nat), e.Stats insertionSortLessFunc = some st ∧
        i < e.Durations.length ∧ e.Durations[i]? = some (st.DurationFor StatMax) ∧
        e.Annotations[i]? = some (st.AnnotationFor StatMax) ∧
        (∀ v ∈ e.Durations, v ≤ st.DurationFor StatMax) ∧
        ∀ (j : Nat) (v : Int), i < j → e.Durations[j]? = some v →
          v < st.DurationFor StatMax)) := by
  refine ⟨fun ht hne hann hnan => ⟨?_, ?_⟩, fun ht hne hann => ⟨?_, ?_⟩⟩
  · obtain ⟨st, _, i, hst, _, hi, _, _, hv, ha, _, hle, _⟩ :=
      value_extremes sortSlice hsort e ht hne hann hnan
    exact ⟨st, i, hst, hi, hv, ha, hle⟩
  · obtain ⟨st, _, i, hst, _, hi, _, _, hv, ha, _, hle, hstable⟩ :=
      value_extremes insertionSortLessFunc insertionSortLessFunc_spec e ht hne hann hnan
    exact ⟨st, i, hst, hi, hv, ha, hle,
      (hstable (insertionSortLessFunc_stable e.lessValue e.Values.length
        (lessValue_strictWeak e hnan))).2⟩
  · obtain ⟨st, _, i, hst, _, hi, _, _, hv, ha, _, hle, _⟩ :=
      duration_extremes sortSlice hsort e ht hne hann
    exact ⟨st, i, hst, hi, hv, ha, hle⟩
  · obtain ⟨st, _, i, hst, _, hi, _, _, hv, ha, _, hle, hstable⟩ :=
      duration_extremes insertionSortLessFunc insertionSortLessFunc_spec e ht hne hann
    exact ⟨st, i, hst, hi, hv, ha, hle,
      (hstable (insertionSortLessFunc_stable e.lessDuration e.Durations.length
        (lessDuration_strictWeak e _))).2⟩

set_option exponentiation.threshold 4096 in
set_option maxRecDepth 100000 in
/-- C16 (as amended) at the values 1, 3, 1, 3 annotated a, b, c, d: the Max annotation is
that of a sample equal to the Max, and with the insertion sort no later sample is as
great. -/
theorem C16_witness :
    (∃ (st : Stats) (i : Nat), tiedValues.Stats insertionSortLessFunc = some st ∧
      i < tiedValues.Values.length ∧ tiedValues.Values[i]? = some (st.ValueFor StatMax) ∧
      tiedValues.Annotations[i]? = some (st.AnnotationFor StatMax) ∧
      ∀ v ∈ tiedValues.Values, Float64.le v (st.ValueFor StatMax) = true) ∧
    (∃ (st : Stats) (i : Nat), tiedValues.Stats insertionSortLessFunc = some st ∧
      i < tiedValues.Values.length ∧ tiedValues.Values[i]? = some (st.ValueFor StatMax) ∧
      tiedValues.Annotations[i]? = some (st.AnnotationFor StatMax) ∧
      (∀ v ∈ tiedValues.Values, Float64.le v (st.ValueFor StatMax) = true) ∧
      ∀ (j : Nat) (v : Float64), i < j → tiedValues.Values[j]? = some v →
        Float64.lt v (st.ValueFor StatMax) = true) :=
  (C16_max_annotation_of_a_greatest_sample insertionSortLessFunc insertionSortLessFunc_spec
    tiedValues).1 (by decide) (by decide) (by decide) (by decide)

set_option exponentiation.threshold 4096 in
set_option maxRecDepth 100000 in
/-- C16 fails as stated: on the values 1, 3, 1, 3 annotated a, b, c, d (four elements, on
which `sort.Slice` runs the insertion sort) the Max 3 comes with the annotation d of the
last sample, while the first sample that equals the Max is the second, annotated b. -/
theorem C16_counterexample :
    (tiedValues.Stats insertionSortLessFunc).map
      (fun st => (st.ValueFor StatMax, st.AnnotationFor StatMax)) =
        some (Float64.ofInt 3, "d") ∧
    tiedValues.Values.take 2 = [Float64.ofInt 1, Float64.ofInt 3] ∧
    tiedValues.Annotations[1]? = some "b" := by
  decide

/-! ## Ranking -/

theorem rankLess_named (criteria : RankingCriteria) (hc : criteria.named = true)
    (a b : Stats) :
    rankLess criteria a b =
      if criteria.higher then Float64.lt (b.FloatFor criteria.stat) (a.FloatFor criteria.stat)
      else Float64.lt (a.FloatFor criteria.stat) (b.FloatFor criteria.stat) := by
  cases criteria <;> first | rfl | cases hc

/-- Comparing numbers that are not NaN, in either direction, is a strict weak ordering. -/
theorem float_strictWeak (g : Nat → Float64) (p : Nat → Prop) (flip : Bool)
    (hn : ∀ a, p a → (g a).isNaN = false) :
    StrictWeakOn
      (fun a b => if flip then Float64.lt (g b) (g a) else Float64.lt (g a) (g b)) p := by
  cases flip with
  | false =>
    refine ⟨fun a _ => ?_, fun a b c _ _ _ h1 h2 => ?_, fun a b c ha hb hc h1 h2 => ?_⟩
    · exact Float64.lt_irrefl _
    · exact Float64.lt_trans _ _ _ h1 h2
    · simp only [Bool.false_eq_true, if_false] at h1 h2 ⊢
      rw [Float64.lt_false_iff _ _ (hn a ha) (hn b hb)] at h1
      rw [Float64.lt_false_iff _ _ (hn b hb) (hn c hc)] at h2
      rw [Float64.lt_false_iff _ _ (hn a ha) (hn c hc)]
      exact Float64.le_trans _ _ _ h2 h1
  | true =>
    refine ⟨fun a _ => ?_, fun a b c _ _ _ h1 h2 => ?_, fun a b c ha hb hc h1 h2 => ?_⟩
    · exact Float64.lt_irrefl _
    · exact Float64.lt_trans _ _ _ h2 h1
    · simp only [if_true] at h1 h2 ⊢
      rw [Float64.lt_false_iff _ _ (hn b hb) (hn a ha)] at h1
      rw [Float64.lt_false_iff _ _ (hn c hc) (hn b hb)] at h2
      rw [Float64.lt_false_iff _ _ (hn c hc) (hn a ha)]
      exact Float64.le_trans _ _ _ h1 h2

theorem RankStats_perm (sortSlice : (Nat → Nat → Bool) → List Nat → List Nat)
    (hsort : SortSliceSpec sortSlice) (criteria : RankingCriteria) (stats : List Stats) :
    (RankStats sortSlice criteria stats).Stats.Perm stats :=
  sortedView_perm _ _ _ (sortSlice_perm sortSlice hsort _ _)

theorem Winner_eq (c : Ranking) :
    c.Winner = c.Stats.getD 0 Stats.empty := by
  unfold Ranking.Winner
  cases c.Stats <;> rfl

/-- C17 (as amended): for each of the eight named criteria and every list of `Stats`,
`RankStats` returns a `Ranking` with the given criterion whose `Stats` are a permutation of
the inputs, and `Winner` is its first element, the zero `Stats` for an empty ranking. When
no input has NaN for the statistic of the criterion, the `Stats` are ordered by that
statistic, non-decreasing for the `Lower...IsBetter` criteria and non-increasing for the
`Higher...IsBetter` ones, and no element is strictly better than the winner. -/
theorem C17_rank_orders_by_criterion (sortSlice : (Nat → Nat → Bool) → List Nat → List Nat)
    (hsort : SortSliceSpec sortSlice) (criteria : RankingCriteria)
    (hc : criteria.named = true) (stats : List Stats) :
    (RankStats sortSlice criteria stats).Criteria = criteria ∧
    (RankStats sortSlice criteria stats).Stats.Perm stats ∧
    (RankStats sortSlice criteria stats).Winner =
      (RankStats sortSlice criteria stats).Stats.getD 0 Stats.empty ∧
    ({ Criteria := criteria, Stats := [] } : Ranking).Winner = Stats.empty ∧
    ((∀ s ∈ stats, (s.FloatFor criteria.stat).isNaN = false) →
      (criteria.higher = false →
        (RankStats sortSlice criteria stats).Stats.Pairwise
          (fun a b => Float64.le (a.FloatFor criteria.stat) (b.FloatFor criteria.stat) = true)) ∧
      (criteria.higher = true →
        (RankStats sortSlice criteria stats).Stats.Pairwise
          (fun a b => Float64.le (b.FloatFor criteria.stat) (a.FloatFor criteria.stat) = true)) ∧
      ∀ s ∈ (RankStats sortSlice criteria stats).Stats,
        rankLess criteria s (RankStats sortSlice criteria stats).Winner = false) := by
  refine ⟨rfl, RankStats_perm sortSlice hsort criteria stats, Winner_eq _, rfl, fun hnan => ?_⟩
  have hperm := sortSlice_perm sortSlice hsort
    (fun i j => rankLess criteria (stats.getD i Stats.empty) (stats.getD j Stats.empty))
    stats.length
  have hn : ∀ a, a ∈ List.range stats.length →
      ((stats.getD a Stats.empty).FloatFor criteria.stat).isNaN = false :=
    fun a ha => hnan _ (getD_mem_of_lt _ _ _ (List.mem_range.1 ha))
  have hless : (fun i j =>
      rankLess criteria (stats.getD i Stats.empty) (stats.getD j Stats.empty)) =
      (fun a b =>
        if criteria.higher then
          Float64.lt ((stats.getD b Stats.empty).FloatFor criteria.stat)
            ((stats.getD a Stats.empty).FloatFor criteria.stat)
        else
          Float64.lt ((stats.getD a Stats.empty).FloatFor criteria.stat)
            ((stats.getD b Stats.empty).FloatFor criteria.stat)) := by
    funext i j
    exact rankLess_named criteria hc _ _
  have hw := float_strictWeak (fun a => (stats.getD a Stats.empty).FloatFor criteria.stat)
    (fun a => a ∈ List.range stats.length) criteria.higher hn
  rw [← hless] at hw
  have hs := (hsort _ (List.range stats.length)).2 hw.irrefl
    (fun a ha b hb c hc => hw.trans a b c ha hb hc)
    (fun a ha b hb c hc => hw.incomp a b c ha hb hc)
  have hsorted : (RankStats sortSlice criteria stats).Stats.Pairwise
      (fun a b => rankLess criteria b a = false) := by
    unfold RankStats sortedView
    rw [List.pairwise_map]
    exact hs
  have hmemnan : ∀ s ∈ (RankStats sortSlice criteria stats).Stats,
      (s.FloatFor criteria.stat).isNaN = false :=
    fun s hs2 => hnan s ((RankStats_perm sortSlice hsort criteria stats).mem_iff.1 hs2)
  refine ⟨fun hlow => ?_, fun hhigh => ?_, fun s hs2 => ?_⟩
  · refine hsorted.imp_of_mem ?_
    intro a b ha hb hab
    rw [rankLess_named criteria hc, hlow] at hab
    simp only [Bool.false_eq_true, if_false] at hab
    exact (Float64.lt_false_iff _ _ (hmemnan b hb) (hmemnan a ha)).1 hab
  · refine hsorted.imp_of_mem ?_
    intro a b ha hb hab
    rw [rankLess_named criteria hc, hhigh] at hab
    simp only [if_true] at hab
    exact (Float64.lt_false_iff _ _ (hmemnan a ha) (hmemnan b hb)).1 hab
  · unfold Ranking.Winner
    cases hl : (RankStats sortSlice criteria stats).Stats with
    | nil => rw [hl] at hs2; cases hs2
    | cons w rest =>
      rw [hl] at hs2 hsorted
      simp only
      rcases List.mem_cons.1 hs2 with rfl | hin
      · rw [rankLess_named criteria hc]
        cases criteria.higher <;> simp [Float64.lt_irrefl]
      · exact List.rel_of_pairwise_cons hsorted hin

set_option exponentiation.threshold 4096 in
set_option maxRecDepth 100000 in
/-- C17 at `LowerMeanIsBetter` over the means 5, 1, 3: the ranking has the means 1, 3, 5
in this order and the winner is the one with mean 1. -/
theorem C17_witness :
    (RankStats insertionSortLessFunc RankingCriteria.LowerMeanIsBetter threeMeans).Stats =
      [meanStats "b" (Float64.ofInt 1), meanStats "c" (Float64.ofInt 3),
        meanStats "a" (Float64.ofInt 5)] ∧
    (RankStats insertionSortLessFunc RankingCriteria.LowerMeanIsBetter threeMeans).Winner =
      meanStats "b" (Float64.ofInt 1) ∧
    (∀ s ∈ (RankStats insertionSortLessFunc RankingCriteria.LowerMeanIsBetter
        threeMeans).Stats,
      rankLess RankingCriteria.LowerMeanIsBetter s
        (RankStats insertionSortLessFunc RankingCriteria.LowerMeanIsBetter
          threeMeans).Winner = false) :=
  ⟨by decide, by decide,
   ((C17_rank_orders_by_criterion insertionSortLessFunc insertionSortLessFunc_spec
      RankingCriteria.LowerMeanIsBetter rfl threeMeans).2.2.2.2 (by decide)).2.2⟩

set_option exponentiation.threshold 4096 in
set_option maxRecDepth 100000 in
/-- C17 fails as stated: over the means 1, NaN, 0 (three elements, on which `sort.Slice`
runs the insertion sort) `LowerMeanIsBetter` leaves the inputs in their order, so the
winner has the mean 1 although the third element, with the mean 0, is strictly better. -/
theorem C17_counterexample :
    (RankStats insertionSortLessFunc RankingCriteria.LowerMeanIsBetter nanMeans).Stats =
      nanMeans ∧
    (RankStats insertionSortLessFunc RankingCriteria.LowerMeanIsBetter nanMeans).Winner =
      meanStats "a" (Float64.ofInt 1) ∧
    rankLess RankingCriteria.LowerMeanIsBetter (meanStats "c" (Float64.ofInt 0))
      (RankStats insertionSortLessFunc RankingCriteria.LowerMeanIsBetter nanMeans).Winner =
        true := by
  decide

/-! ## The Z-score -/

theorem Float64.add_comm (x y : Float64) : Float64.add x y = Float64.add y x := by
  cases x with
  | nan => cases y <;> rfl
  | inf a =>
    cases y with
    | nan => rfl
    | inf b => cases a <;> cases b <;> rfl
    | fin b k => rfl
  | fin a m =>
    cases y with
    | nan => rfl
    | inf b => rfl
    | fin b k =>
      simp only [Float64.add]
      rw [Int.add_comm (Float64.sint b k), Bool.and_comm b a]

theorem Float64.abs_round (s : Bool) (n d : Nat) :
    Float64.abs (Float64.round s n d) = Float64.round false n d := by
  unfold Float64.round
  split <;> rfl

theorem Float64.abs_sub_comm (x y : Float64) :
    Float64.abs (Float64.sub x y) = Float64.abs (Float64.sub y x) := by
  cases x with
  | nan => cases y <;> rfl
  | inf a =>
    cases y with
    | nan => rfl
    | inf b => cases a <;> cases b <;> rfl
    | fin b k => rfl
  | fin a m =>
    cases y with
    | nan => rfl
    | inf b => rfl
    | fin b k =>
      simp only [Float64.sub, Float64.neg, Float64.add, Float64.sint_not]
      have h : Float64.sint b k + -Float64.sint a m =
          -(Float64.sint a m + -Float64.sint b k) := by omega
      by_cases h0 : Float64.sint a m + -Float64.sint b k = 0
      · rw [if_pos h0, if_pos (by rw [h, h0]; rfl)]
        rfl
      · rw [if_neg h0, if_neg (by rw [h]; omega), Float64.abs_round, Float64.abs_round, h,
          Int.natAbs_neg]

/-- With every operation rounding on its own, `ComputeStatsZScore(a, b)` returns an error
exactly when `ComputeStatsZScore(b, a)` does, and the two calls return the same float64
(which is NaN in both when it is NaN in one). -/
theorem ComputeStatsZScore_comm (a b : Stats) :
    ((ComputeStatsZScore a b).2 = none ↔ (ComputeStatsZScore b a).2 = none) ∧
    (ComputeStatsZScore a b).1 = (ComputeStatsZScore b a).1 := by
  unfold ComputeStatsZScore
  by_cases ht : a.StatsType = b.StatsType
  · by_cases hn : a.N = 0 ∨ b.N = 0
    · simp [ht, hn, hn.symm]
    · have hn2 : ¬ (b.N = 0 ∨ a.N = 0) := fun h => hn h.symm
      simp only [ht, hn, hn2, ne_eq, not_true_eq_false, if_false, true_and]
      rw [Float64.abs_sub_comm, Float64.add_comm]
  · have ht2 : ¬ b.StatsType = a.StatsType := fun h => ht h.symm
    simp [ht, ht2]

/-- C19 (as amended): for every build, `ComputeStatsZScore(a, b)` returns an error exactly
when `ComputeStatsZScore(b, a)` does. On a build that rounds every operation on its own
the two calls return the same float64: a number that Go's `==` finds equal in the two
orders, or NaN in both (which `==` does not find equal to itself). On a build that fuses
one of the two products of `σA*σA + σB*σB` into the addition, swapping the arguments
swaps the product that is fused: the score of `(a, b)` with the first product fused is
the score of `(b, a)` with the second product fused. -/
theorem C19_zscore_symmetric_without_fusion (fusion : Fusion) (a b : Stats) :
    ((ComputeStatsZScoreWith fusion a b).2 = none ↔
      (ComputeStatsZScoreWith fusion b a).2 = none) ∧
    ComputeStatsZScoreWith Fusion.none a b = ComputeStatsZScore a b ∧
    ((ComputeStatsZScore a b).2 = none ↔ (ComputeStatsZScore b a).2 = none) ∧
    (ComputeStatsZScore a b).1 = (ComputeStatsZScore b a).1 ∧
    ((ComputeStatsZScore a b).1.isNaN = false →
      Float64.eq (ComputeStatsZScore a b).1 (ComputeStatsZScore b a).1 = true) ∧
    ((ComputeStatsZScore a b).1.isNaN = true →
      (ComputeStatsZScore b a).1.isNaN = true ∧
      Float64.eq (ComputeStatsZScore a b).1 (ComputeStatsZScore b a).1 = false) ∧
    (ComputeStatsZScoreWith Fusion.first a b).1 =
      (ComputeStatsZScoreWith Fusion.second b a).1 := by
  have hsame := (ComputeStatsZScore_comm a b).2
  refine ⟨?_, rfl, (ComputeStatsZScore_comm a b).1, hsame, ?_, ?_, ?_⟩
  · unfold ComputeStatsZScoreWith
    by_cases ht : a.StatsType = b.StatsType
    · by_cases hn : a.N = 0 ∨ b.N = 0
      · simp [ht, hn, hn.symm]
      · have hn2 : ¬ (b.N = 0 ∨ a.N = 0) := fun h => hn h.symm
        simp [ht, hn, hn2]
    · have ht2 : ¬ b.StatsType = a.StatsType := fun h => ht h.symm
      simp [ht, ht2]
  · intro hnan
    rw [← hsame]
    simp [Float64.eq, hnan]
  · intro hnan
    rw [← hsame]
    exact ⟨hnan, by simp [Float64.eq, hnan]⟩
  · unfold ComputeStatsZScoreWith
    by_cases ht : a.StatsType = b.StatsType
    · by_cases hn : a.N = 0 ∨ b.N = 0
      · simp [ht, hn, hn.symm]
      · have hn2 : ¬ (b.N = 0 ∨ a.N = 0) := fun h => hn h.symm
        simp only [ht, hn, hn2, ne_eq, not_true_eq_false, if_false, Fusion.sumOfSquares]
        rw [Float64.abs_sub_comm]
    · have ht2 : ¬ b.StatsType = a.StatsType := fun h => ht h.symm
      simp [ht, ht2]

set_option exponentiation.threshold 8192 in
set_option maxRecDepth 1000000 in
/-- C19 fails as stated on a build that fuses the multiply-add: for one sample each, with
the means 1 and 0 and the standard deviations 0.2 and 0.5, both orders succeed, and with
the first product fused the score of `(a, b)` is above that of `(b, a)` (by two units in
the last place: 1.8569533817705188 and 1.8569533817705184); with the second product
fused it is the other way round. And on every build a distribution with the standard
deviation 0 compared with itself has the score NaN in both orders, which Go's `==` does
not find equal. -/
theorem C19_counterexample :
    (ComputeStatsZScoreWith Fusion.first fifthSpread halfSpread).2 = none ∧
    (ComputeStatsZScoreWith Fusion.first halfSpread fifthSpread).2 = none ∧
    Float64.lt (ComputeStatsZScoreWith Fusion.first halfSpread fifthSpread).1
      (ComputeStatsZScoreWith Fusion.first fifthSpread halfSpread).1 = true ∧
    Float64.lt (ComputeStatsZScoreWith Fusion.second fifthSpread halfSpread).1
      (ComputeStatsZScoreWith Fusion.second halfSpread fifthSpread).1 = true ∧
    ComputeStatsZScore noSpread noSpread = (Float64.nan, none) ∧
    Float64.eq (ComputeStatsZScore noSpread noSpread).1
      (ComputeStatsZScore noSpread noSpread).1 = false := by
  decide

theorem isqrtIter_pos (f n x : Nat) (hn : 1 ≤ n) (hx : 1 ≤ x) : 1 ≤ isqrtIter f n x := by
  induction f generalizing x with
  | zero => exact hx
  | succ f ih =>
    unfold isqrtIter
    split
    · apply ih
      rcases Nat.lt_or_ge x 2 with h | h
      · have hx1 : x = 1 := by omega
        subst hx1
        rw [Nat.div_one]
        omega
      · have : x / 2 ≤ (x + n / x) / 2 := Nat.div_le_div_right (Nat.le_add_right _ _)
        omega
    · exact hx

theorem isqrt_pos (n : Nat) (hn : 1 ≤ n) : 1 ≤ isqrt n :=
  isqrtIter_pos _ n _ hn Nat.one_le_two_pow

theorem roundMag_pos (n d : Nat) (hd : 0 < d) (h : d ≤ n) : 1 ≤ roundMag n d := by
  have h1 : roundMag (1 * 1) 1 = 1 :=
    roundMag_grid 1 1 Nat.one_pos (by rw [ulpOf_small 1 (by norm_num)])
  have := roundMag_mono (1 * 1) 1 n d Nat.one_pos hd (by omega)
  omega

theorem Float64.positive_iff (x : Float64) :
    x.Positive ↔ (∃ m, 0 < m ∧ x = Float64.fin false m) ∨ x = Float64.inf false := by
  unfold Float64.Positive Float64.lt Float64.zero
  cases x with
  | nan => simp [Float64.isNaN]
  | inf a =>
    have hL : (0 : Int) < ((2 ^ 2098 : Nat) : Int) := by positivity
    have hkey : Float64.key (Float64.inf a) = Float64.sint a (2 ^ 2098) := rfl
    rw [hkey]
    generalize (2 : Nat) ^ 2098 = L at hL ⊢
    cases a
    · simp [Float64.isNaN, Float64.key, Float64.sint]
      omega
    · simp [Float64.isNaN, Float64.key, Float64.sint]
  | fin a m =>
    cases a
    · simp [Float64.isNaN, Float64.key, Float64.sint]
    · simp only [Float64.isNaN, Float64.key, Float64.sint]
      constructor
      · intro h
        simp at h
        omega
      · intro h
        simp at h

theorem Float64.round_positive (n d : Nat) (hd : 0 < d) (h : d ≤ n) :
    (Float64.round false n d).Positive := by
  rw [Float64.positive_iff]
  unfold Float64.round
  split
  · exact Or.inl ⟨_, roundMag_pos n d hd h, rfl⟩
  · exact Or.inr rfl

theorem Float64.add_self_positive (x : Float64) (hx : x.Positive) :
    (Float64.add x x).Positive := by
  rcases (Float64.positive_iff x).1 hx with ⟨m, hm, rfl⟩ | rfl
  · rw [Float64.add_fin]
    have hs : Float64.sint false m + Float64.sint false m = ((m + m : Nat) : Int) := by
      simp [Float64.sint]
    rw [hs, if_neg (by omega)]
    have hd : decide (((m + m : Nat) : Int) < 0) = false := by
      rw [decide_eq_false_iff_not]; omega
    rw [hd, Int.natAbs_ofNat]
    exact Float64.round_positive _ 1 Nat.one_pos (by omega)
  · exact (Float64.positive_iff _).2 (Or.inr (by simp [Float64.add]))

theorem Float64.sqrt_positive (x : Float64) (hx : x.Positive) :
    (Float64.sqrt x).Positive := by
  rcases (Float64.positive_iff x).1 hx with ⟨m, hm, rfl⟩ | rfl
  · have hpos : 1 ≤ isqrt (m * 2 ^ 1074) :=
      isqrt_pos _ (Nat.one_le_iff_ne_zero.2 (Nat.mul_ne_zero (by omega) (by positivity)))
    have hm0 : m ≠ 0 := by omega
    simp only [Float64.sqrt, hm0, Bool.false_eq_true, if_false]
    split
    · exact Float64.round_positive _ 1 Nat.one_pos hpos
    · exact Float64.round_positive _ 2 (by norm_num) (by omega)
  · exact (Float64.positive_iff _).2 (Or.inr (by simp [Float64.sqrt]))

theorem Float64.zero_div_positive (x : Float64) (hx : x.Positive) :
    Float64.div Float64.zero x = Float64.zero := by
  rcases (Float64.positive_iff x).1 hx with ⟨m, hm, rfl⟩ | rfl
  · unfold Float64.zero
    rw [Float64.div_fin _ _ _ _ (by omega), Nat.zero_mul]
    exact Float64.round_zero _ m hm
  · rfl

/-- C20 (as amended): for two `Stats` of the same type with the same `N`, not zero, the
same finite Mean and the same StdDev, whose squared standard error `(StdDev / sqrt N)^2` is
above zero in float64, `ComputeStatsZScore` returns 0 and no error. -/
theorem C20_zscore_of_equal_distributions (a b : Stats)
    (ht : a.StatsType = b.StatsType) (hN : a.N = b.N) (h0 : a.N ≠ 0)
    (hmean : a.FloatFor StatMean = b.FloatFor StatMean)
    (hfin : (a.FloatFor StatMean).isFinite = true)
    (hsd : a.FloatFor StatStdDev = b.FloatFor StatStdDev)
    (hpos : (Float64.mul a.stdErr a.stdErr).Positive) :
    ComputeStatsZScore a b = (Float64.zero, none) := by
  have hse : b.stdErr = a.stdErr := by
    unfold Stats.stdErr
    rw [hsd, hN]
  unfold ComputeStatsZScore
  rw [if_neg (by simp [ht]), if_neg (by rw [← hN]; simp [h0]), hse, ← hmean]
  have hsub : Float64.abs (Float64.sub (a.FloatFor StatMean) (a.FloatFor StatMean)) =
      Float64.zero := by
    cases hm : a.FloatFor StatMean with
    | nan => rw [hm] at hfin; cases hfin
    | inf s => rw [hm] at hfin; cases hfin
    | fin s m =>
      rw [Float64.sub_self]
      rfl
  rw [hsub, Float64.zero_div_positive _
    (Float64.sqrt_positive _ (Float64.add_self_positive _ hpos))]

set_option exponentiation.threshold 8192 in
set_option maxRecDepth 1000000 in
/-- C20 (as amended) at a distribution of 8 samples with Mean 5 and StdDev 2, compared with
itself: the Z-score is 0. -/
theorem C20_witness :
    fiveTwoStats.N ≠ 0 ∧ (fiveTwoStats.FloatFor StatMean).isFinite = true ∧
    (Float64.mul fiveTwoStats.stdErr fiveTwoStats.stdErr).Positive ∧
    ComputeStatsZScore fiveTwoStats fiveTwoStats = (Float64.zero, none) :=
  ⟨by decide, by decide, by decide,
   C20_zscore_of_equal_distributions fiveTwoStats fiveTwoStats rfl rfl (by decide) rfl
    (by decide) rfl (by decide)⟩

set_option exponentiation.threshold 8192 in
set_option maxRecDepth 1000000 in
/-- C20 fails as stated: the `Stats` of the series of the one value 2.5 has `N = 1` and
StdDev 0, and compared with itself its Z-score is 0/0, which is NaN and not 0. -/
theorem C20_counterexample :
    (oneValue.Stats insertionSortLessFunc).map
      (fun st => (st.N, st.ValueFor StatStdDev, ComputeStatsZScore st st)) =
    some (1, Float64.zero, (Float64.nan, none)) := by
  decide

/-! ## The running average of Sample -/

theorem Sample.run_avgDt {W : Type} (clock : Nat → Int) (callback : Nat → W → Result W)
    (cfg : SamplingConfig) (first : Nat) (events : List SampleEvent) :
    ∀ (st st2 : SampleState W),
      (st.status ≠ SampleStatus.panicked →
        st.avgDt = Sample.avgDtAt clock first cfg.numParallel st.idx ∧
        (st.status = SampleStatus.looping → st.reads = first + 3 * st.idx)) →
      Sample.run clock callback cfg events st = some st2 →
      st2.status ≠ SampleStatus.panicked →
        st2.avgDt = Sample.avgDtAt clock first cfg.numParallel st2.idx ∧
        (st2.status = SampleStatus.looping → st2.reads = first + 3 * st2.idx) := by
  induction events with
  | nil =>
    intro st st2 hinv hrun hs
    simp only [Sample.run, Option.some.injEq] at hrun
    subst hrun
    exact hinv hs
  | cons ev rest ih =>
    intro st st2 hinv hrun hs
    simp only [Sample.run] at hrun
    cases hstep : Sample.step clock callback cfg ev st with
    | none => rw [hstep] at hrun; cases hrun
    | some st1 =>
      rw [hstep] at hrun
      refine ih st1 st2 ?_ hrun hs
      intro hs1
      have htail : ∀ (running : List Nat) (w : W), st.status = SampleStatus.looping →
          (Sample.tail clock cfg st running w).avgDt =
              Sample.avgDtAt clock first cfg.numParallel
                (Sample.tail clock cfg st running w).idx ∧
            ((Sample.tail clock cfg st running w).status = SampleStatus.looping →
              (Sample.tail clock cfg st running w).reads =
                first + 3 * (Sample.tail clock cfg st running w).idx) := by
        intro running w hl
        obtain ⟨ha, hr⟩ := hinv (by rw [hl]; decide)
        have hr := hr hl
        unfold Sample.tail
        by_cases hmax : cfg.maxN ≤ ((st.idx + 1 : Nat) : Int)
        · rw [if_pos hmax]
          refine ⟨?_, fun h => by cases h⟩
          simp only [Sample.avgDtAt, ha, hr]
        · rw [if_neg hmax]
          refine ⟨?_, fun _ => ?_⟩
          · simp only [Sample.avgDtAt, ha, hr]
          · simp only [hr]
            omega
      cases ev with
      | iterate =>
        simp only [Sample.step, Sample.iterate] at hstep
        by_cases hl : st.status = SampleStatus.looping
        · rw [if_neg (by simp [hl])] at hstep
          by_cases hp : cfg.numParallel > 1
          · rw [if_pos hp] at hstep
            by_cases hw : (st.running.length : Int) < cfg.numParallel
            · rw [if_pos hw] at hstep
              cases hstep
              exact htail _ _ hl
            · rw [if_neg hw] at hstep
              cases hstep
          · rw [if_neg hp] at hstep
            cases hc : callback st.idx st.world with
            | ok w2 =>
              rw [hc] at hstep
              cases hstep
              exact htail _ _ hl
            | panic w2 =>
              rw [hc] at hstep
              cases hstep
              exact absurd rfl hs1
        · rw [if_pos hl] at hstep
          cases hstep
      | finish i =>
        simp only [Sample.step, Sample.finish] at hstep
        by_cases hc : st.status = SampleStatus.panicked ∨ i ∉ st.running
        · rw [if_pos hc] at hstep
          cases hstep
        · rw [if_neg hc] at hstep
          cases hcb : callback i st.world with
          | ok w2 =>
            rw [hcb] at hstep
            cases hstep
            exact hinv (fun h => hc (Or.inl h))
          | panic w2 =>
            rw [hcb] at hstep
            cases hstep
            exact absurd rfl hs1

theorem Sample.avgDtAt_warmup (clock : Nat → Int) (first : Nat) (numParallel : Int) (n : Nat)
    (h : (n : Int) ≤ numParallel) : Sample.avgDtAt clock first numParallel n = 0 := by
  induction n with
  | zero => rfl
  | succ n ih =>
    simp only [Sample.avgDtAt, sampleAvgDt]
    rw [if_neg (by push_cast at h; omega)]
    exact ih (by push_cast at h; omega)

theorem Sample.latencySum_warmup (clock : Nat → Int) (first : Nat) (numParallel : Int)
    (n : Nat) (h : (n : Int) ≤ numParallel) :
    Sample.latencySum clock first numParallel n = 0 := by
  induction n with
  | zero => rfl
  | succ n ih =>
    simp only [Sample.latencySum]
    rw [if_neg (by push_cast at h; omega), ih (by push_cast at h; omega)]
    rfl

theorem Sample.latency_mono (clock : Nat → Int) (first : Nat)
    (hmono : ∀ i, clock i ≤ clock (i + 1)) (hspan : ∀ i, clock i - clock 0 < 2 ^ 63)
    (j : Nat) :
    Sample.latency clock first j = clock (first + 3 * j + 1) - clock (first + 3 * j) ∧
    0 ≤ Sample.latency clock first j := by
  have hm := clock_mono clock hmono
  have h1 := hm (first + 3 * j) (first + 3 * j + 1) (by omega)
  have h0 := hm 0 (first + 3 * j) (by omega)
  have h2 := hspan (first + 3 * j + 1)
  have : Sample.latency clock first j = clock (first + 3 * j + 1) - clock (first + 3 * j) :=
    since_eq _ _ h1 (by omega)
  exact ⟨this, by omega⟩

theorem Sample.latencySum_le (clock : Nat → Int) (first : Nat) (numParallel : Int)
    (hmono : ∀ i, clock i ≤ clock (i + 1)) (hspan : ∀ i, clock i - clock 0 < 2 ^ 63)
    (n : Nat) :
    0 ≤ Sample.latencySum clock first numParallel n ∧
    Sample.latencySum clock first numParallel n ≤ clock (first + 3 * n) - clock 0 := by
  have hm := clock_mono clock hmono
  induction n with
  | zero =>
    have := hm 0 (first + 3 * 0) (by omega)
    simp only [Sample.latencySum]
    omega
  | succ n ih =>
    obtain ⟨hl, h0⟩ := Sample.latency_mono clock first hmono hspan n
    have h1 := hm (first + 3 * n + 1) (first + 3 * (n + 1)) (by omega)
    have h2 := hm (first + 3 * n) (first + 3 * n + 1) (by omega)
    simp only [Sample.latencySum]
    split
    · omega
    · omega

theorem Sample.avgDtAt_mean (clock : Nat → Int) (first : Nat) (numParallel : Int)
    (hmono : ∀ i, clock i ≤ clock (i + 1)) (hspan : ∀ i, clock i - clock 0 < 2 ^ 63)
    (n : Nat) (hn : numParallel ≤ (n : Int)) :
    0 ≤ Sample.avgDtAt clock first numParallel n ∧
    Sample.avgDtAt clock first numParallel n * ((n : Int) - numParallel) ≤
      Sample.latencySum clock first numParallel n ∧
    2 * (Sample.latencySum clock first numParallel n -
        Sample.avgDtAt clock first numParallel n * ((n : Int) - numParallel)) ≤
      ((n : Int) - numParallel) * ((n : Int) - numParallel - 1) := by
  induction n with
  | zero =>
    simp only [Sample.avgDtAt, Sample.latencySum, zero_mul, sub_zero, mul_zero, le_refl,
      true_and]
    push_cast at hn ⊢
    rcases eq_or_lt_of_le hn with h | h
    · rw [h]
      simp
    · have h1 : (0 : Int) ≤ 0 - numParallel - 1 := by omega
      have h2 : (0 : Int) ≤ 0 - numParallel := by omega
      simpa using mul_nonneg h2 h1
  | succ n ih =>
    by_cases hidx : (n : Int) ≥ numParallel
    · obtain ⟨h0, hle, hge⟩ := ih hidx
      obtain ⟨_, hl0⟩ := Sample.latency_mono clock first hmono hspan n
      obtain ⟨_, hsum⟩ := Sample.latencySum_le clock first numParallel hmono hspan (n + 1)
      have hsp := hspan (first + 3 * (n + 1))
      have hstep : Sample.avgDtAt clock first numParallel (n + 1) =
          Int.tdiv (wrap64 (wrap64 (Sample.avgDtAt clock first numParallel n *
            ((n : Int) - numParallel)) + Sample.latency clock first n))
            ((n : Int) - numParallel + 1) := by
        simp only [Sample.avgDtAt, sampleAvgDt, Sample.latency]
        rw [if_pos hidx]
      have hsumstep : Sample.latencySum clock first numParallel (n + 1) =
          Sample.latencySum clock first numParallel n + Sample.latency clock first n := by
        simp only [Sample.latencySum]
        rw [if_pos hidx]
      rw [hstep, hsumstep]
      rw [hsumstep] at hsum
      have hc0 : (0 : Int) ≤ (n : Int) - numParallel := by omega
      have hp0 : 0 ≤ Sample.avgDtAt clock first numParallel n * ((n : Int) - numParallel) :=
        mul_nonneg h0 hc0
      generalize Sample.latencySum clock first numParallel n = S at *
      generalize Sample.latency clock first n = dt at *
      generalize Sample.avgDtAt clock first numParallel n * ((n : Int) - numParallel) = p at *
      have hw1 : wrap64 p = p := wrap64_of_inInt64 p ⟨by omega, by omega⟩
      have hw2 : wrap64 (p + dt) = p + dt := wrap64_of_inInt64 _ ⟨by omega, by omega⟩
      rw [hw1, hw2]
      have hcast : (((n + 1 : Nat) : Int) - numParallel) = (n : Int) - numParallel + 1 := by
        push_cast
        ring
      rw [hcast]
      generalize (n : Int) - numParallel = c at *
      have hd : (0 : Int) < c + 1 := by omega
      have hx0 : 0 ≤ p + dt := by omega
      rw [Int.tdiv_eq_ediv hx0 (le_of_lt hd)]
      have hq0 : 0 ≤ (p + dt) / (c + 1) := Int.ediv_nonneg hx0 (le_of_lt hd)
      have hdm := Int.ediv_add_emod (p + dt) (c + 1)
      have hm0 := Int.emod_nonneg (p + dt) (ne_of_gt hd)
      have hm1 := Int.emod_lt_of_pos (p + dt) hd
      have hcomm : (p + dt) / (c + 1) * (c + 1) = (c + 1) * ((p + dt) / (c + 1)) :=
        mul_comm _ _
      refine ⟨hq0, by omega, ?_⟩
      have hexp : (c + 1) * (c + 1 - 1) = c * (c - 1) + 2 * c := by ring
      rw [hexp]
      omega
    · have hz : (n : Int) + 1 = numParallel := by push_cast at hn; omega
      have h1 : Sample.avgDtAt clock first numParallel (n + 1) = 0 :=
        Sample.avgDtAt_warmup clock first numParallel (n + 1) (by push_cast; omega)
      have h2 : Sample.latencySum clock first numParallel (n + 1) = 0 :=
        Sample.latencySum_warmup clock first numParallel (n + 1) (by push_cast; omega)
      rw [h1, h2]
      push_cast
      rw [hz]
      simp

/-- C25, as the code has it: in every state of a call of `Sample` that no panic has
ended, `avgDt` is the value that the update of lines 300-302 yields over the iterations
made so far. Iterations with an index below the parallelism never affect it: it is 0
until one past the warm-up window completes. From then on each iteration replaces it by
the truncated quotient of `avgDt * (idx - P) + dt` by `idx - P + 1`, in int64, so the
quotient is truncated at every iteration. On a clock that never runs backwards and spans
less than 2^63 nanoseconds, `avgDt` is then at most the arithmetic mean of the latencies
past the warm-up window, below it by at most `(m - 1) / 2` for `m` such latencies, and
equal to it for `m = 1`. -/
theorem C25_avgDt_is_updated_incrementally {W : Type} (clock : Nat → Int)
    (callback : Nat → W → Result W) (cfg : SamplingConfig) (events : List SampleEvent)
    (w : W) (st : SampleState W)
    (hrun : Experiment.Sample clock callback cfg events w = some st)
    (hs : st.status ≠ SampleStatus.panicked) :
    st.avgDt = Sample.avgDtAt clock cfg.firstRead cfg.numParallel st.idx ∧
    (∀ n : Nat, (n : Int) ≤ cfg.numParallel →
      Sample.avgDtAt clock cfg.firstRead cfg.numParallel n = 0) ∧
    (∀ n : Nat, cfg.numParallel ≤ (n : Int) →
      Sample.avgDtAt clock cfg.firstRead cfg.numParallel (n + 1) =
        Int.tdiv
          (wrap64 (wrap64 (Sample.avgDtAt clock cfg.firstRead cfg.numParallel n *
            ((n : Int) - cfg.numParallel)) + Sample.latency clock cfg.firstRead n))
          ((n : Int) - cfg.numParallel + 1)) ∧
    ((∀ i, clock i ≤ clock (i + 1)) → (∀ i, clock i - clock 0 < 2 ^ 63) →
      ∀ n : Nat, cfg.numParallel ≤ (n : Int) →
        Sample.avgDtAt clock cfg.firstRead cfg.numParallel n * ((n : Int) - cfg.numParallel) ≤
          Sample.latencySum clock cfg.firstRead cfg.numParallel n ∧
        2 * (Sample.latencySum clock cfg.firstRead cfg.numParallel n -
            Sample.avgDtAt clock cfg.firstRead cfg.numParallel n *
              ((n : Int) - cfg.numParallel)) ≤
          ((n : Int) - cfg.numParallel) * ((n : Int) - cfg.numParallel - 1) ∧
        ((n : Int) - cfg.numParallel = 1 →
          Sample.avgDtAt clock cfg.firstRead cfg.numParallel n =
            Sample.latencySum clock cfg.firstRead cfg.numParallel n)) := by
  refine ⟨?_, fun n hn => Sample.avgDtAt_warmup clock _ _ n hn, fun n hn => ?_,
    fun hmono hspan n hn => ?_⟩
  · have hstart : (Sample.start clock cfg w).status ≠ SampleStatus.panicked →
        (Sample.start clock cfg w).avgDt =
            Sample.avgDtAt clock cfg.firstRead cfg.numParallel (Sample.start clock cfg w).idx ∧
          ((Sample.start clock cfg w).status = SampleStatus.looping →
            (Sample.start clock cfg w).reads =
              cfg.firstRead + 3 * (Sample.start clock cfg w).idx) := by
      unfold Sample.start
      by_cases hg : cfg.N = 0 ∧ cfg.Duration = 0
      · rw [if_pos hg]
        intro h
        exact absurd rfl h
      · rw [if_neg hg]
        intro _
        exact ⟨rfl, fun _ => rfl⟩
    exact (Sample.run_avgDt clock callback cfg cfg.firstRead events _ st hstart hrun hs).1
  · simp only [Sample.avgDtAt, sampleAvgDt, Sample.latency]
    rw [if_pos hn]
  · obtain ⟨_, h1, h2⟩ :=
      Sample.avgDtAt_mean clock cfg.firstRead cfg.numParallel hmono hspan n hn
    refine ⟨h1, h2, fun hone => ?_⟩
    rw [hone] at h1 h2
    omega

set_option exponentiation.threshold 4096 in
set_option maxRecDepth 100000 in
/-- C25 at a call of `Sample` with `N = 4` and no workers on the clock `steppingClock`:
when the call has returned, `avgDt` is the value of the update over the four
iterations. -/
theorem C25_witness :
    Experiment.Sample steppingClock countingCallback fourSamples
        (List.replicate 4 SampleEvent.iterate) [] =
      some { status := SampleStatus.returned, maxTime := sampleCeiling, idx := 4, avgDt := 0,
             reads := 12, running := [], world := [0, 1, 2, 3] } ∧
    (0 : Int) = Sample.avgDtAt steppingClock 1 1 4 :=
  ⟨by decide,
   (C25_avgDt_is_updated_incrementally steppingClock countingCallback fourSamples
      (List.replicate 4 SampleEvent.iterate) []
      { status := SampleStatus.returned, maxTime := sampleCeiling, idx := 4, avgDt := 0,
        reads := 12, running := [], world := [0, 1, 2, 3] } (by decide) (by decide)).1⟩

set_option exponentiation.threshold 4096 in
set_option maxRecDepth 100000 in
/-- C25 fails as stated: with no workers on the clock `steppingClock` the iterations 1, 2
and 3 measure the latencies 3, 0 and 0, whose mean is 1, and `avgDt` goes through 3 and 1
to 0. -/
theorem C25_counterexample :
    [1, 2, 3].map (Sample.latency steppingClock 1) = [3, 0, 0] ∧
    Int.tdiv (Sample.latencySum steppingClock 1 1 4) 3 = 1 ∧
    [1, 2, 3, 4].map (fun n =>
      (Experiment.Sample steppingClock countingCallback fourSamples
        (List.replicate n SampleEvent.iterate) []).map (fun st => (st.idx, st.avgDt))) =
      [some (1, 0), some (2, 3), some (3, 1), some (4, 0)] := by
  decide

/-! ## The stopwatch -/

theorem RecordDuration_panicked_iff (e : Experiment) (name : String) (duration : Int)
    (args : List Arg) :
    (e.RecordDuration name duration args).panicked = true ↔
      extractDecorations args = none ∨
      ∃ idx, IdxWithName e.LogEntries name = some idx ∧
        ∀ entry, e.LogEntries[idx]? = some entry → entry.Type_ ≠ LogEntryTypeDuration := by
  unfold Experiment.RecordDuration
  cases hd : extractDecorations args with
  | none => simp [Result.panicked]
  | some d =>
    simp only [Experiment.recordDuration, reduceCtorEq, false_or]
    cases hi : IdxWithName e.LogEntries name with
    | none => simp [Result.panicked]
    | some idx =>
      cases hentry : e.LogEntries[idx]? with
      | none => simp [Result.panicked, hentry]
      | some entry =>
        by_cases ht : entry.Type_ = LogEntryTypeDuration
        · simp [Result.panicked, hentry, ht]
        · simp [Result.panicked, hentry, ht]

theorem RecordDuration_panic_state (e : Experiment) (name : String) (duration : Int)
    (args : List Arg) (h : (e.RecordDuration name duration args).panicked = true) :
    e.RecordDuration name duration args = Result.panic e := by
  unfold Experiment.RecordDuration at h ⊢
  cases hd : extractDecorations args with
  | none => rfl
  | some d =>
    rw [hd] at h
    simp only [Experiment.recordDuration] at h ⊢
    cases hi : IdxWithName e.LogEntries name with
    | none => rw [hi] at h; simp [Result.panicked] at h
    | some idx =>
      rw [hi] at h
      cases hentry : e.LogEntries[idx]? with
      | none => simp [hentry]
      | some entry =>
        by_cases ht : entry.Type_ = LogEntryTypeDuration
        · simp [Result.panicked, hentry, ht] at h
        · simp [hentry, ht]

theorem Stopwatch.Record_running (s : Stopwatch) (now : Int) (e : Experiment) (name : String)
    (args : List Arg) (h : s.running = true) :
    (s.Record now e name args).panicked =
        (e.RecordDuration name (s.elapsed now) args).panicked ∧
      (s.Record now e name args).state =
        (s, (e.RecordDuration name (s.elapsed now) args).state) := by
  unfold Stopwatch.Record
  rw [if_neg (by simp [h])]
  cases e.RecordDuration name (s.elapsed now) args <;> exact ⟨rfl, rfl⟩

/-- C23, as the code has it: a new stopwatch is running. A call aborts exactly when it is
`Record` or `Pause` on a stopwatch that is not running, `Resume` on a running one, or
`Record` on a running one whose `RecordDuration` aborts, which it does when a decoration
is not recognised or when the name has an entry that is not a Duration-series. A call
that aborts leaves the stopwatch and the experiment as they were; `Pause` that returns
leaves the stopwatch not running, `Resume` and `Reset` leave it running, `Record` leaves
the stopwatch as it was, and `Reset` never aborts. This holds in every state, so after
every sequence of calls. -/
theorem C23_stopwatch_aborts (s : Stopwatch) (e : Experiment) (now : Int)
    (op : StopwatchOp) :
    (newStopwatch now).running = true ∧
    ((Stopwatch.step now op (s, e)).panicked = true ↔
      (s.running = false ∧ (op = StopwatchOp.Pause ∨ ∃ name args, op = StopwatchOp.Record name args)) ∨
      (s.running = true ∧ op = StopwatchOp.Resume) ∨
      (s.running = true ∧ ∃ name args, op = StopwatchOp.Record name args ∧
        (extractDecorations args = none ∨
          ∃ idx, IdxWithName e.LogEntries name = some idx ∧
            ∀ entry, e.LogEntries[idx]? = some entry →
              entry.Type_ ≠ LogEntryTypeDuration))) ∧
    ((Stopwatch.step now op (s, e)).panicked = true →
      (Stopwatch.step now op (s, e)).state = (s, e)) ∧
    ((Stopwatch.step now op (s, e)).panicked = false →
      (op = StopwatchOp.Pause → (Stopwatch.step now op (s, e)).state.1.running = false) ∧
      (op = StopwatchOp.Resume ∨ op = StopwatchOp.Reset →
        (Stopwatch.step now op (s, e)).state.1.running = true) ∧
      ((∃ name args, op = StopwatchOp.Record name args) →
        (Stopwatch.step now op (s, e)).state.1 = s)) ∧
    (Stopwatch.step now StopwatchOp.Reset (s, e)).panicked = false := by
  refine ⟨rfl, ?_, ?_, ?_, rfl⟩
  · cases op with
    | Record name args =>
      cases hr : s.running with
      | false => simp [Stopwatch.step, Stopwatch.Record, hr, Result.panicked]
      | true =>
        simp only [Stopwatch.step, (Stopwatch.Record_running s now e name args hr).1,
          RecordDuration_panicked_iff]
        simp only [reduceCtorEq, and_false, false_or, StopwatchOp.Record.injEq, true_and,
          Bool.true_eq_false, false_and, or_false, exists_false]
        constructor
        · intro h
          exact ⟨name, args, ⟨rfl, rfl⟩, h⟩
        · rintro ⟨_, _, ⟨rfl, rfl⟩, h⟩
          exact h
    | Reset => simp [Stopwatch.step, Stopwatch.Reset, Result.panicked]
    | Pause =>
      cases hr : s.running <;> simp [Stopwatch.step, Stopwatch.Pause, hr, Result.panicked]
    | Resume =>
      cases hr : s.running <;> simp [Stopwatch.step, Stopwatch.Resume, hr, Result.panicked]
  · intro hp
    cases op with
    | Record name args =>
      cases hr : s.running with
      | false => simp [Stopwatch.step, Stopwatch.Record, hr, Result.state]
      | true =>
        simp only [Stopwatch.step] at hp ⊢
        rw [(Stopwatch.Record_running s now e name args hr).1] at hp
        rw [(Stopwatch.Record_running s now e name args hr).2,
          RecordDuration_panic_state e name _ args hp]
        rfl
    | Reset => simp [Stopwatch.step, Stopwatch.Reset, Result.panicked] at hp
    | Pause =>
      cases hr : s.running with
      | false => simp [Stopwatch.step, Stopwatch.Pause, hr, Result.state]
      | true => simp [Stopwatch.step, Stopwatch.Pause, hr, Result.panicked] at hp
    | Resume =>
      cases hr : s.running with
      | true => simp [Stopwatch.step, Stopwatch.Resume, hr, Result.state]
      | false => simp [Stopwatch.step, Stopwatch.Resume, hr, Result.panicked] at hp
  · intro hp
    refine ⟨?_, ?_, ?_⟩
    · rintro rfl
      cases hr : s.running with
      | false => simp [Stopwatch.step, Stopwatch.Pause, hr, Result.panicked] at hp
      | true => simp [Stopwatch.step, Stopwatch.Pause, hr, Result.state]
    · rintro (rfl | rfl)
      · cases hr : s.running with
        | true => simp [Stopwatch.step, Stopwatch.Resume, hr, Result.panicked] at hp
        | false => simp [Stopwatch.step, Stopwatch.Resume, hr, Result.state]
      · simp [Stopwatch.step, Stopwatch.Reset, Result.state]
    · rintro ⟨name, args, rfl⟩
      cases hr : s.running with
      | false => simp [Stopwatch.step, Stopwatch.Record, hr, Result.panicked] at hp
      | true =>
        simp only [Stopwatch.step]
        rw [(Stopwatch.Record_running s now e name args hr).2]

set_option exponentiation.threshold 4096 in
set_option maxRecDepth 100000 in
/-- C23 fails as stated: on the experiment `sampleExperiment`, where "size" is a
Value-series, `Record` of "size" aborts on a new stopwatch, which is running. -/
theorem C23_counterexample :
    (newStopwatch 0).running = true ∧
    Stopwatch.step 5 (StopwatchOp.Record "size" []) (newStopwatch 0, sampleExperiment) =
      Result.panic (newStopwatch 0, sampleExperiment) := by
  decide

theorem Stopwatch.step_Record_ok (now : Int) (name : String) (args : List Arg)
    (s s2 : Stopwatch) (e e2 : Experiment)
    (h : Stopwatch.step now (StopwatchOp.Record name args) (s, e) = Result.ok (s2, e2)) :
    s2 = s ∧ s.running = true := by
  simp only [Stopwatch.step, Stopwatch.Record] at h
  cases hr : s.running with
  | false => simp [hr] at h
  | true =>
    simp only [hr, Bool.true_eq_false, if_false] at h
    cases hd : e.RecordDuration name (s.elapsed now) args with
    | ok e3 =>
      rw [hd] at h
      simp only [Result.ok.injEq, Prod.mk.injEq] at h
      exact ⟨h.1.symm, rfl⟩
    | panic e3 =>
      rw [hd] at h
      cases h

theorem Stopwatch.run_accounts (start now : Int) (hspan : now - start < 2 ^ 63) :
    ∀ (ops : List (StopwatchOp × Int)) (s : Stopwatch) (e : Experiment) (cur : Int)
      (s2 : Stopwatch) (e2 : Experiment),
      (∀ p ∈ ops, p.1 ≠ StopwatchOp.Reset) → s.t = start → start ≤ cur →
      0 ≤ s.pauseDuration →
      (s.running = true → s.pauseDuration ≤ cur - start) →
      (s.running = false →
        start ≤ s.pauseT ∧ s.pauseT ≤ cur ∧ s.pauseDuration ≤ s.pauseT - start) →
      List.Chain (· ≤ ·) cur (ops.map Prod.snd ++ [now]) →
      Stopwatch.run ops (s, e) = Result.ok (s2, e2) → s2.running = true →
      s2.t = start ∧ 0 ≤ s2.pauseDuration ∧ s2.pauseDuration ≤ now - start ∧
      s2.pauseDuration =
        s.pauseDuration +
          completedPauses (if s.running = true then none else some s.pauseT) ops ∧
      (s.running = true →
        ∀ r, runningTime (some r) ops now = (now - r) - completedPauses none ops) ∧
      (s.running = false →
        runningTime none ops now =
          (now - s.pauseT) - completedPauses (some s.pauseT) ops) := by
  intro ops
  induction ops with
  | nil =>
    intro s e cur s2 e2 _ ht hcur h0 hrun hpau hchain hok hfin
    simp only [Stopwatch.run, Result.ok.injEq, Prod.mk.injEq] at hok
    obtain ⟨rfl, rfl⟩ := hok
    have hle : cur ≤ now := by
      simpa using hchain
    have := hrun hfin
    refine ⟨ht, h0, by omega, by simp [completedPauses], ?_, ?_⟩
    · intro _ r
      simp [runningTime, completedPauses]
    · intro hf
      rw [hfin] at hf
      cases hf
  | cons p rest ih =>
    intro s e cur s2 e2 hops ht hcur h0 hrun hpau hchain hok hfin
    obtain ⟨op, n⟩ := p
    have hrest : ∀ p ∈ rest, p.1 ≠ StopwatchOp.Reset :=
      fun p hp => hops p (List.mem_cons_of_mem _ hp)
    simp only [List.map_cons, List.cons_append, List.chain_cons] at hchain
    obtain ⟨hn, hchain⟩ := hchain
    have hnow : n ≤ now := by
      have := List.Chain.rel hchain (List.mem_append_right _ (List.mem_singleton.mpr rfl))
      exact this
    simp only [Stopwatch.run] at hok
    cases op with
    | Reset => exact absurd rfl (hops _ (List.mem_cons_self _ _))
    | Record name args =>
      cases hstep : Stopwatch.step n (StopwatchOp.Record name args) (s, e) with
      | panic st => rw [hstep] at hok; cases hok
      | ok st =>
        rw [hstep] at hok
        obtain ⟨s3, e3⟩ := st
        obtain ⟨rfl, hr⟩ := Stopwatch.step_Record_ok n name args s s3 e e3 hstep
        have := ih s3 e3 n s2 e2 hrest ht (by omega) h0
          (fun h => by have := hrun h; omega)
          (fun h => by rw [hr] at h; cases h) hchain hok hfin
        obtain ⟨a, b, c, d, f, g⟩ := this
        refine ⟨a, b, c, ?_, ?_, ?_⟩
        · simpa [hr, completedPauses] using d
        · intro _ r
          simpa [runningTime, completedPauses] using f hr r
        · intro h
          rw [hr] at h
          cases h
    | Pause =>
      cases hr : s.running with
      | false =>
        simp [Stopwatch.step, Stopwatch.Pause, hr] at hok
      | true =>
        simp only [Stopwatch.step, Stopwatch.Pause, hr, Bool.true_eq_false, if_false] at hok
        have hP := hrun hr
        have := ih { s with running := false, pauseT := n } e n s2 e2 hrest ht (by omega) h0
          (fun h => by cases h)
          (fun _ => ⟨by dsimp only; omega, le_refl _, by dsimp only; omega⟩)
          hchain hok hfin
        obtain ⟨a, b, c, d, f, g⟩ := this
        refine ⟨a, b, c, ?_, ?_, ?_⟩
        · simpa [completedPauses] using d
        · intro _ r
          have := g rfl
          simp only [runningTime, completedPauses] at this ⊢
          omega
        · intro h
          cases h
    | Resume =>
      cases hr : s.running with
      | true =>
        simp [Stopwatch.step, Stopwatch.Resume, hr] at hok
      | false =>
        simp only [Stopwatch.step, Stopwatch.Resume, hr, Bool.false_eq_true, if_false] at hok
        obtain ⟨hp1, hp2, hp3⟩ := hpau hr
        have hsince : since s.pauseT n = n - s.pauseT := since_eq _ _ (by omega) (by omega)
        have hwrap : wrap64 (s.pauseDuration + since s.pauseT n) =
            s.pauseDuration + (n - s.pauseT) := by
          rw [hsince]
          apply wrap64_of_inInt64
          unfold InInt64
          constructor <;> omega
        rw [hwrap] at hok
        have := ih { s with running := true,
                            pauseDuration := s.pauseDuration + (n - s.pauseT) } e n s2 e2
          hrest ht (by omega) (by dsimp only; omega)
          (fun _ => by dsimp only; omega) (fun h => by cases h) hchain hok hfin
        obtain ⟨a, b, c, d, f, g⟩ := this
        refine ⟨a, b, c, ?_, ?_, ?_⟩
        · simp only [completedPauses, Bool.false_eq_true, if_false] at d ⊢
          simp only [if_true] at d
          omega
        · intro h
          cases h
        · intro _
          have := f rfl n
          simp only [runningTime, completedPauses] at this ⊢
          omega

/-- C24: take a stopwatch that was created or last reset when the clock read `start`,
then a sequence of `Pause`, `Resume` and `Record` calls none of which aborts, with
non-decreasing readings of the clock, and a `Record` on the running stopwatch when the
clock reads `now`, less than 2^63 nanoseconds after `start` (a `time.Duration` holds no
more). The duration that `Record` forwards to `RecordDuration` is `now - start` minus the
sum of the completed paused intervals, which is the time the stopwatch has spent running;
it is not negative; and `Record` leaves the stopwatch as it was. -/
theorem C24_record_forwards_running_time (start now : Int) (s0 : Stopwatch)
    (e : Experiment) (ops : List (StopwatchOp × Int)) (s : Stopwatch) (e2 : Experiment)
    (hstart : s0 = newStopwatch start ∨
      ∃ (s1 : Stopwatch) (e1 : Experiment), (s1.Reset start e1).state.1 = s0)
    (hops : ∀ p ∈ ops, p.1 ≠ StopwatchOp.Reset)
    (hmono : List.Chain (· ≤ ·) start (ops.map Prod.snd ++ [now]))
    (hspan : now - start < 2 ^ 63)
    (hrun : Stopwatch.run ops (s0, e) = Result.ok (s, e2))
    (hrunning : s.running = true) :
    (∀ (name : String) (args : List Arg),
      (s.Record now e2 name args).panicked =
          (e2.RecordDuration name (s.elapsed now) args).panicked ∧
        (s.Record now e2 name args).state =
          (s, (e2.RecordDuration name (s.elapsed now) args).state)) ∧
    s.elapsed now = (now - start) - completedPauses none ops ∧
    s.elapsed now = runningTime (some start) ops now ∧
    0 ≤ s.elapsed now := by
  have h0 : s0.t = start ∧ s0.pauseDuration = 0 ∧ s0.running = true := by
    rcases hstart with rfl | ⟨s1, e1, rfl⟩
    · exact ⟨rfl, rfl, rfl⟩
    · exact ⟨rfl, rfl, rfl⟩
  obtain ⟨ht, hp, hr⟩ := h0
  obtain ⟨a, b, c, d, f, _⟩ := Stopwatch.run_accounts start now hspan ops s0 e start s e2
    hops ht (le_refl _) (by omega) (fun _ => by omega) (fun h => by rw [hr] at h; cases h)
    hmono hrun hrunning
  have hle : start ≤ now := by
    have := List.Chain.rel hmono (List.mem_append_right _ (List.mem_singleton.mpr rfl))
    exact this
  have hel : s.elapsed now = (now - start) - s.pauseDuration := by
    unfold Stopwatch.elapsed
    rw [a, since_eq _ _ hle hspan]
    apply wrap64_of_inInt64
    unfold InInt64
    constructor <;> omega
  rw [hp, hr] at d
  simp only [if_true, zero_add] at d
  refine ⟨fun name args => Stopwatch.Record_running s now e2 name args hrunning, ?_, ?_, ?_⟩
  · rw [hel, d]
  · rw [hel, d, f hr start]
  · rw [hel]
    omega

set_option exponentiation.threshold 4096 in
set_option maxRecDepth 100000 in
/-- C24 at the stopwatch of `pausedTwice`: at the reading 70, 60 nanoseconds after the
start and after pauses of 15 and 10, `Record` forwards 35; the `Record` at 40 forwarded 15. -/
theorem C24_witness :
    Stopwatch.run pausedTwice (newStopwatch 10, sampleExperiment) =
      Result.ok ({ t := 10, pauseT := 50, pauseDuration := 25, running := true },
        (sampleExperiment.RecordDuration "load" 15 []).state) ∧
    completedPauses none pausedTwice = 25 ∧
    ({ t := 10, pauseT := 50, pauseDuration := 25, running := true } : Stopwatch).elapsed 70 =
      35 :=
  ⟨by decide, by decide,
   ((C24_record_forwards_running_time 10 70 (newStopwatch 10) sampleExperiment pausedTwice
      { t := 10, pauseT := 50, pauseDuration := 25, running := true }
      (sampleExperiment.RecordDuration "load" 15 []).state
      (Or.inl rfl) (by decide) (by simp [pausedTwice]) (by decide) (by decide) rfl).2.1).trans
    (by decide)⟩

/-! ## Strings that encoding/json reads back as they were -/

theorem coerceUTF8_valid (bs : List Nat) :
    ∀ skip : Nat, validUTF8 skip bs = true → coerceUTF8 skip bs = bs := by
  induction bs with
  | nil => intro skip _; cases skip <;> rfl
  | cons b rest ih =>
    intro skip h
    cases skip with
    | succ skip =>
      simp only [validUTF8] at h
      simp only [coerceUTF8, ih skip h]
    | zero =>
      simp only [validUTF8] at h
      simp only [coerceUTF8]
      cases hsize : utf8Size (b :: rest) with
      | zero => rw [hsize] at h; cases h
      | succ size =>
        rw [hsize] at h
        simp only [ih size h]

theorem ofGoBytes_goBytes (s : String) : ofGoBytes (goBytes s) = s := by
  unfold ofGoBytes goBytes
  rw [List.map_map]
  have : (Char.ofNat ∘ Char.toNat) = id := by
    funext c
    simp [Char.ofNat_toNat]
  rw [this, List.map_id]

theorem jsonString_valid (s : String) (h : validString s = true) : jsonString s = s := by
  unfold jsonString
  rw [coerceUTF8_valid _ 0 h, ofGoBytes_goBytes]

theorem LogEntry.jsonView_entry_valid (e : LogEntry) (h : e.validText = true) : e.jsonView = e := by
  simp only [LogEntry.validText, Bool.and_eq_true, List.all_eq_true] at h
  obtain ⟨⟨⟨⟨⟨⟨h1, h2⟩, h3⟩, h4⟩, h5⟩, h6⟩, h7⟩ := h
  unfold LogEntry.jsonView
  rw [jsonString_valid _ h1, jsonString_valid _ h2, jsonString_valid _ h3,
    jsonString_valid _ h4, jsonString_valid _ h5, jsonString_valid _ h6]
  have hann : e.Annotations.map jsonString = e.Annotations := by
    conv_rhs => rw [← List.map_id e.Annotations]
    exact List.map_congr_left (fun a ha => jsonString_valid a (h7 a ha))
  rw [hann]

theorem Experiment.jsonView_experiment_valid (e : Experiment) (h : e.validText = true) :
    e.jsonView = e := by
  simp only [Experiment.validText, Bool.and_eq_true, List.all_eq_true] at h
  unfold Experiment.jsonView
  rw [jsonString_valid _ h.1]
  have hent : e.LogEntries.map LogEntry.jsonView = e.LogEntries := by
    conv_rhs => rw [← List.map_id e.LogEntries]
    exact List.map_congr_left (fun a ha => LogEntry.jsonView_entry_valid a (h.2 a ha))
  rw [hent]

/-! ## The cache -/

theorem recordJson_spec : JsonSpec recordJson := by
  constructor
  · intro h target
    rfl
  · intro e j hj
    simp only [recordJson] at hj ⊢
    by_cases he : e.encodable = true
    · rw [if_pos he] at hj
      cases hj
      rfl
    · rw [if_neg he] at hj
      cases hj
  · intro e
    simp only [recordJson]
    by_cases he : e.encodable = true
    · rw [if_pos he, he]
      rfl
    · rw [if_neg he]
      simp only [Bool.not_eq_true] at he
      rw [he]
      rfl

theorem ExperimentCache.Save_ok {J : Type} (lib : JsonLib J) (hashOf : String → String)
    (cache : ExperimentCache) (fs : FileSystem J) (name : String) (v : Int) (e : Experiment)
    (hsave : (cache.Save lib hashOf fs name v e).err = false) :
    ∃ j, lib.encodeExperiment e = some j ∧
      (cache.Save lib hashOf fs name v e).fs.files (cache.pathOf hashOf name) =
        some [lib.encodeHeader { Name := name, Version := v }, j] := by
  unfold ExperimentCache.Save at hsave ⊢
  by_cases hc : fs.creatable (cache.pathOf hashOf name) = false
  · rw [if_pos hc] at hsave
    cases hsave
  · rw [if_neg hc] at hsave ⊢
    cases hj : lib.encodeExperiment e with
    | none => rw [hj] at hsave; cases hsave
    | some j => exact ⟨j, rfl, by simp [FileSystem.write]⟩

/-- After a `Save` that returned no error, `Load` of the same name returns nil when the
requested version is above the saved one, and otherwise the saved experiment as
`encoding/json` reads it back. -/
theorem ExperimentCache.Load_after_Save {J : Type} (lib : JsonLib J) (hlib : JsonSpec lib)
    (hashOf : String → String) (cache : ExperimentCache) (fs : FileSystem J) (name : String)
    (v w : Int) (e : Experiment)
    (hsave : (cache.Save lib hashOf fs name v e).err = false) :
    cache.Load lib hashOf (cache.Save lib hashOf fs name v e).fs name w =
      if v < w then none else some e.jsonView := by
  obtain ⟨j, hj, hfile⟩ := ExperimentCache.Save_ok lib hashOf cache fs name v e hsave
  unfold ExperimentCache.Load
  rw [hfile]
  simp only [Decoder.Decode, hlib.header, hlib.experiment e j hj,
    CachedExperimentHeader.jsonView]
  simp

/-- `Save` returns no error exactly when the file can be created and every sample of the
experiment is finite. -/
theorem ExperimentCache.Save_err {J : Type} (lib : JsonLib J) (hlib : JsonSpec lib)
    (hashOf : String → String) (cache : ExperimentCache) (fs : FileSystem J) (name : String)
    (v : Int) (e : Experiment) :
    (cache.Save lib hashOf fs name v e).err = false ↔
      fs.creatable (cache.pathOf hashOf name) = true ∧ e.encodable = true := by
  have henc := hlib.encodes e
  unfold ExperimentCache.Save
  by_cases hc : fs.creatable (cache.pathOf hashOf name) = false
  · rw [if_pos hc]
    simp [hc]
  · rw [if_neg hc]
    simp only [Bool.not_eq_false] at hc
    cases hj : lib.encodeExperiment e with
    | none =>
      rw [hj] at henc
      simp only [Option.isSome_none] at henc
      simp [hc, ← henc]
    | some j =>
      rw [hj] at henc
      simp only [Option.isSome_some] at henc
      simp [hc, ← henc]

theorem LogEntry.jsonView_samples (e : LogEntry) :
    e.jsonView.Type_ = e.Type_ ∧ e.jsonView.Durations = e.Durations ∧
    e.jsonView.Values = e.Values ∧ e.jsonView.Annotations.length = e.Annotations.length ∧
    e.jsonView.PrecisionBundle.Duration = e.PrecisionBundle.Duration := by
  simp [LogEntry.jsonView]

/-- `Load` returns nil when the file of the name cannot be opened, when it holds no
second value, and when the second value does not decode into an experiment. -/
theorem ExperimentCache.Load_miss {J : Type} (lib : JsonLib J) (hashOf : String → String)
    (cache : ExperimentCache) (fs : FileSystem J) (name : String) (w : Int) :
    (fs.files (cache.pathOf hashOf name) = none → cache.Load lib hashOf fs name w = none) ∧
    (∀ content, fs.files (cache.pathOf hashOf name) = some content → content.length < 2 →
      cache.Load lib hashOf fs name w = none) ∧
    (∀ j1 j2 rest, fs.files (cache.pathOf hashOf name) = some (j1 :: j2 :: rest) →
      (lib.decodeExperiment j2 (NewExperiment "")).2 = true →
      cache.Load lib hashOf fs name w = none) := by
  refine ⟨fun h => ?_, fun content h hlen => ?_, fun j1 j2 rest h herr => ?_⟩
  · unfold ExperimentCache.Load
    rw [h]
  · unfold ExperimentCache.Load
    rw [h]
    match content, hlen with
    | [], _ => simp [Decoder.Decode]
    | [j], _ => simp [Decoder.Decode]
  · unfold ExperimentCache.Load
    rw [h]
    simp [Decoder.Decode, herr]

/-- C21 (as amended): when `Save(name, v, e)` returns no error, `Load(name, v)` on the
cache as `Save` left it returns the experiment `e` as `encoding/json` reads it back: as
many log entries, in the same order, each of the same kind and with the same durations
and values in the same order and as many annotations, and the strings (the names, notes,
units, styles, formats and annotations) with U+FFFD in the place of every byte that is
not part of valid UTF-8. When every string of `e` is valid UTF-8 the experiment returned
is `e`: the same log entries and the same name. The library `encoding/json` is any that
does what `JsonSpec` says, the digest any function of the name. -/
theorem C21_save_load_round_trip {J : Type} (lib : JsonLib J) (hlib : JsonSpec lib)
    (hashOf : String → String) (cache : ExperimentCache) (fs : FileSystem J) (name : String)
    (v : Int) (e : Experiment)
    (hsave : (cache.Save lib hashOf fs name v e).err = false) :
    ∃ out, cache.Load lib hashOf (cache.Save lib hashOf fs name v e).fs name v = some out ∧
      out = e.jsonView ∧
      out.LogEntries.length = e.LogEntries.length ∧
      (∀ (i : Nat) (x y : LogEntry), out.LogEntries[i]? = some x → e.LogEntries[i]? = some y →
        x.Type_ = y.Type_ ∧ x.Durations = y.Durations ∧ x.Values = y.Values ∧
        x.Annotations = y.Annotations.map jsonString ∧ x.Name = jsonString y.Name) ∧
      (e.validText = true → out.LogEntries = e.LogEntries ∧ out.Name = e.Name ∧ out = e) := by
  refine ⟨e.jsonView, ?_, rfl, ?_, ?_, ?_⟩
  · rw [ExperimentCache.Load_after_Save lib hlib hashOf cache fs name v v e hsave]
    simp
  · simp [Experiment.jsonView]
  · intro i x y hx hy
    simp only [Experiment.jsonView, List.getElem?_map, hy, Option.map_some',
      Option.some.injEq] at hx
    subst hx
    simp [LogEntry.jsonView]
  · intro hvalid
    rw [Experiment.jsonView_experiment_valid e hvalid]
    exact ⟨rfl, rfl, rfl⟩

set_option exponentiation.threshold 4096 in
set_option maxRecDepth 100000 in
/-- C21 (as amended) at `sampleExperiment`, whose strings are ASCII, saved under "bench"
with the version 3 in an empty directory and loaded with the version 3. -/
theorem C21_witness :
    (benchCache.Save recordJson plainHash emptyDirectory "bench" 3 sampleExperiment).err =
      false ∧
    sampleExperiment.validText = true ∧
    benchCache.Load recordJson plainHash
        (benchCache.Save recordJson plainHash emptyDirectory "bench" 3 sampleExperiment).fs
        "bench" 3 = some sampleExperiment := by
  obtain ⟨out, hload, _, _, _, hvalid⟩ :=
    C21_save_load_round_trip recordJson recordJson_spec plainHash benchCache emptyDirectory
      "bench" 3 sampleExperiment (by decide)
  refine ⟨by decide, by decide, ?_⟩
  rw [hload, (hvalid (by decide)).2.2]

set_option exponentiation.threshold 4096 in
set_option maxRecDepth 100000 in
/-- C21 fails as stated: the experiment `strayByte` has one value recorded with the
annotation of the single byte FF. `Save` returns no error, and `Load` returns an
experiment whose annotation is the three bytes EF BF BD of U+FFFD: its log entries are
not those that were saved. -/
theorem C21_counterexample :
    (benchCache.Save recordJson plainHash emptyDirectory "bench" 3 strayByte).err =
      false ∧
    (strayByte.Get "size").Annotations = ["\xff"] ∧
    (benchCache.Load recordJson plainHash
        (benchCache.Save recordJson plainHash emptyDirectory "bench" 3 strayByte).fs
        "bench" 3).map (fun out => ((out.Get "size").Annotations, (out.Get "size").Values,
          decide (out.LogEntries = strayByte.LogEntries))) =
      some (["\xef\xbf\xbd"], [Float64.ofInt 3], false) := by
  decide

/-- C22 at its failing input: when the first value of the file does not decode into a
header, `Load` does not look at the error. The header keeps what the failed call left in
it, and when its version is not below the requested one (as 0 is not below a requested
version 0) `Load` goes on to the second value and returns the experiment decoded from it,
not nil. -/
theorem C22_undecodable_header_is_passed_over {J : Type} (lib : JsonLib J)
    (hashOf : String → String) (cache : ExperimentCache) (fs : FileSystem J) (name : String)
    (w : Int) (j1 j2 : J) (rest : List J) (h : CachedExperimentHeader) (out : Experiment)
    (hfile : fs.files (cache.pathOf hashOf name) = some (j1 :: j2 :: rest))
    (hheader : lib.decodeHeader j1 CachedExperimentHeader.zero = (h, true))
    (hversion : w ≤ h.Version)
    (hbody : lib.decodeExperiment j2 (NewExperiment "") = (out, false)) :
    cache.Load lib hashOf fs name w = some out := by
  unfold ExperimentCache.Load
  rw [hfile]
  simp only [Decoder.Decode, hheader, hbody]
  rw [if_neg (by omega)]
  simp

set_option exponentiation.threshold 4096 in
set_option maxRecDepth 100000 in
/-- C22 at the directory `brokenHeader`: the file of "bench" starts with a value that is
no header, and `Load` of "bench" with the version 0 returns the experiment that
follows. -/
theorem C22_witness :
    brokenHeader.files (benchCache.pathOf plainHash "bench") =
      some [JsonRecord.other, JsonRecord.experiment sampleExperiment] ∧
    (recordJson.decodeHeader JsonRecord.other CachedExperimentHeader.zero).2 = true ∧
    benchCache.Load recordJson plainHash brokenHeader "bench" 0 = some sampleExperiment :=
  ⟨by decide, rfl,
   C22_undecodable_header_is_passed_over recordJson plainHash benchCache brokenHeader "bench"
    0 JsonRecord.other (JsonRecord.experiment sampleExperiment) []
    CachedExperimentHeader.zero sampleExperiment (by decide) rfl (by decide) rfl⟩

/-! ## The mean of a Value-series whose sum does not round -/

set_option exponentiation.threshold 4096 in
theorem Float64.ofInt_nat (n : Nat) (hn : n < 2 ^ 53) :
    Float64.ofInt (n : Int) = Float64.fin false (n * 2 ^ 1074) := by
  unfold Float64.ofInt
  have hneg : decide ((n : Int) < 0) = false := by simp
  rw [hneg, Int.natAbs_ofNat]
  have hgrid := Float64.round_grid false (n * 2 ^ 1074) 1 (by omega)
  rw [Nat.mul_one] at hgrid
  apply hgrid
  have hq : n * 2 ^ 1074 < 2 ^ 1127 := by
    have h1 : (2 : Nat) ^ 1127 = 2 ^ 53 * 2 ^ 1074 := by rw [← pow_add]
    rw [h1]
    exact Nat.mul_lt_mul_of_pos_right hn (by positivity)
  constructor
  · have h2 : (2 : Nat) ^ 1127 ≤ 2 ^ 2098 := Nat.pow_le_pow_right (by omega) (by omega)
    omega
  · rcases Nat.eq_zero_or_pos n with h0 | hpos
    · subst h0
      simp
    · have hne : n * 2 ^ 1074 ≠ 0 := by positivity
      have hlog : Nat.log 2 (n * 2 ^ 1074) < 1127 := Nat.log_lt_of_lt_pow hne hq
      have he : expOf (n * 2 ^ 1074) ≤ 1074 := by
        rw [expOf_eq]
        omega
      have hdvd : ulpOf (n * 2 ^ 1074) ∣ n * 2 ^ 1074 := by
        unfold ulpOf
        exact Dvd.dvd.mul_left (Nat.pow_dvd_pow 2 he) n
      exact Nat.mod_eq_zero_of_dvd hdvd

theorem Float64.add_finite (x y : Float64) (h : (Float64.add x y).isFinite = true) :
    x.isFinite = true ∧ y.isFinite = true := by
  cases x with
  | nan => simp [Float64.add, Float64.isFinite] at h
  | inf a =>
    cases y with
    | nan => simp [Float64.add, Float64.isFinite] at h
    | inf b =>
      by_cases hab : a = b
      · simp [Float64.add, Float64.isFinite, hab] at h
      · simp [Float64.add, Float64.isFinite, hab] at h
    | fin b k => simp [Float64.add, Float64.isFinite] at h
  | fin a m =>
    cases y with
    | nan => simp [Float64.add, Float64.isFinite] at h
    | inf b => simp [Float64.add, Float64.isFinite] at h
    | fin b k => exact ⟨rfl, rfl⟩

theorem Float64.add_inf (x y : Float64) (s : Bool) (h : Float64.add x y = Float64.inf s)
    (hex : Float64.addExact x y = true) : x = Float64.inf s ∨ y = Float64.inf s := by
  cases x with
  | nan => simp [Float64.add] at h
  | inf a =>
    cases y with
    | nan => simp [Float64.add] at h
    | inf b =>
      by_cases hab : a = b
      · simp [Float64.add, hab] at h
        right
        rw [h]
      · simp [Float64.add, hab] at h
    | fin b k =>
      simp only [Float64.add, Float64.inf.injEq] at h
      left
      rw [h]
  | fin a m =>
    cases y with
    | nan => simp [Float64.add] at h
    | inf b =>
      simp only [Float64.add, Float64.inf.injEq] at h
      right
      rw [h]
    | fin b k =>
      simp only [Float64.addExact, Float64.isFinite, Bool.not_true, Bool.false_or,
        Bool.and_eq_true, Bool.not_eq_true', decide_eq_true_eq] at hex
      rw [h] at hex
      simp [Float64.isFinite] at hex

/-- The accumulation of a sum whose additions are all exact ends in the exact sum of
finite values, or in an infinity that is one of the values. -/
theorem Float64.foldl_add_exact (l : List Float64) :
    ∀ acc : Float64, acc.isNaN = false → Float64.sumExact acc l = true →
      (l.foldl Float64.add acc).isNaN = false ∧
      (((l.foldl Float64.add acc).isFinite = true ∧ (∀ v ∈ l, v.isFinite = true) ∧
          (l.foldl Float64.add acc).key = acc.key + (l.map Float64.key).sum) ∨
        ∃ s, l.foldl Float64.add acc = Float64.inf s ∧
          (acc = Float64.inf s ∨ Float64.inf s ∈ l)) := by
  induction l with
  | nil =>
    intro acc hacc _
    refine ⟨hacc, ?_⟩
    cases acc with
    | nan => cases hacc
    | inf s => exact Or.inr ⟨s, rfl, Or.inl rfl⟩
    | fin s m => exact Or.inl ⟨rfl, by simp, by simp⟩
  | cons v rest ih =>
    intro acc hacc hex
    simp only [Float64.sumExact, Bool.and_eq_true] at hex
    obtain ⟨hadd, hrest⟩ := hex
    have hnan : (Float64.add acc v).isNaN = false := by
      simp only [Float64.addExact, Bool.and_eq_true, Bool.not_eq_true'] at hadd
      exact hadd.1
    obtain ⟨h1, h2⟩ := ih (Float64.add acc v) hnan hrest
    simp only [List.foldl_cons]
    refine ⟨h1, ?_⟩
    rcases h2 with ⟨hfin, hall, hkey⟩ | ⟨s, hs, hwhere⟩
    · left
      have hsum : (Float64.add acc v).isFinite = true := by
        cases hr : rest with
        | nil =>
          rw [hr] at hfin
          simpa using hfin
        | cons v2 rest2 =>
          -- the accumulator of a finite sum is finite
          by_contra hne
          have hinf : ∃ t, Float64.add acc v = Float64.inf t := by
            cases hav : Float64.add acc v with
            | nan => rw [hav] at hnan; cases hnan
            | inf t => exact ⟨t, rfl⟩
            | fin t m => rw [hav] at hne; simp [Float64.isFinite] at hne
          obtain ⟨t, ht⟩ := hinf
          rw [ht] at hfin
          have : ∀ (l2 : List Float64) (u : Bool),
              (l2.foldl Float64.add (Float64.inf u)).isFinite = false := by
            intro l2
            induction l2 with
            | nil => intro u; rfl
            | cons w l3 ih3 =>
              intro u
              simp only [List.foldl_cons]
              cases w with
              | nan =>
                simp only [Float64.add]
                clear ih3
                induction l3 with
                | nil => rfl
                | cons w2 l4 ih4 => simpa [Float64.add] using ih4
              | inf b =>
                by_cases hub : u = b
                · simp only [Float64.add, hub, if_true]
                  exact ih3 b
                · simp only [Float64.add, hub, if_false]
                  clear ih3
                  induction l3 with
                  | nil => rfl
                  | cons w2 l4 ih4 => simpa [Float64.add] using ih4
              | fin b k =>
                simp only [Float64.add]
                exact ih3 u
          rw [this] at hfin
          cases hfin
      obtain ⟨ha, hv⟩ := Float64.add_finite acc v hsum
      have hk : (Float64.add acc v).key = acc.key + v.key := by
        simp only [Float64.addExact, ha, hv, Bool.not_true, Bool.false_or, Bool.and_eq_true,
          decide_eq_true_eq] at hadd
        exact hadd.2.2
      refine ⟨hfin, ?_, ?_⟩
      · intro w hw
        rcases List.mem_cons.1 hw with rfl | hw
        · exact hv
        · exact hall w hw
      · rw [hkey, hk, List.map_cons, List.sum_cons]
        ring
    · right
      refine ⟨s, hs, ?_⟩
      rcases hwhere with hav | hmem
      · rcases Float64.add_inf acc v s hav hadd with h | h
        · exact Or.inl h
        · exact Or.inr (by rw [h]; exact List.mem_cons_self _ _)
      · exact Or.inr (List.mem_cons_of_mem _ hmem)

theorem Float64.sumExact_notNaN (l : List Float64) :
    ∀ acc : Float64, Float64.sumExact acc l = true → ∀ v ∈ l, v.isNaN = false := by
  induction l with
  | nil => intro _ _ v hv; cases hv
  | cons w rest ih =>
    intro acc hex v hv
    simp only [Float64.sumExact, Bool.and_eq_true] at hex
    rcases List.mem_cons.1 hv with rfl | hv
    · have h := hex.1
      simp only [Float64.addExact, Bool.and_eq_true, Bool.not_eq_true'] at h
      cases v with
      | nan =>
        have := h.1
        cases acc <;> simp [Float64.add, Float64.isNaN] at this
      | inf s => rfl
      | fin s m => rfl
    · exact ih _ hex.2 v hv

set_option exponentiation.threshold 4096 in
/-- The rounded quotient of an exact sum of `n` numbers by `n` lies between two float64
numbers that the numbers lie between. -/
theorem Float64.div_between (s : Bool) (m n : Nat) (hn0 : 0 < n) (hn : n < 2 ^ 53)
    (sa : Bool) (ma : Nat) (sb : Bool) (mb : Nat)
    (hwa : (Float64.fin sa ma).WF) (hwb : (Float64.fin sb mb).WF)
    (hlo : Float64.sint sa ma * (n : Int) ≤ Float64.sint s m)
    (hhi : Float64.sint s m ≤ Float64.sint sb mb * (n : Int)) :
    Float64.le (Float64.fin sa ma)
        (Float64.div (Float64.fin s m) (Float64.ofInt (n : Int))) = true ∧
      Float64.le (Float64.div (Float64.fin s m) (Float64.ofInt (n : Int)))
        (Float64.fin sb mb) = true := by
  rw [Float64.ofInt_nat n hn]
  have hpow : 0 < 2 ^ 1074 := by positivity
  have hk : n * 2 ^ 1074 ≠ 0 := by positivity
  rw [Float64.div_fin _ _ _ _ hk]
  have hs : (s != false) = s := by cases s <;> rfl
  rw [hs]
  have hd : 0 < n * 2 ^ 1074 := by positivity
  have hbounds : ∀ c : Nat, 0 < n * c →
      Float64.sint sa ma ≤ Float64.sint s (roundMag (m * c) (n * c)) ∧
      Float64.sint s (roundMag (m * c) (n * c)) ≤ Float64.sint sb mb := by
    intro c hc
    have hc0 : (0 : Int) ≤ (c : Int) := Int.ofNat_nonneg c
    constructor
    · apply le_sround s _ _ sa ma hc hwa.2
      rw [Float64.sint_mul]
      push_cast
      calc Float64.sint sa ma * ((n : Int) * (c : Int))
          = (Float64.sint sa ma * (n : Int)) * (c : Int) := by ring
        _ ≤ Float64.sint s m * (c : Int) := mul_le_mul_of_nonneg_right hlo hc0
    · apply sround_le s _ _ sb mb hc hwb.2
      rw [Float64.sint_mul]
      push_cast
      calc Float64.sint s m * (c : Int)
          ≤ (Float64.sint sb mb * (n : Int)) * (c : Int) :=
            mul_le_mul_of_nonneg_right hhi hc0
        _ = Float64.sint sb mb * ((n : Int) * (c : Int)) := by ring
  obtain ⟨h1, h2⟩ := hbounds (2 ^ 1074) hd
  have hlt : roundMag (m * 2 ^ 1074) (n * 2 ^ 1074) < 2 ^ 2098 := by
    rcases Float64.sint_abs_le _ _ _ _ _ _ h1 h2 with h | h
    · exact lt_of_le_of_lt h hwa.1
    · exact lt_of_le_of_lt h hwb.1
  rw [Float64.round_of_lt _ _ _ hlt]
  simp only [Float64.le, Float64.isNaN, Float64.key, Bool.not_false, Bool.and_self,
    Bool.true_and, decide_eq_true_eq]
  exact ⟨h1, h2⟩

/-- C3 (as amended). For a Value-series with at least one sample and fewer than 2^53 (so
that `float64(N)` is N), one annotation per sample, whose float64 sum is exact (no
addition of the accumulation rounds, overflows or yields NaN): the Mean that `Stats`
returns is the float64 quotient of the sum by N, and Min <= Mean <= Max. For a
Duration-series with at least one sample, one annotation per sample, whose sum fits in
int64: the Mean is the sum divided by N with truncating division, and
Min <= Mean <= Max. -/
theorem C3_mean_bounds (sortSlice : (Nat → Nat → Bool) → List Nat → List Nat)
    (hsort : SortSliceSpec sortSlice) (e : LogEntry) :
    (e.Type_ = LogEntryTypeValue → e.Values ≠ [] →
      e.Annotations.length = e.Values.length → (∀ v ∈ e.Values, v.WF) →
      e.Values.length < 2 ^ 53 → Float64.sumExact Float64.zero e.Values = true →
      ∃ st, e.Stats sortSlice = some st ∧
        st.ValueFor StatMean =
          Float64.div (e.Values.foldl Float64.add Float64.zero)
            (Float64.ofInt e.Values.length) ∧
        st.ValueFor StatMin ∈ e.Values ∧ st.ValueFor StatMax ∈ e.Values ∧
        Float64.le (st.ValueFor StatMin) (st.ValueFor StatMean) = true ∧
        Float64.le (st.ValueFor StatMean) (st.ValueFor StatMax) = true) ∧
    (e.Type_ = LogEntryTypeDuration → e.Durations ≠ [] →
      e.Annotations.length = e.Durations.length → InInt64 e.Durations.sum →
      ∃ st, e.Stats sortSlice = some st ∧
        st.DurationFor StatMean = Int.tdiv e.Durations.sum (e.Durations.length : Int) ∧
        st.DurationFor StatMin ∈ e.Durations ∧ st.DurationFor StatMax ∈ e.Durations ∧
        st.DurationFor StatMin ≤ st.DurationFor StatMean ∧
        st.DurationFor StatMean ≤ st.DurationFor StatMax) := by
  refine ⟨fun ht hne hann hwf hlen hex => ?_,
    fun ht hne hann hsum => durationMean_bounds sortSlice hsort e ht hne hann hsum⟩
  have hnan := Float64.sumExact_notNaN e.Values Float64.zero hex
  obtain ⟨st, hst, _, hN, hmin, hmax, hmean, _, _⟩ :=
    Stats_value sortSlice hsort e ht hne hann
  have hperm := sortedValues_perm sortSlice hsort e
  have hsorted := sortedValues_sorted sortSlice hsort e hnan
  have hlen2 : (e.sortedValues sortSlice).length = e.Values.length := hperm.length_eq
  have hpos : 0 < e.Values.length := List.length_pos.2 hne
  have hrefl : ∀ a ∈ e.sortedValues sortSlice, Float64.le a a = true :=
    fun a ha => Float64.le_refl a (hnan a (hperm.mem_iff.1 ha))
  have hminmem : st.ValueFor StatMin ∈ e.Values := by
    rw [hmin]
    exact hperm.mem_iff.1 (getD_mem_of_lt _ _ _ (by omega))
  have hmaxmem : st.ValueFor StatMax ∈ e.Values := by
    rw [hmax]
    exact hperm.mem_iff.1 (getD_mem_of_lt _ _ _ (by omega))
  have hb : ∀ v ∈ e.Values, Float64.le (st.ValueFor StatMin) v = true ∧
      Float64.le v (st.ValueFor StatMax) = true := by
    intro v hv
    obtain ⟨k, hk, rfl⟩ := (mem_iff_getD _ Float64.nan v).1 (hperm.mem_iff.2 hv)
    have := sorted_bounds _ _ hrefl Float64.nan hsorted k hk
    rw [hmin, hmax, ← hlen2]
    exact this
  have hm : st.ValueFor StatMean =
      Float64.div (e.Values.foldl Float64.add Float64.zero)
        (Float64.ofInt e.Values.length) := by
    rw [hmean]
    rfl
  refine ⟨st, hst, hm, hminmem, hmaxmem, ?_⟩
  rw [hm]
  obtain ⟨_, hcase⟩ := Float64.foldl_add_exact e.Values Float64.zero rfl hex
  rcases hcase with ⟨hfin, hall, hkey⟩ | ⟨s, hs, hwhere⟩
  · cases hr : e.Values.foldl Float64.add Float64.zero with
    | nan => rw [hr] at hfin; cases hfin
    | inf s => rw [hr] at hfin; cases hfin
    | fin s m =>
      rw [hr] at hkey
      have hfmin := hall _ hminmem
      have hfmax := hall _ hmaxmem
      cases hlo : st.ValueFor StatMin with
      | nan => rw [hlo] at hfmin; cases hfmin
      | inf sa => rw [hlo] at hfmin; cases hfmin
      | fin sa ma =>
        cases hhi : st.ValueFor StatMax with
        | nan => rw [hhi] at hfmax; cases hfmax
        | inf sb => rw [hhi] at hfmax; cases hfmax
        | fin sb mb =>
          have hkeys : ∀ x ∈ e.Values.map Float64.key,
              Float64.sint sa ma ≤ x ∧ x ≤ Float64.sint sb mb := by
            intro x hx
            obtain ⟨v, hv, rfl⟩ := List.mem_map.1 hx
            obtain ⟨h1, h2⟩ := hb v hv
            rw [hlo] at h1
            rw [hhi] at h2
            simp only [Float64.le, Bool.and_eq_true, Bool.not_eq_true',
              decide_eq_true_eq] at h1 h2
            exact ⟨h1.2, h2.2⟩
          have hs := sum_bounds _ _ _ hkeys
          rw [List.length_map] at hs
          have hk0 : Float64.sint s m = (e.Values.map Float64.key).sum := by
            have : (Float64.fin s m).key = Float64.sint s m := rfl
            rw [← this, hkey]
            simp [Float64.zero, Float64.key, Float64.sint]
          have hwa : (Float64.fin sa ma).WF := by
            rw [← hlo]
            exact hwf _ hminmem
          have hwb : (Float64.fin sb mb).WF := by
            rw [← hhi]
            exact hwf _ hmaxmem
          exact Float64.div_between s m e.Values.length hpos hlen sa ma sb mb hwa hwb
            (by rw [hk0]; exact hs.1) (by rw [hk0]; exact hs.2)
  · have hmem : Float64.inf s ∈ e.Values := by
      rcases hwhere with h | h
      · cases h
      · exact h
    rw [hs, Float64.ofInt_nat _ hlen]
    have hdiv : Float64.div (Float64.inf s) (Float64.fin false (e.Values.length * 2 ^ 1074)) =
        Float64.inf s := by
      cases s <;> rfl
    rw [hdiv]
    exact hb _ hmem

set_option exponentiation.threshold 4096 in
set_option maxRecDepth 100000 in
/-- C3 at the values 0.5, 0.25, 3, -1, whose sum 2.75 is exact, and at the durations 3,
-8, 4: the Mean 0.6875 lies between -1 and 3, and the Mean 0 between -8 and 4. -/
theorem C3_witness :
    (∃ st, fourValues.Stats insertionSortLessFunc = some st ∧
      st.ValueFor StatMin = Float64.ofInt (-1) ∧ st.ValueFor StatMax = Float64.ofInt 3 ∧
      st.ValueFor StatMean = Float64.div (Float64.ofInt 11) (Float64.ofInt 16) ∧
      Float64.le (st.ValueFor StatMin) (st.ValueFor StatMean) = true ∧
      Float64.le (st.ValueFor StatMean) (st.ValueFor StatMax) = true) ∧
    ∃ st, threeDurations.Stats insertionSortLessFunc = some st ∧
      st.DurationFor StatMean = 0 ∧ st.DurationFor StatMin ≤ st.DurationFor StatMean ∧
      st.DurationFor StatMean ≤ st.DurationFor StatMax := by
  obtain ⟨st, h1, h2, _, _, h5, h6⟩ :=
    (C3_mean_bounds insertionSortLessFunc insertionSortLessFunc_spec fourValues).1
      rfl (by decide) rfl (by decide) (by decide) (by decide)
  obtain ⟨st2, g1, g2, _, _, g5, g6⟩ :=
    (C3_mean_bounds insertionSortLessFunc insertionSortLessFunc_spec threeDurations).2
      rfl (by decide) rfl (by decide)
  have hst : fourValues.Stats insertionSortLessFunc = some st := h1
  refine ⟨⟨st, h1, ?_, ?_, ?_, h5, h6⟩, ⟨st2, g1, by rw [g2]; decide, g5, g6⟩⟩
  · have : (fourValues.Stats insertionSortLessFunc).map (fun s => s.ValueFor StatMin) =
        some (Float64.ofInt (-1)) := by decide
    rw [hst] at this
    simpa using this
  · have : (fourValues.Stats insertionSortLessFunc).map (fun s => s.ValueFor StatMax) =
        some (Float64.ofInt 3) := by decide
    rw [hst] at this
    simpa using this
  · rw [h2]
    decide

end Gmeasure
